import Mathlib

/-!
AgentSpirit: term algebra, smart constructors and unification

A shallow embedding of `src/term.h`, `src/term.cc`, `src/unification.h` and
`src/unification.cc` of the AgentSpirit AgentSpeak interpreter, followed by
theorems about the embedded functions.

Modelling conventions.

* `double` is a carrier `D` with the arithmetic and comparisons of
  `DoubleOps`. The values that `operator==` identifies (0.0 and -0.0) are one
  element of the carrier; the values that `operator==` does not equate with
  themselves (NaN, which the parser produces by folding 0/0) are the elements
  marked by `DoubleOps.isNaN`. `operator==` is `doubleEq`, false as soon as
  an operand is NaN, and `operator!=` is its negation. Nothing is assumed
  about the arithmetic beyond what a theorem states as a hypothesis.
* `std::string` is `String`; `operator<` on strings is the lexicographic
  order of `String`.
* Exceptions are the `Except.error` results: `Err.domain_error` for
  `std::domain_error`, `Err.bad_get` for `boost::bad_get`.
* `Unifier::operator()`, and `Unify` with it, is not structurally recursive:
  both take a recursion budget (one unit per nested call) and answer
  `Err.out_of_fuel` when the budget is exhausted.
* `std::unordered_map<std::string, Term>` is an association list with
  unique-key update (`Unifier.set`); `Unify`, which updates its unifier in
  place, returns the pair of its Boolean result and the final unifier.
-/

namespace AgentSpirit

/-- Arithmetic and comparison of the C++ type double, as used in term.cc. -/
class DoubleOps (D : Type) where
  /-- Unary minus. -/
  neg : D → D
  /-- Binary plus. -/
  add : D → D → D
  /-- Binary minus. -/
  sub : D → D → D
  /-- Product. -/
  mul : D → D → D
  /-- Quotient. -/
  div : D → D → D
  /-- The library function std::pow. -/
  pow : D → D → D
  /-- The library function std::floor. -/
  floor : D → D
  /-- The library function std::fmod. -/
  fmod : D → D → D
  /-- The comparison operator less-than. -/
  lt : D → D → Bool
  /-- The test x != x: the values that are not a number. -/
  isNaN : D → Bool

/-- The comparison operator== on double: equal values, none of them NaN. -/
def doubleEq {D : Type} [DecidableEq D] [DoubleOps D] (a b : D) : Bool :=
  !DoubleOps.isNaN a && decide (a = b)

/-- Integer-valued numbers with exact arithmetic: the model in which the
numeric examples of test.cc (1.0, 2.0, 5.0) are evaluated. -/
instance intDoubleOps : DoubleOps Int where
  neg a := -a
  add a b := a + b
  sub a b := a - b
  mul a b := a * b
  div a b := Int.tdiv a b
  pow a b := a ^ b.toNat
  floor a := a
  fmod a b := Int.tmod a b
  lt a b := decide (a < b)
  isNaN _ := false

/-- Integer-valued numbers with one more value, none, that is not a number:
the model in which the examples with NaN are evaluated. Every operation with
an operand that is not a number, and every quotient by zero, is not a number;
no comparison with it holds. -/
instance nanDoubleOps : DoubleOps (Option Int) where
  neg a := a.map (fun x => -x)
  add a b := a.bind (fun x => b.map (fun y => x + y))
  sub a b := a.bind (fun x => b.map (fun y => x - y))
  mul a b := a.bind (fun x => b.map (fun y => x * y))
  div a b := a.bind (fun x => b.bind (fun y => if y = 0 then none else some (Int.tdiv x y)))
  pow a b := a.bind (fun x => b.map (fun y => x ^ y.toNat))
  floor a := a
  fmod a b := a.bind (fun x => b.bind (fun y => if y = 0 then none else some (Int.tmod x y)))
  lt a b := match a, b with
    | some x, some y => decide (x < y)
    | _, _ => false
  isNaN a := a.isNone

/-- The failures a call can end in. -/
inductive Err where
  | domain_error
  | bad_get
  | runtime_error
  | null_pointer
  | out_of_fuel
  deriving DecidableEq

instance instDecidableEqExcept {ε α : Type} [DecidableEq ε] [DecidableEq α] :
    DecidableEq (Except ε α) := fun a b =>
  match a, b with
  | .ok x, .ok y => if h : x = y then isTrue (by rw [h]) else isFalse (by intro e; injection e; contradiction)
  | .error x, .error y => if h : x = y then isTrue (by rw [h]) else isFalse (by intro e; injection e; contradiction)
  | .ok _, .error _ => isFalse (by intro e; cases e)
  | .error _, .ok _ => isFalse (by intro e; cases e)

/-- The enum TermType of term.h: the index returned by which(). -/
inductive TermType where
  | kBool | kDouble | kString | kList | kBeliefAtom | kVariable
  | kPositive | kNegative | kNot
  | kPlus | kMinus | kPow | kMultiply | kDivide | kDiv | kMod
  | kAnd | kOr | kUnify | kDeconstruct | kEq | kNeq | kLt | kLte
  deriving DecidableEq

/-- The position of a tag in the enum, used for comparisons such as
kBool < kString. -/
def TermType.toNat : TermType → Nat
  | .kBool => 0 | .kDouble => 1 | .kString => 2 | .kList => 3 | .kBeliefAtom => 4
  | .kVariable => 5 | .kPositive => 6 | .kNegative => 7 | .kNot => 8 | .kPlus => 9
  | .kMinus => 10 | .kPow => 11 | .kMultiply => 12 | .kDivide => 13 | .kDiv => 14
  | .kMod => 15 | .kAnd => 16 | .kOr => 17 | .kUnify => 18 | .kDeconstruct => 19
  | .kEq => 20 | .kNeq => 21 | .kLt => 22 | .kLte => 23

/-- The operator tags of the template UnaryOp. -/
inductive UnOp where
  | positive | negative | not
  deriving DecidableEq

/-- The operator tags of the template BinaryOp. -/
inductive BinOp where
  | plus | minus | pow | multiply | divide | div | mod
  | and | or | unify | deconstruct | eq | neq | lt | lte
  deriving DecidableEq

/-- The recursive variant Term of term.h. -/
inductive Term (D : Type) where
  | bool (b : Bool)
  | num (x : D)
  | str (s : String)
  | list (ts : List (Term D))
  | atom (functor : String) (terms : List (Term D))
  | var (name : String)
  | unop (op : UnOp) (operand : Term D)
  | binop (op : BinOp) (left right : Term D)

/-- The tag of a unary operation. -/
def UnOp.tag : UnOp → TermType
  | .positive => .kPositive | .negative => .kNegative | .not => .kNot

/-- The tag of a binary operation. -/
def BinOp.tag : BinOp → TermType
  | .plus => .kPlus | .minus => .kMinus | .pow => .kPow | .multiply => .kMultiply
  | .divide => .kDivide | .div => .kDiv | .mod => .kMod | .and => .kAnd | .or => .kOr
  | .unify => .kUnify | .deconstruct => .kDeconstruct | .eq => .kEq | .neq => .kNeq
  | .lt => .kLt | .lte => .kLte

/-- The member which() of the variant. -/
def Term.which {D : Type} : Term D → TermType
  | .bool _ => .kBool
  | .num _ => .kDouble
  | .str _ => .kString
  | .list _ => .kList
  | .atom _ _ => .kBeliefAtom
  | .var _ => .kVariable
  | .unop op _ => op.tag
  | .binop op _ _ => op.tag

mutual
/-- Structural equality of terms is decidable. -/
def Term.decEq {D : Type} [DecidableEq D] : (a b : Term D) → Decidable (a = b)
  | .bool a, .bool b => if h : a = b then isTrue (by rw [h]) else isFalse (by intro e; injection e; contradiction)
  | .num a, .num b => if h : a = b then isTrue (by rw [h]) else isFalse (by intro e; injection e; contradiction)
  | .str a, .str b => if h : a = b then isTrue (by rw [h]) else isFalse (by intro e; injection e; contradiction)
  | .var a, .var b => if h : a = b then isTrue (by rw [h]) else isFalse (by intro e; injection e; contradiction)
  | .list a, .list b =>
    match Term.decEqList a b with
    | isTrue h => isTrue (by rw [h])
    | isFalse h => isFalse (by intro e; injection e; contradiction)
  | .atom f a, .atom g b =>
    if hf : f = g then
      match Term.decEqList a b with
      | isTrue h => isTrue (by rw [h, hf])
      | isFalse h => isFalse (by intro e; injection e; contradiction)
    else isFalse (by intro e; injection e; contradiction)
  | .unop o a, .unop p b =>
    if ho : o = p then
      match Term.decEq a b with
      | isTrue h => isTrue (by rw [h, ho])
      | isFalse h => isFalse (by intro e; injection e; contradiction)
    else isFalse (by intro e; injection e; contradiction)
  | .binop o a c, .binop p b d =>
    if ho : o = p then
      match Term.decEq a b with
      | isTrue h =>
        match Term.decEq c d with
        | isTrue h2 => isTrue (by rw [h, h2, ho])
        | isFalse h2 => isFalse (by intro e; injection e; contradiction)
      | isFalse h => isFalse (by intro e; injection e; contradiction)
    else isFalse (by intro e; injection e; contradiction)
  | .bool _, .num _ | .bool _, .str _ | .bool _, .list _ | .bool _, .atom _ _ | .bool _, .var _ | .bool _, .unop _ _ | .bool _, .binop _ _ _
  | .num _, .bool _ | .num _, .str _ | .num _, .list _ | .num _, .atom _ _ | .num _, .var _ | .num _, .unop _ _ | .num _, .binop _ _ _
  | .str _, .bool _ | .str _, .num _ | .str _, .list _ | .str _, .atom _ _ | .str _, .var _ | .str _, .unop _ _ | .str _, .binop _ _ _
  | .list _, .bool _ | .list _, .num _ | .list _, .str _ | .list _, .atom _ _ | .list _, .var _ | .list _, .unop _ _ | .list _, .binop _ _ _
  | .atom _ _, .bool _ | .atom _ _, .num _ | .atom _ _, .str _ | .atom _ _, .list _ | .atom _ _, .var _ | .atom _ _, .unop _ _ | .atom _ _, .binop _ _ _
  | .var _, .bool _ | .var _, .num _ | .var _, .str _ | .var _, .list _ | .var _, .atom _ _ | .var _, .unop _ _ | .var _, .binop _ _ _
  | .unop _ _, .bool _ | .unop _ _, .num _ | .unop _ _, .str _ | .unop _ _, .list _ | .unop _ _, .atom _ _ | .unop _ _, .var _ | .unop _ _, .binop _ _ _
  | .binop _ _ _, .bool _ | .binop _ _ _, .num _ | .binop _ _ _, .str _ | .binop _ _ _, .list _ | .binop _ _ _, .atom _ _ | .binop _ _ _, .var _ | .binop _ _ _, .unop _ _ =>
    isFalse (by intro e; cases e)
/-- Structural equality of term lists is decidable. -/
def Term.decEqList {D : Type} [DecidableEq D] : (a b : List (Term D)) → Decidable (a = b)
  | [], [] => isTrue rfl
  | [], _ :: _ => isFalse (by intro e; cases e)
  | _ :: _, [] => isFalse (by intro e; cases e)
  | a :: as, b :: bs =>
    match Term.decEq a b with
    | isTrue h =>
      match Term.decEqList as bs with
      | isTrue h2 => isTrue (by rw [h, h2])
      | isFalse h2 => isFalse (by intro e; injection e; contradiction)
    | isFalse h => isFalse (by intro e; injection e; contradiction)
end

instance instDecidableEqTerm {D : Type} [DecidableEq D] : DecidableEq (Term D) := Term.decEq

/-! ## term.h: the visitors IsValidContext, IsGround, IsUnifiable -/

/-- The visitor IsValidContext (term.h:172-270). -/
def IsValidContext {D : Type} (t : Term D) : Bool :=
  match t.which with
  | .kBool | .kBeliefAtom | .kVariable | .kNot | .kAnd | .kOr | .kUnify | .kDeconstruct
  | .kEq | .kNeq | .kLt | .kLte => true
  | _ => false

mutual
/-- The visitor IsGround (term.h:275-315), applied with boost::apply_visitor:
literals are ground, lists and atoms are ground when all their elements are,
every other alternative falls to the template member and is not ground. -/
def IsGround {D : Type} : Term D → Bool
  | .bool _ => true
  | .num _ => true
  | .str _ => true
  | .list ts => IsGroundList ts
  | .atom _ ts => IsGroundList ts
  | _ => false
/-- The loop of IsGround over the elements of a list or atom. -/
def IsGroundList {D : Type} : List (Term D) → Bool
  | [] => true
  | t :: ts => if !IsGround t then false else IsGroundList ts
end

mutual
/-- The visitor IsUnifiable (term.h:317-349), applied with
boost::apply_visitor: variables are unifiable, lists and atoms when all their
elements are, every other alternative T is unifiable iff IsGround()(t) holds
for the value of type T (true for bool, double and string, false for the
operator wrappers). -/
def IsUnifiable {D : Type} : Term D → Bool
  | .var _ => true
  | .list ts => IsUnifiableList ts
  | .atom _ ts => IsUnifiableList ts
  | .bool _ => true
  | .num _ => true
  | .str _ => true
  | _ => false
/-- The loop of IsUnifiable over the elements of a list or atom. -/
def IsUnifiableList {D : Type} : List (Term D) → Bool
  | [] => true
  | t :: ts => if !IsUnifiable t then false else IsUnifiableList ts
end

/-- The call IsGround()(t) on an operand of static type Term, made without
boost::apply_visitor: none of the non-template members accepts a variant, so
overload resolution selects the template member with T = Term, which returns
false (term.h:311-314). -/
def IsGround.callOnTerm {D : Type} (_t : Term D) : Bool := false

/-- The call IsUnifiable()(t) on an operand of static type Term, made without
boost::apply_visitor (term.cc:852): the template member with T = Term is
selected and returns IsGround()(t), again on the variant (term.h:345-348). -/
def IsUnifiable.callOnTerm {D : Type} (t : Term D) : Bool := IsGround.callOnTerm t


/-! ## term.cc: the smart constructors -/

/-- Lexicographic comparison of two character sequences by character code. -/
def charsLt : List Char → List Char → Bool
  | [], [] => false
  | [], _ :: _ => true
  | _ :: _, [] => false
  | a :: as, b :: bs =>
    if a.toNat < b.toNat then true
    else if b.toNat < a.toNat then false
    else charsLt as bs

/-- The comparison operator< of std::string: the lexicographic order of the
character sequences. -/
def strLt (a b : String) : Bool := charsLt a.data b.data

/-- The smart constructor OpPositive (term.cc:28-48). -/
def OpPositive {D : Type} (operand : Term D) : Except Err (Term D) :=
  match operand.which with
  | .kVariable => .ok (.unop .positive operand)
  | .kDouble | .kNegative | .kPositive | .kPlus | .kMinus | .kPow | .kMultiply
  | .kDivide | .kDiv | .kMod => .ok operand
  | _ => .error .domain_error

/-- The smart constructor OpNegative (term.cc:50-72). On an operand that is
itself a negation the source wraps the whole operand in UnaryOp<OpPositive>. -/
def OpNegative {D : Type} [DoubleOps D] (operand : Term D) : Except Err (Term D) :=
  match operand with
  | .num x => .ok (.num (DoubleOps.neg x))
  | _ =>
    match operand.which with
    | .kNegative => .ok (.unop .positive operand)
    | .kVariable | .kPositive | .kPlus | .kMinus | .kPow | .kMultiply | .kDivide
    | .kDiv | .kMod => .ok (.unop .negative operand)
    | _ => .error .domain_error

/-- The smart constructor OpNot (term.cc:74-124). -/
def OpNot {D : Type} (operand : Term D) : Except Err (Term D) :=
  match operand with
  | .bool b => .ok (.bool (!b))
  | .unop .not inner =>
    if inner.which = .kNot then .ok inner else .ok (.unop .not operand)
  | .binop .eq l r => .ok (.binop .neq l r)
  | .binop .neq l r => .ok (.binop .eq l r)
  | .binop .lt l r => .ok (.binop .lte r l)
  | .binop .lte l r => .ok (.binop .lt r l)
  | _ =>
    match operand.which with
    | .kVariable | .kBeliefAtom | .kAnd | .kOr | .kUnify | .kDeconstruct =>
      .ok (.unop .not operand)
    | _ => .error .domain_error

/-- The switch on left.which() shared by the seven binary arithmetic
constructors (term.cc:133-156 and its six copies): the left operand, with an
outer unary plus stripped, or a domain error. -/
def arithLeft {D : Type} (left : Term D) : Except Err (Term D) :=
  match left with
  | .unop .positive operand => .ok operand
  | _ =>
    match left.which with
    | .kDouble | .kVariable | .kNegative | .kPlus | .kMinus | .kPow | .kMultiply
    | .kDivide | .kDiv | .kMod => .ok left
    | _ => .error .domain_error

/-- The switch on right.which() shared by OpPow, OpMultiply, OpDivide, OpDiv
and OpMod (term.cc:280-301 and its four copies). -/
def arithRight {D : Type} (op : BinOp) (lhs right : Term D) : Except Err (Term D) :=
  match right with
  | .unop .positive operand => .ok (.binop op lhs operand)
  | _ =>
    match right.which with
    | .kDouble | .kVariable | .kPlus | .kMinus | .kPow | .kMultiply | .kDivide
    | .kDiv | .kMod | .kNegative => .ok (.binop op lhs right)
    | _ => .error .domain_error

/-- The smart constructor OpPlus (term.cc:126-185). -/
def OpPlus {D : Type} [DoubleOps D] (left right : Term D) : Except Err (Term D) :=
  match left, right with
  | .num a, .num b => .ok (.num (DoubleOps.add a b))
  | _, _ =>
    match arithLeft left with
    | .error e => .error e
    | .ok lhs =>
      match right with
      | .unop .positive operand => .ok (.binop .plus lhs operand)
      | .unop .negative operand => .ok (.binop .minus lhs operand)
      | _ =>
        match right.which with
        | .kDouble | .kVariable | .kPlus | .kMinus | .kPow | .kMultiply | .kDivide
        | .kDiv | .kMod => .ok (.binop .plus lhs right)
        | _ => .error .domain_error

/-- The smart constructor OpMinus (term.cc:187-246). -/
def OpMinus {D : Type} [DoubleOps D] (left right : Term D) : Except Err (Term D) :=
  match left, right with
  | .num a, .num b => .ok (.num (DoubleOps.sub a b))
  | _, _ =>
    match arithLeft left with
    | .error e => .error e
    | .ok lhs =>
      match right with
      | .unop .positive operand => .ok (.binop .minus lhs operand)
      | .unop .negative operand => .ok (.binop .plus lhs operand)
      | _ =>
        match right.which with
        | .kDouble | .kVariable | .kPlus | .kMinus | .kPow | .kMultiply | .kDivide
        | .kDiv | .kMod => .ok (.binop .minus lhs right)
        | _ => .error .domain_error

/-- The smart constructor OpPow (term.cc:248-302). -/
def OpPow {D : Type} [DoubleOps D] (left right : Term D) : Except Err (Term D) :=
  match left, right with
  | .num a, .num b => .ok (.num (DoubleOps.pow a b))
  | _, _ =>
    match arithLeft left with
    | .error e => .error e
    | .ok lhs => arithRight .pow lhs right

/-- The smart constructor OpMultiply (term.cc:304-358). -/
def OpMultiply {D : Type} [DoubleOps D] (left right : Term D) : Except Err (Term D) :=
  match left, right with
  | .num a, .num b => .ok (.num (DoubleOps.mul a b))
  | _, _ =>
    match arithLeft left with
    | .error e => .error e
    | .ok lhs => arithRight .multiply lhs right

/-- The smart constructor OpDivide (term.cc:360-414). -/
def OpDivide {D : Type} [DoubleOps D] (left right : Term D) : Except Err (Term D) :=
  match left, right with
  | .num a, .num b => .ok (.num (DoubleOps.div a b))
  | _, _ =>
    match arithLeft left with
    | .error e => .error e
    | .ok lhs => arithRight .divide lhs right

/-- The smart constructor OpDiv (term.cc:416-470). -/
def OpDiv {D : Type} [DoubleOps D] (left right : Term D) : Except Err (Term D) :=
  match left, right with
  | .num a, .num b => .ok (.num (DoubleOps.floor (DoubleOps.div a b)))
  | _, _ =>
    match arithLeft left with
    | .error e => .error e
    | .ok lhs => arithRight .div lhs right

/-- The smart constructor OpMod (term.cc:472-526). -/
def OpMod {D : Type} [DoubleOps D] (left right : Term D) : Except Err (Term D) :=
  match left, right with
  | .num a, .num b => .ok (.num (DoubleOps.fmod a b))
  | _, _ =>
    match arithLeft left with
    | .error e => .error e
    | .ok lhs => arithRight .mod lhs right

/-- The operand check at the head of OpAnd and OpOr (term.cc:529-565 and
591-627): the operand kinds that do not raise. -/
def isLogicalOperand {D : Type} (t : Term D) : Bool :=
  match t.which with
  | .kBool | .kBeliefAtom | .kVariable | .kNot | .kAnd | .kOr | .kUnify | .kDeconstruct
  | .kEq | .kNeq | .kLt | .kLte => true
  | _ => false

/-- One of the two literal checks of OpAnd and OpOr: given the side that is
tested for being a Bool and the other side, the value returned early, if any.
The literal unit returns the other side unless that is a variable, the
literal zero returns itself. -/
def shortCircuit {D : Type} (unit : Bool) (side other : Term D) : Option (Term D) :=
  match side with
  | .bool b =>
    if b = unit then (if other.which ≠ .kVariable then some other else none)
    else some (.bool (!unit))
  | _ => none

/-- The smart constructor OpAnd (term.cc:528-588). -/
def OpAnd {D : Type} (left right : Term D) : Except Err (Term D) :=
  if !isLogicalOperand left then .error .domain_error
  else if !isLogicalOperand right then .error .domain_error
  else
    match shortCircuit true left right with
    | some t => .ok t
    | none =>
      match shortCircuit true right left with
      | some t => .ok t
      | none => .ok (.binop .and left right)

/-- The smart constructor OpOr (term.cc:590-650). -/
def OpOr {D : Type} (left right : Term D) : Except Err (Term D) :=
  if !isLogicalOperand left then .error .domain_error
  else if !isLogicalOperand right then .error .domain_error
  else
    match shortCircuit false left right with
    | some t => .ok t
    | none =>
      match shortCircuit false right left with
      | some t => .ok t
      | none => .ok (.binop .or left right)

mutual
/-- The smart constructor OpNeq (term.cc:652-849). -/
def OpNeq {D : Type} [DecidableEq D] [DoubleOps D] : Term D → Term D → Except Err (Term D)
  | .bool a, right =>
    match right with
    | .bool b => .ok (.bool (a != b))
    | _ =>
      match right.which with
      | .kVariable | .kNot | .kAnd | .kOr | .kUnify | .kDeconstruct | .kEq | .kNeq
      | .kLt | .kLte => .ok (.binop .neq (.bool a) right)
      | _ => .ok (.bool true)
  | .num a, right =>
    match right with
    | .num b => .ok (.bool (!doubleEq a b))
    | _ =>
      match right.which with
      | .kVariable | .kNegative | .kPositive | .kPlus | .kMinus | .kPow | .kMultiply
      | .kDivide | .kDiv | .kMod => .ok (.binop .neq (.num a) right)
      | _ => .ok (.bool true)
  | .str a, right =>
    match right with
    | .str b => .ok (.bool (decide (a ≠ b)))
    | .var _ => .ok (.binop .neq (.str a) right)
    | _ => .ok (.bool true)
  | .list left_list, right =>
    match right with
    | .list right_list =>
      if left_list.length ≠ right_list.length then .ok (.bool true)
      else OpNeqLoop left_list right_list (.bool false)
    | .var _ => .ok (.binop .neq (.list left_list) right)
    | _ => .ok (.bool true)
  | .atom functor terms, right =>
    match right with
    | .atom right_functor right_terms =>
      if functor ≠ right_functor then .ok (.bool true)
      else if terms.length ≠ right_terms.length then .ok (.bool true)
      else OpNeqLoop terms right_terms (.bool false)
    | .var _ => .ok (.binop .neq (.atom functor terms) right)
    | _ => .ok (.bool true)
  | .var name, right =>
    match right with
    | .var right_name =>
      if name = right_name then .ok (.bool false)
      else .ok (.binop .neq (.var name) right)
    | _ => .ok (.binop .neq (.var name) right)
  | .unop op operand, right =>
    match op with
    | .positive | .negative =>
      match right.which with
      | .kDouble | .kVariable | .kPositive | .kPlus | .kMinus | .kPow | .kMultiply
      | .kDivide | .kDiv | .kMod => .ok (.binop .neq (.unop op operand) right)
      | _ => .ok (.bool true)
    | .not =>
      match right.which with
      | .kBool | .kVariable | .kNot | .kAnd | .kOr | .kUnify | .kDeconstruct | .kEq
      | .kNeq | .kLt | .kLte => .ok (.binop .neq (.unop op operand) right)
      | _ => .ok (.bool true)
  | .binop op l r, right =>
    match op with
    | .plus | .minus | .pow | .multiply | .divide | .div | .mod =>
      match right.which with
      | .kDouble | .kVariable | .kPositive | .kPlus | .kMinus | .kPow | .kMultiply
      | .kDivide | .kDiv | .kMod => .ok (.binop .neq (.binop op l r) right)
      | _ => .ok (.bool true)
    | .and | .or | .unify | .deconstruct | .eq | .neq | .lt | .lte =>
      match right.which with
      | .kBool | .kVariable | .kNot | .kAnd | .kOr | .kUnify | .kDeconstruct | .kEq
      | .kNeq | .kLt | .kLte => .ok (.binop .neq (.binop op l r) right)
      | _ => .ok (.bool true)
/-- The loop of OpNeq over the positional pairs of two lists of equal
length, folding OpOr over the element disequalities (term.cc:724-730). -/
def OpNeqLoop {D : Type} [DecidableEq D] [DoubleOps D] :
    List (Term D) → List (Term D) → Term D → Except Err (Term D)
  | l :: ls, r :: rs, result =>
    match OpNeq l r with
    | .error e => .error e
    | .ok ne =>
      match OpOr result ne with
      | .error e => .error e
      | .ok result1 => OpNeqLoop ls rs result1
  | _, _, result => .ok result
end

/-- The smart constructor OpEq (term.cc:944-946). -/
def OpEq {D : Type} [DecidableEq D] [DoubleOps D] (left right : Term D) : Except Err (Term D) :=
  match OpNeq left right with
  | .error e => .error e
  | .ok ne => OpNot ne

/-- The comparison of two enum constants written in the source, such as
kBool < kString. -/
def tagLt (a b : TermType) : Bool := decide (a.toNat < b.toNat)

mutual
/-- The smart constructor OpLt (term.cc:948-1271). -/
def OpLt {D : Type} [DecidableEq D] [DoubleOps D] : Term D → Term D → Except Err (Term D)
  | .bool a, right =>
    match right with
    | .bool b => .ok (.bool (decide (a < b)))
    | _ =>
      match right.which with
      | .kString => .ok (.bool (tagLt .kBool .kString))
      | .kList => .ok (.bool (tagLt .kBool .kList))
      | .kBeliefAtom => .ok (.bool (tagLt .kBool .kBeliefAtom))
      | .kDouble | .kPositive | .kNegative | .kPlus | .kMinus | .kPow | .kMultiply
      | .kDivide | .kDiv | .kMod => .ok (.bool (tagLt .kBool .kDouble))
      | _ => .ok (.binop .lt (.bool a) right)
  | .num a, right =>
    match right with
    | .num b => .ok (.bool (DoubleOps.lt a b))
    | _ =>
      match right.which with
      | .kString => .ok (.bool (tagLt .kDouble .kString))
      | .kList => .ok (.bool (tagLt .kDouble .kList))
      | .kBeliefAtom => .ok (.bool (tagLt .kDouble .kBeliefAtom))
      | .kBool | .kNot | .kAnd | .kOr | .kUnify | .kDeconstruct | .kEq | .kNeq | .kLt
      | .kLte => .ok (.bool (tagLt .kDouble .kBool))
      | _ => .ok (.binop .lt (.num a) right)
  | .str a, right =>
    match right with
    | .str b => .ok (.bool (strLt a b))
    | _ =>
      match right.which with
      | .kDouble | .kPositive | .kNegative | .kPlus | .kMinus | .kPow | .kMultiply
      | .kDivide | .kDiv | .kMod => .ok (.bool (tagLt .kString .kDouble))
      | .kBool | .kNot | .kAnd | .kOr | .kUnify | .kDeconstruct | .kEq | .kNeq | .kLt
      | .kLte => .ok (.bool (tagLt .kString .kBool))
      | .kList => .ok (.bool (tagLt .kString .kList))
      | _ => .ok (.binop .lt (.str a) right)
  | .list left_list, right =>
    match right with
    | .list right_list =>
      if left_list.length < right_list.length then .ok (.bool true)
      else if left_list.length > right_list.length then .ok (.bool false)
      else OpLtLoop left_list right_list (.bool false) (.bool true)
    | _ =>
      match right.which with
      | .kBool | .kNot | .kAnd | .kOr | .kUnify | .kDeconstruct | .kEq | .kNeq | .kLt
      | .kLte => .ok (.bool (tagLt .kList .kBool))
      | .kDouble | .kPositive | .kNegative | .kPlus | .kMinus | .kPow | .kMultiply
      | .kDivide | .kDiv | .kMod => .ok (.bool (tagLt .kList .kDouble))
      | .kBeliefAtom => .ok (.bool (tagLt .kList .kBeliefAtom))
      | .kString => .ok (.bool (tagLt .kList .kString))
      | _ => .ok (.binop .lt (.list left_list) right)
  | .atom functor terms, right =>
    match right with
    | .atom right_functor right_terms =>
      if strLt functor right_functor then .ok (.bool true)
      else if strLt right_functor functor then .ok (.bool false)
      else if terms.length < right_terms.length then .ok (.bool true)
      else if terms.length > right_terms.length then .ok (.bool false)
      else OpLtLoop terms right_terms (.bool false) (.bool true)
    | _ =>
      match right.which with
      | .kBool | .kNot | .kAnd | .kOr | .kUnify | .kDeconstruct | .kEq | .kNeq | .kLt
      | .kLte => .ok (.bool (tagLt .kBeliefAtom .kBool))
      | .kDouble | .kPositive | .kNegative | .kPlus | .kMinus | .kPow | .kMultiply
      | .kDivide | .kDiv | .kMod => .ok (.bool (tagLt .kBeliefAtom .kDouble))
      | .kString => .ok (.bool (tagLt .kBeliefAtom .kString))
      | .kList => .ok (.bool (tagLt .kBeliefAtom .kList))
      | _ => .ok (.binop .lt (.atom functor terms) right)
  | .var name, right =>
    match right with
    | .var right_name =>
      if name = right_name then .ok (.bool false)
      else .ok (.binop .lt (.var name) right)
    | _ => .ok (.binop .lt (.var name) right)
  | .unop op operand, right =>
    match op with
    | .positive | .negative =>
      match right.which with
      | .kBool | .kNot | .kAnd | .kOr | .kUnify | .kDeconstruct | .kEq | .kNeq | .kLt
      | .kLte => .ok (.bool (tagLt .kDouble .kBool))
      | .kBeliefAtom => .ok (.bool (tagLt .kDouble .kBeliefAtom))
      | .kString => .ok (.bool (tagLt .kDouble .kString))
      | .kList => .ok (.bool (tagLt .kDouble .kList))
      | _ => .ok (.binop .lt (.unop op operand) right)
    | .not =>
      match right.which with
      | .kDouble | .kPositive | .kNegative | .kPlus | .kMinus | .kPow | .kMultiply
      | .kDivide | .kDiv | .kMod => .ok (.bool (tagLt .kBool .kDouble))
      | .kBeliefAtom => .ok (.bool (tagLt .kBool .kBeliefAtom))
      | .kString => .ok (.bool (tagLt .kBool .kString))
      | .kList => .ok (.bool (tagLt .kBool .kList))
      | _ => .ok (.binop .lt (.unop op operand) right)
  | .binop op l r, right =>
    match op with
    | .plus | .minus | .pow | .multiply | .divide | .div | .mod =>
      match right.which with
      | .kBool | .kNot | .kAnd | .kOr | .kUnify | .kDeconstruct | .kEq | .kNeq | .kLt
      | .kLte => .ok (.bool (tagLt .kDouble .kBool))
      | .kBeliefAtom => .ok (.bool (tagLt .kDouble .kBeliefAtom))
      | .kString => .ok (.bool (tagLt .kDouble .kString))
      | .kList => .ok (.bool (tagLt .kDouble .kList))
      | _ => .ok (.binop .lt (.binop op l r) right)
    | .and | .or | .unify | .deconstruct | .eq | .neq | .lt | .lte =>
      match right.which with
      | .kDouble | .kPositive | .kNegative | .kPlus | .kMinus | .kPow | .kMultiply
      | .kDivide | .kDiv | .kMod => .ok (.bool (tagLt .kBool .kDouble))
      | .kBeliefAtom => .ok (.bool (tagLt .kBool .kBeliefAtom))
      | .kString => .ok (.bool (tagLt .kBool .kString))
      | .kList => .ok (.bool (tagLt .kBool .kList))
      | _ => .ok (.binop .lt (.binop op l r) right)
/-- The loop of OpLt over the positional pairs of two lists of equal length
(term.cc:1065-1073), carrying result and equal_so_far. -/
def OpLtLoop {D : Type} [DecidableEq D] [DoubleOps D] :
    List (Term D) → List (Term D) → Term D → Term D → Except Err (Term D)
  | l :: ls, r :: rs, result, equal_so_far =>
    match OpLt l r with
    | .error e => .error e
    | .ok lt =>
      match OpAnd equal_so_far lt with
      | .error e => .error e
      | .ok conj =>
        match OpOr result conj with
        | .error e => .error e
        | .ok result1 =>
          match OpEq l r with
          | .error e => .error e
          | .ok eq =>
            match OpAnd equal_so_far eq with
            | .error e => .error e
            | .ok equal1 => OpLtLoop ls rs result1 equal1
  | _, _, result, _ => .ok result
end

/-- The smart constructor OpLte (term.cc:1273-1275). -/
def OpLte {D : Type} [DecidableEq D] [DoubleOps D] (left right : Term D) :
    Except Err (Term D) :=
  match OpLt left right with
  | .error e => .error e
  | .ok lt =>
    match OpEq left right with
    | .error e => .error e
    | .ok eq => OpOr lt eq

/-! ## unification.h and unification.cc -/

/-- The class Unifier as a map (unification.h:105): variable names to terms. -/
abbrev Unifier (D : Type) : Type := List (String × Term D)

/-- The member find of the map: the term bound to a name, if any. -/
def Unifier.find {D : Type} : Unifier D → String → Option (Term D)
  | [], _ => none
  | (k, v) :: rest, name => if k = name then some v else Unifier.find rest name

/-- The assignment unifier[name] = t: the entry of an existing key is
replaced, a new key is added. -/
def Unifier.set {D : Type} : Unifier D → String → Term D → Unifier D
  | [], name, t => [(name, t)]
  | (k, v) :: rest, name, t =>
    if k = name then (k, t) :: rest else (k, v) :: Unifier.set rest name t

/-- The helper PrepareTerm (unification.cc:24-46): the flag it returns and
the term it leaves in its reference argument. A bound variable is replaced
by its binding, once. -/
def PrepareTerm {D : Type} (unifier : Unifier D) (t : Term D) : Bool × Term D :=
  match t with
  | .var name =>
    match Unifier.find unifier name with
    | some bound => (true, bound)
    | none => (true, t)
  | _ =>
    match t.which with
    | .kBool | .kDouble | .kString | .kBeliefAtom | .kList => (true, t)
    | _ => (false, t)

mutual
/-- The visitor ContainsVariable (unification.cc:48-87): it descends into
lists and atoms only; every other alternative, the operator wrappers
included, answers false. -/
def ContainsVariable {D : Type} (variable_name : String) : Term D → Bool
  | .var name => name = variable_name
  | .list ts => ContainsVariableList variable_name ts
  | .atom _ ts => ContainsVariableList variable_name ts
  | _ => false
/-- The loop of ContainsVariable over the elements of a list or atom. -/
def ContainsVariableList {D : Type} (variable_name : String) : List (Term D) → Bool
  | [] => false
  | t :: ts => if ContainsVariable variable_name t then true
    else ContainsVariableList variable_name ts
end

/-- The smart constructor OpUnify (term.cc:851-867), given the function
Unify it calls. The two unifiability tests are direct calls on operands of
static type Term. -/
def OpUnifyWith {D : Type}
    (unify : Term D → Term D → Unifier D → Except Err (Bool × Unifier D))
    (left right : Term D) : Except Err (Term D) :=
  if IsUnifiable.callOnTerm left && IsUnifiable.callOnTerm right then
    match unify left right [] with
    | .error e => .error e
    | .ok (unifies, unifier) =>
      if !unifies then .ok (.bool false)
      else if unifier.isEmpty then .ok (.bool true)
      else .ok (.binop .unify left right)
  else .ok (.binop .unify left right)

/-- The smart constructor OpDeconstruct (term.cc:869-942), given the
function Unify that OpUnify calls. -/
def OpDeconstructWith {D : Type}
    (unify : Term D → Term D → Unifier D → Except Err (Bool × Unifier D))
    (left right : Term D) : Except Err (Term D) :=
  match left with
  | .atom functor terms =>
    match right.which with
    | .kList | .kVariable =>
      OpUnifyWith unify (.list [.atom functor [], .list terms]) right
    | _ => .error .domain_error
  | .var _ =>
    match right with
    | .var _ => .ok (.binop .deconstruct left right)
    | .list list =>
      match list with
      | [first, second] =>
        let first_ok : Bool :=
          match first with
          | .atom _ atom_terms => decide (¬ atom_terms.length > 0)
          | .var _ => true
          | _ => false
        if !first_ok then .ok (.bool false)
        else
          match second.which with
          | .kList | .kVariable => .ok (.binop .deconstruct left right)
          | _ => .ok (.bool false)
      | _ => .ok (.bool false)
    | _ => .error .domain_error
  | _ => .error .domain_error

/-- The call Op()(operand) of the visitor members for UnaryOp<Op>. -/
def UnOp.construct {D : Type} [DoubleOps D] (op : UnOp) (operand : Term D) :
    Except Err (Term D) :=
  match op with
  | .positive => OpPositive operand
  | .negative => OpNegative operand
  | .not => OpNot operand

/-- The call Op()(left, right) of the visitor members for BinaryOp<Op>,
given the function Unify reached through OpUnify and OpDeconstruct. -/
def BinOp.constructWith {D : Type} [DecidableEq D] [DoubleOps D]
    (unify : Term D → Term D → Unifier D → Except Err (Bool × Unifier D))
    (op : BinOp) (left right : Term D) : Except Err (Term D) :=
  match op with
  | .plus => OpPlus left right
  | .minus => OpMinus left right
  | .pow => OpPow left right
  | .multiply => OpMultiply left right
  | .divide => OpDivide left right
  | .div => OpDiv left right
  | .mod => OpMod left right
  | .and => OpAnd left right
  | .or => OpOr left right
  | .unify => OpUnifyWith unify left right
  | .deconstruct => OpDeconstructWith unify left right
  | .eq => OpEq left right
  | .neq => OpNeq left right
  | .lt => OpLt left right
  | .lte => OpLte left right

/-- The element loop of the visitor members for lists and atoms
(unification.h:116-137), given the visitor call on one term. -/
def applyList {D : Type} (visit : Term D → Except Err (Term D)) :
    List (Term D) → Except Err (List (Term D))
  | [] => .ok []
  | t :: ts =>
    match visit t with
    | .error e => .error e
    | .ok t1 =>
      match applyList visit ts with
      | .error e => .error e
      | .ok ts1 => .ok (t1 :: ts1)

/-- The while loop of UnifyLists (unification.cc:108-118), given the visitor
call and the function Unify: both elements are substituted through the
current unifier before they are unified. -/
def UnifyListsLoop {D : Type}
    (visit : Unifier D → Term D → Except Err (Term D))
    (unify : Term D → Term D → Unifier D → Except Err (Bool × Unifier D)) :
    List (Term D) → List (Term D) → Unifier D → Except Err (Bool × Unifier D)
  | l :: ls, r :: rs, unifier =>
    match visit unifier l with
    | .error e => .error e
    | .ok lhs =>
      match visit unifier r with
      | .error e => .error e
      | .ok rhs =>
        match unify lhs rhs unifier with
        | .error e => .error e
        | .ok (unifies, unifier1) =>
          if !unifies then .ok (false, unifier1)
          else UnifyListsLoop visit unify ls rs unifier1
  | _, _, unifier => .ok (true, unifier)

/-- The helper UnifyLists (unification.cc:89-121), given the visitor call
and the function Unify: the first pair is unified as it stands, the later
pairs go through the loop. -/
def UnifyListsWith {D : Type}
    (visit : Unifier D → Term D → Except Err (Term D))
    (unify : Term D → Term D → Unifier D → Except Err (Bool × Unifier D))
    (left right : List (Term D)) (unifier : Unifier D) :
    Except Err (Bool × Unifier D) :=
  if left.length ≠ right.length then .ok (false, unifier)
  else
    match left, right with
    | l :: ls, r :: rs =>
      match unify l r unifier with
      | .error e => .error e
      | .ok (unifies, unifier1) =>
        if !unifies then .ok (false, unifier1)
        else UnifyListsLoop visit unify ls rs unifier1
    | _, _ => .ok (true, unifier)

mutual
/-- The visitor call of Unifier (unification.h:107-154): the substitution
applied to a term. A bound variable is replaced by the substituted binding,
lists and atoms are mapped, operator wrappers are rebuilt with their smart
constructors. The first argument is the recursion budget. -/
def Unifier.apply {D : Type} [DecidableEq D] [DoubleOps D] :
    Nat → Unifier D → Term D → Except Err (Term D)
  | 0, _, _ => .error .out_of_fuel
  | n + 1, unifier, .var name =>
    match Unifier.find unifier name with
    | some bound => Unifier.apply n unifier bound
    | none => .ok (.var name)
  | n + 1, unifier, .list ts =>
    match applyList (Unifier.apply n unifier) ts with
    | .error e => .error e
    | .ok result => .ok (.list result)
  | n + 1, unifier, .atom functor ts =>
    match applyList (Unifier.apply n unifier) ts with
    | .error e => .error e
    | .ok result => .ok (.atom functor result)
  | n + 1, unifier, .unop op operand =>
    match Unifier.apply n unifier operand with
    | .error e => .error e
    | .ok x => UnOp.construct op x
  | n + 1, unifier, .binop op left right =>
    match Unifier.apply n unifier left with
    | .error e => .error e
    | .ok l =>
      match Unifier.apply n unifier right with
      | .error e => .error e
      | .ok r => BinOp.constructWith (Unify n) op l r
  | _ + 1, _, .bool b => .ok (.bool b)
  | _ + 1, _, .num x => .ok (.num x)
  | _ + 1, _, .str s => .ok (.str s)
/-- The function Unify (unification.cc:128-212): the Boolean it returns and
the unifier it leaves behind. The first argument is the recursion budget. -/
def Unify {D : Type} [DecidableEq D] [DoubleOps D] :
    Nat → Term D → Term D → Unifier D → Except Err (Bool × Unifier D)
  | 0, _, _, _ => .error .out_of_fuel
  | n + 1, left, right, unifier =>
    match PrepareTerm unifier left with
    | (false, _) => .ok (false, unifier)
    | (true, lhs) =>
      match PrepareTerm unifier right with
      | (false, _) => .ok (false, unifier)
      | (true, rhs) =>
        match lhs, rhs with
        | .var left_name, .var right_name =>
          if left_name = right_name then .ok (true, unifier)
          else if strLt left_name right_name then
            .ok (true, Unifier.set unifier right_name lhs)
          else .ok (true, Unifier.set unifier left_name rhs)
        | _, .var name =>
          if name = "_" then .ok (true, unifier)
          else if ContainsVariable name lhs then .ok (false, unifier)
          else .ok (true, Unifier.set unifier name lhs)
        | .var name, _ =>
          if name = "_" then .ok (true, unifier)
          else if ContainsVariable name rhs then .ok (false, unifier)
          else .ok (true, Unifier.set unifier name rhs)
        | .bool a, .bool b => .ok (decide (a = b), unifier)
        | .num a, .num b => .ok (doubleEq a b, unifier)
        | .str a, .str b => .ok (decide (a = b), unifier)
        | .list ls, .list rs =>
          UnifyListsWith (Unifier.apply n) (Unify n) ls rs unifier
        | .atom left_functor left_terms, .atom right_functor right_terms =>
          if left_functor ≠ right_functor then .ok (false, unifier)
          else UnifyListsWith (Unifier.apply n) (Unify n) left_terms right_terms unifier
        | _, _ =>
          if lhs.which ≠ rhs.which then .ok (false, unifier)
          else .error .bad_get
end

/-- The helper UnifyLists with a recursion budget for its calls. -/
def UnifyLists {D : Type} [DecidableEq D] [DoubleOps D] (n : Nat)
    (left right : List (Term D)) (unifier : Unifier D) : Except Err (Bool × Unifier D) :=
  UnifyListsWith (Unifier.apply n) (Unify n) left right unifier

/-- The smart constructor OpUnify with a recursion budget for Unify. -/
def OpUnify {D : Type} [DecidableEq D] [DoubleOps D] (n : Nat) (left right : Term D) :
    Except Err (Term D) :=
  OpUnifyWith (Unify n) left right

/-- The smart constructor OpDeconstruct with a recursion budget for Unify. -/
def OpDeconstruct {D : Type} [DecidableEq D] [DoubleOps D] (n : Nat)
    (left right : Term D) : Except Err (Term D) :=
  OpDeconstructWith (Unify n) left right

/-- The function object Unifies (unification.h:172-184): unification from a
fresh empty unifier, keeping the Boolean only. -/
def Unifies {D : Type} [DecidableEq D] [DoubleOps D] (n : Nat) (lhs rhs : Term D) :
    Except Err Bool :=
  match Unify n lhs rhs [] with
  | .error e => .error e
  | .ok (unifies, _) => .ok unifies

/-! ## Notions used to state the properties -/

/-- A substitution in the mathematical sense: a term for every variable name. -/
abbrev Subst (D : Type) : Type := String → Term D

mutual
/-- The instance of a term under a substitution: every variable is replaced,
simultaneously and once, and nothing is re-evaluated. -/
def Term.subst {D : Type} (θ : Subst D) : Term D → Term D
  | .var name => θ name
  | .list ts => .list (Term.substList θ ts)
  | .atom functor ts => .atom functor (Term.substList θ ts)
  | .unop op operand => .unop op (Term.subst θ operand)
  | .binop op left right => .binop op (Term.subst θ left) (Term.subst θ right)
  | .bool b => .bool b
  | .num x => .num x
  | .str s => .str s
/-- The instance of a list of terms under a substitution. -/
def Term.substList {D : Type} (θ : Subst D) : List (Term D) → List (Term D)
  | [] => []
  | t :: ts => Term.subst θ t :: Term.substList θ ts
end

/-- The variable occurs in the term, reached through list elements and atom
arguments only. -/
inductive Occurs {D : Type} (v : String) : Term D → Prop where
  | var : Occurs v (.var v)
  | list {ts : List (Term D)} {t : Term D} : t ∈ ts → Occurs v t → Occurs v (.list ts)
  | atom {functor : String} {ts : List (Term D)} {t : Term D} :
      t ∈ ts → Occurs v t → Occurs v (.atom functor ts)

/-- The variable occurs anywhere in the term: in a list element, an atom
argument or an operand of an operator. -/
inductive OccursAnywhere {D : Type} (v : String) : Term D → Prop where
  | var : OccursAnywhere v (.var v)
  | list {ts : List (Term D)} {t : Term D} :
      t ∈ ts → OccursAnywhere v t → OccursAnywhere v (.list ts)
  | atom {functor : String} {ts : List (Term D)} {t : Term D} :
      t ∈ ts → OccursAnywhere v t → OccursAnywhere v (.atom functor ts)
  | unop {op : UnOp} {t : Term D} : OccursAnywhere v t → OccursAnywhere v (.unop op t)
  | left {op : BinOp} {l r : Term D} : OccursAnywhere v l → OccursAnywhere v (.binop op l r)
  | right {op : BinOp} {l r : Term D} : OccursAnywhere v r → OccursAnywhere v (.binop op l r)

/-- A term built only from Bool, Num, Str, List, Atom and variables. -/
def FirstOrder {D : Type} (t : Term D) : Prop := IsUnifiable t = true

/-- A first-order term in which the anonymous variable does not occur. -/
def NamedFirstOrder {D : Type} (t : Term D) : Prop :=
  IsUnifiable t = true ∧ ContainsVariable "_" t = false

/-- Every binding of the unifier is a first-order term. -/
def Unifier.FirstOrder {D : Type} (σ : Unifier D) : Prop :=
  ∀ k v, Unifier.find σ k = some v → IsUnifiable v = true

/-- The bindings are acyclic: some rank on variable names decreases from
every key to every variable of its binding. -/
def Unifier.Acyclic {D : Type} (σ : Unifier D) : Prop :=
  ∃ rank : String → Nat, ∀ k v, Unifier.find σ k = some v →
    ∀ w, ContainsVariable w v = true → rank w < rank k

/-- No variable of the term is bound by the unifier. -/
def Resolved {D : Type} (σ : Unifier D) (t : Term D) : Prop :=
  ∀ v, ContainsVariable v t = true → Unifier.find σ v = none

/-- The substitution solves the unifier read as a set of equations: it maps
every key and its binding to the same term. -/
def Solves {D : Type} (θ : Subst D) (σ : Unifier D) : Prop :=
  ∀ k v, Unifier.find σ k = some v → θ k = Term.subst θ v

/-- The first result is the second one, unless the first ran out of budget. -/
def Below {α : Type} (a b : Except Err α) : Prop :=
  a = .error .out_of_fuel ∨ a = b

mutual
/-- The variable names of a term, through list elements and atom arguments. -/
def Term.vars {D : Type} : Term D → List String
  | .var name => [name]
  | .list ts => Term.varsList ts
  | .atom _ ts => Term.varsList ts
  | _ => []
/-- The variable names of a list of terms. -/
def Term.varsList {D : Type} : List (Term D) → List String
  | [] => []
  | t :: ts => Term.vars t ++ Term.varsList ts
end

/-- Every variable of the term belongs to the list of names. -/
def VarsIn {D : Type} (V : List String) (t : Term D) : Prop :=
  ∀ w, ContainsVariable w t = true → w ∈ V

/-- Every variable of every binding belongs to the list of names. -/
def RangeIn {D : Type} (V : List String) (σ : Unifier D) : Prop :=
  ∀ k v, Unifier.find σ k = some v → VarsIn V v

/-- Every key of the first unifier is a key of the second. -/
def Grows {D : Type} (σ σ1 : Unifier D) : Prop :=
  ∀ k, Unifier.find σ k ≠ none → Unifier.find σ1 k ≠ none

/-- The number of names of the list that the unifier leaves unbound. -/
def unboundCount {D : Type} (V : List String) (σ : Unifier D) : Nat :=
  V.countP (fun v => (Unifier.find σ v).isNone)

/-- Every binding of the unifier is a ground term. -/
def Unifier.Ground {D : Type} (σ : Unifier D) : Prop :=
  ∀ k v, Unifier.find σ k = some v → IsGround v = true

/-- What the visitor call does to a first-order term under first-order
bindings, when it returns. -/
def ApplySpec {D : Type} [DecidableEq D] [DoubleOps D] (n : Nat) (σ : Unifier D)
    (t t1 : Term D) : Prop :=
  IsUnifiable t1 = true ∧ Resolved σ t1 ∧ Unifier.apply n σ t1 = .ok t1 ∧
  (∀ θ, Solves θ σ → Term.subst θ t1 = Term.subst θ t) ∧
  (∀ w, ContainsVariable w t1 = true →
    ContainsVariable w t = true ∨ ∃ k v, Unifier.find σ k = some v ∧ ContainsVariable w v = true) ∧
  (∀ w, ContainsVariable w t = true → Unifier.find σ w = none → ContainsVariable w t1 = true)

/-- The invariant of the unifier during a unification over the variable
names V: first-order, acyclic bindings whose variables are in V. -/
def UInv {D : Type} (V : List String) (σ : Unifier D) : Prop :=
  σ.FirstOrder ∧ σ.Acyclic ∧ RangeIn V σ

/-- The relation between the unifier before and after a call of Unify: the
invariant holds again, no key is lost, and unless the unifier is unchanged a
name of V that was unbound is now bound. -/
def UStep {D : Type} (V : List String) (σ σ1 : Unifier D) : Prop :=
  UInv V σ1 ∧ Grows σ σ1 ∧
    (σ1 = σ ∨ ∃ x, x ∈ V ∧ Unifier.find σ x = none ∧ Unifier.find σ1 x ≠ none)

mutual
/-- No Num literal of the term, through list elements and atom arguments, is
NaN. -/
def NoNaN {D : Type} [DoubleOps D] : Term D → Bool
  | .num x => !DoubleOps.isNaN x
  | .list ts => NoNaNList ts
  | .atom _ ts => NoNaNList ts
  | _ => true
/-- No Num literal of the terms of the list is NaN. -/
def NoNaNList {D : Type} [DoubleOps D] : List (Term D) → Bool
  | [] => true
  | t :: ts => NoNaN t && NoNaNList ts
end

/-- The meaning of a call of Unify on l and r that went from σ to σ1 with
result b: on success the solutions of σ1 are the solutions of σ that unify l
and r, on failure no solution of σ unifies l and r into a term without NaN
(the comparison of two Num literals fails on NaN). -/
def USem {D : Type} [DoubleOps D] (σ : Unifier D) (l r : Term D) (b : Bool)
    (σ1 : Unifier D) : Prop :=
  (b = true → ∀ θ : Subst D, Solves θ σ1 ↔ (Solves θ σ ∧ Term.subst θ l = Term.subst θ r)) ∧
  (b = false → ∀ θ : Subst D, Solves θ σ → NoNaN (Term.subst θ l) = true →
    Term.subst θ l ≠ Term.subst θ r)

/-- The variable names of the bindings of a unifier. -/
def Unifier.rangeVars {D : Type} : Unifier D → List String
  | [] => []
  | (_, v) :: rest => Term.vars v ++ Unifier.rangeVars rest

instance instDecidableFirstOrder {D : Type} (t : Term D) : Decidable (FirstOrder t) :=
  inferInstanceAs (Decidable (IsUnifiable t = true))

instance instDecidableNamedFirstOrder {D : Type} (t : Term D) :
    Decidable (NamedFirstOrder t) :=
  inferInstanceAs (Decidable (IsUnifiable t = true ∧ ContainsVariable "_" t = false))
/-! ## runtime/logical_consequence.h and runtime/environment.cc -/

/-- The struct BeliefAtom of term.h: a functor and its argument terms. -/
structure BeliefAtom (D : Type) where
  /-- The functor. -/
  functor : String
  /-- The argument terms. -/
  terms : List (Term D)

/-- The conversion of a BeliefAtom to the variant Term. -/
def BeliefAtom.toTerm {D : Type} (atom : BeliefAtom D) : Term D :=
  .atom atom.functor atom.terms

/-- The struct Rule of agent.h. -/
structure Rule (D : Type) where
  /-- The head of the rule. -/
  lhs : BeliefAtom D
  /-- The body of the rule. -/
  rhs : Term D

/-- The enum BodyFormula::FormulaType of agent.h. -/
inductive FormulaType where
  | kTerm | kTest | kAchieve | kAchieveLater | kAdd | kRemove | kReplace
  deriving DecidableEq

/-- The struct BodyFormula of agent.h. -/
structure BodyFormula (D : Type) where
  /-- The kind of the formula. -/
  formula_type : FormulaType
  /-- The term of the formula. -/
  formula : Term D

/-- The enum Plan::TriggerType of agent.h. -/
inductive TriggerType where
  | kAddition | kRemoval
  deriving DecidableEq

/-- The enum Plan::GoalType of agent.h. -/
inductive GoalType where
  | kAchievement | kTest | kBelief
  deriving DecidableEq

/-- The struct Plan of agent.h. -/
structure Plan (D : Type) where
  /-- Addition or removal. -/
  trigger_type : TriggerType
  /-- Achievement, test or belief. -/
  goal_type : GoalType
  /-- The triggering atom. -/
  trigger : BeliefAtom D
  /-- The context of the plan. -/
  context : Term D
  /-- The body of the plan. -/
  body : List (BodyFormula D)

/-- The struct IntentionFrame of agent.h. The iterator pair body_it and
body_end into the body of a plan is the body itself and the index of
body_it in it; body_end is the length of the body. -/
structure IntentionFrame (D : Type) where
  /-- Addition or removal. -/
  trigger_type : TriggerType
  /-- Achievement, test or belief. -/
  goal_type : GoalType
  /-- The triggering atom. -/
  trigger : BeliefAtom D
  /-- The vector that body_it and body_end point into. -/
  body : List (BodyFormula D)
  /-- The index of the iterator body_it. -/
  body_it : Nat
  /-- The unifier of the frame. -/
  unifier : Unifier D
  /-- The frame waits for a plan. -/
  external : Bool

/-- The constructor IntentionFrame(trigger) of agent.h: an external frame
for an achievement-goal addition; the iterators, which the source leaves
unset, range over the empty body. -/
def IntentionFrame.ofTrigger {D : Type} (trigger : BeliefAtom D) : IntentionFrame D :=
  { trigger_type := .kAddition, goal_type := .kAchievement, trigger := trigger, body := [],
    body_it := 0, unifier := [], external := true }

/-- The struct Agent of agent.h: the name, the belief base in insertion
order, the queue of intentions (each a stack of frames, front first), the
rules and the plans. -/
structure Agent (D : Type) where
  /-- The name of the agent. -/
  name : String
  /-- The belief base, a vector filled by push_back. -/
  beliefs : List (BeliefAtom D)
  /-- The intentions, a deque of deques with the front first. -/
  intents : List (List (IntentionFrame D))
  /-- The rules. -/
  rules : List (Rule D)
  /-- The plans in source order. -/
  plans : List (Plan D)

/-- The member Agent::AddBelief of agent.h: the belief is appended and an
intention with one external belief-addition frame is pushed at the back. -/
def Agent.AddBelief {D : Type} (agent : Agent D) (belief : BeliefAtom D) : Agent D :=
  { agent with
    beliefs := agent.beliefs ++ [belief],
    intents := agent.intents ++ [[{ IntentionFrame.ofTrigger belief with goal_type := .kBelief }]] }

/-- The predicate IsRelevant (logical_consequence.h:92-105). -/
def IsRelevant {D : Type} (functor_ : String) (arity_ : Nat) (atom : BeliefAtom D) : Bool :=
  atom.functor = functor_ && atom.terms.length = arity_

/-- The state of an object behind UnifierGeneratorInterface: one constructor
for every specialisation of UnifierGeneratorImpl in logical_consequence.h and
for the two action classes of environment.cc, with the data members of the
class as fields. An iterator into the belief base is the list of the beliefs
it has not yet passed (for a filter_iterator, the relevant ones); a
unique_ptr is an Option. -/
inductive Gen (D : Type) where
  /-- The primary template (logical_consequence.h:58-73). -/
  | other
  /-- The specialisation for bool (107-130). -/
  | bool (term_ : Bool) (unifier_ : Unifier D)
  /-- The specialisation for BeliefAtom (132-185). -/
  | atom (term_ : BeliefAtom D) (unifier_ : Unifier D) (action_ : Option (Gen D))
      (beliefs_it_ : List (BeliefAtom D)) (current_unifier_ : Unifier D)
  /-- The specialisation for Variable (187-230). -/
  | var (term_ : String) (beliefs_it_ : List (BeliefAtom D)) (current_unifier_ : Unifier D)
      (tried_true_ : Bool)
  /-- The specialisation for UnaryOp<OpNot> (232-251). -/
  | not (gen_ : Gen D) (current_unifier_ : Unifier D)
  /-- The specialisation for BinaryOp<OpOr> (253-287). -/
  | or (left_gen_ : Gen D) (left_done_ : Bool) (right_gen_ : Gen D)
  /-- The specialisation for BinaryOp<OpAnd> (289-329). -/
  | and (left_gen_ : Gen D) (right_term_ : Term D) (right_gen_ : Option (Gen D))
      (right_has_more_ : Bool)
  /-- The specialisation for BinaryOp<OpUnify> (331-359). -/
  | unify (left right : Term D) (unifier_ current_unifier_ : Unifier D) (once_ : Bool)
  /-- The specialisation for BinaryOp<OpDeconstruct> (361-418). -/
  | deconstruct (left right : Term D) (current_unifier_ : Unifier D) (once_ : Bool)
  /-- The class PrintAction (environment.cc:41-76). -/
  | printAction (terms_ : List (Term D)) (unifier_ : Unifier D) (once_ : Bool)
  /-- The class MyNameAction (environment.cc:78-108). -/
  | myNameAction (terms_ : List (Term D)) (unifier_ : Unifier D) (once_ : Bool)

/-- The member Environment::GetAction (environment.cc:115-125) of the default
environment: the generator of a built-in action, or the null pointer. -/
def Environment.GetAction {D : Type} (action : BeliefAtom D) (unifier : Unifier D) :
    Option (Gen D) :=
  if action.functor = ".print" then some (.printAction action.terms unifier false)
  else if action.functor = ".my_name" then some (.myNameAction action.terms unifier false)
  else if action.functor = ".fail" then some (.bool false unifier)
  else none

/-- The visitor LogicalConsequenceSubstituted (logical_consequence.h:75-90):
the generator constructed for a term, by the constructor of the
specialisation for its alternative. -/
def LogicalConsequenceSubstituted {D : Type} (agent : Agent D) (unifier : Unifier D) :
    Term D → Gen D
  | .bool b => .bool b unifier
  | .atom functor terms =>
    .atom ⟨functor, terms⟩ unifier (Environment.GetAction ⟨functor, terms⟩ unifier)
      (agent.beliefs.filter (IsRelevant functor terms.length)) []
  | .var name => .var name agent.beliefs unifier false
  | .unop .not operand => .not (LogicalConsequenceSubstituted agent unifier operand) unifier
  | .binop .or left right =>
    .or (LogicalConsequenceSubstituted agent unifier left) false
      (LogicalConsequenceSubstituted agent unifier right)
  | .binop .and left right =>
    .and (LogicalConsequenceSubstituted agent unifier left) right none false
  | .binop .unify left right => .unify left right unifier [] false
  | .binop .deconstruct left right => .deconstruct left right unifier false
  | _ => .other

/-- The member Current of the generators. The source leaves its value
undefined unless the latest call of Next returned true; in those states this
is the stored unifier, and the empty unifier where the source would
dereference an empty unique_ptr. -/
def Current {D : Type} : Gen D → Unifier D
  | .other => []
  | .bool _ unifier_ => unifier_
  | .atom _ _ (some action_) _ _ => Current action_
  | .atom _ _ none _ current_unifier_ => current_unifier_
  | .var _ _ current_unifier_ _ => current_unifier_
  | .not _ current_unifier_ => current_unifier_
  | .or left_gen_ left_done_ right_gen_ =>
    if !left_done_ then Current left_gen_ else Current right_gen_
  | .and _ _ (some right_gen_) _ => Current right_gen_
  | .and _ _ none _ => []
  | .unify _ _ _ current_unifier_ _ => current_unifier_
  | .deconstruct _ _ current_unifier_ _ => current_unifier_
  | .printAction _ unifier_ _ => unifier_
  | .myNameAction _ unifier_ _ => unifier_

/-- The while loop of Next for a belief atom (logical_consequence.h:149-160),
given the budget of its calls of the substitution and of Unify: the answer,
the iterator and current_unifier_ it leaves. The substituted term is
computed in every round and not used; the goal itself is unified with the
belief, from a copy of the incoming unifier. -/
def atomLoop {D : Type} [DecidableEq D] [DoubleOps D] (n : Nat) (term_ : BeliefAtom D)
    (unifier_ : Unifier D) :
    List (BeliefAtom D) → Unifier D → Except Err (Bool × List (BeliefAtom D) × Unifier D)
  | [], current_unifier_ => .ok (false, [], current_unifier_)
  | belief :: beliefs_it_, _ =>
    match Unifier.apply n unifier_ term_.toTerm with
    | .error e => .error e
    | .ok _ =>
      match Unify n term_.toTerm belief.toTerm unifier_ with
      | .error e => .error e
      | .ok (matched, current_unifier_) =>
        if matched then .ok (true, beliefs_it_, current_unifier_)
        else atomLoop n term_ unifier_ beliefs_it_ current_unifier_

/-- The body of Next for a deconstruction once the flag is set
(logical_consequence.h:372-404): the unifier with the variable bound to the
constructed atom, or nothing where the source returns false. -/
def deconstructOnce {D : Type} (left right : Term D) (current_unifier_ : Unifier D) :
    Option (Unifier D) :=
  match left with
  | .var name =>
    match right with
    | .list [.atom functor [], .list terms] =>
      some (Unifier.set current_unifier_ name (.atom functor terms))
    | _ => none
  | _ => none

/-- The member Next of the generators: the answer and the state of the
object after the call. The first argument is the recursion budget, one unit
per nested call. -/
def Next {D : Type} [DecidableEq D] [DoubleOps D] :
    Nat → Agent D → Gen D → Except Err (Bool × Gen D)
  | 0, _, _ => .error .out_of_fuel
  | _ + 1, _, .other => .ok (false, .other)
  | _ + 1, _, .bool term_ unifier_ =>
    if term_ then .ok (true, .bool false unifier_) else .ok (false, .bool term_ unifier_)
  | n + 1, agent, .atom term_ unifier_ (some action_) beliefs_it_ current_unifier_ =>
    match Next n agent action_ with
    | .error e => .error e
    | .ok (answer, action1) =>
      .ok (answer, .atom term_ unifier_ (some action1) beliefs_it_ current_unifier_)
  | n + 1, _, .atom term_ unifier_ none beliefs_it_ current_unifier_ =>
    match atomLoop n term_ unifier_ beliefs_it_ current_unifier_ with
    | .error e => .error e
    | .ok (answer, beliefs_it1, current_unifier1) =>
      .ok (answer, .atom term_ unifier_ none beliefs_it1 current_unifier1)
  | _ + 1, _, .var term_ beliefs_it_ current_unifier_ tried_true_ =>
    if !tried_true_ then
      .ok (true, .var term_ beliefs_it_ (Unifier.set current_unifier_ term_ (.bool true)) true)
    else
      match beliefs_it_ with
      | belief :: rest =>
        .ok (true, .var term_ rest (Unifier.set current_unifier_ term_ belief.toTerm) tried_true_)
      | [] => .ok (false, .var term_ [] current_unifier_ tried_true_)
  | n + 1, agent, .not gen_ current_unifier_ =>
    match Next n agent gen_ with
    | .error e => .error e
    | .ok (answer, gen1) => .ok (!answer, .not gen1 current_unifier_)
  | n + 1, agent, .or left_gen_ left_done_ right_gen_ =>
    if !left_done_ then
      match Next n agent left_gen_ with
      | .error e => .error e
      | .ok (true, left1) => .ok (true, .or left1 left_done_ right_gen_)
      | .ok (false, left1) =>
        match Next n agent right_gen_ with
        | .error e => .error e
        | .ok (answer, right1) => .ok (answer, .or left1 true right1)
    else
      match Next n agent right_gen_ with
      | .error e => .error e
      | .ok (answer, right1) => .ok (answer, .or left_gen_ left_done_ right1)
  | n + 1, agent, .and left_gen_ right_term_ right_gen_ right_has_more_ =>
    if right_has_more_ then
      match right_gen_ with
      | none => .error .null_pointer
      | some right =>
        match Next n agent right with
        | .error e => .error e
        | .ok (true, right1) => .ok (true, .and left_gen_ right_term_ (some right1) true)
        | .ok (false, right1) => Next n agent (.and left_gen_ right_term_ (some right1) false)
    else
      match Next n agent left_gen_ with
      | .error e => .error e
      | .ok (false, left1) => .ok (false, .and left1 right_term_ right_gen_ right_has_more_)
      | .ok (true, left1) =>
        match Unifier.apply n (Current left1) right_term_ with
        | .error e => .error e
        | .ok right_term_substituted =>
          match Next n agent
              (LogicalConsequenceSubstituted agent (Current left1) right_term_substituted) with
          | .error e => .error e
          | .ok (true, right1) => .ok (true, .and left1 right_term_ (some right1) true)
          | .ok (false, right1) => Next n agent (.and left1 right_term_ (some right1) false)
  | n + 1, _, .unify left right unifier_ current_unifier_ once_ =>
    if !once_ then
      match Unify n left right unifier_ with
      | .error e => .error e
      | .ok (answer, current_unifier1) => .ok (answer, .unify left right unifier_ current_unifier1 true)
    else .ok (false, .unify left right unifier_ current_unifier_ once_)
  | _ + 1, _, .deconstruct left right current_unifier_ once_ =>
    if !once_ then
      match deconstructOnce left right current_unifier_ with
      | some current_unifier1 => .ok (true, .deconstruct left right current_unifier1 true)
      | none => .ok (false, .deconstruct left right current_unifier_ true)
    else .ok (false, .deconstruct left right current_unifier_ once_)
  | n + 1, _, .printAction terms_ unifier_ once_ =>
    if !once_ then
      match applyList (Unifier.apply n unifier_) terms_ with
      | .error e => .error e
      | .ok _ => .ok (true, .printAction terms_ unifier_ true)
    else .ok (false, .printAction terms_ unifier_ once_)
  | n + 1, agent, .myNameAction terms_ unifier_ once_ =>
    if !once_ then
      match terms_ with
      | [front] =>
        match Unifier.apply n unifier_ front with
        | .error e => .error e
        | .ok arg =>
          match Unify n (.str agent.name) arg unifier_ with
          | .error e => .error e
          | .ok (answer, unifier1) => .ok (answer, .myNameAction terms_ unifier1 true)
      | _ => .error .runtime_error
    else .ok (false, .myNameAction terms_ unifier_ once_)

/-- The visitor LogicalConsequence (logical_consequence.h:427-442): the term
is substituted through the incoming unifier and the generator is constructed
for the result. -/
def LogicalConsequence {D : Type} [DecidableEq D] [DoubleOps D] (n : Nat) (agent : Agent D)
    (unifier : Unifier D) (term : Term D) : Except Err (Gen D) :=
  match Unifier.apply n unifier term with
  | .error e => .error e
  | .ok substituted => .ok (LogicalConsequenceSubstituted agent unifier substituted)

/-- The sequence of unifiers a consumer of the interface obtains from a
generator: Next is called until it answers false, and Current is read after
every call that answered true. The first argument bounds the number of calls
and is the budget of each of them. -/
def Solutions {D : Type} [DecidableEq D] [DoubleOps D] :
    Nat → Agent D → Gen D → Except Err (List (Unifier D))
  | 0, _, _ => .error .out_of_fuel
  | n + 1, agent, gen =>
    match Next n agent gen with
    | .error e => .error e
    | .ok (false, _) => .ok []
    | .ok (true, gen1) =>
      match Solutions n agent gen1 with
      | .error e => .error e
      | .ok rest => .ok (Current gen1 :: rest)

/-- The answers of a given number of successive calls of Next, each with the
given budget. -/
def Answers {D : Type} [DecidableEq D] [DoubleOps D] (n : Nat) (agent : Agent D) :
    Nat → Gen D → Except Err (List Bool)
  | 0, _ => .ok []
  | calls + 1, gen =>
    match Next n agent gen with
    | .error e => .error e
    | .ok (answer, gen1) =>
      match Answers n agent calls gen1 with
      | .error e => .error e
      | .ok rest => .ok (answer :: rest)

/-- The generator yields exactly the given sequence of unifiers and is then
exhausted: some budget is enough for the enumeration to return it. -/
def Yields {D : Type} [DecidableEq D] [DoubleOps D] (agent : Agent D) (gen : Gen D)
    (sols : List (Unifier D)) : Prop :=
  ∃ n, Solutions n agent gen = .ok sols

/-- The enumeration the specification describes for an atom goal, second
part: for the given beliefs in order, the unifier left by every unification
of the goal with a belief, from a copy of the incoming unifier, that returns
true. -/
def SpecMatchingUnifiers {D : Type} [DecidableEq D] [DoubleOps D] (n : Nat) (goal : Term D)
    (σ : Unifier D) : List (BeliefAtom D) → Except Err (List (Unifier D))
  | [] => .ok []
  | belief :: rest =>
    match Unify n goal belief.toTerm σ with
    | .error e => .error e
    | .ok (unifies, σ1) =>
      match SpecMatchingUnifiers n goal σ rest with
      | .error e => .error e
      | .ok sols => if unifies then .ok (σ1 :: sols) else .ok sols

/-- The enumeration the specification describes for an atom goal g under an
incoming unifier σ: over the beliefs with the functor and arity of g, in
insertion order, the unifiers of apply(σ, g) with the belief. -/
def SpecAtomSolutions {D : Type} [DecidableEq D] [DoubleOps D] (n : Nat)
    (beliefs : List (BeliefAtom D)) (σ : Unifier D) (g : BeliefAtom D) :
    Except Err (List (Unifier D)) :=
  match Unifier.apply n σ g.toTerm with
  | .error e => .error e
  | .ok goal =>
    SpecMatchingUnifiers n goal σ
      (beliefs.filter (fun belief =>
        belief.functor = g.functor && belief.terms.length = g.terms.length))

/-- The nested iteration the specification describes for a conjunction,
inner part: for every solution σa of the left goal, in order, the solution
sequence of the goal apply(σa, b) under σa, concatenated. -/
def SpecNestedSolutions {D : Type} [DecidableEq D] [DoubleOps D] (n : Nat) (agent : Agent D)
    (b : Term D) : List (Unifier D) → Except Err (List (Unifier D))
  | [] => .ok []
  | σa :: rest =>
    match Unifier.apply n σa b with
    | .error e => .error e
    | .ok goal =>
      match Solutions n agent (LogicalConsequenceSubstituted agent σa goal) with
      | .error e => .error e
      | .ok sols =>
        match SpecNestedSolutions n agent b rest with
        | .error e => .error e
        | .ok more => .ok (sols ++ more)

/-- The nested iteration the specification describes for the conjunction of
the goals a and b under σ. -/
def SpecConjunctionSolutions {D : Type} [DecidableEq D] [DoubleOps D] (n : Nat)
    (agent : Agent D) (σ : Unifier D) (a b : Term D) : Except Err (List (Unifier D)) :=
  match Solutions n agent (LogicalConsequenceSubstituted agent σ a) with
  | .error e => .error e
  | .ok sas => SpecNestedSolutions n agent b sas

/-- The sequence the nested iteration of the specification gives for the
remaining solutions of a left generator: the left generator yields some
sequence, and the inner part of the iteration returns the given sequence
for it. -/
def NestedYields {D : Type} [DecidableEq D] [DoubleOps D] (agent : Agent D) (b : Term D)
    (left_gen_ : Gen D) (sols : List (Unifier D)) : Prop :=
  ∃ sas, Yields agent left_gen_ sas ∧ ∃ n, SpecNestedSolutions n agent b sas = .ok sols

/-- The sequence the nested iteration gives for a conjunction generator in a
given state: what the current right generator still yields, when it has
more, followed by the nested iteration over the rest of the left
generator. -/
def ConjunctionYields {D : Type} [DecidableEq D] [DoubleOps D] (agent : Agent D) (b : Term D)
    (left_gen_ : Gen D) (right_gen_ : Option (Gen D)) (right_has_more_ : Bool)
    (sols : List (Unifier D)) : Prop :=
  if right_has_more_ then
    ∃ r s1 s2, right_gen_ = some r ∧ Yields agent r s1 ∧ NestedYields agent b left_gen_ s2 ∧
      sols = s1 ++ s2
  else NestedYields agent b left_gen_ sols
/-! ## Reference definitions of the specification for the smart constructors -/

/-- The term is the given Bool literal. -/
def Term.isLiteral {D : Type} (value : Bool) : Term D → Bool
  | .bool b => b = value
  | _ => false

/-- The term is a bare variable. -/
def Term.isVariable {D : Type} : Term D → Bool
  | .var _ => true
  | _ => false

/-- The root of the term is an arithmetic operator wrapper. -/
def Term.isArithmeticResidual {D : Type} (t : Term D) : Bool :=
  match t.which with
  | .kPositive | .kNegative | .kPlus | .kMinus | .kPow | .kMultiply | .kDivide | .kDiv
  | .kMod => true
  | _ => false

/-- The root of the term is a logical operator wrapper. -/
def Term.isLogicalResidual {D : Type} (t : Term D) : Bool :=
  match t.which with
  | .kNot | .kAnd | .kOr | .kUnify | .kDeconstruct | .kEq | .kNeq | .kLt | .kLte => true
  | _ => false

/-- The reference definition of OpAnd in the specification: on operands whose
roots are Bool, Atom, Var, Not, And, Or, Unify, Deconstruct, Eq, Neq, Lt or
Lte it is false if either side is false; otherwise the right side if the
left is true and the right is not a bare variable; otherwise the left side
if the right is true and the left is not a bare variable; otherwise the
residual. On any other operand it raises a domain error. -/
def SpecAnd {D : Type} (a b : Term D) : Except Err (Term D) :=
  if IsValidContext a && IsValidContext b then
    if a.isLiteral false || b.isLiteral false then .ok (.bool false)
    else if a.isLiteral true && !b.isVariable then .ok b
    else if b.isLiteral true && !a.isVariable then .ok a
    else .ok (.binop .and a b)
  else .error .domain_error

/-- The shape of a right operand that the specification accepts for a
deconstruction with a variable on the left: a variable, or a list of exactly
two elements whose first is a zero-argument atom or a variable and whose
second is a list or a variable. -/
def SpecDeconstructShape {D : Type} : Term D → Bool
  | .var _ => true
  | .list [first, second] =>
    (match first with
      | .atom _ [] => true
      | .var _ => true
      | _ => false) &&
    (match second with
      | .list _ => true
      | .var _ => true
      | _ => false)
  | _ => false
/-! ## unification.h: the visitor Anonymizer -/

/-- The member find of the map mapping_ of the Anonymizer. -/
def Anonymizer.find : List (String × String) → String → Option String
  | [], _ => none
  | (k, v) :: rest, name => if k = name then some v else Anonymizer.find rest name

mutual
/-- The visitor Anonymizer (unification.h:29-96): the result and the map
mapping_ after the visit. The anonymous variable is kept, a variable seen
before gets the identifier stored for it, a new variable gets the next
identifier of the random generator, here the entry of the given sequence at
the number of identifiers generated so far; operator wrappers are rebuilt
with their smart constructors, the left operand being visited first. The
first argument is the recursion budget of the constructors. -/
def Anonymizer.visit {D : Type} [DecidableEq D] [DoubleOps D] (n : Nat) (names : Nat → String) :
    Term D → List (String × String) → Except Err (Term D × List (String × String))
  | .var name, mapping_ =>
    if name = "_" then .ok (.var name, mapping_)
    else
      match Anonymizer.find mapping_ name with
      | some anon => .ok (.var anon, mapping_)
      | none => .ok (.var (names mapping_.length), mapping_ ++ [(name, names mapping_.length)])
  | .list ts, mapping_ =>
    match Anonymizer.visitList n names ts mapping_ with
    | .error e => .error e
    | .ok (result, mapping1) => .ok (.list result, mapping1)
  | .atom functor ts, mapping_ =>
    match Anonymizer.visitList n names ts mapping_ with
    | .error e => .error e
    | .ok (result, mapping1) => .ok (.atom functor result, mapping1)
  | .unop op operand, mapping_ =>
    match Anonymizer.visit n names operand mapping_ with
    | .error e => .error e
    | .ok (x, mapping1) =>
      match UnOp.construct op x with
      | .error e => .error e
      | .ok t => .ok (t, mapping1)
  | .binop op left right, mapping_ =>
    match Anonymizer.visit n names left mapping_ with
    | .error e => .error e
    | .ok (l, mapping1) =>
      match Anonymizer.visit n names right mapping1 with
      | .error e => .error e
      | .ok (r, mapping2) =>
        match BinOp.constructWith (Unify n) op l r with
        | .error e => .error e
        | .ok t => .ok (t, mapping2)
  | .bool b, mapping_ => .ok (.bool b, mapping_)
  | .num x, mapping_ => .ok (.num x, mapping_)
  | .str s, mapping_ => .ok (.str s, mapping_)
/-- The element loop of the Anonymizer over a list or the arguments of an
atom. -/
def Anonymizer.visitList {D : Type} [DecidableEq D] [DoubleOps D] (n : Nat)
    (names : Nat → String) :
    List (Term D) → List (String × String) → Except Err (List (Term D) × List (String × String))
  | [], mapping_ => .ok ([], mapping_)
  | t :: ts, mapping_ =>
    match Anonymizer.visit n names t mapping_ with
    | .error e => .error e
    | .ok (t1, mapping1) =>
      match Anonymizer.visitList n names ts mapping1 with
      | .error e => .error e
      | .ok (ts1, mapping2) => .ok (t1 :: ts1, mapping2)
end

/-- The call boost::apply_visitor(anon, term) with a fresh Anonymizer. -/
def Anonymize {D : Type} [DecidableEq D] [DoubleOps D] (n : Nat) (names : Nat → String)
    (term : Term D) : Except Err (Term D) :=
  match Anonymizer.visit n names term [] with
  | .error e => .error e
  | .ok (t, _) => .ok t

/-! ## runtime/interpreter.cc -/

/-- The erase-remove idiom with the predicate Unifies(pattern)
(interpreter.cc:133-136 and 168-171, agent.h:129-135): the beliefs that do
not unify with the pattern, in their order. -/
def RemoveBeliefs {D : Type} [DecidableEq D] [DoubleOps D] (n : Nat) (pattern : Term D) :
    List (BeliefAtom D) → Except Err (List (BeliefAtom D))
  | [] => .ok []
  | belief :: rest =>
    match Unifies n pattern belief.toTerm with
    | .error e => .error e
    | .ok unifies =>
      match RemoveBeliefs n pattern rest with
      | .error e => .error e
      | .ok kept => if unifies then .ok kept else .ok (belief :: kept)

/-- The loop over the plans for an external frame (interpreter.cc:51-81):
the frame after the loop. The first plan with the trigger type and goal type
of the frame, whose trigger unifies with the trigger of the frame from the
empty unifier and whose context generator answers true on its first call,
sets the unifier, the body and the flag of the frame. -/
def SelectPlan {D : Type} [DecidableEq D] [DoubleOps D] (n : Nat) (agent : Agent D)
    (frame : IntentionFrame D) : List (Plan D) → Except Err (IntentionFrame D)
  | [] => .ok frame
  | plan :: rest =>
    if plan.trigger_type ≠ frame.trigger_type then SelectPlan n agent frame rest
    else if plan.goal_type ≠ frame.goal_type then SelectPlan n agent frame rest
    else
      match Unify n plan.trigger.toTerm frame.trigger.toTerm [] with
      | .error e => .error e
      | .ok (false, _) => SelectPlan n agent frame rest
      | .ok (true, unifier) =>
        match LogicalConsequence n agent unifier plan.context with
        | .error e => .error e
        | .ok gen =>
          match Next n agent gen with
          | .error e => .error e
          | .ok (false, _) => SelectPlan n agent frame rest
          | .ok (true, gen1) =>
            .ok { frame with unifier := Current gen1, body := plan.body, body_it := 0,
                             external := false }

/-- The element that the expression body_it - 1 of interpreter.cc:103 points
to: the body formula before the cursor of the frame, none when the cursor is
at the start of the body. -/
def IntentionFrame.previous {D : Type} (frame : IntentionFrame D) : Option (BodyFormula D) :=
  match frame.body_it with
  | 0 => none
  | before + 1 => frame.body.get? before

/-- The part of Interpreter::Run for a frame whose body is exhausted
(interpreter.cc:94-108): the trigger is completed through the unifier of the
frame and anonymized, the frame is popped, and when a caller frame remains
its formula before the cursor, substituted through its unifier, is unified
with the completed trigger in the unifier of the caller. -/
def FinishFrame {D : Type} [DecidableEq D] [DoubleOps D] (n : Nat) (names : Nat → String)
    (agent : Agent D) (frame : IntentionFrame D) (frames : List (IntentionFrame D))
    (intents : List (List (IntentionFrame D))) : Except Err (Bool × Agent D) :=
  match Unifier.apply n frame.unifier frame.trigger.toTerm with
  | .error e => .error e
  | .ok completed =>
    match Anonymize n names completed with
    | .error e => .error e
    | .ok completed_trigger =>
      match frames with
      | [] => .ok (true, { agent with intents := [] :: intents })
      | caller :: below =>
        match caller.previous with
        | none => .error .null_pointer
        | some formula =>
          match Unifier.apply n caller.unifier formula.formula with
          | .error e => .error e
          | .ok completed_caller =>
            match Unify n completed_caller completed_trigger caller.unifier with
            | .error e => .error e
            | .ok (_, unifier1) =>
              .ok (true, { agent with
                intents := ({ caller with unifier := unifier1 } :: below) :: intents })

/-- The case kAdd of Interpreter::Run (interpreter.cc:140-161), given the
belief base that the step starts from: the agent after the step, the cursor
of the frame advanced. -/
def AddStep {D : Type} [DecidableEq D] [DoubleOps D] (n : Nat) (agent : Agent D)
    (beliefs : List (BeliefAtom D)) (frame : IntentionFrame D)
    (frames : List (IntentionFrame D)) (intents : List (List (IntentionFrame D)))
    (formula : Term D) : Except Err (Bool × Agent D) :=
  match Unifier.apply n frame.unifier formula with
  | .error e => .error e
  | .ok substituted =>
    if formula.which = .kBeliefAtom then
      match substituted with
      | .atom functor terms =>
        if IsGroundList terms then
          .ok (true, { agent with
            beliefs := beliefs ++ [⟨functor, terms⟩],
            intents :=
              [{ IntentionFrame.ofTrigger ⟨functor, terms⟩ with goal_type := .kBelief }] ::
              ({ frame with body_it := frame.body_it + 1 } :: frames) :: intents })
        else .error .runtime_error
      | _ => .error .bad_get
    else .error .runtime_error

/-- The selection of a plan at the start of Interpreter::Run
(interpreter.cc:48-82): the front frame as the rest of the call sees it. An
external frame goes through the loop over the plans of the agent, a frame
that is not external is left as it is. -/
def SelectFrame {D : Type} [DecidableEq D] [DoubleOps D] (n : Nat) (agent : Agent D)
    (frame : IntentionFrame D) : Except Err (IntentionFrame D) :=
  if frame.external then SelectPlan n agent frame agent.plans else .ok frame

/-- The member Interpreter::Run (interpreter.cc:31-203) for the default
environment: the Boolean it returns and the agent after the step. The
arguments are the recursion budget of the calls it makes, the identifiers
that the random generator yields during the step, and the value of the one
read that the program does not determine: when no plan is found,
interpreter.cc:87 pops the intention, which destroys its frames, and
interpreter.cc:88 reads the goal type through the reference to the front
frame of that intention. The argument stale gives the goal type that this
read yields for the frame that was destroyed; for memory that is still
intact it is the field goal_type of the frame. What the step prints is not
part of the result. -/
def Run {D : Type} [DecidableEq D] [DoubleOps D] (n : Nat) (names : Nat → String)
    (stale : IntentionFrame D → GoalType) (agent : Agent D) : Except Err (Bool × Agent D) :=
  match agent.intents with
  | [] => .ok (false, agent)
  | [] :: intents => .ok (true, { agent with intents := intents })
  | (frame0 :: frames) :: intents =>
    match SelectFrame n agent frame0 with
    | .error e => .error e
    | .ok frame =>
      if frame.external then
        if stale frame = .kAchievement then .error .runtime_error
        else .ok (true, { agent with intents := intents })
      else
        match frame.body.get? frame.body_it with
        | none =>
          if frame.body_it = frame.body.length then
            FinishFrame n names agent frame frames intents
          else .error .null_pointer
        | some body_formula =>
          match body_formula.formula_type with
          | .kTerm =>
            match LogicalConsequence n agent frame.unifier body_formula.formula with
            | .error e => .error e
            | .ok gen =>
              match Next n agent gen with
              | .error e => .error e
              | .ok (true, gen1) =>
                .ok (true, { agent with
                  intents := ({ frame with unifier := Current gen1,
                                           body_it := frame.body_it + 1 } :: frames) :: intents })
              | .ok (false, _) =>
                match Unifier.apply n frame.unifier body_formula.formula with
                | .error e => .error e
                | .ok _ => .ok (true, { agent with intents := intents })
          | .kReplace =>
            match RemoveBeliefs n body_formula.formula agent.beliefs with
            | .error e => .error e
            | .ok kept => AddStep n agent kept frame frames intents body_formula.formula
          | .kAdd => AddStep n agent agent.beliefs frame frames intents body_formula.formula
          | .kRemove =>
            match Unifier.apply n frame.unifier body_formula.formula with
            | .error e => .error e
            | .ok pattern =>
              match RemoveBeliefs n pattern agent.beliefs with
              | .error e => .error e
              | .ok kept =>
                .ok (true, { agent with
                  beliefs := kept,
                  intents := ({ frame with body_it := frame.body_it + 1 } :: frames) :: intents })
          | .kAchieve =>
            match Unifier.apply n frame.unifier body_formula.formula with
            | .error e => .error e
            | .ok substituted =>
              match Anonymize n names substituted with
              | .error e => .error e
              | .ok anonymized =>
                if body_formula.formula.which = .kBeliefAtom then
                  match anonymized with
                  | .atom functor terms =>
                    .ok (true, { agent with
                      intents := (IntentionFrame.ofTrigger ⟨functor, terms⟩ ::
                        { frame with body_it := frame.body_it + 1 } :: frames) :: intents })
                  | _ => .error .bad_get
                else .error .runtime_error
          | .kAchieveLater => .error .runtime_error
          | .kTest => .error .runtime_error

/-- The loop of main.cc around Interpreter::Run, for a given number of
calls: the Booleans returned and the agent after the last call. Every call
gets the same budget, the same sequence of random identifiers and the same
values for the read of a destroyed frame. -/
def RunSteps {D : Type} [DecidableEq D] [DoubleOps D] (n : Nat) (names : Nat → String)
    (stale : IntentionFrame D → GoalType) :
    Nat → Agent D → Except Err (List Bool × Agent D)
  | 0, agent => .ok ([], agent)
  | calls + 1, agent =>
    match Run n names stale agent with
    | .error e => .error e
    | .ok (more, agent1) =>
      match RunSteps n names stale calls agent1 with
      | .error e => .error e
      | .ok (rest, agent2) => .ok (more :: rest, agent2)

/-- The plan applies to the external frame with the given first solution:
its trigger type and goal type are those of the frame, its trigger unifies
with the trigger of the frame from the empty unifier, and the generator of
its context under that unifier answers true on its first call and then
reports the solution. -/
def PlanApplies {D : Type} [DecidableEq D] [DoubleOps D] (n : Nat) (agent : Agent D)
    (frame : IntentionFrame D) (plan : Plan D) (solution : Unifier D) : Prop :=
  plan.trigger_type = frame.trigger_type ∧ plan.goal_type = frame.goal_type ∧
  ∃ unifier gen gen1,
    Unify n plan.trigger.toTerm frame.trigger.toTerm [] = .ok (true, unifier) ∧
    LogicalConsequence n agent unifier plan.context = .ok gen ∧
    Next n agent gen = .ok (true, gen1) ∧ Current gen1 = solution

/-- The plan is passed over for the external frame: its trigger type or goal
type differs from the frame, or its trigger does not unify with the trigger
of the frame, or the generator of its context answers false on its first
call. -/
def PlanSkipped {D : Type} [DecidableEq D] [DoubleOps D] (n : Nat) (agent : Agent D)
    (frame : IntentionFrame D) (plan : Plan D) : Prop :=
  plan.trigger_type ≠ frame.trigger_type ∨ plan.goal_type ≠ frame.goal_type ∨
  (∃ unifier, Unify n plan.trigger.toTerm frame.trigger.toTerm [] = .ok (false, unifier)) ∨
  ∃ unifier gen gen1,
    Unify n plan.trigger.toTerm frame.trigger.toTerm [] = .ok (true, unifier) ∧
    LogicalConsequence n agent unifier plan.context = .ok gen ∧
    Next n agent gen = .ok (false, gen1)
/-! ## Termination of the generators: the notions used to state it -/

/-- The goals built from first-order terms (Bool, Num, Str, List, Atom and
variables) with And, Or and Unify. -/
def PlainGoal {D : Type} : Term D → Bool
  | .binop .and l r => PlainGoal l && PlainGoal r
  | .binop .or l r => PlainGoal l && PlainGoal r
  | .binop .unify l r => IsUnifiable l && IsUnifiable r
  | t => IsUnifiable t

/-- The nesting depth of And and Or in a goal. -/
def goalDepth {D : Type} : Term D → Nat
  | .binop .and l r => max (goalDepth l) (goalDepth r) + 1
  | .binop .or l r => max (goalDepth l) (goalDepth r) + 1
  | _ => 0

/-- No variable of a leaf that a generator is constructed for right away is
bound by the unifier: the right operand of And is substituted later. -/
def ResolvedGoal {D : Type} (σ : Unifier D) : Term D → Prop
  | .binop .and l _ => ResolvedGoal σ l
  | .binop .or l r => ResolvedGoal σ l ∧ ResolvedGoal σ r
  | .binop .unify l r => Resolved σ l ∧ Resolved σ r
  | t => Resolved σ t

/-- The call of Next on the generator has the given outcome for every budget
from some budget on. -/
def NextSettles {D : Type} [DecidableEq D] [DoubleOps D] (agent : Agent D) (gen : Gen D)
    (r : Except Err (Bool × Gen D)) : Prop :=
  ∃ n, ∀ m, n ≤ m → Next m agent gen = r

/-- The given number of successive calls of Next all answer false. -/
def AnswersFalse {D : Type} [DecidableEq D] [DoubleOps D] (agent : Agent D) :
    Nat → Gen D → Prop
  | 0, _ => True
  | c + 1, gen => ∃ gen1, NextSettles agent gen (.ok (false, gen1)) ∧ AnswersFalse agent c gen1

/-- Every further call of Next answers false. -/
def Exhausted {D : Type} [DecidableEq D] [DoubleOps D] (agent : Agent D) (gen : Gen D) : Prop :=
  ∀ c, AnswersFalse agent c gen

/-- The generator answers true at most the given number of times: every call
of Next raises, or answers false and leaves an exhausted generator, or
answers true, reports a unifier with first-order acyclic bindings and leaves
a generator that answers true at most one time less. -/
def AtMost {D : Type} [DecidableEq D] [DoubleOps D] (agent : Agent D) : Nat → Gen D → Prop
  | 0, gen =>
    (∃ e, e ≠ .out_of_fuel ∧ NextSettles agent gen (.error e)) ∨
    ∃ gen1, NextSettles agent gen (.ok (false, gen1)) ∧ Exhausted agent gen1
  | k + 1, gen =>
    (∃ e, e ≠ .out_of_fuel ∧ NextSettles agent gen (.error e)) ∨
    (∃ gen1, NextSettles agent gen (.ok (false, gen1)) ∧ Exhausted agent gen1) ∨
    ∃ gen1, NextSettles agent gen (.ok (true, gen1)) ∧
      (Current gen1).FirstOrder ∧ (Current gen1).Acyclic ∧ AtMost agent k gen1
/-! ## Smart constructors under substitution: notions -/

/-- The tags of the arithmetic terms that are not a variable: a number or
an arithmetic operator wrapper. -/
def TermType.isArith : TermType → Bool
  | .kDouble | .kPositive | .kNegative | .kPlus | .kMinus | .kPow | .kMultiply | .kDivide
  | .kDiv | .kMod => true
  | _ => false

/-- The number of negations at the root of a term. -/
def notDepth {D : Type} : Term D → Nat
  | .unop .not x => notDepth x + 1
  | _ => 0

/-- The substitution visitor maps the term t to r: from some recursion
budget on it returns r. -/
def Unifier.Maps {D : Type} [DecidableEq D] [DoubleOps D] (σ : Unifier D) (t r : Term D) :
    Prop :=
  ∃ k, ∀ m, k ≤ m → Unifier.apply m σ t = .ok r


/-- The operand without a unary plus at its root: what the binary
arithmetic constructors keep of an operand. -/
def stripPositive {D : Type} : Term D → Term D
  | .unop .positive operand => operand
  | t => t

/-- The seven binary arithmetic operators. -/
def BinOp.isArith : BinOp → Bool
  | .plus | .minus | .pow | .multiply | .divide | .div | .mod => true
  | _ => false

/-- The element loop of the substitution visitor maps the list ts to rs: from
some recursion budget on it returns rs. -/
def Unifier.MapsList {D : Type} [DecidableEq D] [DoubleOps D] (σ : Unifier D)
    (ts rs : List (Term D)) : Prop :=
  ∃ k, ∀ m, k ≤ m → applyList (Unifier.apply m σ) ts = .ok rs

/-- The operands on which a unary smart constructor commutes with
substitution: those on which it returns the plain residual over its operand,
every operand of OpPositive, the operands of OpNegative that are not a
negation, and the operands of OpNot that are not a residual Eq, Lt or Lte.
The arguments are the operator, the operand and the result of the
constructor on it. -/
def UnOp.InScope {D : Type} (op : UnOp) (c u : Term D) : Prop :=
  u = .unop op c ∨
  match op with
  | .positive => True
  | .negative => c.which ≠ .kNegative
  | .not => c.which ≠ .kEq ∧ c.which ≠ .kLt ∧ c.which ≠ .kLte

/-- The operands on which a binary smart constructor commutes with
substitution: those on which it returns the plain residual over its
operands; every pair of operands of OpAnd, OpOr, OpUnify, OpPow, OpMultiply,
OpDivide, OpDiv and OpMod; the operands of OpPlus and OpMinus whose right one
is not a negation; the operands on which OpDeconstruct does not return the
literal false; and for the four comparisons the first-order operands whose
left one is mapped to a first-order term without NaN, for OpLt and OpLte in
numbers of which none is less than itself. The arguments are the operator,
the two operands, the substituted left operand and the result of the
constructor on the operands. -/
def BinOp.InScope {D : Type} [DoubleOps D] (op : BinOp) (a b a1 t : Term D) : Prop :=
  t = .binop op a b ∨
  match op with
  | .plus | .minus => b.which ≠ .kNegative
  | .pow | .multiply | .divide | .div | .mod | .and | .or | .unify => True
  | .deconstruct => t ≠ .bool false
  | .eq | .neq =>
    IsUnifiable a = true ∧ IsUnifiable b = true ∧ IsUnifiable a1 = true ∧ NoNaN a1 = true
  | .lt | .lte =>
    IsUnifiable a = true ∧ IsUnifiable b = true ∧ IsUnifiable a1 = true ∧ NoNaN a1 = true ∧
      ∀ x : D, DoubleOps.lt x x = false

/-! ## Basic facts -/

theorem charsLt_irrefl (a : List Char) : charsLt a a = false := by
  induction a with
  | nil => rfl
  | cons c cs ih => simp [charsLt, ih]

theorem charsLt_asymm (a b : List Char) : charsLt a b = true → charsLt b a = false := by
  induction a generalizing b with
  | nil => cases b <;> simp [charsLt]
  | cons c cs ih =>
    cases b with
    | nil => simp [charsLt]
    | cons d ds =>
      simp only [charsLt]
      intro h
      split at h
      · rename_i hlt
        have h1 : ¬ d.toNat < c.toNat := by omega
        simp [h1, hlt]
      · split at h
        · simp at h
        · rename_i h1 h2
          simp [h1, h2, ih ds h]

theorem strLt_irrefl (a : String) : strLt a a = false := charsLt_irrefl _

theorem strLt_asymm (a b : String) : strLt a b = true → strLt b a = false :=
  charsLt_asymm _ _

theorem strLt_ne (a b : String) : strLt a b = true → a ≠ b := by
  intro h e
  rw [e, strLt_irrefl] at h
  cases h

theorem substList_eq_map {D : Type} (θ : Subst D) (ts : List (Term D)) :
    Term.substList θ ts = ts.map (Term.subst θ) := by
  induction ts with
  | nil => simp [Term.substList]
  | cons t ts ih => simp [Term.substList, ih]

theorem isUnifiableList_iff {D : Type} (ts : List (Term D)) :
    IsUnifiableList ts = true ↔ ∀ t ∈ ts, IsUnifiable t = true := by
  induction ts with
  | nil => simp [IsUnifiableList]
  | cons t ts ih =>
    simp only [IsUnifiableList, List.mem_cons, forall_eq_or_imp]
    cases h : IsUnifiable t <;> simp [ih]

theorem isGroundList_iff {D : Type} (ts : List (Term D)) :
    IsGroundList ts = true ↔ ∀ t ∈ ts, IsGround t = true := by
  induction ts with
  | nil => simp [IsGroundList]
  | cons t ts ih =>
    simp only [IsGroundList, List.mem_cons, forall_eq_or_imp]
    cases h : IsGround t <;> simp [ih]

theorem containsVariableList_iff {D : Type} (v : String) (ts : List (Term D)) :
    ContainsVariableList v ts = true ↔ ∃ t ∈ ts, ContainsVariable v t = true := by
  induction ts with
  | nil => simp [ContainsVariableList]
  | cons t ts ih =>
    simp only [ContainsVariableList, List.mem_cons, exists_eq_or_imp]
    cases h : ContainsVariable v t <;> simp [ih]

theorem containsVariableList_eq_false {D : Type} (v : String) (ts : List (Term D)) :
    ContainsVariableList v ts = false ↔ ∀ t ∈ ts, ContainsVariable v t = false := by
  rw [← Bool.not_eq_true, containsVariableList_iff]
  simp

/-! ## The recursion budget: a result other than out_of_fuel is kept by every larger budget -/

theorem Below.ok {α : Type} {a b : Except Err α} {x : α} (h : Below a b) (ha : a = .ok x) :
    b = .ok x := by
  rcases h with h | h
  · rw [h] at ha; cases ha
  · rw [← h]; exact ha

theorem Below.error {α : Type} {a b : Except Err α} {e : Err} (h : Below a b)
    (ha : a = .error e) (he : e ≠ .out_of_fuel) : b = .error e := by
  rcases h with h | h
  · rw [h] at ha; cases ha; exact absurd rfl he
  · rw [← h]; exact ha

theorem applyList_below {D : Type} (visit visit1 : Term D → Except Err (Term D))
    (h : ∀ t, Below (visit t) (visit1 t)) :
    ∀ ts, Below (applyList visit ts) (applyList visit1 ts) := by
  intro ts
  induction ts with
  | nil => right; rfl
  | cons t ts ih =>
    simp only [applyList]
    rcases h t with h1 | h1
    · left; rw [h1]
    · rw [← h1]
      cases visit t with
      | error e => right; rfl
      | ok t1 =>
        simp only
        rcases ih with h2 | h2
        · left; rw [h2]
        · rw [← h2]; right; rfl

theorem unifyListsLoop_below {D : Type}
    (visit visit1 : Unifier D → Term D → Except Err (Term D))
    (unify unify1 : Term D → Term D → Unifier D → Except Err (Bool × Unifier D))
    (hv : ∀ σ t, Below (visit σ t) (visit1 σ t))
    (hu : ∀ l r σ, Below (unify l r σ) (unify1 l r σ)) :
    ∀ ls rs σ, Below (UnifyListsLoop visit unify ls rs σ)
      (UnifyListsLoop visit1 unify1 ls rs σ) := by
  intro ls
  induction ls with
  | nil => intro rs σ; right; simp [UnifyListsLoop]
  | cons l ls ih =>
    intro rs σ
    cases rs with
    | nil => right; simp [UnifyListsLoop]
    | cons r rs =>
      simp only [UnifyListsLoop]
      rcases hv σ l with h1 | h1
      · left; rw [h1]
      · rw [← h1]
        cases visit σ l with
        | error e => right; rfl
        | ok lhs =>
          simp only
          rcases hv σ r with h2 | h2
          · left; rw [h2]
          · rw [← h2]
            cases visit σ r with
            | error e => right; rfl
            | ok rhs =>
              simp only
              rcases hu lhs rhs σ with h3 | h3
              · left; rw [h3]
              · rw [← h3]
                cases unify lhs rhs σ with
                | error e => right; rfl
                | ok p =>
                  obtain ⟨b, σ1⟩ := p
                  cases b with
                  | false => right; rfl
                  | true => simpa using ih rs σ1

theorem unifyListsWith_below {D : Type}
    (visit visit1 : Unifier D → Term D → Except Err (Term D))
    (unify unify1 : Term D → Term D → Unifier D → Except Err (Bool × Unifier D))
    (hv : ∀ σ t, Below (visit σ t) (visit1 σ t))
    (hu : ∀ l r σ, Below (unify l r σ) (unify1 l r σ))
    (ls rs : List (Term D)) (σ : Unifier D) :
    Below (UnifyListsWith visit unify ls rs σ) (UnifyListsWith visit1 unify1 ls rs σ) := by
  unfold UnifyListsWith
  split
  · right; rfl
  · cases ls with
    | nil => right; rfl
    | cons l ls =>
      cases rs with
      | nil => right; rfl
      | cons r rs =>
        simp only
        rcases hu l r σ with h3 | h3
        · left; rw [h3]
        · rw [← h3]
          cases unify l r σ with
          | error e => right; rfl
          | ok p =>
            obtain ⟨b, σ1⟩ := p
            cases b with
            | false => right; rfl
            | true => simpa using unifyListsLoop_below visit visit1 unify unify1 hv hu ls rs σ1

theorem opUnifyWith_eq {D : Type}
    (unify : Term D → Term D → Unifier D → Except Err (Bool × Unifier D))
    (l r : Term D) : OpUnifyWith unify l r = .ok (.binop .unify l r) := by
  simp [OpUnifyWith, IsUnifiable.callOnTerm, IsGround.callOnTerm]

theorem opDeconstructWith_congr {D : Type}
    (unify unify1 : Term D → Term D → Unifier D → Except Err (Bool × Unifier D))
    (l r : Term D) : OpDeconstructWith unify l r = OpDeconstructWith unify1 l r := by
  unfold OpDeconstructWith
  simp only [opUnifyWith_eq]

theorem constructWith_congr {D : Type} [DecidableEq D] [DoubleOps D]
    (unify unify1 : Term D → Term D → Unifier D → Except Err (Bool × Unifier D))
    (op : BinOp) (l r : Term D) :
    BinOp.constructWith unify op l r = BinOp.constructWith unify1 op l r := by
  cases op <;> simp only [BinOp.constructWith, opUnifyWith_eq]
  exact opDeconstructWith_congr unify unify1 l r

theorem apply_unify_succ {D : Type} [DecidableEq D] [DoubleOps D] (n : Nat) :
    (∀ (σ : Unifier D) t, Below (Unifier.apply n σ t) (Unifier.apply (n + 1) σ t)) ∧
    (∀ (l r : Term D) σ, Below (Unify n l r σ) (Unify (n + 1) l r σ)) := by
  induction n with
  | zero =>
    constructor
    · intro σ t; left; rw [Unifier.apply]
    · intro l r σ; left; rw [Unify]
  | succ n ih =>
    obtain ⟨iha, ihu⟩ := ih
    constructor
    · intro σ t
      cases t with
      | var name =>
        simp only [Unifier.apply]
        cases hf : Unifier.find σ name with
        | none => right; rfl
        | some bound => exact iha σ bound
      | list ts =>
        simp only [Unifier.apply]
        rcases applyList_below _ _ (iha σ) ts with h | h
        · left; rw [h]
        · rw [← h]; right; rfl
      | atom f ts =>
        simp only [Unifier.apply]
        rcases applyList_below _ _ (iha σ) ts with h | h
        · left; rw [h]
        · rw [← h]; right; rfl
      | unop op t =>
        simp only [Unifier.apply]
        rcases iha σ t with h | h
        · left; rw [h]
        · rw [← h]; right; rfl
      | binop op l r =>
        simp only [Unifier.apply]
        rcases iha σ l with h | h
        · left; rw [h]
        · rw [← h]
          cases Unifier.apply n σ l with
          | error e => right; rfl
          | ok l1 =>
            simp only
            rcases iha σ r with h2 | h2
            · left; rw [h2]
            · rw [← h2]
              cases Unifier.apply n σ r with
              | error e => right; rfl
              | ok r1 =>
                simp only
                rw [constructWith_congr (Unify (n + 1)) (Unify n)]
                right; rfl
      | bool b => right; simp only [Unifier.apply]
      | num x => right; simp only [Unifier.apply]
      | str s => right; simp only [Unifier.apply]
    · intro l r σ
      rw [Unify, Unify]
      split
      · right; rfl
      · split
        · right; rfl
        · split
          all_goals first
            | (right; rfl)
            | exact unifyListsWith_below _ _ _ _ iha ihu _ _ _
            | (split
               · right; rfl
               · exact unifyListsWith_below _ _ _ _ iha ihu _ _ _)

theorem apply_below {D : Type} [DecidableEq D] [DoubleOps D] (σ : Unifier D) (t : Term D)
    (n m : Nat) (h : n ≤ m) : Below (Unifier.apply n σ t) (Unifier.apply m σ t) := by
  induction m with
  | zero =>
    have : n = 0 := by omega
    subst this; right; rfl
  | succ m ih =>
    by_cases hn : n = m + 1
    · subst hn; right; rfl
    · rcases ih (by omega) with h1 | h1
      · left; exact h1
      · rw [h1]; exact (apply_unify_succ m).1 σ t

theorem unify_below {D : Type} [DecidableEq D] [DoubleOps D] (l r : Term D) (σ : Unifier D)
    (n m : Nat) (h : n ≤ m) : Below (Unify n l r σ) (Unify m l r σ) := by
  induction m with
  | zero =>
    have : n = 0 := by omega
    subst this; right; rfl
  | succ m ih =>
    by_cases hn : n = m + 1
    · subst hn; right; rfl
    · rcases ih (by omega) with h1 | h1
      · left; exact h1
      · rw [h1]; exact (apply_unify_succ m).2 l r σ

theorem apply_mono {D : Type} [DecidableEq D] [DoubleOps D] {σ : Unifier D} {t t1 : Term D}
    {n m : Nat} (h : Unifier.apply n σ t = .ok t1) (hnm : n ≤ m) :
    Unifier.apply m σ t = .ok t1 :=
  (apply_below σ t n m hnm).ok h

theorem unify_mono {D : Type} [DecidableEq D] [DoubleOps D] {l r : Term D} {σ : Unifier D}
    {res : Bool × Unifier D} {n m : Nat} (h : Unify n l r σ = .ok res) (hnm : n ≤ m) :
    Unify m l r σ = .ok res :=
  (unify_below l r σ n m hnm).ok h

/-! ## Occurrence of variables -/

theorem contains_of_occurs {D : Type} (v : String) (t : Term D) (h : Occurs v t) :
    ContainsVariable v t = true := by
  induction h with
  | var => simp [ContainsVariable]
  | list hmem _ ih =>
    simp only [ContainsVariable]
    exact (containsVariableList_iff v _).2 ⟨_, hmem, ih⟩
  | atom hmem _ ih =>
    simp only [ContainsVariable]
    exact (containsVariableList_iff v _).2 ⟨_, hmem, ih⟩

mutual
theorem occurs_of_contains {D : Type} (v : String) :
    ∀ t : Term D, ContainsVariable v t = true → Occurs v t
  | .var name, h => by
    simp only [ContainsVariable, decide_eq_true_eq] at h
    subst h
    exact .var
  | .list ts, h => by
    simp only [ContainsVariable] at h
    obtain ⟨t, ht, hc⟩ := occursList_of_contains v ts h
    exact .list ht hc
  | .atom _ ts, h => by
    simp only [ContainsVariable] at h
    obtain ⟨t, ht, hc⟩ := occursList_of_contains v ts h
    exact .atom ht hc
  | .bool _, h => by simp [ContainsVariable] at h
  | .num _, h => by simp [ContainsVariable] at h
  | .str _, h => by simp [ContainsVariable] at h
  | .unop _ _, h => by simp [ContainsVariable] at h
  | .binop _ _ _, h => by simp [ContainsVariable] at h
theorem occursList_of_contains {D : Type} (v : String) :
    ∀ ts : List (Term D), ContainsVariableList v ts = true → ∃ t ∈ ts, Occurs v t
  | [], h => by simp [ContainsVariableList] at h
  | t :: ts, h => by
    simp only [ContainsVariableList] at h
    by_cases hc : ContainsVariable v t = true
    · exact ⟨t, by simp, occurs_of_contains v t hc⟩
    · simp only [hc, Bool.false_eq_true, if_false] at h
      obtain ⟨u, hu, ho⟩ := occursList_of_contains v ts h
      exact ⟨u, by simp [hu], ho⟩
end

theorem occurs_iff_contains {D : Type} (v : String) (t : Term D) :
    Occurs v t ↔ ContainsVariable v t = true :=
  ⟨contains_of_occurs v t, occurs_of_contains v t⟩

/-! ## The map operations -/

theorem find_set_self {D : Type} (σ : Unifier D) (k : String) (t : Term D) :
    Unifier.find (Unifier.set σ k t) k = some t := by
  induction σ with
  | nil => simp [Unifier.set, Unifier.find]
  | cons p σ ih =>
    obtain ⟨k1, v1⟩ := p
    by_cases h : k1 = k
    · simp [Unifier.set, Unifier.find, h]
    · simp [Unifier.set, Unifier.find, h, ih]

theorem find_set_other {D : Type} (σ : Unifier D) (k k1 : String) (t : Term D) (h : k1 ≠ k) :
    Unifier.find (Unifier.set σ k t) k1 = Unifier.find σ k1 := by
  induction σ with
  | nil => simp [Unifier.set, Unifier.find, h.symm]
  | cons p σ ih =>
    obtain ⟨k2, v2⟩ := p
    by_cases h2 : k2 = k
    · subst h2
      simp [Unifier.set, Unifier.find, h.symm]
    · by_cases h3 : k2 = k1
      · subst h3
        simp [Unifier.set, Unifier.find, h2]
      · simp [Unifier.set, Unifier.find, h2, h3, ih]

theorem set_of_find_none {D : Type} (σ : Unifier D) (k : String) (t : Term D)
    (h : Unifier.find σ k = none) : Unifier.set σ k t = σ ++ [(k, t)] := by
  induction σ with
  | nil => simp [Unifier.set]
  | cons p σ ih =>
    obtain ⟨k1, v1⟩ := p
    by_cases h1 : k1 = k
    · simp [Unifier.find, h1] at h
    · simp only [Unifier.find, h1, if_false] at h
      simp [Unifier.set, h1, ih h]

/-! ## The substitution visitor on first-order terms -/

theorem applyList_ok_iff {D : Type} (visit : Term D → Except Err (Term D)) :
    ∀ (ts ts1 : List (Term D)), applyList visit ts = .ok ts1 ↔
      List.Forall₂ (fun t t1 => visit t = .ok t1) ts ts1 := by
  intro ts
  induction ts with
  | nil =>
    intro ts1
    cases ts1 <;> simp [applyList]
  | cons t ts ih =>
    intro ts1
    simp only [applyList]
    cases hv : visit t with
    | error e =>
      simp only [reduceCtorEq, false_iff]
      intro h
      cases h with
      | cons h1 _ => rw [hv] at h1; cases h1
    | ok t1 =>
      simp only
      cases hl : applyList visit ts with
      | error e =>
        simp only [reduceCtorEq, false_iff]
        intro h
        cases h with
        | cons _ h2 => rw [(ih _).2 h2] at hl; cases hl
      | ok ts2 =>
        simp only [Except.ok.injEq]
        constructor
        · intro h
          subst h
          exact .cons hv ((ih _).1 hl)
        · intro h
          cases h with
          | cons h1 h2 =>
            rw [hv] at h1
            rw [(ih _).2 h2] at hl
            cases h1; cases hl; rfl

theorem forall₂_imp_mem {α β : Type} {R S : α → β → Prop} {as : List α} {bs : List β}
    (h : List.Forall₂ R as bs) (himp : ∀ a ∈ as, ∀ b, R a b → S a b) : List.Forall₂ S as bs := by
  induction h with
  | nil => exact .nil
  | cons h1 _ ih =>
    exact .cons (himp _ (List.mem_cons_self _ _) _ h1)
      (ih (fun a ha b hab => himp a (List.mem_cons_of_mem _ ha) b hab))

theorem forall₂_right_mem {α β : Type} {R : α → β → Prop} {as : List α} {bs : List β}
    (h : List.Forall₂ R as bs) : ∀ b ∈ bs, ∃ a ∈ as, R a b := by
  induction h with
  | nil => intro b hb; cases hb
  | cons h1 _ ih =>
    intro b hb
    rcases List.mem_cons.1 hb with hb | hb
    · subst hb; exact ⟨_, List.mem_cons_self _ _, h1⟩
    · obtain ⟨a, ha, hab⟩ := ih b hb
      exact ⟨a, List.mem_cons_of_mem _ ha, hab⟩

theorem forall₂_left_mem {α β : Type} {R : α → β → Prop} {as : List α} {bs : List β}
    (h : List.Forall₂ R as bs) : ∀ a ∈ as, ∃ b ∈ bs, R a b := by
  induction h with
  | nil => intro a ha; cases ha
  | cons h1 _ ih =>
    intro a ha
    rcases List.mem_cons.1 ha with ha | ha
    · subst ha; exact ⟨_, List.mem_cons_self _ _, h1⟩
    · obtain ⟨b, hb, hab⟩ := ih a ha
      exact ⟨b, List.mem_cons_of_mem _ hb, hab⟩

theorem forall₂_self {α : Type} {R : α → α → Prop} {as : List α} (h : ∀ a ∈ as, R a a) :
    List.Forall₂ R as as := by
  induction as with
  | nil => exact .nil
  | cons a as ih =>
    exact .cons (h a (List.mem_cons_self _ _)) (ih (fun b hb => h b (List.mem_cons_of_mem _ hb)))

theorem forall₂_map_eq {α β : Type} {f g : α → β} {as bs : List α}
    (h : List.Forall₂ (fun a b => g b = f a) as bs) : bs.map g = as.map f := by
  induction h with
  | nil => rfl
  | cons h1 _ ih => simp [h1, ih]

theorem applySpec_list {D : Type} [DecidableEq D] [DoubleOps D] (n : Nat) (σ : Unifier D)
    (ts ts1 : List (Term D)) (h : List.Forall₂ (ApplySpec n σ) ts ts1) :
    IsUnifiableList ts1 = true ∧
    (∀ v, ContainsVariableList v ts1 = true → Unifier.find σ v = none) ∧
    applyList (Unifier.apply n σ) ts1 = .ok ts1 ∧
    (∀ θ, Solves θ σ → Term.substList θ ts1 = Term.substList θ ts) ∧
    (∀ w, ContainsVariableList w ts1 = true →
      ContainsVariableList w ts = true ∨
        ∃ k v, Unifier.find σ k = some v ∧ ContainsVariable w v = true) ∧
    (∀ w, ContainsVariableList w ts = true → Unifier.find σ w = none →
      ContainsVariableList w ts1 = true) := by
  refine ⟨?_, ?_, ?_, ?_, ?_, ?_⟩
  · rw [isUnifiableList_iff]
    intro t1 ht1
    obtain ⟨t, _, ht⟩ := forall₂_right_mem h t1 ht1
    exact ht.1
  · intro v hv
    obtain ⟨t1, ht1, hc⟩ := (containsVariableList_iff v ts1).1 hv
    obtain ⟨t, _, ht⟩ := forall₂_right_mem h t1 ht1
    exact ht.2.1 v hc
  · rw [applyList_ok_iff]
    apply forall₂_self
    intro t1 ht1
    obtain ⟨t, _, ht⟩ := forall₂_right_mem h t1 ht1
    exact ht.2.2.1
  · intro θ hθ
    rw [substList_eq_map, substList_eq_map]
    apply forall₂_map_eq
    exact forall₂_imp_mem h (fun a _ b hab => hab.2.2.2.1 θ hθ)
  · intro w hw
    obtain ⟨t1, ht1, hc⟩ := (containsVariableList_iff w ts1).1 hw
    obtain ⟨t, htm, ht⟩ := forall₂_right_mem h t1 ht1
    rcases ht.2.2.2.2.1 w hc with h1 | h1
    · left; exact (containsVariableList_iff w ts).2 ⟨t, htm, h1⟩
    · right; exact h1
  · intro w hw hf
    obtain ⟨t, htm, hc⟩ := (containsVariableList_iff w ts).1 hw
    obtain ⟨t1, ht1, ht⟩ := forall₂_left_mem h t htm
    exact (containsVariableList_iff w ts1).2 ⟨t1, ht1, ht.2.2.2.2.2 w hc hf⟩

theorem apply_spec {D : Type} [DecidableEq D] [DoubleOps D] (σ : Unifier D)
    (hσ : σ.FirstOrder) :
    ∀ (n : Nat) (t t1 : Term D), IsUnifiable t = true → Unifier.apply n σ t = .ok t1 →
      ApplySpec n σ t t1 := by
  intro n
  induction n with
  | zero => intro t t1 _ h; simp [Unifier.apply] at h
  | succ n ih =>
    intro t t1 hfo h
    cases t with
    | var name =>
      simp only [Unifier.apply] at h
      cases hf : Unifier.find σ name with
      | none =>
        rw [hf] at h
        simp only [Except.ok.injEq] at h
        subst h
        refine ⟨hfo, ?_, ?_, fun _ _ => rfl, fun w hw => Or.inl hw, fun w hw _ => hw⟩
        · intro v hv
          simp only [ContainsVariable, decide_eq_true_eq] at hv
          subst hv; exact hf
        · simp [Unifier.apply, hf]
      | some bound =>
        rw [hf] at h
        simp only at h
        obtain ⟨h1, h2, h3, h4, h5, _⟩ := ih bound t1 (hσ _ _ hf) h
        refine ⟨h1, h2, apply_mono h3 (Nat.le_succ n), ?_, ?_, ?_⟩
        · intro θ hθ
          rw [h4 θ hθ]
          simp only [Term.subst]
          exact (hθ _ _ hf).symm
        · intro w hw
          rcases h5 w hw with h6 | h6
          · right; exact ⟨name, bound, hf, h6⟩
          · right; exact h6
        · intro w hw hnone
          simp only [ContainsVariable, decide_eq_true_eq] at hw
          subst hw
          rw [hf] at hnone; cases hnone
    | list ts =>
      simp only [Unifier.apply] at h
      cases hl : applyList (Unifier.apply n σ) ts with
      | error e => rw [hl] at h; cases h
      | ok ts1 =>
        rw [hl] at h
        simp only [Except.ok.injEq] at h
        subst h
        simp only [IsUnifiable] at hfo
        have hall := forall₂_imp_mem ((applyList_ok_iff _ _ _).1 hl)
          (fun a ha b hab => ih a b ((isUnifiableList_iff ts).1 hfo a ha) hab)
        obtain ⟨h1, h2, h3, h4, h5, h6⟩ := applySpec_list n σ ts ts1 hall
        refine ⟨by simpa [IsUnifiable] using h1, ?_, ?_, ?_, ?_, ?_⟩
        · intro v hv; exact h2 v (by simpa [ContainsVariable] using hv)
        · simp [Unifier.apply, h3]
        · intro θ hθ; simp [Term.subst, h4 θ hθ]
        · intro w hw; simpa [ContainsVariable] using h5 w (by simpa [ContainsVariable] using hw)
        · intro w hw hf
          simpa [ContainsVariable] using h6 w (by simpa [ContainsVariable] using hw) hf
    | atom f ts =>
      simp only [Unifier.apply] at h
      cases hl : applyList (Unifier.apply n σ) ts with
      | error e => rw [hl] at h; cases h
      | ok ts1 =>
        rw [hl] at h
        simp only [Except.ok.injEq] at h
        subst h
        simp only [IsUnifiable] at hfo
        have hall := forall₂_imp_mem ((applyList_ok_iff _ _ _).1 hl)
          (fun a ha b hab => ih a b ((isUnifiableList_iff ts).1 hfo a ha) hab)
        obtain ⟨h1, h2, h3, h4, h5, h6⟩ := applySpec_list n σ ts ts1 hall
        refine ⟨by simpa [IsUnifiable] using h1, ?_, ?_, ?_, ?_, ?_⟩
        · intro v hv; exact h2 v (by simpa [ContainsVariable] using hv)
        · simp [Unifier.apply, h3]
        · intro θ hθ; simp [Term.subst, h4 θ hθ]
        · intro w hw; simpa [ContainsVariable] using h5 w (by simpa [ContainsVariable] using hw)
        · intro w hw hf
          simpa [ContainsVariable] using h6 w (by simpa [ContainsVariable] using hw) hf
    | bool b =>
      simp only [Unifier.apply, Except.ok.injEq] at h
      subst h
      exact ⟨hfo, fun v hv => by simp [ContainsVariable] at hv, by simp [Unifier.apply],
        fun _ _ => rfl, fun w hw => Or.inl hw, fun w hw _ => hw⟩
    | num x =>
      simp only [Unifier.apply, Except.ok.injEq] at h
      subst h
      exact ⟨hfo, fun v hv => by simp [ContainsVariable] at hv, by simp [Unifier.apply],
        fun _ _ => rfl, fun w hw => Or.inl hw, fun w hw _ => hw⟩
    | str s =>
      simp only [Unifier.apply, Except.ok.injEq] at h
      subst h
      exact ⟨hfo, fun v hv => by simp [ContainsVariable] at hv, by simp [Unifier.apply],
        fun _ _ => rfl, fun w hw => Or.inl hw, fun w hw _ => hw⟩
    | unop op x => simp [IsUnifiable] at hfo
    | binop op x y => simp [IsUnifiable] at hfo

/-! ## Termination of the substitution visitor under acyclic bindings -/

theorem apply_det {D : Type} [DecidableEq D] [DoubleOps D] {σ : Unifier D} {t t1 t2 : Term D}
    {n m : Nat} (h1 : Unifier.apply n σ t = .ok t1) (h2 : Unifier.apply m σ t = .ok t2) :
    t1 = t2 := by
  have h3 := apply_mono h1 (Nat.le_max_left n m)
  have h4 := apply_mono h2 (Nat.le_max_right n m)
  rw [h3] at h4
  cases h4; rfl

theorem unify_det {D : Type} [DecidableEq D] [DoubleOps D] {σ : Unifier D} {l r : Term D}
    {a b : Bool × Unifier D} {n m : Nat} (h1 : Unify n l r σ = .ok a)
    (h2 : Unify m l r σ = .ok b) : a = b := by
  have h3 := unify_mono h1 (Nat.le_max_left n m)
  have h4 := unify_mono h2 (Nat.le_max_right n m)
  rw [h3] at h4
  cases h4; rfl

theorem applyList_mono {D : Type} [DecidableEq D] [DoubleOps D] {σ : Unifier D}
    {ts ts1 : List (Term D)} {n m : Nat}
    (h : applyList (Unifier.apply n σ) ts = .ok ts1) (hnm : n ≤ m) :
    applyList (Unifier.apply m σ) ts = .ok ts1 :=
  (applyList_below _ _ (fun t => apply_below σ t n m hnm) ts).ok h

mutual
theorem apply_of_vars {D : Type} [DecidableEq D] [DoubleOps D] (σ : Unifier D)
    (θ : Subst D) :
    ∀ t : Term D, IsUnifiable t = true →
      (∀ w, ContainsVariable w t = true → ∃ n, Unifier.apply n σ (.var w) = .ok (θ w)) →
      ∃ n, Unifier.apply n σ t = .ok (Term.subst θ t)
  | .var name, _, h => by
    simpa [Term.subst] using h name (by simp [ContainsVariable])
  | .list ts, hfo, h => by
    simp only [IsUnifiable] at hfo
    obtain ⟨n, hn⟩ := applyList_of_vars σ θ ts hfo
      (fun w hw => h w (by simpa [ContainsVariable] using hw))
    exact ⟨n + 1, by simp [Unifier.apply, hn, Term.subst]⟩
  | .atom f ts, hfo, h => by
    simp only [IsUnifiable] at hfo
    obtain ⟨n, hn⟩ := applyList_of_vars σ θ ts hfo
      (fun w hw => h w (by simpa [ContainsVariable] using hw))
    exact ⟨n + 1, by simp [Unifier.apply, hn, Term.subst]⟩
  | .bool _, _, _ => ⟨1, by simp [Unifier.apply, Term.subst]⟩
  | .num _, _, _ => ⟨1, by simp [Unifier.apply, Term.subst]⟩
  | .str _, _, _ => ⟨1, by simp [Unifier.apply, Term.subst]⟩
  | .unop _ _, hfo, _ => by simp [IsUnifiable] at hfo
  | .binop _ _ _, hfo, _ => by simp [IsUnifiable] at hfo
theorem applyList_of_vars {D : Type} [DecidableEq D] [DoubleOps D] (σ : Unifier D)
    (θ : Subst D) :
    ∀ ts : List (Term D), IsUnifiableList ts = true →
      (∀ w, ContainsVariableList w ts = true → ∃ n, Unifier.apply n σ (.var w) = .ok (θ w)) →
      ∃ n, applyList (Unifier.apply n σ) ts = .ok (Term.substList θ ts)
  | [], _, _ => ⟨0, by simp [applyList, Term.substList]⟩
  | t :: ts, hfo, h => by
    have hfo1 : IsUnifiable t = true := (isUnifiableList_iff _).1 hfo t (List.mem_cons_self _ _)
    have hfo2 : IsUnifiableList ts = true :=
      (isUnifiableList_iff _).2
        (fun u hu => (isUnifiableList_iff _).1 hfo u (List.mem_cons_of_mem _ hu))
    obtain ⟨n1, h1⟩ := apply_of_vars σ θ t hfo1
      (fun w hw => h w ((containsVariableList_iff _ _).2 ⟨t, List.mem_cons_self _ _, hw⟩))
    obtain ⟨n2, h2⟩ := applyList_of_vars σ θ ts hfo2 (fun w hw => by
      obtain ⟨u, hu, hc⟩ := (containsVariableList_iff _ _).1 hw
      exact h w ((containsVariableList_iff _ _).2 ⟨u, List.mem_cons_of_mem _ hu, hc⟩))
    refine ⟨max n1 n2, ?_⟩
    simp only [applyList, Term.substList]
    rw [apply_mono h1 (Nat.le_max_left _ _), applyList_mono h2 (Nat.le_max_right _ _)]
end

theorem apply_resolved {D : Type} [DecidableEq D] [DoubleOps D] (σ : Unifier D) (t : Term D)
    (hfo : IsUnifiable t = true) (hres : Resolved σ t) :
    ∃ n, Unifier.apply n σ t = .ok t := by
  have hid : ∀ u : Term D, Term.subst (fun w => Term.var w) u = u := by
    intro u
    have key : ∀ n : Nat, ∀ u : Term D, sizeOf u < n →
        Term.subst (fun w => Term.var w) u = u := by
      intro n
      induction n with
      | zero => intro u hu; omega
      | succ n ih =>
        intro u hu
        cases u with
        | list ts =>
          simp only [Term.subst, substList_eq_map, Term.list.injEq]
          conv_rhs => rw [← List.map_id ts]
          apply List.map_congr_left
          intro a ha
          have := List.sizeOf_lt_of_mem ha
          simp only [Term.list.sizeOf_spec] at hu
          exact ih a (by omega)
        | atom f ts =>
          simp only [Term.subst, substList_eq_map, Term.atom.injEq, true_and]
          conv_rhs => rw [← List.map_id ts]
          apply List.map_congr_left
          intro a ha
          have := List.sizeOf_lt_of_mem ha
          simp only [Term.atom.sizeOf_spec] at hu
          exact ih a (by omega)
        | unop op x =>
          simp only [Term.unop.sizeOf_spec] at hu
          simp only [Term.subst, ih x (by omega)]
        | binop op x y =>
          simp only [Term.binop.sizeOf_spec] at hu
          simp only [Term.subst, ih x (by omega), ih y (by omega)]
        | _ => simp [Term.subst]
    exact key (sizeOf u + 1) u (Nat.lt_succ_self _)
  obtain ⟨n, hn⟩ := apply_of_vars σ (fun w => Term.var w) t hfo (fun w hw =>
    ⟨1, by simp [Unifier.apply, hres w hw]⟩)
  rw [hid] at hn
  exact ⟨n, hn⟩

theorem apply_var_terminates {D : Type} [DecidableEq D] [DoubleOps D] (σ : Unifier D)
    (hσ : σ.FirstOrder) (rank : String → Nat)
    (hrank : ∀ k v, Unifier.find σ k = some v →
      ∀ w, ContainsVariable w v = true → rank w < rank k) :
    ∀ (r : Nat) (w : String), rank w < r → ∃ n t1, Unifier.apply n σ (.var w) = .ok t1 := by
  intro r
  induction r with
  | zero => intro w hw; omega
  | succ r ih =>
    intro w hw
    cases hf : Unifier.find σ w with
    | none => exact ⟨1, .var w, by simp [Unifier.apply, hf]⟩
    | some v =>
      have hall : ∀ u, ∃ t1, ContainsVariable u v = true →
          ∃ n, Unifier.apply n σ (.var u) = .ok t1 := by
        intro u
        by_cases hu : ContainsVariable u v = true
        · obtain ⟨n, t1, h⟩ := ih u (by have := hrank w v hf u hu; omega)
          exact ⟨t1, fun _ => ⟨n, h⟩⟩
        · exact ⟨.var u, fun h => absurd h hu⟩
      choose θ hθ using hall
      obtain ⟨n, hn⟩ := apply_of_vars σ θ v (hσ _ _ hf) (fun u hu => hθ u hu)
      exact ⟨n + 1, _, by simp only [Unifier.apply, hf]; exact hn⟩

theorem exists_solution {D : Type} [DecidableEq D] [DoubleOps D] (σ : Unifier D)
    (hσ : σ.FirstOrder) (hacyc : σ.Acyclic) :
    ∃ θ : Subst D, Solves θ σ ∧
      ∀ t, IsUnifiable t = true → ∃ n, Unifier.apply n σ t = .ok (Term.subst θ t) := by
  obtain ⟨rank, hrank⟩ := hacyc
  have hall : ∀ w, ∃ t1, ∃ n, Unifier.apply n σ (.var w) = .ok t1 := by
    intro w
    obtain ⟨n, t1, h⟩ := apply_var_terminates σ hσ rank hrank (rank w + 1) w (Nat.lt_succ_self _)
    exact ⟨t1, n, h⟩
  choose θ hθ using hall
  have happ : ∀ t, IsUnifiable t = true → ∃ n, Unifier.apply n σ t = .ok (Term.subst θ t) :=
    fun t ht => apply_of_vars σ θ t ht (fun w _ => hθ w)
  refine ⟨θ, ?_, happ⟩
  intro k v hf
  obtain ⟨n, hn⟩ := hθ k
  obtain ⟨m, hm⟩ := happ v (hσ _ _ hf)
  have h1 : Unifier.apply (m + 1) σ (.var k) = .ok (Term.subst θ v) := by
    simp only [Unifier.apply, hf]; exact hm
  exact apply_det hn h1

theorem apply_terminates {D : Type} [DecidableEq D] [DoubleOps D] (σ : Unifier D)
    (hσ : σ.FirstOrder) (hacyc : σ.Acyclic) (t : Term D) (ht : IsUnifiable t = true) :
    ∃ n t1, Unifier.apply n σ t = .ok t1 := by
  obtain ⟨θ, _, h⟩ := exists_solution σ hσ hacyc
  obtain ⟨n, hn⟩ := h t ht
  exact ⟨n, _, hn⟩

/-! ## One call of Unify on first-order terms whose variables are unbound -/

theorem prepareTerm_resolved {D : Type} (σ : Unifier D) (t : Term D)
    (hfo : IsUnifiable t = true) (hres : Resolved σ t) : PrepareTerm σ t = (true, t) := by
  cases t with
  | var name =>
    have := hres name (by simp [ContainsVariable])
    simp [PrepareTerm, this]
  | unop op x => simp [IsUnifiable] at hfo
  | binop op x y => simp [IsUnifiable] at hfo
  | _ => simp [PrepareTerm, Term.which]

theorem sizeOf_subst_of_contains {D : Type} (θ : Subst D) (x : String) :
    ∀ (n : Nat) (t : Term D), sizeOf t < n → ContainsVariable x t = true →
      sizeOf (θ x) ≤ sizeOf (Term.subst θ t) ∧
      (t ≠ .var x → sizeOf (θ x) < sizeOf (Term.subst θ t)) := by
  intro n
  induction n with
  | zero => intro t ht; omega
  | succ n ih =>
    intro t ht hc
    cases t with
    | var name =>
      simp only [ContainsVariable, decide_eq_true_eq] at hc
      subst hc
      simp [Term.subst]
    | list ts =>
      simp only [ContainsVariable] at hc
      obtain ⟨u, hu, hcu⟩ := (containsVariableList_iff _ _).1 hc
      have h1 := List.sizeOf_lt_of_mem hu
      simp only [Term.list.sizeOf_spec] at ht
      have h2 := (ih u (by omega) hcu).1
      have h3 : Term.subst θ u ∈ Term.substList θ ts := by
        rw [substList_eq_map]; exact List.mem_map_of_mem _ hu
      have h4 := List.sizeOf_lt_of_mem h3
      simp only [Term.subst, Term.list.sizeOf_spec]
      constructor
      · omega
      · intro _; omega
    | atom f ts =>
      simp only [ContainsVariable] at hc
      obtain ⟨u, hu, hcu⟩ := (containsVariableList_iff _ _).1 hc
      have h1 := List.sizeOf_lt_of_mem hu
      simp only [Term.atom.sizeOf_spec] at ht
      have h2 := (ih u (by omega) hcu).1
      have h3 : Term.subst θ u ∈ Term.substList θ ts := by
        rw [substList_eq_map]; exact List.mem_map_of_mem _ hu
      have h4 := List.sizeOf_lt_of_mem h3
      simp only [Term.subst, Term.atom.sizeOf_spec]
      constructor
      · omega
      · intro _; omega
    | bool b => simp [ContainsVariable] at hc
    | num b => simp [ContainsVariable] at hc
    | str b => simp [ContainsVariable] at hc
    | unop op y => simp [ContainsVariable] at hc
    | binop op y z => simp [ContainsVariable] at hc

theorem subst_ne_of_contains {D : Type} (θ : Subst D) (x : String) (t : Term D)
    (hc : ContainsVariable x t = true) (hne : t ≠ .var x) : θ x ≠ Term.subst θ t := by
  intro h
  have := (sizeOf_subst_of_contains θ x (sizeOf t + 1) t (Nat.lt_succ_self _) hc).2 hne
  rw [← h] at this
  omega

theorem substList_length {D : Type} (θ : Subst D) (ts : List (Term D)) :
    (Term.substList θ ts).length = ts.length := by
  rw [substList_eq_map, List.length_map]

/-- The outcomes of one call of Unify on prepared first-order terms. -/
theorem unify_inv {D : Type} [DecidableEq D] [DoubleOps D] (n : Nat) (l r : Term D)
    (σ σ1 : Unifier D) (b : Bool)
    (hfl : IsUnifiable l = true) (hfr : IsUnifiable r = true)
    (hrl : Resolved σ l) (hrr : Resolved σ r)
    (h : Unify (n + 1) l r σ = .ok (b, σ1)) :
    (b = true ∧ σ1 = σ ∧ l = r) ∨
    (b = true ∧ σ1 = σ ∧ (l = .var "_" ∨ r = .var "_")) ∨
    (∃ x t, b = true ∧ σ1 = Unifier.set σ x t ∧ ContainsVariable x t = false ∧
      ((l = .var x ∧ r = t) ∨ (l = t ∧ r = .var x))) ∨
    (b = false ∧ σ1 = σ ∧
      ∀ θ : Subst D, NoNaN (Term.subst θ l) = true → Term.subst θ l ≠ Term.subst θ r) ∨
    (∃ ls rs, ((l = .list ls ∧ r = .list rs) ∨ ∃ f, l = .atom f ls ∧ r = .atom f rs) ∧
      ls.length = rs.length ∧
      UnifyListsWith (Unifier.apply n) (Unify n) ls rs σ = .ok (b, σ1)) := by
  rw [Unify, prepareTerm_resolved σ l hfl hrl, prepareTerm_resolved σ r hfr hrr] at h
  simp only at h
  cases l with
  | unop op x => simp [IsUnifiable] at hfl
  | binop op x y => simp [IsUnifiable] at hfl
  | var x =>
    cases r with
    | unop op x => simp [IsUnifiable] at hfr
    | binop op x y => simp [IsUnifiable] at hfr
    | var y =>
      simp only at h
      by_cases hxy : x = y
      · simp only [hxy, if_true, Except.ok.injEq, Prod.mk.injEq] at h
        left; exact ⟨h.1.symm, h.2.symm, by rw [hxy]⟩
      · simp only [hxy, if_false] at h
        right; right; left
        by_cases hlt : strLt x y = true
        · simp only [hlt, if_true, Except.ok.injEq, Prod.mk.injEq] at h
          exact ⟨y, .var x, h.1.symm, h.2.symm, by simpa [ContainsVariable] using hxy,
            Or.inr ⟨rfl, rfl⟩⟩
        · simp only [hlt, Bool.false_eq_true, if_false, Except.ok.injEq, Prod.mk.injEq] at h
          exact ⟨x, .var y, h.1.symm, h.2.symm,
            by simpa [ContainsVariable] using fun e : y = x => hxy e.symm, Or.inl ⟨rfl, rfl⟩⟩
    | bool _ | num _ | str _ | list _ | atom _ _ =>
      simp only at h
      by_cases hw : x = "_"
      · simp only [hw, if_true, Except.ok.injEq, Prod.mk.injEq] at h
        right; left; exact ⟨h.1.symm, h.2.symm, Or.inl (by rw [hw])⟩
      · simp only [hw, if_false] at h
        split at h
        · rename_i hc
          simp only [Except.ok.injEq, Prod.mk.injEq] at h
          right; right; right; left
          refine ⟨h.1.symm, h.2.symm, fun θ _ => ?_⟩
          simp only [Term.subst]
          exact subst_ne_of_contains θ x _ hc (by simp)
        · rename_i hc
          simp only [Except.ok.injEq, Prod.mk.injEq] at h
          right; right; left
          exact ⟨x, _, h.1.symm, h.2.symm, by simpa using hc, Or.inl ⟨rfl, rfl⟩⟩
  | bool a =>
    cases r with
    | unop op x => simp [IsUnifiable] at hfr
    | binop op x y => simp [IsUnifiable] at hfr
    | var y =>
      simp only at h
      by_cases hw : y = "_"
      · simp only [hw, if_true, Except.ok.injEq, Prod.mk.injEq] at h
        right; left; exact ⟨h.1.symm, h.2.symm, Or.inr (by rw [hw])⟩
      · simp only [hw, if_false, ContainsVariable, Bool.false_eq_true, Except.ok.injEq,
          Prod.mk.injEq] at h
        right; right; left
        exact ⟨y, _, h.1.symm, h.2.symm, by simp [ContainsVariable], Or.inr ⟨rfl, rfl⟩⟩
    | bool c =>
      simp only [Except.ok.injEq, Prod.mk.injEq] at h
      by_cases hac : a = c
      · left; exact ⟨by rw [← h.1]; simp [hac], h.2.symm, by rw [hac]⟩
      · right; right; right; left
        exact ⟨by rw [← h.1]; simp [hac], h.2.symm, fun θ _ => by simp [Term.subst, hac]⟩
    | num _ | str _ | list _ | atom _ _ =>
      simp only [Term.which, ne_eq, reduceCtorEq, not_false_eq_true, if_true, Except.ok.injEq,
        Prod.mk.injEq] at h
      right; right; right; left
      exact ⟨h.1.symm, h.2.symm, fun θ _ => by simp [Term.subst]⟩
  | num a =>
    cases r with
    | unop op x => simp [IsUnifiable] at hfr
    | binop op x y => simp [IsUnifiable] at hfr
    | var y =>
      simp only at h
      by_cases hw : y = "_"
      · simp only [hw, if_true, Except.ok.injEq, Prod.mk.injEq] at h
        right; left; exact ⟨h.1.symm, h.2.symm, Or.inr (by rw [hw])⟩
      · simp only [hw, if_false, ContainsVariable, Bool.false_eq_true, Except.ok.injEq,
          Prod.mk.injEq] at h
        right; right; left
        exact ⟨y, _, h.1.symm, h.2.symm, by simp [ContainsVariable], Or.inr ⟨rfl, rfl⟩⟩
    | num c =>
      simp only [Except.ok.injEq, Prod.mk.injEq] at h
      cases hb : b with
      | true =>
        rw [hb] at h
        have hac : a = c := by
          have := h.1
          simp only [doubleEq, Bool.and_eq_true, decide_eq_true_eq] at this
          exact this.2
        left; exact ⟨rfl, h.2.symm, by rw [hac]⟩
      | false =>
        rw [hb] at h
        right; right; right; left
        refine ⟨rfl, h.2.symm, fun θ hn => ?_⟩
        simp only [Term.subst, NoNaN, Bool.not_eq_true', ne_eq, Term.num.injEq] at hn ⊢
        intro hac
        have := h.1
        simp only [doubleEq, hn, Bool.not_false, Bool.true_and, decide_eq_false_iff_not] at this
        exact this hac
    | bool _ | str _ | list _ | atom _ _ =>
      simp only [Term.which, ne_eq, reduceCtorEq, not_false_eq_true, if_true, Except.ok.injEq,
        Prod.mk.injEq] at h
      right; right; right; left
      exact ⟨h.1.symm, h.2.symm, fun θ _ => by simp [Term.subst]⟩
  | str a =>
    cases r with
    | unop op x => simp [IsUnifiable] at hfr
    | binop op x y => simp [IsUnifiable] at hfr
    | var y =>
      simp only at h
      by_cases hw : y = "_"
      · simp only [hw, if_true, Except.ok.injEq, Prod.mk.injEq] at h
        right; left; exact ⟨h.1.symm, h.2.symm, Or.inr (by rw [hw])⟩
      · simp only [hw, if_false, ContainsVariable, Bool.false_eq_true, Except.ok.injEq,
          Prod.mk.injEq] at h
        right; right; left
        exact ⟨y, _, h.1.symm, h.2.symm, by simp [ContainsVariable], Or.inr ⟨rfl, rfl⟩⟩
    | str c =>
      simp only [Except.ok.injEq, Prod.mk.injEq] at h
      by_cases hac : a = c
      · left; exact ⟨by rw [← h.1]; simp [hac], h.2.symm, by rw [hac]⟩
      · right; right; right; left
        exact ⟨by rw [← h.1]; simp [hac], h.2.symm, fun θ _ => by simp [Term.subst, hac]⟩
    | bool _ | num _ | list _ | atom _ _ =>
      simp only [Term.which, ne_eq, reduceCtorEq, not_false_eq_true, if_true, Except.ok.injEq,
        Prod.mk.injEq] at h
      right; right; right; left
      exact ⟨h.1.symm, h.2.symm, fun θ _ => by simp [Term.subst]⟩
  | list ls =>
    cases r with
    | unop op x => simp [IsUnifiable] at hfr
    | binop op x y => simp [IsUnifiable] at hfr
    | var y =>
      simp only at h
      by_cases hw : y = "_"
      · simp only [hw, if_true, Except.ok.injEq, Prod.mk.injEq] at h
        right; left; exact ⟨h.1.symm, h.2.symm, Or.inr (by rw [hw])⟩
      · simp only [hw, if_false] at h
        split at h
        · rename_i hc
          simp only [Except.ok.injEq, Prod.mk.injEq] at h
          right; right; right; left
          refine ⟨h.1.symm, h.2.symm, fun θ _ => ?_⟩
          exact fun e => subst_ne_of_contains θ y _ hc (by simp) (by simpa [Term.subst] using e.symm)
        · rename_i hc
          simp only [Except.ok.injEq, Prod.mk.injEq] at h
          right; right; left
          exact ⟨y, _, h.1.symm, h.2.symm, by simpa using hc, Or.inr ⟨rfl, rfl⟩⟩
    | list rs =>
      simp only at h
      by_cases hlen : ls.length = rs.length
      · right; right; right; right
        exact ⟨ls, rs, Or.inl ⟨rfl, rfl⟩, hlen, h⟩
      · simp only [UnifyListsWith, ne_eq, hlen, not_false_eq_true, if_true, Except.ok.injEq,
          Prod.mk.injEq] at h
        right; right; right; left
        refine ⟨h.1.symm, h.2.symm, fun θ _ e => hlen ?_⟩
        simp only [Term.subst, Term.list.injEq] at e
        rw [← substList_length θ ls, e, substList_length]
    | bool _ | num _ | str _ | atom _ _ =>
      simp only [Term.which, ne_eq, reduceCtorEq, not_false_eq_true, if_true, Except.ok.injEq,
        Prod.mk.injEq] at h
      right; right; right; left
      exact ⟨h.1.symm, h.2.symm, fun θ _ => by simp [Term.subst]⟩
  | atom f ls =>
    cases r with
    | unop op x => simp [IsUnifiable] at hfr
    | binop op x y => simp [IsUnifiable] at hfr
    | var y =>
      simp only at h
      by_cases hw : y = "_"
      · simp only [hw, if_true, Except.ok.injEq, Prod.mk.injEq] at h
        right; left; exact ⟨h.1.symm, h.2.symm, Or.inr (by rw [hw])⟩
      · simp only [hw, if_false] at h
        split at h
        · rename_i hc
          simp only [Except.ok.injEq, Prod.mk.injEq] at h
          right; right; right; left
          refine ⟨h.1.symm, h.2.symm, fun θ _ => ?_⟩
          exact fun e => subst_ne_of_contains θ y _ hc (by simp) (by simpa [Term.subst] using e.symm)
        · rename_i hc
          simp only [Except.ok.injEq, Prod.mk.injEq] at h
          right; right; left
          exact ⟨y, _, h.1.symm, h.2.symm, by simpa using hc, Or.inr ⟨rfl, rfl⟩⟩
    | atom g rs =>
      simp only at h
      by_cases hfg : f = g
      · subst hfg
        simp only [ne_eq, not_true_eq_false, if_false] at h
        by_cases hlen : ls.length = rs.length
        · right; right; right; right
          exact ⟨ls, rs, Or.inr ⟨f, rfl, rfl⟩, hlen, h⟩
        · simp only [UnifyListsWith, ne_eq, hlen, not_false_eq_true, if_true, Except.ok.injEq,
            Prod.mk.injEq] at h
          right; right; right; left
          refine ⟨h.1.symm, h.2.symm, fun θ _ e => hlen ?_⟩
          simp only [Term.subst, Term.atom.injEq, true_and] at e
          rw [← substList_length θ ls, e, substList_length]
      · simp only [ne_eq, hfg, not_false_eq_true, if_true, Except.ok.injEq, Prod.mk.injEq] at h
        right; right; right; left
        exact ⟨h.1.symm, h.2.symm, fun θ _ => by simp [Term.subst, hfg]⟩
    | bool _ | num _ | str _ | list _ =>
      simp only [Term.which, ne_eq, reduceCtorEq, not_false_eq_true, if_true, Except.ok.injEq,
        Prod.mk.injEq] at h
      right; right; right; left
      exact ⟨h.1.symm, h.2.symm, fun θ _ => by simp [Term.subst]⟩

/-! ## The invariant of the unifier along a unification -/

theorem ustep_refl {D : Type} (V : List String) (σ : Unifier D) (h : UInv V σ) :
    UStep V σ σ :=
  ⟨h, fun _ hk => hk, Or.inl rfl⟩

theorem ustep_trans {D : Type} (V : List String) (σ σ1 σ2 : Unifier D)
    (h1 : UStep V σ σ1) (h2 : UStep V σ1 σ2) : UStep V σ σ2 := by
  refine ⟨h2.1, fun k hk => h2.2.1 k (h1.2.1 k hk), ?_⟩
  rcases h1.2.2 with e1 | ⟨x, hx, hn, hs⟩
  · subst e1; exact h2.2.2
  · right; exact ⟨x, hx, hn, h2.2.1 x hs⟩

theorem acyclic_set {D : Type} (σ : Unifier D) (x : String) (t : Term D)
    (hacyc : σ.Acyclic) (hx : Unifier.find σ x = none) (hres : Resolved σ t)
    (hocc : ContainsVariable x t = false) : (Unifier.set σ x t).Acyclic := by
  obtain ⟨rank, hrank⟩ := hacyc
  refine ⟨fun w => if (Unifier.find σ w).isSome then rank w + 2 else if w = x then 1 else 0, ?_⟩
  intro k v hf w hw
  by_cases hk : k = x
  · subst hk
    rw [find_set_self] at hf
    cases hf
    have hwn : Unifier.find σ w = none := hres w hw
    have hwk : w ≠ k := by
      intro e; subst e; rw [hw] at hocc; cases hocc
    simp [hwn, hx, hwk]
  · rw [find_set_other _ _ _ _ hk] at hf
    have h1 := hrank k v hf w hw
    simp only [hf, Option.isSome_some, if_true]
    split
    · omega
    · split <;> omega

theorem ustep_set {D : Type} (V : List String) (σ : Unifier D) (x : String) (t : Term D)
    (hinv : UInv V σ) (hx : Unifier.find σ x = none) (hxV : x ∈ V)
    (hfo : IsUnifiable t = true) (hres : Resolved σ t) (hV : VarsIn V t)
    (hocc : ContainsVariable x t = false) : UStep V σ (Unifier.set σ x t) := by
  obtain ⟨h1, h2, h3⟩ := hinv
  refine ⟨⟨?_, acyclic_set σ x t h2 hx hres hocc, ?_⟩, ?_, ?_⟩
  · intro k v hf
    by_cases hk : k = x
    · subst hk; rw [find_set_self] at hf; cases hf; exact hfo
    · rw [find_set_other _ _ _ _ hk] at hf; exact h1 k v hf
  · intro k v hf
    by_cases hk : k = x
    · subst hk; rw [find_set_self] at hf; cases hf; exact hV
    · rw [find_set_other _ _ _ _ hk] at hf; exact h3 k v hf
  · intro k hk
    by_cases hkx : k = x
    · subst hkx; rw [find_set_self]; simp
    · rw [find_set_other _ _ _ _ hkx]; exact hk
  · right
    exact ⟨x, hxV, hx, by rw [find_set_self]; simp⟩

theorem varsIn_of_apply {D : Type} [DecidableEq D] [DoubleOps D] (V : List String)
    (σ : Unifier D) (n : Nat) (t t1 : Term D) (hr : RangeIn V σ) (ht : VarsIn V t)
    (h : ApplySpec n σ t t1) : VarsIn V t1 := by
  intro w hw
  rcases h.2.2.2.2.1 w hw with h1 | ⟨k, v, hf, hc⟩
  · exact ht w h1
  · exact hr k v hf w hc

theorem unifyListsLoop_step {D : Type} [DecidableEq D] [DoubleOps D] (V : List String)
    (n : Nat)
    (ih : ∀ (l r : Term D) (σ σ1 : Unifier D) (b : Bool), UInv V σ →
      IsUnifiable l = true → IsUnifiable r = true → Resolved σ l → Resolved σ r →
      VarsIn V l → VarsIn V r → Unify n l r σ = .ok (b, σ1) → UStep V σ σ1) :
    ∀ (ls rs : List (Term D)) (σ σ1 : Unifier D) (b : Bool), UInv V σ →
      (∀ t ∈ ls, IsUnifiable t = true ∧ VarsIn V t) →
      (∀ t ∈ rs, IsUnifiable t = true ∧ VarsIn V t) →
      UnifyListsLoop (Unifier.apply n) (Unify n) ls rs σ = .ok (b, σ1) → UStep V σ σ1 := by
  intro ls
  induction ls with
  | nil =>
    intro rs σ σ1 b hinv _ _ h
    simp only [UnifyListsLoop, Except.ok.injEq, Prod.mk.injEq] at h
    rw [← h.2]; exact ustep_refl V σ hinv
  | cons l ls ihl =>
    intro rs σ σ1 b hinv hls hrs h
    cases rs with
    | nil =>
      simp only [UnifyListsLoop, Except.ok.injEq, Prod.mk.injEq] at h
      rw [← h.2]; exact ustep_refl V σ hinv
    | cons r rs =>
      simp only [UnifyListsLoop] at h
      cases h1 : Unifier.apply n σ l with
      | error e => rw [h1] at h; cases h
      | ok l1 =>
        rw [h1] at h; simp only at h
        cases h2 : Unifier.apply n σ r with
        | error e => rw [h2] at h; cases h
        | ok r1 =>
          rw [h2] at h; simp only at h
          cases h3 : Unify n l1 r1 σ with
          | error e => rw [h3] at h; cases h
          | ok p =>
            rw [h3] at h
            obtain ⟨b1, σ2⟩ := p
            have hl := hls l (List.mem_cons_self _ _)
            have hr := hrs r (List.mem_cons_self _ _)
            have sl := apply_spec σ hinv.1 n l l1 hl.1 h1
            have sr := apply_spec σ hinv.1 n r r1 hr.1 h2
            have hstep := ih l1 r1 σ σ2 b1 hinv sl.1 sr.1 sl.2.1 sr.2.1
              (varsIn_of_apply V σ n l l1 hinv.2.2 hl.2 sl)
              (varsIn_of_apply V σ n r r1 hinv.2.2 hr.2 sr) h3
            cases b1 with
            | false =>
              simp only [Bool.not_false, if_true, Except.ok.injEq, Prod.mk.injEq] at h
              rw [← h.2]; exact hstep
            | true =>
              simp only [Bool.not_true, Bool.false_eq_true, if_false] at h
              exact ustep_trans V σ σ2 σ1 hstep
                (ihl rs σ2 σ1 b hstep.1 (fun t ht => hls t (List.mem_cons_of_mem _ ht))
                  (fun t ht => hrs t (List.mem_cons_of_mem _ ht)) h)

theorem resolved_of_mem_list {D : Type} (σ : Unifier D) (ts : List (Term D))
    (h : ∀ v, ContainsVariableList v ts = true → Unifier.find σ v = none) :
    ∀ t ∈ ts, Resolved σ t :=
  fun t ht v hv => h v ((containsVariableList_iff _ _).2 ⟨t, ht, hv⟩)

theorem varsIn_of_mem_list {D : Type} (V : List String) (ts : List (Term D))
    (h : ∀ v, ContainsVariableList v ts = true → v ∈ V) :
    ∀ t ∈ ts, VarsIn V t :=
  fun t ht v hv => h v ((containsVariableList_iff _ _).2 ⟨t, ht, hv⟩)

/-- The facts about the elements of two lists or two atoms that are unified. -/
theorem elements_facts {D : Type} (V : List String) (σ : Unifier D) (l r : Term D)
    (ls rs : List (Term D))
    (hshape : (l = .list ls ∧ r = .list rs) ∨ ∃ f, l = .atom f ls ∧ r = .atom f rs)
    (hfl : IsUnifiable l = true) (hfr : IsUnifiable r = true)
    (hrl : Resolved σ l) (hrr : Resolved σ r) (hvl : VarsIn V l) (hvr : VarsIn V r) :
    (∀ t ∈ ls, IsUnifiable t = true ∧ Resolved σ t ∧ VarsIn V t) ∧
    (∀ t ∈ rs, IsUnifiable t = true ∧ Resolved σ t ∧ VarsIn V t) := by
  rcases hshape with ⟨e1, e2⟩ | ⟨f, e1, e2⟩
  · subst e1; subst e2
    simp only [IsUnifiable] at hfl hfr
    exact ⟨fun t ht => ⟨(isUnifiableList_iff _).1 hfl t ht,
        resolved_of_mem_list σ ls (fun v hv => hrl v (by simpa [ContainsVariable] using hv)) t ht,
        varsIn_of_mem_list V ls (fun v hv => hvl v (by simpa [ContainsVariable] using hv)) t ht⟩,
      fun t ht => ⟨(isUnifiableList_iff _).1 hfr t ht,
        resolved_of_mem_list σ rs (fun v hv => hrr v (by simpa [ContainsVariable] using hv)) t ht,
        varsIn_of_mem_list V rs (fun v hv => hvr v (by simpa [ContainsVariable] using hv)) t ht⟩⟩
  · subst e1; subst e2
    simp only [IsUnifiable] at hfl hfr
    exact ⟨fun t ht => ⟨(isUnifiableList_iff _).1 hfl t ht,
        resolved_of_mem_list σ ls (fun v hv => hrl v (by simpa [ContainsVariable] using hv)) t ht,
        varsIn_of_mem_list V ls (fun v hv => hvl v (by simpa [ContainsVariable] using hv)) t ht⟩,
      fun t ht => ⟨(isUnifiableList_iff _).1 hfr t ht,
        resolved_of_mem_list σ rs (fun v hv => hrr v (by simpa [ContainsVariable] using hv)) t ht,
        varsIn_of_mem_list V rs (fun v hv => hvr v (by simpa [ContainsVariable] using hv)) t ht⟩⟩

/-- The outcomes of UnifyLists on two lists of equal length. -/
theorem unifyListsWith_inv {D : Type} [DecidableEq D] [DoubleOps D] (n : Nat)
    (ls rs : List (Term D)) (σ σ1 : Unifier D) (b : Bool) (hlen : ls.length = rs.length)
    (h : UnifyListsWith (Unifier.apply n) (Unify n) ls rs σ = .ok (b, σ1)) :
    (ls = [] ∧ rs = [] ∧ b = true ∧ σ1 = σ) ∨
    (∃ l ls1 r rs1 b1 σ2, ls = l :: ls1 ∧ rs = r :: rs1 ∧ Unify n l r σ = .ok (b1, σ2) ∧
      ((b1 = false ∧ b = false ∧ σ1 = σ2) ∨
       (b1 = true ∧ UnifyListsLoop (Unifier.apply n) (Unify n) ls1 rs1 σ2 = .ok (b, σ1)))) := by
  unfold UnifyListsWith at h
  simp only [ne_eq, hlen, not_true_eq_false, if_false] at h
  cases ls with
  | nil =>
    cases rs with
    | nil =>
      simp only [Except.ok.injEq, Prod.mk.injEq] at h
      left; exact ⟨rfl, rfl, h.1.symm, h.2.symm⟩
    | cons r rs => simp at hlen
  | cons l ls =>
    cases rs with
    | nil => simp at hlen
    | cons r rs =>
      simp only at h
      right
      cases h3 : Unify n l r σ with
      | error e => rw [h3] at h; cases h
      | ok p =>
        rw [h3] at h
        obtain ⟨b1, σ2⟩ := p
        refine ⟨l, ls, r, rs, b1, σ2, rfl, rfl, h3, ?_⟩
        cases b1 with
        | false =>
          simp only [Bool.not_false, if_true, Except.ok.injEq, Prod.mk.injEq] at h
          left; exact ⟨rfl, h.1.symm, h.2.symm⟩
        | true =>
          simp only [Bool.not_true, Bool.false_eq_true, if_false] at h
          right; exact ⟨rfl, h⟩

theorem unify_step {D : Type} [DecidableEq D] [DoubleOps D] (V : List String) :
    ∀ (n : Nat) (l r : Term D) (σ σ1 : Unifier D) (b : Bool), UInv V σ →
      IsUnifiable l = true → IsUnifiable r = true → Resolved σ l → Resolved σ r →
      VarsIn V l → VarsIn V r → Unify n l r σ = .ok (b, σ1) → UStep V σ σ1 := by
  intro n
  induction n with
  | zero => intro l r σ σ1 b _ _ _ _ _ _ _ h; simp [Unify] at h
  | succ n ih =>
    intro l r σ σ1 b hinv hfl hfr hrl hrr hvl hvr h
    rcases unify_inv n l r σ σ1 b hfl hfr hrl hrr h with
      ⟨_, e, _⟩ | ⟨_, e, _⟩ | ⟨x, t, _, e, hocc, hxt⟩ | ⟨_, e, _⟩ | ⟨ls, rs, hshape, hlen, hl⟩
    · rw [e]; exact ustep_refl V σ hinv
    · rw [e]; exact ustep_refl V σ hinv
    · rw [e]
      rcases hxt with ⟨e1, e2⟩ | ⟨e1, e2⟩
      · subst e1; subst e2
        exact ustep_set V σ x r hinv (hrl x (by simp [ContainsVariable]))
          (hvl x (by simp [ContainsVariable])) hfr hrr hvr hocc
      · subst e1; subst e2
        exact ustep_set V σ x l hinv (hrr x (by simp [ContainsVariable]))
          (hvr x (by simp [ContainsVariable])) hfl hrl hvl hocc
    · rw [e]; exact ustep_refl V σ hinv
    · obtain ⟨hels, hers⟩ := elements_facts V σ l r ls rs hshape hfl hfr hrl hrr hvl hvr
      rcases unifyListsWith_inv n ls rs σ σ1 b hlen hl with
        ⟨_, _, _, e⟩ | ⟨l0, ls1, r0, rs1, b1, σ2, e1, e2, hu, hrest⟩
      · rw [e]; exact ustep_refl V σ hinv
      · subst e1; subst e2
        have hl0 := hels l0 (List.mem_cons_self _ _)
        have hr0 := hers r0 (List.mem_cons_self _ _)
        have hstep := ih l0 r0 σ σ2 b1 hinv hl0.1 hr0.1 hl0.2.1 hr0.2.1 hl0.2.2 hr0.2.2 hu
        rcases hrest with ⟨_, _, e3⟩ | ⟨_, hloop⟩
        · rw [e3]; exact hstep
        · exact ustep_trans V σ σ2 σ1 hstep
            (unifyListsLoop_step V n ih ls1 rs1 σ2 σ1 b hstep.1
              (fun t ht => ⟨(hels t (List.mem_cons_of_mem _ ht)).1,
                (hels t (List.mem_cons_of_mem _ ht)).2.2⟩)
              (fun t ht => ⟨(hers t (List.mem_cons_of_mem _ ht)).1,
                (hers t (List.mem_cons_of_mem _ ht)).2.2⟩) hloop)

/-! ## The meaning of a unification without the anonymous variable -/

theorem solves_set {D : Type} (θ : Subst D) (σ : Unifier D) (x : String) (t : Term D)
    (hx : Unifier.find σ x = none) :
    Solves θ (Unifier.set σ x t) ↔ (Solves θ σ ∧ θ x = Term.subst θ t) := by
  constructor
  · intro h
    refine ⟨fun k v hf => ?_, h x t (find_set_self σ x t)⟩
    have hk : k ≠ x := by
      intro e; subst e; rw [hx] at hf; cases hf
    exact h k v (by rw [find_set_other _ _ _ _ hk]; exact hf)
  · intro ⟨h1, h2⟩ k v hf
    by_cases hk : k = x
    · subst hk; rw [find_set_self] at hf; cases hf; exact h2
    · rw [find_set_other _ _ _ _ hk] at hf; exact h1 k v hf

theorem unifyListsLoop_sem {D : Type} [DecidableEq D] [DoubleOps D] (V : List String)
    (n : Nat)
    (ih : ∀ (l r : Term D) (σ σ1 : Unifier D) (b : Bool), UInv V σ →
      IsUnifiable l = true → IsUnifiable r = true → Resolved σ l → Resolved σ r →
      VarsIn V l → VarsIn V r → Unify n l r σ = .ok (b, σ1) → USem σ l r b σ1) :
    ∀ (ls rs : List (Term D)) (σ σ1 : Unifier D) (b : Bool), ls.length = rs.length →
      UInv V σ →
      (∀ t ∈ ls, IsUnifiable t = true ∧ VarsIn V t) →
      (∀ t ∈ rs, IsUnifiable t = true ∧ VarsIn V t) →
      UnifyListsLoop (Unifier.apply n) (Unify n) ls rs σ = .ok (b, σ1) →
      (b = true → ∀ θ : Subst D, Solves θ σ1 ↔
        (Solves θ σ ∧ Term.substList θ ls = Term.substList θ rs)) ∧
      (b = false → ∀ θ : Subst D, Solves θ σ → NoNaNList (Term.substList θ ls) = true →
        Term.substList θ ls ≠ Term.substList θ rs) := by
  intro ls
  induction ls with
  | nil =>
    intro rs σ σ1 b hlen hinv _ _ h
    cases rs with
    | cons r rs => simp at hlen
    | nil =>
      simp only [UnifyListsLoop, Except.ok.injEq, Prod.mk.injEq] at h
      rw [← h.1, ← h.2]
      simp
  | cons l ls ihl =>
    intro rs σ σ1 b hlen hinv hls hrs h
    cases rs with
    | nil => simp at hlen
    | cons r rs =>
      simp only [UnifyListsLoop] at h
      cases h1 : Unifier.apply n σ l with
      | error e => rw [h1] at h; cases h
      | ok l1 =>
        rw [h1] at h; simp only at h
        cases h2 : Unifier.apply n σ r with
        | error e => rw [h2] at h; cases h
        | ok r1 =>
          rw [h2] at h; simp only at h
          cases h3 : Unify n l1 r1 σ with
          | error e => rw [h3] at h; cases h
          | ok p =>
            rw [h3] at h
            obtain ⟨b1, σ2⟩ := p
            have hl := hls l (List.mem_cons_self _ _)
            have hr := hrs r (List.mem_cons_self _ _)
            have sl := apply_spec σ hinv.1 n l l1 hl.1 h1
            have sr := apply_spec σ hinv.1 n r r1 hr.1 h2
            have hvl := varsIn_of_apply V σ n l l1 hinv.2.2 hl.2 sl
            have hvr := varsIn_of_apply V σ n r r1 hinv.2.2 hr.2 sr
            have hsem := ih l1 r1 σ σ2 b1 hinv sl.1 sr.1 sl.2.1 sr.2.1 hvl hvr h3
            have hstep := unify_step V n l1 r1 σ σ2 b1 hinv sl.1 sr.1 sl.2.1 sr.2.1 hvl hvr h3
            have hθl : ∀ θ : Subst D, Solves θ σ → Term.subst θ l1 = Term.subst θ l :=
              sl.2.2.2.1
            have hθr : ∀ θ : Subst D, Solves θ σ → Term.subst θ r1 = Term.subst θ r :=
              sr.2.2.2.1
            cases b1 with
            | false =>
              simp only [Bool.not_false, if_true, Except.ok.injEq, Prod.mk.injEq] at h
              rw [← h.1]
              refine ⟨fun e => (by cases e), fun _ θ hθ hn e => ?_⟩
              simp only [Term.substList, List.cons.injEq] at e
              simp only [Term.substList, NoNaNList, Bool.and_eq_true] at hn
              apply hsem.2 rfl θ hθ (by rw [hθl θ hθ]; exact hn.1)
              rw [hθl θ hθ, hθr θ hθ]; exact e.1
            | true =>
              simp only [Bool.not_true, Bool.false_eq_true, if_false] at h
              have hrec := ihl rs σ2 σ1 b (by simpa using hlen) hstep.1
                (fun t ht => hls t (List.mem_cons_of_mem _ ht))
                (fun t ht => hrs t (List.mem_cons_of_mem _ ht)) h
              have h12 : ∀ θ : Subst D, Solves θ σ2 ↔
                  (Solves θ σ ∧ Term.subst θ l = Term.subst θ r) := by
                intro θ
                rw [hsem.1 rfl θ]
                constructor
                · intro ⟨ha, hb⟩
                  exact ⟨ha, by rw [← hθl θ ha, ← hθr θ ha]; exact hb⟩
                · intro ⟨ha, hb⟩
                  exact ⟨ha, by rw [hθl θ ha, hθr θ ha]; exact hb⟩
              refine ⟨fun hb θ => ?_, fun hb θ hθ hn e => ?_⟩
              · rw [hrec.1 hb θ, h12 θ]
                simp only [Term.substList, List.cons.injEq]
                tauto
              · simp only [Term.substList, List.cons.injEq] at e
                simp only [Term.substList, NoNaNList, Bool.and_eq_true] at hn
                exact hrec.2 hb θ ((h12 θ).2 ⟨hθ, e.1⟩) hn.2 e.2

theorem subst_shape_iff {D : Type} (θ : Subst D) (l r : Term D) (ls rs : List (Term D))
    (hshape : (l = .list ls ∧ r = .list rs) ∨ ∃ f, l = .atom f ls ∧ r = .atom f rs) :
    Term.subst θ l = Term.subst θ r ↔ Term.substList θ ls = Term.substList θ rs := by
  rcases hshape with ⟨e1, e2⟩ | ⟨f, e1, e2⟩
  · subst e1; subst e2; simp [Term.subst]
  · subst e1; subst e2; simp [Term.subst]

theorem noNaN_shape {D : Type} [DoubleOps D] (θ : Subst D) (l r : Term D)
    (ls rs : List (Term D))
    (hshape : (l = .list ls ∧ r = .list rs) ∨ ∃ f, l = .atom f ls ∧ r = .atom f rs) :
    NoNaN (Term.subst θ l) = NoNaNList (Term.substList θ ls) := by
  rcases hshape with ⟨e1, _⟩ | ⟨f, e1, _⟩
  · subst e1; simp [Term.subst, NoNaN]
  · subst e1; simp [Term.subst, NoNaN]

theorem unify_sem {D : Type} [DecidableEq D] [DoubleOps D] (V : List String)
    (hV : "_" ∉ V) :
    ∀ (n : Nat) (l r : Term D) (σ σ1 : Unifier D) (b : Bool), UInv V σ →
      IsUnifiable l = true → IsUnifiable r = true → Resolved σ l → Resolved σ r →
      VarsIn V l → VarsIn V r → Unify n l r σ = .ok (b, σ1) → USem σ l r b σ1 := by
  intro n
  induction n with
  | zero => intro l r σ σ1 b _ _ _ _ _ _ _ h; simp [Unify] at h
  | succ n ih =>
    intro l r σ σ1 b hinv hfl hfr hrl hrr hvl hvr h
    rcases unify_inv n l r σ σ1 b hfl hfr hrl hrr h with
      ⟨hb, e, hlr⟩ | ⟨_, _, hw⟩ | ⟨x, t, hb, e, hocc, hxt⟩ | ⟨hb, e, hne⟩ |
      ⟨ls, rs, hshape, hlen, hl⟩
    · subst hb; subst e; subst hlr
      exact ⟨fun _ θ => by simp, fun e => by cases e⟩
    · exfalso
      rcases hw with hw | hw
      · exact hV (hvl "_" (by rw [hw]; simp [ContainsVariable]))
      · exact hV (hvr "_" (by rw [hw]; simp [ContainsVariable]))
    · subst hb; subst e
      refine ⟨fun _ θ => ?_, fun e => by cases e⟩
      rcases hxt with ⟨e1, e2⟩ | ⟨e1, e2⟩
      · subst e1; subst e2
        rw [solves_set θ σ x r (hrl x (by simp [ContainsVariable]))]
        simp [Term.subst]
      · subst e1; subst e2
        rw [solves_set θ σ x l (hrr x (by simp [ContainsVariable]))]
        simp only [Term.subst]
        exact ⟨fun ⟨a, c⟩ => ⟨a, c.symm⟩, fun ⟨a, c⟩ => ⟨a, c.symm⟩⟩
    · subst hb; subst e
      exact ⟨fun e => (by cases e), fun _ θ _ hn => hne θ hn⟩
    · obtain ⟨hels, hers⟩ := elements_facts V σ l r ls rs hshape hfl hfr hrl hrr hvl hvr
      have hiff := fun θ : Subst D => subst_shape_iff θ l r ls rs hshape
      rcases unifyListsWith_inv n ls rs σ σ1 b hlen hl with
        ⟨e1, e2, hb, e⟩ | ⟨l0, ls1, r0, rs1, b1, σ2, e1, e2, hu, hrest⟩
      · subst hb; subst e
        refine ⟨fun _ θ => ?_, fun e => by cases e⟩
        rw [hiff θ, e1, e2]; simp
      · subst e1; subst e2
        have hl0 := hels l0 (List.mem_cons_self _ _)
        have hr0 := hers r0 (List.mem_cons_self _ _)
        have hsem := ih l0 r0 σ σ2 b1 hinv hl0.1 hr0.1 hl0.2.1 hr0.2.1 hl0.2.2 hr0.2.2 hu
        have hstep := unify_step V n l0 r0 σ σ2 b1 hinv hl0.1 hr0.1 hl0.2.1 hr0.2.1
          hl0.2.2 hr0.2.2 hu
        rcases hrest with ⟨hb1, hb, e3⟩ | ⟨hb1, hloop⟩
        · subst hb1; subst hb; subst e3
          refine ⟨fun e => (by cases e), fun _ θ hθ hn e => ?_⟩
          rw [hiff θ] at e
          rw [noNaN_shape θ l r _ _ hshape] at hn
          simp only [Term.substList, List.cons.injEq] at e
          simp only [Term.substList, NoNaNList, Bool.and_eq_true] at hn
          exact hsem.2 rfl θ hθ hn.1 e.1
        · subst hb1
          have hrec := unifyListsLoop_sem V n ih ls1 rs1 σ2 σ1 b (by simpa using hlen) hstep.1
            (fun t ht => ⟨(hels t (List.mem_cons_of_mem _ ht)).1,
              (hels t (List.mem_cons_of_mem _ ht)).2.2⟩)
            (fun t ht => ⟨(hers t (List.mem_cons_of_mem _ ht)).1,
              (hers t (List.mem_cons_of_mem _ ht)).2.2⟩) hloop
          refine ⟨fun hb θ => ?_, fun hb θ hθ hn e => ?_⟩
          · rw [hrec.1 hb θ, hsem.1 rfl θ, hiff θ]
            simp only [Term.substList, List.cons.injEq]
            tauto
          · rw [hiff θ] at e
            rw [noNaN_shape θ l r _ _ hshape] at hn
            simp only [Term.substList, List.cons.injEq] at e
            simp only [Term.substList, NoNaNList, Bool.and_eq_true] at hn
            exact hrec.2 hb θ ((hsem.1 rfl θ).2 ⟨hθ, e.1⟩) hn.2 e.2

/-! ## Termination of Unify on first-order terms -/

theorem unboundCount_le {D : Type} (V : List String) (σ σ1 : Unifier D) (h : Grows σ σ1) :
    unboundCount V σ1 ≤ unboundCount V σ := by
  unfold unboundCount
  apply List.countP_mono_left
  intro x _ hx
  cases hf : Unifier.find σ x with
  | none => rfl
  | some v =>
    have := h x (by rw [hf]; simp)
    cases hf1 : Unifier.find σ1 x with
    | none => exact absurd hf1 this
    | some v1 => rw [hf1] at hx; cases hx

theorem countP_lt_of_witness {α : Type} (p q : α → Bool) (l : List α)
    (hpq : ∀ x ∈ l, p x = true → q x = true) (x : α) (hx : x ∈ l) (hq : q x = true)
    (hp : p x = false) : l.countP p < l.countP q := by
  induction l with
  | nil => cases hx
  | cons a l ih =>
    have hle : l.countP p ≤ l.countP q :=
      List.countP_mono_left (fun y hy h => hpq y (List.mem_cons_of_mem _ hy) h)
    rcases List.mem_cons.1 hx with e | hmem
    · subst e
      simp only [List.countP_cons, hq, hp]
      simp only [if_true, Bool.false_eq_true, if_false]
      omega
    · have h1 := ih (fun y hy h => hpq y (List.mem_cons_of_mem _ hy) h) hmem
      simp only [List.countP_cons]
      by_cases hpa : p a = true
      · have hqa := hpq a (List.mem_cons_self _ _) hpa
        simp only [hpa, hqa, if_true]
        omega
      · simp only [hpa, Bool.false_eq_true, if_false]
        split <;> omega

theorem unboundCount_lt {D : Type} (V : List String) (σ σ1 : Unifier D) (h : Grows σ σ1)
    (x : String) (hx : x ∈ V) (hn : Unifier.find σ x = none) (hs : Unifier.find σ1 x ≠ none) :
    unboundCount V σ1 < unboundCount V σ := by
  unfold unboundCount
  apply countP_lt_of_witness _ _ V _ x hx
  · simp [hn]
  · cases hf : Unifier.find σ1 x with
    | none => exact absurd hf hs
    | some v => rfl
  · intro y _ hy
    cases hf : Unifier.find σ y with
    | none => rfl
    | some v =>
      have := h y (by rw [hf]; simp)
      cases hf1 : Unifier.find σ1 y with
      | none => exact absurd hf1 this
      | some v1 => rw [hf1] at hy; cases hy

theorem unboundCount_of_step {D : Type} (V : List String) (σ σ1 : Unifier D)
    (h : UStep V σ σ1) : σ1 = σ ∨ unboundCount V σ1 < unboundCount V σ := by
  rcases h.2.2 with e | ⟨x, hx, hn, hs⟩
  · left; exact e
  · right; exact unboundCount_lt V σ σ1 h.2.1 x hx hn hs

theorem unifyListsLoop_mono {D : Type} [DecidableEq D] [DoubleOps D] {ls rs : List (Term D)}
    {σ : Unifier D} {res : Bool × Unifier D} {n m : Nat}
    (h : UnifyListsLoop (Unifier.apply n) (Unify n) ls rs σ = .ok res) (hnm : n ≤ m) :
    UnifyListsLoop (Unifier.apply m) (Unify m) ls rs σ = .ok res :=
  (unifyListsLoop_below _ _ _ _ (fun σ t => apply_below σ t n m hnm)
    (fun l r σ => unify_below l r σ n m hnm) ls rs σ).ok h

theorem unifyListsLoop_terminates {D : Type} [DecidableEq D] [DoubleOps D] (V : List String)
    (σ0 : Unifier D) (S : Nat)
    (ihInner : ∀ l r : Term D, sizeOf l < S → IsUnifiable l = true → IsUnifiable r = true →
      Resolved σ0 l → Resolved σ0 r → VarsIn V l → VarsIn V r →
      ∃ n b σ1, Unify n l r σ0 = .ok (b, σ1))
    (ihOuter : ∀ σ : Unifier D, unboundCount V σ < unboundCount V σ0 → UInv V σ →
      ∀ l r : Term D, IsUnifiable l = true → IsUnifiable r = true →
      Resolved σ l → Resolved σ r → VarsIn V l → VarsIn V r →
      ∃ n b σ1, Unify n l r σ = .ok (b, σ1)) :
    ∀ (ls rs : List (Term D)) (σ : Unifier D), UInv V σ →
      ((σ = σ0 ∧ (∀ t ∈ ls, Resolved σ0 t ∧ sizeOf t < S) ∧ (∀ t ∈ rs, Resolved σ0 t)) ∨
        unboundCount V σ < unboundCount V σ0) →
      (∀ t ∈ ls, IsUnifiable t = true ∧ VarsIn V t) →
      (∀ t ∈ rs, IsUnifiable t = true ∧ VarsIn V t) →
      ∃ n b σ1, UnifyListsLoop (Unifier.apply n) (Unify n) ls rs σ = .ok (b, σ1) := by
  intro ls
  induction ls with
  | nil => intro rs σ _ _ _ _; exact ⟨0, true, σ, by simp [UnifyListsLoop]⟩
  | cons l ls ihl =>
    intro rs σ hinv hcase hls hrs
    cases rs with
    | nil => exact ⟨0, true, σ, by simp [UnifyListsLoop]⟩
    | cons r rs =>
      have hl := hls l (List.mem_cons_self _ _)
      have hr := hrs r (List.mem_cons_self _ _)
      obtain ⟨na, l1, h1⟩ := apply_terminates σ hinv.1 hinv.2.1 l hl.1
      obtain ⟨nb, r1, h2⟩ := apply_terminates σ hinv.1 hinv.2.1 r hr.1
      have sl := apply_spec σ hinv.1 na l l1 hl.1 h1
      have sr := apply_spec σ hinv.1 nb r r1 hr.1 h2
      have hvl := varsIn_of_apply V σ na l l1 hinv.2.2 hl.2 sl
      have hvr := varsIn_of_apply V σ nb r r1 hinv.2.2 hr.2 sr
      have hu : ∃ n b σ1, Unify n l1 r1 σ = .ok (b, σ1) := by
        rcases hcase with ⟨e, hsl, hsr⟩ | hlt
        · subst e
          have hl2 := hsl l (List.mem_cons_self _ _)
          have hr2 := hsr r (List.mem_cons_self _ _)
          obtain ⟨m1, hm1⟩ := apply_resolved σ l hl.1 hl2.1
          obtain ⟨m2, hm2⟩ := apply_resolved σ r hr.1 hr2
          have e1 : l1 = l := apply_det h1 hm1
          have e2 : r1 = r := apply_det h2 hm2
          rw [e1, e2]
          exact ihInner l r hl2.2 hl.1 hr.1 hl2.1 hr2 hl.2 hr.2
        · exact ihOuter σ hlt hinv l1 r1 sl.1 sr.1 sl.2.1 sr.2.1 hvl hvr
      obtain ⟨nu, b1, σ2, h3⟩ := hu
      have hstep := unify_step V nu l1 r1 σ σ2 b1 hinv sl.1 sr.1 sl.2.1 sr.2.1 hvl hvr h3
      cases b1 with
      | false =>
        refine ⟨max na (max nb nu), false, σ2, ?_⟩
        have e1 := apply_mono h1 (Nat.le_max_left na (max nb nu))
        have e2 := apply_mono h2
          (le_trans (Nat.le_max_left nb nu) (Nat.le_max_right na (max nb nu)))
        have e3 := unify_mono h3
          (le_trans (Nat.le_max_right nb nu) (Nat.le_max_right na (max nb nu)))
        simp [UnifyListsLoop, e1, e2, e3]
      | true =>
        have hcase2 : (σ2 = σ0 ∧ (∀ t ∈ ls, Resolved σ0 t ∧ sizeOf t < S) ∧
            (∀ t ∈ rs, Resolved σ0 t)) ∨ unboundCount V σ2 < unboundCount V σ0 := by
          rcases unboundCount_of_step V σ σ2 hstep with e | hlt2
          · rcases hcase with ⟨e0, hsl, hsr⟩ | hlt
            · left
              exact ⟨by rw [e, e0], fun t ht => hsl t (List.mem_cons_of_mem _ ht),
                fun t ht => hsr t (List.mem_cons_of_mem _ ht)⟩
            · right; rw [e]; exact hlt
          · right
            rcases hcase with ⟨e0, _, _⟩ | hlt
            · rw [← e0]; exact hlt2
            · omega
        obtain ⟨nr, b, σ1, h4⟩ := ihl rs σ2 hstep.1 hcase2
          (fun t ht => hls t (List.mem_cons_of_mem _ ht))
          (fun t ht => hrs t (List.mem_cons_of_mem _ ht))
        refine ⟨max (max na nb) (max nu nr), b, σ1, ?_⟩
        have e1 := apply_mono h1
          (le_trans (Nat.le_max_left na nb) (Nat.le_max_left (max na nb) (max nu nr)))
        have e2 := apply_mono h2
          (le_trans (Nat.le_max_right na nb) (Nat.le_max_left (max na nb) (max nu nr)))
        have e3 := unify_mono h3
          (le_trans (Nat.le_max_left nu nr) (Nat.le_max_right (max na nb) (max nu nr)))
        have e4 := unifyListsLoop_mono h4
          (le_trans (Nat.le_max_right nu nr) (Nat.le_max_right (max na nb) (max nu nr)))
        simp only [UnifyListsLoop, e1, e2, e3, Bool.not_true, Bool.false_eq_true, if_false]
        exact e4

/-- A call of Unify on prepared first-order terms either answers at once or
is a call of UnifyLists on the elements of two lists or of two atoms. -/
theorem unify_leaf {D : Type} [DecidableEq D] [DoubleOps D] (l r : Term D) (σ : Unifier D)
    (hfl : IsUnifiable l = true) (hfr : IsUnifiable r = true)
    (hrl : Resolved σ l) (hrr : Resolved σ r) :
    (∃ res, ∀ n, Unify (n + 1) l r σ = .ok res) ∨
    (∃ ls rs, ((l = .list ls ∧ r = .list rs) ∨ ∃ f, l = .atom f ls ∧ r = .atom f rs) ∧
      ∀ n, Unify (n + 1) l r σ = UnifyListsWith (Unifier.apply n) (Unify n) ls rs σ) := by
  have key : (∃ res, Unify 1 l r σ = .ok res) ∨
      (∃ ls rs, ((l = .list ls ∧ r = .list rs) ∨ ∃ f, l = .atom f ls ∧ r = .atom f rs) ∧
        ∀ n, Unify (n + 1) l r σ = UnifyListsWith (Unifier.apply n) (Unify n) ls rs σ) := by
    cases l with
    | unop op x => simp [IsUnifiable] at hfl
    | binop op x y => simp [IsUnifiable] at hfl
    | list ls =>
      cases r with
      | unop op x => simp [IsUnifiable] at hfr
      | binop op x y => simp [IsUnifiable] at hfr
      | list rs =>
        right
        refine ⟨ls, rs, Or.inl ⟨rfl, rfl⟩, fun n => ?_⟩
        rw [Unify, prepareTerm_resolved σ _ hfl hrl, prepareTerm_resolved σ _ hfr hrr]
      | _ =>
        left
        rw [Unify, prepareTerm_resolved σ _ hfl hrl, prepareTerm_resolved σ _ hfr hrr]
        simp only [Term.which]
        repeat' split
        all_goals first | exact ⟨_, rfl⟩ | simp_all
    | atom f ls =>
      cases r with
      | unop op x => simp [IsUnifiable] at hfr
      | binop op x y => simp [IsUnifiable] at hfr
      | atom g rs =>
        by_cases hfg : f = g
        · subst hfg
          right
          refine ⟨ls, rs, Or.inr ⟨f, rfl, rfl⟩, fun n => ?_⟩
          rw [Unify, prepareTerm_resolved σ _ hfl hrl, prepareTerm_resolved σ _ hfr hrr]
          simp
        · left
          rw [Unify, prepareTerm_resolved σ _ hfl hrl, prepareTerm_resolved σ _ hfr hrr]
          simp [hfg]
      | _ =>
        left
        rw [Unify, prepareTerm_resolved σ _ hfl hrl, prepareTerm_resolved σ _ hfr hrr]
        simp only [Term.which]
        repeat' split
        all_goals first | exact ⟨_, rfl⟩ | simp_all
    | var x =>
      left
      cases r with
      | unop op x => simp [IsUnifiable] at hfr
      | binop op x y => simp [IsUnifiable] at hfr
      | _ =>
        rw [Unify, prepareTerm_resolved σ _ hfl hrl, prepareTerm_resolved σ _ hfr hrr]
        simp only [Term.which]
        repeat' split
        all_goals exact ⟨_, rfl⟩
    | bool a =>
      left
      cases r with
      | unop op x => simp [IsUnifiable] at hfr
      | binop op x y => simp [IsUnifiable] at hfr
      | _ =>
        rw [Unify, prepareTerm_resolved σ _ hfl hrl, prepareTerm_resolved σ _ hfr hrr]
        simp only [Term.which]
        repeat' split
        all_goals first | exact ⟨_, rfl⟩ | simp_all
    | num a =>
      left
      cases r with
      | unop op x => simp [IsUnifiable] at hfr
      | binop op x y => simp [IsUnifiable] at hfr
      | _ =>
        rw [Unify, prepareTerm_resolved σ _ hfl hrl, prepareTerm_resolved σ _ hfr hrr]
        simp only [Term.which]
        repeat' split
        all_goals first | exact ⟨_, rfl⟩ | simp_all
    | str a =>
      left
      cases r with
      | unop op x => simp [IsUnifiable] at hfr
      | binop op x y => simp [IsUnifiable] at hfr
      | _ =>
        rw [Unify, prepareTerm_resolved σ _ hfl hrl, prepareTerm_resolved σ _ hfr hrr]
        simp only [Term.which]
        repeat' split
        all_goals first | exact ⟨_, rfl⟩ | simp_all
  rcases key with ⟨res, h⟩ | h
  · left; exact ⟨res, fun n => unify_mono h (by omega)⟩
  · right; exact h

theorem sizeOf_lt_of_shape {D : Type} (l r : Term D) (ls rs : List (Term D))
    (hshape : (l = .list ls ∧ r = .list rs) ∨ ∃ f, l = .atom f ls ∧ r = .atom f rs) :
    ∀ t ∈ ls, sizeOf t < sizeOf l := by
  intro t ht
  have := List.sizeOf_lt_of_mem ht
  rcases hshape with ⟨e1, _⟩ | ⟨f, e1, _⟩
  · subst e1; simp only [Term.list.sizeOf_spec]; omega
  · subst e1; simp only [Term.atom.sizeOf_spec]; omega

theorem unify_terminates_aux {D : Type} [DecidableEq D] [DoubleOps D] (V : List String)
    (σ : Unifier D) (hinv : UInv V σ)
    (ihOuter : ∀ σ1 : Unifier D, unboundCount V σ1 < unboundCount V σ → UInv V σ1 →
      ∀ l r : Term D, IsUnifiable l = true → IsUnifiable r = true →
      Resolved σ1 l → Resolved σ1 r → VarsIn V l → VarsIn V r →
      ∃ n b σ2, Unify n l r σ1 = .ok (b, σ2)) :
    ∀ (s : Nat) (l r : Term D), sizeOf l < s → IsUnifiable l = true → IsUnifiable r = true →
      Resolved σ l → Resolved σ r → VarsIn V l → VarsIn V r →
      ∃ n b σ1, Unify n l r σ = .ok (b, σ1) := by
  intro s
  induction s with
  | zero => intro l r hs; omega
  | succ s ih =>
    intro l r hs hfl hfr hrl hrr hvl hvr
    rcases unify_leaf l r σ hfl hfr hrl hrr with ⟨res, h⟩ | ⟨ls, rs, hshape, h⟩
    · exact ⟨1, res.1, res.2, h 0⟩
    · obtain ⟨hels, hers⟩ := elements_facts V σ l r ls rs hshape hfl hfr hrl hrr hvl hvr
      have hsz := sizeOf_lt_of_shape l r ls rs hshape
      by_cases hlen : ls.length = rs.length
      · cases ls with
        | nil =>
          cases rs with
          | nil => exact ⟨1, true, σ, by rw [h 0]; simp [UnifyListsWith]⟩
          | cons r0 rs => simp at hlen
        | cons l0 ls =>
          cases rs with
          | nil => simp at hlen
          | cons r0 rs =>
            have hl0 := hels l0 (List.mem_cons_self _ _)
            have hr0 := hers r0 (List.mem_cons_self _ _)
            have hs0 := hsz l0 (List.mem_cons_self _ _)
            obtain ⟨n0, b1, σ2, h0⟩ := ih l0 r0 (by omega) hl0.1 hr0.1 hl0.2.1 hr0.2.1
              hl0.2.2 hr0.2.2
            have hstep := unify_step V n0 l0 r0 σ σ2 b1 hinv hl0.1 hr0.1 hl0.2.1 hr0.2.1
              hl0.2.2 hr0.2.2 h0
            cases b1 with
            | false =>
              refine ⟨n0 + 1, false, σ2, ?_⟩
              rw [h n0]
              have hlen2 : ls.length = rs.length := by simpa using hlen
              simp [UnifyListsWith, h0, hlen2]
            | true =>
              have hcase : (σ2 = σ ∧ (∀ t ∈ ls, Resolved σ t ∧ sizeOf t < s) ∧
                  (∀ t ∈ rs, Resolved σ t)) ∨ unboundCount V σ2 < unboundCount V σ := by
                rcases unboundCount_of_step V σ σ2 hstep with e | hlt
                · left
                  refine ⟨e, fun t ht => ⟨(hels t (List.mem_cons_of_mem _ ht)).2.1, ?_⟩,
                    fun t ht => (hers t (List.mem_cons_of_mem _ ht)).2.1⟩
                  have := hsz t (List.mem_cons_of_mem _ ht)
                  omega
                · right; exact hlt
              obtain ⟨n1, b, σ1, h1⟩ := unifyListsLoop_terminates V σ s ih ihOuter ls rs σ2
                hstep.1 hcase
                (fun t ht => ⟨(hels t (List.mem_cons_of_mem _ ht)).1,
                  (hels t (List.mem_cons_of_mem _ ht)).2.2⟩)
                (fun t ht => ⟨(hers t (List.mem_cons_of_mem _ ht)).1,
                  (hers t (List.mem_cons_of_mem _ ht)).2.2⟩)
              refine ⟨max n0 n1 + 1, b, σ1, ?_⟩
              rw [h (max n0 n1)]
              have e0 := unify_mono h0 (Nat.le_max_left n0 n1)
              have e1 := unifyListsLoop_mono h1 (Nat.le_max_right n0 n1)
              have hlen2 : ls.length = rs.length := by simpa using hlen
              simp [UnifyListsWith, e0, e1, hlen2]
      · exact ⟨1, false, σ, by rw [h 0]; simp [UnifyListsWith, hlen]⟩

theorem unify_terminates {D : Type} [DecidableEq D] [DoubleOps D] (V : List String) :
    ∀ (c : Nat) (σ : Unifier D), unboundCount V σ ≤ c → UInv V σ →
      ∀ l r : Term D, IsUnifiable l = true → IsUnifiable r = true →
      Resolved σ l → Resolved σ r → VarsIn V l → VarsIn V r →
      ∃ n b σ1, Unify n l r σ = .ok (b, σ1) := by
  intro c
  induction c with
  | zero =>
    intro σ hc hinv l r hfl hfr hrl hrr hvl hvr
    exact unify_terminates_aux V σ hinv (fun σ1 h1 => by omega) (sizeOf l + 1) l r
      (Nat.lt_succ_self _) hfl hfr hrl hrr hvl hvr
  | succ c ih =>
    intro σ hc hinv l r hfl hfr hrl hrr hvl hvr
    exact unify_terminates_aux V σ hinv (fun σ1 h1 => ih σ1 (by omega)) (sizeOf l + 1) l r
      (Nat.lt_succ_self _) hfl hfr hrl hrr hvl hvr

mutual
theorem mem_vars_of_contains {D : Type} (w : String) :
    ∀ t : Term D, ContainsVariable w t = true → w ∈ Term.vars t
  | .var name, h => by
    simp only [ContainsVariable, decide_eq_true_eq] at h
    simp [Term.vars, h]
  | .list ts, h => by
    simp only [ContainsVariable] at h
    simpa [Term.vars] using mem_varsList_of_contains w ts h
  | .atom _ ts, h => by
    simp only [ContainsVariable] at h
    simpa [Term.vars] using mem_varsList_of_contains w ts h
  | .bool _, h => by simp [ContainsVariable] at h
  | .num _, h => by simp [ContainsVariable] at h
  | .str _, h => by simp [ContainsVariable] at h
  | .unop _ _, h => by simp [ContainsVariable] at h
  | .binop _ _ _, h => by simp [ContainsVariable] at h
theorem mem_varsList_of_contains {D : Type} (w : String) :
    ∀ ts : List (Term D), ContainsVariableList w ts = true → w ∈ Term.varsList ts
  | [], h => by simp [ContainsVariableList] at h
  | t :: ts, h => by
    simp only [ContainsVariableList] at h
    simp only [Term.varsList, List.mem_append]
    by_cases hc : ContainsVariable w t = true
    · left; exact mem_vars_of_contains w t hc
    · simp only [hc, Bool.false_eq_true, if_false] at h
      right; exact mem_varsList_of_contains w ts h
end

mutual
theorem contains_of_mem_vars {D : Type} (w : String) :
    ∀ t : Term D, w ∈ Term.vars t → ContainsVariable w t = true
  | .var name, h => by
    simp only [Term.vars, List.mem_singleton] at h
    simp [ContainsVariable, h]
  | .list ts, h => by
    simp only [Term.vars] at h
    simpa [ContainsVariable] using contains_of_mem_varsList w ts h
  | .atom _ ts, h => by
    simp only [Term.vars] at h
    simpa [ContainsVariable] using contains_of_mem_varsList w ts h
  | .bool _, h => by simp [Term.vars] at h
  | .num _, h => by simp [Term.vars] at h
  | .str _, h => by simp [Term.vars] at h
  | .unop _ _, h => by simp [Term.vars] at h
  | .binop _ _ _, h => by simp [Term.vars] at h
theorem contains_of_mem_varsList {D : Type} (w : String) :
    ∀ ts : List (Term D), w ∈ Term.varsList ts → ContainsVariableList w ts = true
  | [], h => by simp [Term.varsList] at h
  | t :: ts, h => by
    simp only [Term.varsList, List.mem_append] at h
    simp only [ContainsVariableList]
    rcases h with h | h
    · simp [contains_of_mem_vars w t h]
    · have := contains_of_mem_varsList w ts h
      split <;> simp [this]
end

theorem uinv_nil {D : Type} (V : List String) : UInv V ([] : Unifier D) :=
  ⟨fun k v h => by simp [Unifier.find] at h,
   ⟨fun _ => 0, fun k v h => by simp [Unifier.find] at h⟩,
   fun k v h => by simp [Unifier.find] at h⟩

theorem resolved_nil {D : Type} (t : Term D) : Resolved ([] : Unifier D) t :=
  fun _ _ => rfl

/-- From the empty unifier, Unify returns on all first-order terms. -/
theorem unify_terminates_nil {D : Type} [DecidableEq D] [DoubleOps D] (l r : Term D)
    (hfl : IsUnifiable l = true) (hfr : IsUnifiable r = true) :
    ∃ n b σ1, Unify n l r [] = .ok (b, σ1) ∧
      UStep (Term.vars l ++ Term.vars r) [] σ1 := by
  have hvl : VarsIn (Term.vars l ++ Term.vars r) l :=
    fun w hw => List.mem_append_left _ (mem_vars_of_contains w l hw)
  have hvr : VarsIn (Term.vars l ++ Term.vars r) r :=
    fun w hw => List.mem_append_right _ (mem_vars_of_contains w r hw)
  obtain ⟨n, b, σ1, h⟩ := unify_terminates (Term.vars l ++ Term.vars r) _ [] (le_refl _)
    (uinv_nil _) l r hfl hfr (resolved_nil l) (resolved_nil r) hvl hvr
  exact ⟨n, b, σ1, h, unify_step _ n l r [] σ1 b (uinv_nil _) hfl hfr (resolved_nil l)
    (resolved_nil r) hvl hvr h⟩

/-! ## Unification of first-order terms whose variables are unbound -/

theorem find_mem {D : Type} (σ : Unifier D) (k : String) (v : Term D)
    (h : Unifier.find σ k = some v) : (k, v) ∈ σ := by
  induction σ with
  | nil => simp [Unifier.find] at h
  | cons p σ ih =>
    obtain ⟨k1, v1⟩ := p
    simp only [Unifier.find] at h
    split at h
    · rename_i hk
      simp only [Option.some.injEq] at h
      subst hk; subst h
      exact List.mem_cons_self _ _
    · exact List.mem_cons_of_mem _ (ih h)

theorem mem_rangeVars {D : Type} (σ : Unifier D) (k : String) (v : Term D) (w : String)
    (h : (k, v) ∈ σ) (hw : w ∈ Term.vars v) : w ∈ Unifier.rangeVars σ := by
  induction σ with
  | nil => cases h
  | cons p σ ih =>
    obtain ⟨k1, v1⟩ := p
    simp only [Unifier.rangeVars, List.mem_append]
    rcases List.mem_cons.1 h with e | hmem
    · cases e; left; exact hw
    · right; exact ih hmem

/-- A list of names for which a unifier with first-order acyclic bindings
satisfies the invariant and that holds the variables of two given terms. -/
theorem exists_names {D : Type} (σ : Unifier D) (l r : Term D) (hfo : σ.FirstOrder)
    (hacyc : σ.Acyclic) :
    ∃ V : List String, UInv V σ ∧ VarsIn V l ∧ VarsIn V r := by
  refine ⟨Term.vars l ++ (Term.vars r ++ Unifier.rangeVars σ), ⟨hfo, hacyc, ?_⟩, ?_, ?_⟩
  · intro k v hf w hw
    exact List.mem_append_right _ (List.mem_append_right _
      (mem_rangeVars σ k v w (find_mem σ k v hf) (mem_vars_of_contains w v hw)))
  · intro w hw; exact List.mem_append_left _ (mem_vars_of_contains w l hw)
  · intro w hw
    exact List.mem_append_right _ (List.mem_append_left _ (mem_vars_of_contains w r hw))

/-- The facts about a unification of two first-order terms without the
anonymous variable, started from the empty unifier. -/
theorem unify_nil_facts {D : Type} [DecidableEq D] [DoubleOps D] (l r : Term D)
    (hl : NamedFirstOrder l) (hr : NamedFirstOrder r) (n : Nat) (b : Bool) (σ : Unifier D)
    (h : Unify n l r [] = .ok (b, σ)) :
    σ.FirstOrder ∧ σ.Acyclic ∧ USem [] l r b σ := by
  have hvl : VarsIn (Term.vars l ++ Term.vars r) l :=
    fun w hw => List.mem_append_left _ (mem_vars_of_contains w l hw)
  have hvr : VarsIn (Term.vars l ++ Term.vars r) r :=
    fun w hw => List.mem_append_right _ (mem_vars_of_contains w r hw)
  have hV : "_" ∉ Term.vars l ++ Term.vars r := by
    intro hmem
    rcases List.mem_append.1 hmem with h1 | h1
    · have := hl.2; rw [contains_of_mem_vars "_" l h1] at this; cases this
    · have := hr.2; rw [contains_of_mem_vars "_" r h1] at this; cases this
  have hstep := unify_step _ n l r [] σ b (uinv_nil _) hl.1 hr.1 (resolved_nil l)
    (resolved_nil r) hvl hvr h
  exact ⟨hstep.1.1, hstep.1.2.1, unify_sem _ hV n l r [] σ b (uinv_nil _) hl.1 hr.1
    (resolved_nil l) (resolved_nil r) hvl hvr h⟩

theorem solves_nil {D : Type} (θ : Subst D) : Solves θ ([] : Unifier D) :=
  fun k v h => by simp [Unifier.find] at h

theorem apply_agrees_after_unify {D : Type} [DecidableEq D] [DoubleOps D]
    (l r : Term D) (n : Nat) (σ : Unifier D)
    (hl : NamedFirstOrder l) (hr : NamedFirstOrder r)
    (h : Unify n l r [] = .ok (true, σ)) :
    ∃ k t, ∀ m, k ≤ m → Unifier.apply m σ l = .ok t ∧ Unifier.apply m σ r = .ok t := by
  obtain ⟨hfo, hacyc, hsem⟩ := unify_nil_facts l r hl hr n true σ h
  obtain ⟨θ, hθ, happ⟩ := exists_solution σ hfo hacyc
  have heq : Term.subst θ l = Term.subst θ r := ((hsem.1 rfl θ).1 hθ).2
  obtain ⟨k1, h1⟩ := happ l hl.1
  obtain ⟨k2, h2⟩ := happ r hr.1
  refine ⟨max k1 k2, Term.subst θ l, fun m hm => ⟨?_, ?_⟩⟩
  · exact apply_mono h1 (le_trans (Nat.le_max_left _ _) hm)
  · rw [heq]; exact apply_mono h2 (le_trans (Nat.le_max_right _ _) hm)

/-! ## Ground terms -/

mutual
theorem ground_facts {D : Type} :
    ∀ t : Term D, IsGround t = true →
      IsUnifiable t = true ∧ (∀ w, ContainsVariable w t = false) ∧
        ∀ θ : Subst D, Term.subst θ t = t
  | .bool _, _ => ⟨rfl, fun _ => rfl, fun _ => rfl⟩
  | .num _, _ => ⟨rfl, fun _ => rfl, fun _ => rfl⟩
  | .str _, _ => ⟨rfl, fun _ => rfl, fun _ => rfl⟩
  | .list ts, h => by
    simp only [IsGround] at h
    obtain ⟨h1, h2, h3⟩ := groundList_facts ts h
    exact ⟨by simpa [IsUnifiable] using h1, fun w => by simpa [ContainsVariable] using h2 w,
      fun θ => by simp [Term.subst, h3 θ]⟩
  | .atom _ ts, h => by
    simp only [IsGround] at h
    obtain ⟨h1, h2, h3⟩ := groundList_facts ts h
    exact ⟨by simpa [IsUnifiable] using h1, fun w => by simpa [ContainsVariable] using h2 w,
      fun θ => by simp [Term.subst, h3 θ]⟩
  | .var _, h => by simp [IsGround] at h
  | .unop _ _, h => by simp [IsGround] at h
  | .binop _ _ _, h => by simp [IsGround] at h
theorem groundList_facts {D : Type} :
    ∀ ts : List (Term D), IsGroundList ts = true →
      IsUnifiableList ts = true ∧ (∀ w, ContainsVariableList w ts = false) ∧
        ∀ θ : Subst D, Term.substList θ ts = ts
  | [], _ => ⟨rfl, fun _ => rfl, fun _ => rfl⟩
  | t :: ts, h => by
    simp only [IsGroundList] at h
    have ht : IsGround t = true := by
      cases hg : IsGround t with
      | true => rfl
      | false => rw [hg] at h; simp at h
    rw [ht] at h
    simp only [Bool.not_true, Bool.false_eq_true, if_false] at h
    obtain ⟨a1, a2, a3⟩ := ground_facts t ht
    obtain ⟨b1, b2, b3⟩ := groundList_facts ts h
    refine ⟨by simp [IsUnifiableList, a1, b1], fun w => by simp [ContainsVariableList, a2, b2],
      fun θ => by simp [Term.substList, a3, b3]⟩
end

theorem firstOrder_of_forall {D : Type} (σ : Unifier D)
    (h : ∀ p ∈ σ, IsUnifiable p.2 = true) : σ.FirstOrder :=
  fun k v hf => h (k, v) (find_mem σ k v hf)

theorem ground_of_forall {D : Type} (σ : Unifier D)
    (h : ∀ p ∈ σ, IsGround p.2 = true) : σ.Ground :=
  fun k v hf => h (k, v) (find_mem σ k v hf)

theorem firstOrder_of_ground {D : Type} (σ : Unifier D) (h : σ.Ground) : σ.FirstOrder :=
  fun k v hf => (ground_facts v (h k v hf)).1

theorem acyclic_of_ground {D : Type} (σ : Unifier D) (h : σ.Ground) : σ.Acyclic :=
  ⟨fun _ => 0, fun k v hf w hw => by
    rw [(ground_facts v (h k v hf)).2.1 w] at hw; cases hw⟩

theorem resolved_of_vars {D : Type} (σ : Unifier D) (t : Term D)
    (h : ∀ v ∈ Term.vars t, Unifier.find σ v = none) : Resolved σ t :=
  fun v hv => h v (mem_vars_of_contains v t hv)

/-! ## Matching a pattern against a ground term -/

theorem ground_set {D : Type} (σ : Unifier D) (x : String) (t : Term D) (hσ : σ.Ground)
    (ht : IsGround t = true) : (Unifier.set σ x t).Ground := by
  intro k v hf
  by_cases hk : k = x
  · subst hk; rw [find_set_self] at hf; cases hf; exact ht
  · rw [find_set_other _ _ _ _ hk] at hf; exact hσ k v hf

theorem find_set_ne_none {D : Type} (σ : Unifier D) (x w : String) (t : Term D) :
    Unifier.find (Unifier.set σ x t) w ≠ none ↔ (Unifier.find σ w ≠ none ∨ w = x) := by
  by_cases hw : w = x
  · subst hw; simp [find_set_self]
  · rw [find_set_other _ _ _ _ hw]; simp [hw]

/-- The meaning of a successful match of a pattern against a ground term:
the bindings stay ground and the keys grow by the variables of the pattern. -/
theorem unifyListsLoop_match {D : Type} [DecidableEq D] [DoubleOps D] (n : Nat)
    (ih : ∀ (l r : Term D) (σ σ1 : Unifier D) (b : Bool), σ.Ground →
      IsUnifiable l = true → ContainsVariable "_" l = false → IsGround r = true →
      Resolved σ l → Unify n l r σ = .ok (b, σ1) →
      σ1.Ground ∧ (b = true → ∀ w, Unifier.find σ1 w ≠ none ↔
        (Unifier.find σ w ≠ none ∨ ContainsVariable w l = true))) :
    ∀ (ls rs : List (Term D)) (σ σ1 : Unifier D) (b : Bool), ls.length = rs.length →
      σ.Ground → (∀ t ∈ ls, IsUnifiable t = true ∧ ContainsVariable "_" t = false) →
      (∀ t ∈ rs, IsGround t = true) →
      UnifyListsLoop (Unifier.apply n) (Unify n) ls rs σ = .ok (b, σ1) →
      σ1.Ground ∧ (b = true → ∀ w, Unifier.find σ1 w ≠ none ↔
        (Unifier.find σ w ≠ none ∨ ContainsVariableList w ls = true)) := by
  intro ls
  induction ls with
  | nil =>
    intro rs σ σ1 b hlen hσ _ _ h
    cases rs with
    | cons r rs => simp at hlen
    | nil =>
      simp only [UnifyListsLoop, Except.ok.injEq, Prod.mk.injEq] at h
      rw [← h.2]
      exact ⟨hσ, fun _ w => by simp [ContainsVariableList]⟩
  | cons l ls ihl =>
    intro rs σ σ1 b hlen hσ hls hrs h
    cases rs with
    | nil => simp at hlen
    | cons r rs =>
      simp only [UnifyListsLoop] at h
      have hfo := firstOrder_of_ground σ hσ
      cases h1 : Unifier.apply n σ l with
      | error e => rw [h1] at h; cases h
      | ok l1 =>
        rw [h1] at h; simp only at h
        cases h2 : Unifier.apply n σ r with
        | error e => rw [h2] at h; cases h
        | ok r1 =>
          rw [h2] at h; simp only at h
          have hl := hls l (List.mem_cons_self _ _)
          have hr := hrs r (List.mem_cons_self _ _)
          have gr := ground_facts r hr
          obtain ⟨m2, hm2⟩ := apply_resolved σ r gr.1
            (fun v hv => by rw [gr.2.1 v] at hv; cases hv)
          have e2 : r1 = r := apply_det h2 hm2
          subst e2
          have sl := apply_spec σ hfo n l l1 hl.1 h1
          have hnw : ContainsVariable "_" l1 = false := by
            cases hc : ContainsVariable "_" l1 with
            | false => rfl
            | true =>
              rcases sl.2.2.2.2.1 "_" hc with h5 | ⟨k, v, hf, hc2⟩
              · rw [hl.2] at h5; cases h5
              · rw [(ground_facts v (hσ k v hf)).2.1 "_"] at hc2; cases hc2
          cases h3 : Unify n l1 r1 σ with
          | error e => rw [h3] at h; cases h
          | ok p =>
            rw [h3] at h
            obtain ⟨b1, σ2⟩ := p
            have hm := ih l1 r1 σ σ2 b1 hσ sl.1 hnw hr sl.2.1 h3
            cases b1 with
            | false =>
              simp only [Bool.not_false, if_true, Except.ok.injEq, Prod.mk.injEq] at h
              rw [← h.1, ← h.2]
              exact ⟨hm.1, fun e => by cases e⟩
            | true =>
              simp only [Bool.not_true, Bool.false_eq_true, if_false] at h
              have hrec := ihl rs σ2 σ1 b (by simpa using hlen) hm.1
                (fun t ht => hls t (List.mem_cons_of_mem _ ht))
                (fun t ht => hrs t (List.mem_cons_of_mem _ ht)) h
              refine ⟨hrec.1, fun hb w => ?_⟩
              rw [hrec.2 hb w, hm.2 rfl w]
              have hcons : ContainsVariableList w (l :: ls) = true ↔
                  (ContainsVariable w l = true ∨ ContainsVariableList w ls = true) := by
                simp only [ContainsVariableList]
                cases ContainsVariable w l <;> simp
              rw [hcons]
              constructor
              · rintro ((h4 | h4) | h4)
                · exact Or.inl h4
                · rcases sl.2.2.2.2.1 w h4 with h5 | ⟨k, v, hf, hc⟩
                  · exact Or.inr (Or.inl h5)
                  · rw [(ground_facts v (hσ k v hf)).2.1 w] at hc; cases hc
                · exact Or.inr (Or.inr h4)
              · rintro (h4 | h4 | h4)
                · exact Or.inl (Or.inl h4)
                · by_cases hf : Unifier.find σ w = none
                  · exact Or.inl (Or.inr (sl.2.2.2.2.2 w h4 hf))
                  · exact Or.inl (Or.inl hf)
                · exact Or.inr h4

theorem shape_elements {D : Type} (σ : Unifier D) (l r : Term D) (ls rs : List (Term D))
    (hshape : (l = .list ls ∧ r = .list rs) ∨ ∃ f, l = .atom f ls ∧ r = .atom f rs)
    (hfl : IsUnifiable l = true) (hnw : ContainsVariable "_" l = false)
    (hrl : Resolved σ l) (hgr : IsGround r = true) :
    (∀ t ∈ ls, IsUnifiable t = true ∧ ContainsVariable "_" t = false ∧ Resolved σ t) ∧
    (∀ t ∈ rs, IsGround t = true) ∧
    (∀ w, ContainsVariable w l = ContainsVariableList w ls) := by
  rcases hshape with ⟨e1, e2⟩ | ⟨f, e1, e2⟩
  · subst e1; subst e2
    simp only [IsUnifiable, IsGround, ContainsVariable] at hfl hgr hnw
    exact ⟨fun t ht => ⟨(isUnifiableList_iff _).1 hfl t ht,
        (containsVariableList_eq_false _ _).1 hnw t ht,
        resolved_of_mem_list σ ls (fun v hv => hrl v (by simpa [ContainsVariable] using hv)) t ht⟩,
      (isGroundList_iff _).1 hgr, fun w => by simp [ContainsVariable]⟩
  · subst e1; subst e2
    simp only [IsUnifiable, IsGround, ContainsVariable] at hfl hgr hnw
    exact ⟨fun t ht => ⟨(isUnifiableList_iff _).1 hfl t ht,
        (containsVariableList_eq_false _ _).1 hnw t ht,
        resolved_of_mem_list σ ls (fun v hv => hrl v (by simpa [ContainsVariable] using hv)) t ht⟩,
      (isGroundList_iff _).1 hgr, fun w => by simp [ContainsVariable]⟩

theorem unify_match {D : Type} [DecidableEq D] [DoubleOps D] :
    ∀ (n : Nat) (l r : Term D) (σ σ1 : Unifier D) (b : Bool), σ.Ground →
      IsUnifiable l = true → ContainsVariable "_" l = false → IsGround r = true →
      Resolved σ l → Unify n l r σ = .ok (b, σ1) →
      σ1.Ground ∧ (b = true → ∀ w, Unifier.find σ1 w ≠ none ↔
        (Unifier.find σ w ≠ none ∨ ContainsVariable w l = true)) := by
  intro n
  induction n with
  | zero => intro l r σ σ1 b _ _ _ _ _ h; simp [Unify] at h
  | succ n ih =>
    intro l r σ σ1 b hσ hfl hnw hgr hrl h
    have gr := ground_facts r hgr
    have hrr : Resolved σ r := fun v hv => by rw [gr.2.1 v] at hv; cases hv
    rcases unify_inv n l r σ σ1 b hfl gr.1 hrl hrr h with
      ⟨_, e, hlr⟩ | ⟨hb, e, hw⟩ | ⟨x, t, _, e, _, hxt⟩ | ⟨hb, e, _⟩ |
      ⟨ls, rs, hshape, hlen, hl⟩
    · subst e; subst hlr
      exact ⟨hσ, fun _ w => by simp [gr.2.1 w]⟩
    · exfalso
      rcases hw with hw | hw
      · subst hw; simp [ContainsVariable] at hnw
      · subst hw; simp [IsGround] at hgr
    · subst e
      rcases hxt with ⟨e1, e2⟩ | ⟨e1, e2⟩
      · subst e1; subst e2
        refine ⟨ground_set σ x r hσ hgr, fun _ w => ?_⟩
        rw [find_set_ne_none]
        simp [ContainsVariable, eq_comm]
      · subst e2; simp [IsGround] at hgr
    · subst e; subst hb
      exact ⟨hσ, fun e => by cases e⟩
    · obtain ⟨hels, hers, hcont⟩ := shape_elements σ l r ls rs hshape hfl hnw hrl hgr
      rcases unifyListsWith_inv n ls rs σ σ1 b hlen hl with
        ⟨e1, _, _, e⟩ | ⟨l0, ls1, r0, rs1, b1, σ2, e1, e2, hu, hrest⟩
      · subst e; subst e1
        exact ⟨hσ, fun _ w => by rw [hcont w]; simp [ContainsVariableList]⟩
      · subst e1; subst e2
        have hl0 := hels l0 (List.mem_cons_self _ _)
        have hm := ih l0 r0 σ σ2 b1 hσ hl0.1 hl0.2.1 (hers r0 (List.mem_cons_self _ _))
          hl0.2.2 hu
        rcases hrest with ⟨_, hb, e3⟩ | ⟨hb1, hloop⟩
        · subst hb; subst e3
          exact ⟨hm.1, fun e => by cases e⟩
        · subst hb1
          have hrec := unifyListsLoop_match n ih ls1 rs1 σ2 σ1 b (by simpa using hlen) hm.1
            (fun t ht => ⟨(hels t (List.mem_cons_of_mem _ ht)).1,
              (hels t (List.mem_cons_of_mem _ ht)).2.1⟩)
            (fun t ht => hers t (List.mem_cons_of_mem _ ht)) hloop
          refine ⟨hrec.1, fun hb w => ?_⟩
          rw [hrec.2 hb w, hm.2 rfl w, hcont w]
          simp only [ContainsVariableList]
          cases ContainsVariable w l0 <;> simp
/-! ## Equality and order of ground terms -/

theorem opOr_bool {D : Type} (a b : Bool) :
    OpOr (D := D) (.bool a) (.bool b) = .ok (.bool (a || b)) := by
  cases a <;> cases b <;> rfl

theorem opAnd_bool {D : Type} (a b : Bool) :
    OpAnd (D := D) (.bool a) (.bool b) = .ok (.bool (a && b)) := by
  cases a <;> cases b <;> rfl

theorem opNot_bool {D : Type} (a : Bool) : OpNot (D := D) (.bool a) = .ok (.bool (!a)) := rfl

mutual
theorem opNeq_ground {D : Type} [DecidableEq D] [DoubleOps D] : ∀ a b : Term D, IsGround a = true →
    IsGround b = true → NoNaN a = true → OpNeq a b = .ok (.bool (decide (a ≠ b)))
  | .bool x, b, _, hb, _ => by
    cases b <;> simp [IsGround] at hb <;> simp [OpNeq, Term.which]
    rename_i y
    cases x <;> cases y <;> rfl
  | .num x, b, _, hb, hn => by
    simp only [NoNaN, Bool.not_eq_true'] at hn
    cases b <;> simp [IsGround] at hb <;> simp [OpNeq, Term.which, doubleEq, hn]
  | .str x, b, _, hb, _ => by
    cases b <;> simp [IsGround] at hb <;> simp [OpNeq, Term.which]
  | .list ls, b, ha, hb, hn => by
    cases b <;> simp only [IsGround, Bool.false_eq_true] at hb <;> try (simp [OpNeq, Term.which]; done)
    rename_i rs
    simp only [IsGround] at ha
    simp only [NoNaN] at hn
    simp only [OpNeq]
    by_cases hlen : ls.length = rs.length
    · simp only [hlen, ne_eq, not_true_eq_false, if_false]
      rw [opNeqLoop_ground ls rs hlen ha hb hn false]
      simp
    · have hne : ls ≠ rs := fun h => hlen (by rw [h])
      simp [hlen, hne]
  | .atom f ls, b, ha, hb, hn => by
    cases b <;> simp only [IsGround, Bool.false_eq_true] at hb <;> try (simp [OpNeq, Term.which]; done)
    rename_i g rs
    simp only [IsGround] at ha
    simp only [NoNaN] at hn
    simp only [OpNeq]
    by_cases hf : f = g
    · by_cases hlen : ls.length = rs.length
      · simp only [hf, hlen, ne_eq, not_true_eq_false, if_false]
        rw [opNeqLoop_ground ls rs hlen ha hb hn false]
        simp
      · have hne : ls ≠ rs := fun h => hlen (by rw [h])
        simp [hf, hlen, hne]
    · simp [hf]
  | .var _, _, ha, _, _ => by simp [IsGround] at ha
  | .unop _ _, _, ha, _, _ => by simp [IsGround] at ha
  | .binop _ _ _, _, ha, _, _ => by simp [IsGround] at ha
theorem opNeqLoop_ground {D : Type} [DecidableEq D] [DoubleOps D] : ∀ ls rs : List (Term D),
    ls.length = rs.length → IsGroundList ls = true → IsGroundList rs = true →
    NoNaNList ls = true →
    ∀ acc : Bool, OpNeqLoop ls rs (.bool acc) = .ok (.bool (acc || decide (ls ≠ rs)))
  | [], [], _, _, _, _, acc => by simp [OpNeqLoop]
  | [], _ :: _, h, _, _, _, _ => by simp at h
  | _ :: _, [], h, _, _, _, _ => by simp at h
  | l :: ls, r :: rs, h, hl, hr, hn, acc => by
    simp only [NoNaNList, Bool.and_eq_true] at hn
    simp only [IsGroundList] at hl hr
    have hl1 : IsGround l = true := by
      cases hg : IsGround l
      · simp [hg] at hl
      · rfl
    have hr1 : IsGround r = true := by
      cases hg : IsGround r
      · simp [hg] at hr
      · rfl
    simp only [hl1, hr1, Bool.not_true, Bool.false_eq_true, if_false] at hl hr
    simp only [OpNeqLoop, opNeq_ground l r hl1 hr1 hn.1, opOr_bool]
    rw [opNeqLoop_ground ls rs (by simpa using h) hl hr hn.2]
    by_cases hlr : l = r <;> by_cases hrest : ls = rs <;> simp [hlr, hrest]
end

theorem opEq_ground {D : Type} [DecidableEq D] [DoubleOps D] (a b : Term D) (ha : IsGround a = true)
    (hb : IsGround b = true) (hn : NoNaN a = true) :
    OpEq a b = .ok (.bool (decide (a = b))) := by
  simp [OpEq, opNeq_ground a b ha hb hn, opNot_bool]

theorem isGround_head {D : Type} {t : Term D} {ts : List (Term D)}
    (h : IsGroundList (t :: ts) = true) : IsGround t = true ∧ IsGroundList ts = true := by
  simp only [IsGroundList] at h
  cases hg : IsGround t
  · simp [hg] at h
  · simpa [hg] using h

theorem opNeq_self_ground {D : Type} [DecidableEq D] [DoubleOps D] (t : Term D) (h : IsGround t = true)
    (hn : NoNaN t = true) : OpNeq t t = .ok (.bool false) := by
  simp [opNeq_ground t t h h hn]

theorem opNeq_var_ground {D : Type} [DecidableEq D] [DoubleOps D] (v : String) (c : Term D)
    (h : IsGround c = true) : OpNeq (.var v) c = .ok (.binop .neq (.var v) c) := by
  cases c <;> simp [IsGround] at h <;> simp [OpNeq]

theorem opNeq_ground_var {D : Type} [DecidableEq D] [DoubleOps D] (v : String) (c : Term D)
    (h : IsGround c = true) : OpNeq c (.var v) = .ok (.binop .neq c (.var v)) := by
  cases c <;> simp [IsGround] at h <;> simp [OpNeq, Term.which]

theorem opNeqLoop_equal_prefix {D : Type} [DecidableEq D] [DoubleOps D] : ∀ (pre xs ys : List (Term D)),
    IsGroundList pre = true → NoNaNList pre = true →
    OpNeqLoop (pre ++ xs) (pre ++ ys) (.bool false) = OpNeqLoop xs ys (.bool false)
  | [], _, _, _, _ => rfl
  | t :: pre, xs, ys, h, hn => by
    obtain ⟨h1, h2⟩ := isGround_head h
    simp only [NoNaNList, Bool.and_eq_true] at hn
    simp only [List.cons_append, OpNeqLoop, opNeq_self_ground t h1 hn.1, opOr_bool,
      Bool.or_false]
    exact opNeqLoop_equal_prefix pre xs ys h2 hn.2

theorem opNeqLoop_equal_suffix {D : Type} [DecidableEq D] [DoubleOps D] (l r : Term D) :
    ∀ post : List (Term D), IsGroundList post = true → NoNaNList post = true →
    OpNeqLoop post post (.binop .neq l r) = .ok (.binop .neq l r)
  | [], _, _ => rfl
  | t :: post, h, hn => by
    obtain ⟨h1, h2⟩ := isGround_head h
    simp only [NoNaNList, Bool.and_eq_true] at hn
    have hor : OpOr (.binop .neq l r) (.bool false) = .ok (.binop .neq l r) := rfl
    simp only [OpNeqLoop, opNeq_self_ground t h1 hn.1, hor]
    exact opNeqLoop_equal_suffix l r post h2 hn.2

theorem opEq_one_undecided {D : Type} [DecidableEq D] [DoubleOps D] (f : String) (pre post : List (Term D))
    (l r : Term D) (hpre : IsGroundList pre = true) (hpost : IsGroundList post = true)
    (hnpre : NoNaNList pre = true) (hnpost : NoNaNList post = true)
    (hne : OpNeq l r = .ok (.binop .neq l r)) :
    OpEq (.atom f (pre ++ l :: post)) (.atom f (pre ++ r :: post)) = .ok (.binop .eq l r) := by
  have hor : OpOr (.bool false) (.binop .neq l r) = .ok (.binop .neq l r) := rfl
  simp only [OpEq, OpNeq, ne_eq, not_true_eq_false, if_false, List.length_append,
    List.length_cons, opNeqLoop_equal_prefix pre _ _ hpre hnpre]
  simp only [OpNeqLoop, hne, hor, opNeqLoop_equal_suffix l r post hpost hnpost]
  rfl
/-! ## The recursion budget of the generators -/

theorem atomLoop_mono {D : Type} [DecidableEq D] [DoubleOps D] {n m : Nat} (hnm : n ≤ m)
    (term_ : BeliefAtom D) (unifier_ : Unifier D) :
    ∀ (its : List (BeliefAtom D)) (cur : Unifier D)
      (res : Bool × List (BeliefAtom D) × Unifier D),
      atomLoop n term_ unifier_ its cur = .ok res → atomLoop m term_ unifier_ its cur = .ok res
  | [], cur, res, h => by simpa [atomLoop] using h
  | b :: its, cur, res, h => by
    simp only [atomLoop] at h ⊢
    cases ha : Unifier.apply n unifier_ term_.toTerm with
    | error e => simp [ha] at h
    | ok t =>
      simp only [ha] at h
      simp only [apply_mono ha hnm]
      cases hu : Unify n term_.toTerm b.toTerm unifier_ with
      | error e => simp [hu] at h
      | ok p =>
        obtain ⟨matched, cur1⟩ := p
        simp only [hu] at h
        simp only [unify_mono hu hnm]
        cases matched with
        | true => simpa using h
        | false =>
          simp only [Bool.false_eq_true, if_false] at h ⊢
          exact atomLoop_mono hnm term_ unifier_ its cur1 res h

theorem next_succ {D : Type} [DecidableEq D] [DoubleOps D] (agent : Agent D) :
    ∀ (n : Nat) (gen : Gen D) (res : Bool × Gen D),
      Next n agent gen = .ok res → Next (n + 1) agent gen = .ok res := by
  intro n
  induction n with
  | zero => intro gen res h; simp [Next] at h
  | succ n ih =>
    intro gen res h
    cases gen with
    | other => simpa [Next] using h
    | bool term_ unifier_ => simpa [Next] using h
    | var term_ its cur tried => simpa [Next] using h
    | deconstruct l r cur once => simpa [Next] using h
    | atom term_ unifier_ action_ its cur =>
      cases action_ with
      | some a =>
        simp only [Next] at h ⊢
        cases hn : Next n agent a with
        | error e => simp [hn] at h
        | ok p => simp only [hn] at h; simp only [ih a p hn]; exact h
      | none =>
        simp only [Next] at h ⊢
        cases hn : atomLoop n term_ unifier_ its cur with
        | error e => simp [hn] at h
        | ok p =>
          simp only [hn] at h
          simp only [atomLoop_mono (Nat.le_succ n) term_ unifier_ its cur p hn]; exact h
    | not g cur =>
      simp only [Next] at h ⊢
      cases hn : Next n agent g with
      | error e => simp [hn] at h
      | ok p => simp only [hn] at h; simp only [ih g p hn]; exact h
    | or l done r =>
      simp only [Next] at h ⊢
      cases done with
      | false =>
        simp only [Bool.not_false, if_true] at h ⊢
        cases hn : Next n agent l with
        | error e => simp [hn] at h
        | ok p =>
          obtain ⟨b, l1⟩ := p
          simp only [hn] at h
          simp only [ih l _ hn]
          cases b with
          | true => exact h
          | false =>
            simp only at h ⊢
            cases hr : Next n agent r with
            | error e => simp [hr] at h
            | ok q => simp only [hr] at h; simp only [ih r q hr]; exact h
      | true =>
        simp only [Bool.not_true, Bool.false_eq_true, if_false] at h ⊢
        cases hr : Next n agent r with
        | error e => simp [hr] at h
        | ok q => simp only [hr] at h; simp only [ih r q hr]; exact h
    | and l rt rg hm =>
      simp only [Next] at h ⊢
      cases hm with
      | true =>
        simp only [if_true] at h ⊢
        cases rg with
        | none => simp at h
        | some r =>
          simp only at h ⊢
          cases hn : Next n agent r with
          | error e => simp [hn] at h
          | ok p =>
            obtain ⟨b, r1⟩ := p
            simp only [hn] at h
            simp only [ih r _ hn]
            cases b with
            | true => exact h
            | false => exact ih _ _ h
      | false =>
        simp only [Bool.false_eq_true, if_false] at h ⊢
        cases hn : Next n agent l with
        | error e => simp [hn] at h
        | ok p =>
          obtain ⟨b, l1⟩ := p
          simp only [hn] at h
          simp only [ih l _ hn]
          cases b with
          | false => exact h
          | true =>
            simp only at h ⊢
            cases ha : Unifier.apply n (Current l1) rt with
            | error e => simp [ha] at h
            | ok t =>
              simp only [ha] at h
              simp only [apply_mono ha (Nat.le_succ n)]
              cases hr : Next n agent (LogicalConsequenceSubstituted agent (Current l1) t) with
              | error e => simp [hr] at h
              | ok q =>
                obtain ⟨b2, r1⟩ := q
                simp only [hr] at h
                simp only [ih _ _ hr]
                cases b2 with
                | true => exact h
                | false => exact ih _ _ h
    | unify l r u cur once =>
      simp only [Next] at h ⊢
      cases once with
      | true => exact h
      | false =>
        simp only [Bool.not_false, if_true] at h ⊢
        cases hu : Unify n l r u with
        | error e => simp [hu] at h
        | ok p => simp only [hu] at h; simp only [unify_mono hu (Nat.le_succ n)]; exact h
    | printAction ts u once =>
      simp only [Next] at h ⊢
      cases once with
      | true => exact h
      | false =>
        simp only [Bool.not_false, if_true] at h ⊢
        cases ha : applyList (Unifier.apply n u) ts with
        | error e => simp [ha] at h
        | ok p => simp only [ha] at h; simp only [applyList_mono ha (Nat.le_succ n)]; exact h
    | myNameAction ts u once =>
      simp only [Next] at h ⊢
      cases once with
      | true => exact h
      | false =>
        simp only [Bool.not_false, if_true] at h ⊢
        rcases ts with _ | ⟨front, _ | ⟨t2, rest⟩⟩
        · simp at h
        · simp only at h ⊢
          cases ha : Unifier.apply n u front with
          | error e => simp [ha] at h
          | ok arg =>
            simp only [ha] at h
            simp only [apply_mono ha (Nat.le_succ n)]
            cases hu : Unify n (.str agent.name) arg u with
            | error e => simp [hu] at h
            | ok p => simp only [hu] at h; simp only [unify_mono hu (Nat.le_succ n)]; exact h
        · simp at h

theorem next_mono {D : Type} [DecidableEq D] [DoubleOps D] {agent : Agent D} {gen : Gen D}
    {res : Bool × Gen D} {n m : Nat} (h : Next n agent gen = .ok res) (hnm : n ≤ m) :
    Next m agent gen = .ok res := by
  induction m with
  | zero =>
    have : n = 0 := by omega
    subst this; exact h
  | succ m ih =>
    by_cases hn : n = m + 1
    · subst hn; exact h
    · exact next_succ agent m gen res (ih (by omega))

theorem solutions_succ {D : Type} [DecidableEq D] [DoubleOps D] (agent : Agent D) :
    ∀ (n : Nat) (gen : Gen D) (sols : List (Unifier D)),
      Solutions n agent gen = .ok sols → Solutions (n + 1) agent gen = .ok sols := by
  intro n
  induction n with
  | zero => intro gen sols h; simp [Solutions] at h
  | succ n ih =>
    intro gen sols h
    rw [Solutions] at h ⊢
    cases hn : Next n agent gen with
    | error e => simp [hn] at h
    | ok p =>
      obtain ⟨b, g1⟩ := p
      simp only [hn] at h
      simp only [next_succ agent n gen _ hn]
      cases b with
      | false => exact h
      | true =>
        simp only at h ⊢
        cases hs : Solutions n agent g1 with
        | error e => simp [hs] at h
        | ok rest => simp only [hs] at h; simp only [ih g1 rest hs]; exact h

theorem solutions_mono {D : Type} [DecidableEq D] [DoubleOps D] {agent : Agent D} {gen : Gen D}
    {sols : List (Unifier D)} {n m : Nat} (h : Solutions n agent gen = .ok sols) (hnm : n ≤ m) :
    Solutions m agent gen = .ok sols := by
  induction m with
  | zero =>
    have : n = 0 := by omega
    subst this; exact h
  | succ m ih =>
    by_cases hn : n = m + 1
    · subst hn; exact h
    · exact solutions_succ agent m gen sols (ih (by omega))
/-! ## Solution sequences -/

theorem yields_of_next_false {D : Type} [DecidableEq D] [DoubleOps D] {agent : Agent D}
    {gen gen1 : Gen D} {n : Nat} (h : Next n agent gen = .ok (false, gen1)) :
    Yields agent gen [] :=
  ⟨n + 1, by simp [Solutions, h]⟩

theorem yields_of_next_true {D : Type} [DecidableEq D] [DoubleOps D] {agent : Agent D}
    {gen gen1 : Gen D} {n : Nat} {rest : List (Unifier D)}
    (h : Next n agent gen = .ok (true, gen1)) (hrest : Yields agent gen1 rest) :
    Yields agent gen (Current gen1 :: rest) := by
  obtain ⟨m, hm⟩ := hrest
  refine ⟨max n m + 1, ?_⟩
  simp [Solutions, next_mono h (Nat.le_max_left n m), solutions_mono hm (Nat.le_max_right n m)]

theorem yields_inv {D : Type} [DecidableEq D] [DoubleOps D] {agent : Agent D} {gen : Gen D}
    {sols : List (Unifier D)} (h : Yields agent gen sols) :
    ∃ n answer gen1, Next n agent gen = .ok (answer, gen1) ∧
      ((answer = false ∧ sols = []) ∨
       (answer = true ∧ ∃ rest, sols = Current gen1 :: rest ∧ Yields agent gen1 rest)) := by
  obtain ⟨n, hn⟩ := h
  cases n with
  | zero => simp [Solutions] at hn
  | succ n =>
    rw [Solutions] at hn
    cases hx : Next n agent gen with
    | error e => simp [hx] at hn
    | ok p =>
      obtain ⟨answer, gen1⟩ := p
      simp only [hx] at hn
      refine ⟨n, answer, gen1, hx, ?_⟩
      cases answer with
      | false => left; simpa using hn.symm
      | true =>
        right
        simp only at hn
        cases hs : Solutions n agent gen1 with
        | error e => simp [hs] at hn
        | ok rest =>
          simp only [hs, Except.ok.injEq] at hn
          exact ⟨rfl, rest, hn.symm, n, hs⟩

theorem yields_nil_inv {D : Type} [DecidableEq D] [DoubleOps D] {agent : Agent D}
    {gen : Gen D} (h : Yields agent gen []) :
    ∃ n gen1, Next n agent gen = .ok (false, gen1) := by
  obtain ⟨n, answer, gen1, hn, h1 | h1⟩ := yields_inv h
  · obtain ⟨ha, _⟩ := h1; subst ha; exact ⟨n, gen1, hn⟩
  · obtain ⟨_, rest, hr, _⟩ := h1; cases hr

theorem yields_cons_inv {D : Type} [DecidableEq D] [DoubleOps D] {agent : Agent D}
    {gen : Gen D} {σ : Unifier D} {rest : List (Unifier D)}
    (h : Yields agent gen (σ :: rest)) :
    ∃ n gen1, Next n agent gen = .ok (true, gen1) ∧ Current gen1 = σ ∧ Yields agent gen1 rest := by
  obtain ⟨n, answer, gen1, hn, h1 | h1⟩ := yields_inv h
  · obtain ⟨_, hs⟩ := h1; cases hs
  · obtain ⟨ha, rest1, hr, hy⟩ := h1
    subst ha
    simp only [List.cons.injEq] at hr
    obtain ⟨h2, h3⟩ := hr
    subst h3
    exact ⟨n, gen1, hn, h2.symm, hy⟩

theorem yields_det {D : Type} [DecidableEq D] [DoubleOps D] {agent : Agent D} {gen : Gen D}
    {s1 s2 : List (Unifier D)} (h1 : Yields agent gen s1) (h2 : Yields agent gen s2) :
    s1 = s2 := by
  obtain ⟨n, hn⟩ := h1
  obtain ⟨m, hm⟩ := h2
  have e1 := solutions_mono hn (Nat.le_max_left n m)
  have e2 := solutions_mono hm (Nat.le_max_right n m)
  rw [e1] at e2
  exact Except.ok.inj e2

theorem yields_of_same_next {D : Type} [DecidableEq D] [DoubleOps D] {agent : Agent D}
    {gen gen2 : Gen D} {sols : List (Unifier D)}
    (hstep : ∀ n res, Next n agent gen2 = .ok res → ∃ m, Next m agent gen = .ok res)
    (h : Yields agent gen2 sols) : Yields agent gen sols := by
  obtain ⟨n, answer, gen1, hn, h1 | h1⟩ := yields_inv h
  · obtain ⟨ha, hs⟩ := h1
    subst ha; subst hs
    obtain ⟨m, hm⟩ := hstep n _ hn
    exact yields_of_next_false hm
  · obtain ⟨ha, rest, hs, hy⟩ := h1
    subst ha; subst hs
    obtain ⟨m, hm⟩ := hstep n _ hn
    exact yields_of_next_true hm hy
/-! ## The generator of a belief atom -/

theorem specMatching_mono {D : Type} [DecidableEq D] [DoubleOps D] {goal : Term D}
    {σ : Unifier D} {n m : Nat} (hnm : n ≤ m) : ∀ (its : List (BeliefAtom D))
      (sols : List (Unifier D)), SpecMatchingUnifiers n goal σ its = .ok sols →
      SpecMatchingUnifiers m goal σ its = .ok sols
  | [], sols, h => by simpa [SpecMatchingUnifiers] using h
  | belief :: rest, sols, h => by
    simp only [SpecMatchingUnifiers] at h ⊢
    cases hu : Unify n goal belief.toTerm σ with
    | error e => simp [hu] at h
    | ok p =>
      obtain ⟨unifies, σ1⟩ := p
      simp only [hu] at h
      simp only [unify_mono hu hnm]
      cases hr : SpecMatchingUnifiers n goal σ rest with
      | error e => simp [hr] at h
      | ok more =>
        simp only [hr] at h
        simp only [specMatching_mono hnm rest more hr]
        exact h

theorem atomLoop_sound {D : Type} [DecidableEq D] [DoubleOps D] (n : Nat) (term_ : BeliefAtom D)
    (unifier_ : Unifier D) : ∀ (its : List (BeliefAtom D)) (cur : Unifier D) (answer : Bool)
      (its1 : List (BeliefAtom D)) (cur1 : Unifier D),
      atomLoop n term_ unifier_ its cur = .ok (answer, its1, cur1) →
      (answer = false → SpecMatchingUnifiers n term_.toTerm unifier_ its = .ok []) ∧
      (answer = true → ∀ m rest, n ≤ m →
        SpecMatchingUnifiers m term_.toTerm unifier_ its1 = .ok rest →
        SpecMatchingUnifiers m term_.toTerm unifier_ its = .ok (cur1 :: rest))
  | [], cur, answer, its1, cur1, h => by
    simp only [atomLoop, Except.ok.injEq, Prod.mk.injEq] at h
    obtain ⟨h1, _, _⟩ := h
    subst h1
    simp [SpecMatchingUnifiers]
  | belief :: its, cur, answer, its1, cur1, h => by
    simp only [atomLoop] at h
    cases ha : Unifier.apply n unifier_ term_.toTerm with
    | error e => simp [ha] at h
    | ok t =>
      simp only [ha] at h
      cases hu : Unify n term_.toTerm belief.toTerm unifier_ with
      | error e => simp [hu] at h
      | ok p =>
        obtain ⟨matched, cur2⟩ := p
        simp only [hu] at h
        cases matched with
        | true =>
          simp only [if_true, Except.ok.injEq, Prod.mk.injEq] at h
          obtain ⟨h1, h2, h3⟩ := h
          subst h1; subst h2; subst h3
          refine ⟨by simp, fun _ m rest hm hrest => ?_⟩
          simp [SpecMatchingUnifiers, unify_mono hu hm, hrest]
        | false =>
          simp only [Bool.false_eq_true, if_false] at h
          obtain ⟨hf, ht⟩ := atomLoop_sound n term_ unifier_ its cur2 answer its1 cur1 h
          refine ⟨fun ha1 => ?_, fun ha1 m rest hm hrest => ?_⟩
          · simp [SpecMatchingUnifiers, hu, hf ha1]
          · simp [SpecMatchingUnifiers, unify_mono hu hm, ht ha1 m rest hm hrest]

theorem atom_sound {D : Type} [DecidableEq D] [DoubleOps D] (agent : Agent D)
    (term_ : BeliefAtom D) (unifier_ : Unifier D) : ∀ (k : Nat) (its : List (BeliefAtom D))
      (cur : Unifier D) (sols : List (Unifier D)),
      Solutions k agent (.atom term_ unifier_ none its cur) = .ok sols →
      SpecMatchingUnifiers k term_.toTerm unifier_ its = .ok sols := by
  intro k
  induction k with
  | zero => intro its cur sols h; simp [Solutions] at h
  | succ k ih =>
    intro its cur sols h
    rw [Solutions] at h
    cases k with
    | zero => simp [Next] at h
    | succ k =>
      simp only [Next] at h
      cases hl : atomLoop k term_ unifier_ its cur with
      | error e => simp [hl] at h
      | ok p =>
        obtain ⟨answer, its1, cur1⟩ := p
        obtain ⟨hf, ht⟩ := atomLoop_sound k term_ unifier_ its cur answer its1 cur1 hl
        simp only [hl] at h
        cases answer with
        | false =>
          simp only [Except.ok.injEq] at h
          subst h
          exact specMatching_mono (by omega) its [] (hf rfl)
        | true =>
          simp only at h
          cases hs : Solutions (k + 1) agent (.atom term_ unifier_ none its1 cur1) with
          | error e => simp [hs] at h
          | ok rest =>
            simp only [hs, Except.ok.injEq, Current] at h
            subst h
            have h1 := ih its1 cur1 rest hs
            exact specMatching_mono (Nat.le_succ (k + 1)) its _
              (ht rfl (k + 1) rest (Nat.le_succ k) h1)

theorem atom_next_skip {D : Type} [DecidableEq D] [DoubleOps D] {agent : Agent D}
    {term_ belief : BeliefAtom D} {unifier_ cur cur1 : Unifier D} {its : List (BeliefAtom D)}
    {t : Term D} {n : Nat} (ha : Unifier.apply n unifier_ term_.toTerm = .ok t)
    (hu : Unify n term_.toTerm belief.toTerm unifier_ = .ok (false, cur1)) :
    Next (n + 1) agent (.atom term_ unifier_ none (belief :: its) cur) =
      Next (n + 1) agent (.atom term_ unifier_ none its cur1) := by
  simp [Next, atomLoop, ha, hu]

theorem atom_next_match {D : Type} [DecidableEq D] [DoubleOps D] {agent : Agent D}
    {term_ belief : BeliefAtom D} {unifier_ cur cur1 : Unifier D} {its : List (BeliefAtom D)}
    {t : Term D} {n : Nat} (ha : Unifier.apply n unifier_ term_.toTerm = .ok t)
    (hu : Unify n term_.toTerm belief.toTerm unifier_ = .ok (true, cur1)) :
    Next (n + 1) agent (.atom term_ unifier_ none (belief :: its) cur) =
      .ok (true, .atom term_ unifier_ none its cur1) := by
  simp [Next, atomLoop, ha, hu]

theorem atom_yields_nil {D : Type} [DecidableEq D] [DoubleOps D] (agent : Agent D)
    (term_ : BeliefAtom D) (unifier_ cur : Unifier D) :
    Yields agent (.atom term_ unifier_ none [] cur) [] := by
  have h : Next 1 agent (.atom term_ unifier_ none [] cur) =
      .ok (false, .atom term_ unifier_ none [] cur) := by simp [Next, atomLoop]
  exact yields_of_next_false h

theorem atom_complete {D : Type} [DecidableEq D] [DoubleOps D] (agent : Agent D)
    (term_ : BeliefAtom D) (unifier_ : Unifier D) {k : Nat} {t : Term D}
    (ha : Unifier.apply k unifier_ term_.toTerm = .ok t) :
    ∀ (its : List (BeliefAtom D)) (cur : Unifier D) (sols : List (Unifier D)) (n : Nat),
      SpecMatchingUnifiers n term_.toTerm unifier_ its = .ok sols →
      Yields agent (.atom term_ unifier_ none its cur) sols
  | [], cur, sols, n, h => by
    simp only [SpecMatchingUnifiers, Except.ok.injEq] at h
    subst h
    exact atom_yields_nil agent term_ unifier_ cur
  | belief :: its, cur, sols, n, h => by
    simp only [SpecMatchingUnifiers] at h
    cases hu : Unify n term_.toTerm belief.toTerm unifier_ with
    | error e => simp [hu] at h
    | ok p =>
      obtain ⟨unifies, σ1⟩ := p
      simp only [hu] at h
      cases hr : SpecMatchingUnifiers n term_.toTerm unifier_ its with
      | error e => simp [hr] at h
      | ok more =>
        simp only [hr] at h
        have ih := atom_complete agent term_ unifier_ ha its σ1 more n hr
        cases unifies with
        | true =>
          simp only [if_true, Except.ok.injEq] at h
          subst h
          have e1 := apply_mono ha (Nat.le_max_left k n)
          have e2 := unify_mono hu (Nat.le_max_right k n)
          have hstep : Next (max k n + 1) agent (.atom term_ unifier_ none (belief :: its) cur) =
              .ok (true, .atom term_ unifier_ none its σ1) := atom_next_match e1 e2
          have := yields_of_next_true hstep ih
          simpa [Current] using this
        | false =>
          simp only [Bool.false_eq_true, if_false, Except.ok.injEq] at h
          subst h
          refine yields_of_same_next ?_ ih
          intro j res hj
          refine ⟨max j (max k n) + 1, ?_⟩
          have e1 := apply_mono ha (le_trans (Nat.le_max_left k n) (Nat.le_max_right j _))
          have e2 := unify_mono hu (le_trans (Nat.le_max_right k n) (Nat.le_max_right j _))
          rw [atom_next_skip e1 e2]
          exact next_mono hj (le_trans (Nat.le_max_left j (max k n)) (Nat.le_succ _))

theorem getAction_none {D : Type} (f : String) (ts : List (Term D)) (σ : Unifier D)
    (h1 : f ≠ ".print") (h2 : f ≠ ".my_name") (h3 : f ≠ ".fail") :
    Environment.GetAction ⟨f, ts⟩ σ = none := by
  simp [Environment.GetAction, h1, h2, h3]

theorem apply_atom_inv {D : Type} [DecidableEq D] [DoubleOps D] {n : Nat} {σ : Unifier D}
    {f : String} {ts : List (Term D)} {goal : Term D}
    (h : Unifier.apply n σ (.atom f ts) = .ok goal) :
    ∃ ts1, goal = .atom f ts1 ∧ ts1.length = ts.length := by
  cases n with
  | zero => simp [Unifier.apply] at h
  | succ n =>
    simp only [Unifier.apply] at h
    cases ha : applyList (Unifier.apply n σ) ts with
    | error e => simp [ha] at h
    | ok ts1 =>
      simp only [ha, Except.ok.injEq] at h
      refine ⟨ts1, h.symm, ?_⟩
      exact ((applyList_ok_iff _ ts ts1).1 ha).length_eq.symm
/-! ## The generator of a conjunction -/

theorem specNested_mono {D : Type} [DecidableEq D] [DoubleOps D] {agent : Agent D} {b : Term D}
    {n m : Nat} (hnm : n ≤ m) : ∀ (sas sols : List (Unifier D)),
      SpecNestedSolutions n agent b sas = .ok sols → SpecNestedSolutions m agent b sas = .ok sols
  | [], sols, h => by simpa [SpecNestedSolutions] using h
  | σa :: rest, sols, h => by
    simp only [SpecNestedSolutions] at h ⊢
    cases ha : Unifier.apply n σa b with
    | error e => simp [ha] at h
    | ok goal =>
      simp only [ha] at h
      simp only [apply_mono ha hnm]
      cases hs : Solutions n agent (LogicalConsequenceSubstituted agent σa goal) with
      | error e => simp [hs] at h
      | ok sr =>
        simp only [hs] at h
        simp only [solutions_mono hs hnm]
        cases hr : SpecNestedSolutions n agent b rest with
        | error e => simp [hr] at h
        | ok more =>
          simp only [hr] at h
          simp only [specNested_mono hnm rest more hr]
          exact h

theorem specNested_cons {D : Type} [DecidableEq D] [DoubleOps D] {agent : Agent D} {b : Term D}
    {σa : Unifier D} {rest sr more : List (Unifier D)} {goal : Term D} {k : Nat}
    (ha : Unifier.apply k σa b = .ok goal)
    (hs : Yields agent (LogicalConsequenceSubstituted agent σa goal) sr)
    (hr : ∃ n, SpecNestedSolutions n agent b rest = .ok more) :
    ∃ n, SpecNestedSolutions n agent b (σa :: rest) = .ok (sr ++ more) := by
  obtain ⟨k2, hs⟩ := hs
  obtain ⟨k3, hr⟩ := hr
  refine ⟨max k (max k2 k3), ?_⟩
  have e1 := apply_mono ha (Nat.le_max_left k (max k2 k3))
  have e2 := solutions_mono hs (le_trans (Nat.le_max_left k2 k3) (Nat.le_max_right k (max k2 k3)))
  have e3 := specNested_mono (le_trans (Nat.le_max_right k2 k3) (Nat.le_max_right k (max k2 k3)))
    rest more hr
  simp [SpecNestedSolutions, e1, e2, e3]

theorem specNested_cons_inv {D : Type} [DecidableEq D] [DoubleOps D] {agent : Agent D}
    {b : Term D} {σa : Unifier D} {rest sols : List (Unifier D)} {n : Nat}
    (h : SpecNestedSolutions n agent b (σa :: rest) = .ok sols) :
    ∃ goal sr more, Unifier.apply n σa b = .ok goal ∧
      Solutions n agent (LogicalConsequenceSubstituted agent σa goal) = .ok sr ∧
      SpecNestedSolutions n agent b rest = .ok more ∧ sols = sr ++ more := by
  simp only [SpecNestedSolutions] at h
  cases ha : Unifier.apply n σa b with
  | error e => simp [ha] at h
  | ok goal =>
    simp only [ha] at h
    cases hs : Solutions n agent (LogicalConsequenceSubstituted agent σa goal) with
    | error e => simp [hs] at h
    | ok sr =>
      simp only [hs] at h
      cases hr : SpecNestedSolutions n agent b rest with
      | error e => simp [hr] at h
      | ok more =>
        simp only [hr, Except.ok.injEq] at h
        exact ⟨goal, sr, more, rfl, hs, rfl, h.symm⟩

theorem and_next_more_true {D : Type} [DecidableEq D] [DoubleOps D] {agent : Agent D}
    {l r r1 : Gen D} {b : Term D} {n : Nat} (h : Next n agent r = .ok (true, r1)) :
    Next (n + 1) agent (.and l b (some r) true) = .ok (true, .and l b (some r1) true) := by
  simp [Next, h]

theorem and_next_more_false {D : Type} [DecidableEq D] [DoubleOps D] {agent : Agent D}
    {l r r1 : Gen D} {b : Term D} {n : Nat} (h : Next n agent r = .ok (false, r1)) :
    Next (n + 1) agent (.and l b (some r) true) = Next n agent (.and l b (some r1) false) := by
  simp [Next, h]

theorem and_next_left_false {D : Type} [DecidableEq D] [DoubleOps D] {agent : Agent D}
    {l l1 : Gen D} {rg : Option (Gen D)} {b : Term D} {n : Nat}
    (h : Next n agent l = .ok (false, l1)) :
    Next (n + 1) agent (.and l b rg false) = .ok (false, .and l1 b rg false) := by
  simp [Next, h]

theorem and_next_left_true_true {D : Type} [DecidableEq D] [DoubleOps D] {agent : Agent D}
    {l l1 r1 : Gen D} {rg : Option (Gen D)} {b goal : Term D} {n : Nat}
    (h : Next n agent l = .ok (true, l1)) (ha : Unifier.apply n (Current l1) b = .ok goal)
    (hr : Next n agent (LogicalConsequenceSubstituted agent (Current l1) goal) = .ok (true, r1)) :
    Next (n + 1) agent (.and l b rg false) = .ok (true, .and l1 b (some r1) true) := by
  simp [Next, h, ha, hr]

theorem and_next_left_true_false {D : Type} [DecidableEq D] [DoubleOps D] {agent : Agent D}
    {l l1 r1 : Gen D} {rg : Option (Gen D)} {b goal : Term D} {n : Nat}
    (h : Next n agent l = .ok (true, l1)) (ha : Unifier.apply n (Current l1) b = .ok goal)
    (hr : Next n agent (LogicalConsequenceSubstituted agent (Current l1) goal) = .ok (false, r1)) :
    Next (n + 1) agent (.and l b rg false) = Next n agent (.and l1 b (some r1) false) := by
  simp [Next, h, ha, hr]

theorem nestedYields_nil {D : Type} [DecidableEq D] [DoubleOps D] {agent : Agent D} {b : Term D}
    {l l1 : Gen D} {n : Nat} (h : Next n agent l = .ok (false, l1)) :
    NestedYields agent b l [] :=
  ⟨[], yields_of_next_false h, 0, rfl⟩

theorem nestedYields_cons {D : Type} [DecidableEq D] [DoubleOps D] {agent : Agent D}
    {b goal : Term D} {l l1 : Gen D} {n k : Nat} {sr more : List (Unifier D)}
    (h : Next n agent l = .ok (true, l1)) (ha : Unifier.apply k (Current l1) b = .ok goal)
    (hs : Yields agent (LogicalConsequenceSubstituted agent (Current l1) goal) sr)
    (hm : NestedYields agent b l1 more) : NestedYields agent b l (sr ++ more) := by
  obtain ⟨sas1, hy, hn⟩ := hm
  exact ⟨Current l1 :: sas1, yields_of_next_true h hy, specNested_cons ha hs hn⟩

theorem and_next_sound {D : Type} [DecidableEq D] [DoubleOps D] (agent : Agent D) (b : Term D) :
    ∀ (n : Nat) (l : Gen D) (rg : Option (Gen D)) (hm answer : Bool) (gen1 : Gen D),
      Next n agent (.and l b rg hm) = .ok (answer, gen1) →
      ∃ l1 rg1, gen1 = .and l1 b rg1 answer ∧
        (answer = false → ConjunctionYields agent b l rg hm []) ∧
        (answer = true → ∀ rest, ConjunctionYields agent b l1 rg1 true rest →
          ConjunctionYields agent b l rg hm (Current gen1 :: rest)) := by
  intro n
  induction n with
  | zero => intro l rg hm answer gen1 h; simp [Next] at h
  | succ n ih =>
    intro l rg hm answer gen1 h
    cases hm with
    | true =>
      cases rg with
      | none => simp [Next] at h
      | some r =>
        cases hnr : Next n agent r with
        | error e => simp [Next, hnr] at h
        | ok p =>
          obtain ⟨br, r1⟩ := p
          cases br with
          | true =>
            rw [and_next_more_true hnr] at h
            simp only [Except.ok.injEq, Prod.mk.injEq] at h
            obtain ⟨h1, h2⟩ := h
            subst h1; subst h2
            refine ⟨l, some r1, rfl, by simp, ?_⟩
            intro _ rest hrest
            simp only [ConjunctionYields, if_true] at hrest ⊢
            obtain ⟨r', s1, s2, hr', hy, hn, hs⟩ := hrest
            simp only [Option.some.injEq] at hr'
            subst hr'
            exact ⟨r, Current r1 :: s1, s2, rfl, yields_of_next_true hnr hy, hn,
              by simp [Current, hs]⟩
          | false =>
            rw [and_next_more_false hnr] at h
            obtain ⟨l1, rg1, hg, hf, ht⟩ := ih l (some r1) false answer gen1 h
            refine ⟨l1, rg1, hg, ?_, ?_⟩
            · intro ha
              have := hf ha
              simp only [ConjunctionYields, Bool.false_eq_true, if_false, if_true] at this ⊢
              exact ⟨r, [], [], rfl, yields_of_next_false hnr, this, rfl⟩
            · intro ha rest hrest
              have := ht ha rest hrest
              simp only [ConjunctionYields, Bool.false_eq_true, if_false, if_true] at this ⊢
              exact ⟨r, [], _, rfl, yields_of_next_false hnr, this, rfl⟩
    | false =>
      cases hnl : Next n agent l with
      | error e => simp [Next, hnl] at h
      | ok p =>
        obtain ⟨bl, l1⟩ := p
        cases bl with
        | false =>
          rw [and_next_left_false hnl] at h
          simp only [Except.ok.injEq, Prod.mk.injEq] at h
          obtain ⟨h1, h2⟩ := h
          subst h1; subst h2
          refine ⟨l1, rg, rfl, ?_, by simp⟩
          intro _
          simp only [ConjunctionYields, Bool.false_eq_true, if_false]
          exact nestedYields_nil hnl
        | true =>
          cases ha : Unifier.apply n (Current l1) b with
          | error e => simp [Next, hnl, ha] at h
          | ok goal =>
            cases hr : Next n agent (LogicalConsequenceSubstituted agent (Current l1) goal) with
            | error e => simp [Next, hnl, ha, hr] at h
            | ok q =>
              obtain ⟨br, r1⟩ := q
              cases br with
              | true =>
                rw [and_next_left_true_true hnl ha hr] at h
                simp only [Except.ok.injEq, Prod.mk.injEq] at h
                obtain ⟨h1, h2⟩ := h
                subst h1; subst h2
                refine ⟨l1, some r1, rfl, by simp, ?_⟩
                intro _ rest hrest
                simp only [ConjunctionYields, if_true, Bool.false_eq_true, if_false] at hrest ⊢
                obtain ⟨r', s1, s2, hr', hy, hn, hs⟩ := hrest
                simp only [Option.some.injEq] at hr'
                subst hr'
                have := nestedYields_cons hnl ha (yields_of_next_true hr hy) hn
                simpa [Current, hs] using this
              | false =>
                rw [and_next_left_true_false hnl ha hr] at h
                obtain ⟨l2, rg2, hg, hf, ht⟩ := ih l1 (some r1) false answer gen1 h
                refine ⟨l2, rg2, hg, ?_, ?_⟩
                · intro hans
                  have := hf hans
                  simp only [ConjunctionYields, Bool.false_eq_true, if_false] at this ⊢
                  simpa using nestedYields_cons hnl ha (yields_of_next_false hr) this
                · intro hans rest hrest
                  have := ht hans rest hrest
                  simp only [ConjunctionYields, Bool.false_eq_true, if_false] at this ⊢
                  simpa using nestedYields_cons hnl ha (yields_of_next_false hr) this

theorem conjunction_sound {D : Type} [DecidableEq D] [DoubleOps D] (agent : Agent D)
    (b : Term D) : ∀ (n : Nat) (l : Gen D) (rg : Option (Gen D)) (hm : Bool)
      (sols : List (Unifier D)), Solutions n agent (.and l b rg hm) = .ok sols →
      ConjunctionYields agent b l rg hm sols := by
  intro n
  induction n with
  | zero => intro l rg hm sols h; simp [Solutions] at h
  | succ n ih =>
    intro l rg hm sols h
    rw [Solutions] at h
    cases hx : Next n agent (.and l b rg hm) with
    | error e => simp [hx] at h
    | ok p =>
      obtain ⟨answer, gen1⟩ := p
      obtain ⟨l1, rg1, hg, hf, ht⟩ := and_next_sound agent b n l rg hm answer gen1 hx
      simp only [hx] at h
      cases answer with
      | false =>
        simp only [Except.ok.injEq] at h
        subst h
        exact hf rfl
      | true =>
        simp only at h
        cases hs : Solutions n agent gen1 with
        | error e => simp [hs] at h
        | ok rest =>
          simp only [hs, Except.ok.injEq] at h
          subst h
          rw [hg] at hs
          have := ht rfl rest (ih l1 rg1 true rest hs)
          simpa [hg] using this

theorem conjunction_complete_right {D : Type} [DecidableEq D] [DoubleOps D] (agent : Agent D)
    (b : Term D) (l : Gen D) (s2 : List (Unifier D))
    (hleft : ∀ rg, Yields agent (.and l b rg false) s2) :
    ∀ (s1 : List (Unifier D)) (r : Gen D), Yields agent r s1 →
      Yields agent (.and l b (some r) true) (s1 ++ s2) := by
  intro s1
  induction s1 with
  | nil =>
    intro r hr
    obtain ⟨n, r1, hn⟩ := yields_nil_inv hr
    refine yields_of_same_next ?_ (hleft (some r1))
    intro k res hk
    refine ⟨max k n + 1, ?_⟩
    rw [and_next_more_false (next_mono hn (Nat.le_max_right k n))]
    exact next_mono hk (Nat.le_max_left k n)
  | cons x s1 ih =>
    intro r hr
    obtain ⟨n, r1, hn, hc, hy⟩ := yields_cons_inv hr
    have := yields_of_next_true (and_next_more_true (l := l) (b := b) hn) (ih r1 hy)
    simpa [Current, hc] using this

theorem conjunction_complete_left {D : Type} [DecidableEq D] [DoubleOps D] (agent : Agent D)
    (b : Term D) : ∀ (sas : List (Unifier D)) (l : Gen D) (sols : List (Unifier D))
      (rg : Option (Gen D)), Yields agent l sas →
      (∃ n, SpecNestedSolutions n agent b sas = .ok sols) →
      Yields agent (.and l b rg false) sols := by
  intro sas
  induction sas with
  | nil =>
    intro l sols rg hl hs
    obtain ⟨n, l1, hn⟩ := yields_nil_inv hl
    obtain ⟨k, hk⟩ := hs
    simp only [SpecNestedSolutions, Except.ok.injEq] at hk
    subst hk
    exact yields_of_next_false (and_next_left_false hn)
  | cons σa sas ih =>
    intro l sols rg hl hs
    obtain ⟨n, l1, hn, hc, hy⟩ := yields_cons_inv hl
    obtain ⟨k, hk⟩ := hs
    obtain ⟨goal, sr, more, ha, hsr, hmore, hsols⟩ := specNested_cons_inv hk
    subst hsols
    subst hc
    have hleft : ∀ rg1, Yields agent (.and l1 b rg1 false) more :=
      fun rg1 => ih l1 more rg1 hy ⟨k, hmore⟩
    obtain ⟨m, answer, r1, hm, h1 | h1⟩ := yields_inv ⟨k, hsr⟩
    · obtain ⟨hans, hnil⟩ := h1
      subst hans; subst hnil
      refine yields_of_same_next ?_ (hleft (some r1))
      intro j res hj
      refine ⟨max j (max n (max k m)) + 1, ?_⟩
      have e1 := next_mono hn (le_trans (Nat.le_max_left n (max k m)) (Nat.le_max_right j _))
      have e2 := apply_mono ha (le_trans (le_trans (Nat.le_max_left k m)
        (Nat.le_max_right n _)) (Nat.le_max_right j _))
      have e3 := next_mono hm (le_trans (le_trans (Nat.le_max_right k m)
        (Nat.le_max_right n _)) (Nat.le_max_right j _))
      rw [and_next_left_true_false e1 e2 e3]
      exact next_mono hj (Nat.le_max_left j _)
    · obtain ⟨hans, rest, hsr1, hrest⟩ := h1
      subst hans; subst hsr1
      have hright := conjunction_complete_right agent b l1 more hleft rest r1 hrest
      have e1 := next_mono hn (Nat.le_max_left n (max k m))
      have e2 := apply_mono ha (le_trans (Nat.le_max_left k m) (Nat.le_max_right n _))
      have e3 := next_mono hm (le_trans (Nat.le_max_right k m) (Nat.le_max_right n _))
      have hstep : Next (max n (max k m) + 1) agent (.and l b rg false) =
          .ok (true, .and l1 b (some r1) true) := and_next_left_true_true e1 e2 e3
      have := yields_of_next_true hstep hright
      simpa [Current] using this
/-! ## The generator of a variable -/

theorem set_set {D : Type} (v : String) (a b : Term D) : ∀ σ : Unifier D,
    Unifier.set (Unifier.set σ v a) v b = Unifier.set σ v b
  | [] => by simp [Unifier.set]
  | (k, x) :: rest => by
    by_cases h : k = v
    · simp [Unifier.set, h]
    · simp [Unifier.set, h, set_set v a b rest]

theorem var_solutions {D : Type} [DecidableEq D] [DoubleOps D] (agent : Agent D)
    (σ : Unifier D) (v : String) : ∀ (its : List (BeliefAtom D)) (x : Term D) (k : Nat),
      its.length + 2 ≤ k →
      Solutions k agent (.var v its (Unifier.set σ v x) true) =
        .ok (its.map (fun belief => Unifier.set σ v belief.toTerm))
  | [], x, k, hk => by
    obtain ⟨j, rfl⟩ : ∃ j, k = j + 2 := ⟨k - 2, by simp at hk; omega⟩
    simp [Solutions, Next]
  | belief :: its, x, k, hk => by
    obtain ⟨j, rfl⟩ : ∃ j, k = j + 2 := ⟨k - 2, by simp at hk; omega⟩
    have ih := var_solutions agent σ v its belief.toTerm (j + 1) (by simp at hk ⊢; omega)
    rw [Solutions]
    simp only [Next, Bool.not_true, Bool.false_eq_true, if_false, set_set, ih, Current,
      List.map_cons]

theorem var_goal_solutions {D : Type} [DecidableEq D] [DoubleOps D] (agent : Agent D)
    (σ : Unifier D) (v : String) (k : Nat) (hk : agent.beliefs.length + 3 ≤ k) :
    Solutions k agent (.var v agent.beliefs σ false) =
      .ok (Unifier.set σ v (.bool true) ::
        agent.beliefs.map (fun belief => Unifier.set σ v belief.toTerm)) := by
  obtain ⟨j, rfl⟩ : ∃ j, k = j + 2 := ⟨k - 2, by omega⟩
  have ih := var_solutions agent σ v agent.beliefs (.bool true) (j + 1) (by omega)
  rw [Solutions]
  simp only [Next, Bool.not_false, if_true, ih, Current]
/-! ## Chained unification under a conjunction -/

theorem unify_var_var_nil {D : Type} [DecidableEq D] [DoubleOps D] (n : Nat) (A B : String)
    (hAB : A ≠ B) :
    Unify (n + 1) (.var A) (.var B) ([] : Unifier D) =
      .ok (true, if strLt A B then [(B, .var A)] else [(A, .var B)]) := by
  by_cases h : strLt A B = true
  · simp [Unify, PrepareTerm, Unifier.find, hAB, h, Unifier.set]
  · simp [Unify, PrepareTerm, Unifier.find, hAB, h, Unifier.set]

theorem unify_var_atom {D : Type} [DecidableEq D] [DoubleOps D] (n : Nat) (x f : String)
    (ts : List (Term D)) (σ : Unifier D) (hx : Unifier.find σ x = none) (hw : x ≠ "_")
    (hc : ContainsVariable x (.atom f ts) = false) :
    Unify (n + 1) (.var x) (.atom f ts) σ = .ok (true, Unifier.set σ x (.atom f ts)) := by
  simp [Unify, PrepareTerm, hx, Term.which, hw, hc]

theorem apply_var_bound {D : Type} [DecidableEq D] [DoubleOps D] (n : Nat) (σ : Unifier D)
    (x : String) (t : Term D) (h : Unifier.find σ x = some t) :
    Unifier.apply (n + 1) σ (.var x) = Unifier.apply n σ t := by
  simp [Unifier.apply, h]

theorem apply_var_unbound {D : Type} [DecidableEq D] [DoubleOps D] (n : Nat) (σ : Unifier D)
    (x : String) (h : Unifier.find σ x = none) :
    Unifier.apply (n + 1) σ (.var x) = .ok (.var x) := by
  simp [Unifier.apply, h]

theorem apply_unify_node {D : Type} [DecidableEq D] [DoubleOps D] (n : Nat) (σ : Unifier D)
    (l r l1 r1 : Term D) (hl : Unifier.apply n σ l = .ok l1) (hr : Unifier.apply n σ r = .ok r1) :
    Unifier.apply (n + 1) σ (.binop .unify l r) = .ok (.binop .unify l1 r1) := by
  simp [Unifier.apply, hl, hr, BinOp.constructWith, opUnifyWith_eq]

theorem apply_and_node {D : Type} [DecidableEq D] [DoubleOps D] (n : Nat) (σ : Unifier D)
    (l r l1 r1 : Term D) (hl : Unifier.apply n σ l = .ok l1) (hr : Unifier.apply n σ r = .ok r1) :
    Unifier.apply (n + 1) σ (.binop .and l r) = OpAnd l1 r1 := by
  simp [Unifier.apply, hl, hr, BinOp.constructWith]

theorem apply_ground_all {D : Type} [DecidableEq D] [DoubleOps D] (c : Term D)
    (hc : IsGround c = true) (σ : Unifier D) : ∃ n, ∀ m, n ≤ m → Unifier.apply m σ c = .ok c := by
  obtain ⟨hfo, hnv, _⟩ := ground_facts c hc
  obtain ⟨n, hn⟩ := apply_resolved σ c hfo (fun v hv => by simp [hnv v] at hv)
  exact ⟨n, fun m hm => apply_mono hn hm⟩

theorem chain_first_solution {D : Type} [DecidableEq D] [DoubleOps D] (agent : Agent D)
    (A B f : String) (ts : List (Term D)) (hAB : A ≠ B) (hA : A ≠ "_") (hB : B ≠ "_")
    (hc : IsGroundList ts = true) (x y : String) (hxy : x ≠ y)
    (hx : x = A ∨ x = B) (hy : y = A ∨ y = B)
    (hu : ∀ n, Unify (n + 1) (.var A) (.var B) ([] : Unifier D) = .ok (true, [(y, .var x)])) :
    ∃ n gen gen1,
      LogicalConsequence n agent []
        (.binop .and (.binop .unify (.var A) (.var B)) (.binop .unify (.var B) (.atom f ts)))
        = .ok gen ∧
      Next n agent gen = .ok (true, gen1) ∧
      Unifier.apply n (Current gen1) (.var A) = .ok (.atom f ts) ∧
      Unifier.apply n (Current gen1) (.var B) = .ok (.atom f ts) := by
  have hg : IsGround (.atom f ts : Term D) = true := by simpa [IsGround] using hc
  have hnv := (ground_facts _ hg).2.1
  obtain ⟨n0, h0⟩ := apply_ground_all (.atom f ts) hg ([] : Unifier D)
  obtain ⟨n1, h1⟩ := apply_ground_all (.atom f ts) hg [(y, .var x)]
  obtain ⟨n2, h2⟩ := apply_ground_all (.atom f ts) hg [(y, .var x), (x, .atom f ts)]
  have hfx : Unifier.find [(y, (.var x : Term D))] x = none := by
    simp [Unifier.find, hxy.symm]
  have hfy : Unifier.find [(y, (.var x : Term D))] y = some (.var x) := by
    simp [Unifier.find]
  have hset : Unifier.set [(y, (.var x : Term D))] x (.atom f ts) =
      [(y, .var x), (x, .atom f ts)] := by
    simp [Unifier.set, hxy.symm]
  have hgx : Unifier.find [(y, (.var x : Term D)), (x, .atom f ts)] x = some (.atom f ts) := by
    simp [Unifier.find, hxy.symm]
  have hgy : Unifier.find [(y, (.var x : Term D)), (x, .atom f ts)] y = some (.var x) := by
    simp [Unifier.find]
  have hxw : x ≠ "_" := by rcases hx with h | h <;> rw [h] <;> assumption
  -- the variable B resolves to x under the first unifier
  have hBx : ∀ n, Unifier.apply (n + 2) [(y, (.var x : Term D))] (.var B) = .ok (.var x) := by
    intro n
    rcases hy with h | h
    · have hxB : x = B := by
        rcases hx with h3 | h3
        · exact absurd (h3.trans h.symm) hxy
        · exact h3
      subst hxB
      exact apply_var_unbound _ _ _ hfx
    · subst h
      rw [apply_var_bound _ _ _ _ hfy]
      exact apply_var_unbound _ _ _ hfx
  have hfin : ∀ (v : String), v = A ∨ v = B → ∀ n, n2 ≤ n →
      Unifier.apply (n + 2) [(y, (.var x : Term D)), (x, .atom f ts)] (.var v) =
        .ok (.atom f ts) := by
    intro v hv n hn
    have hvx : v = x ∨ v = y := by
      rcases hv with h | h <;> rcases hx with h3 | h3 <;> rcases hy with h4 | h4
      all_goals first
        | (left; rw [h, h3]; done)
        | (right; rw [h, h4]; done)
        | (exact absurd (h3.trans h4.symm) hxy)
    rcases hvx with h | h
    · subst h
      rw [apply_var_bound _ _ _ _ hgx]
      exact h2 _ (by omega)
    · subst h
      rw [apply_var_bound _ _ _ _ hgy, apply_var_bound _ _ _ _ hgx]
      exact h2 _ (by omega)
  let N := max n0 (max n1 n2)
  have hN0 : n0 ≤ N := Nat.le_max_left _ _
  have hN1 : n1 ≤ N := le_trans (Nat.le_max_left _ _) (Nat.le_max_right _ _)
  have hN2 : n2 ≤ N := le_trans (Nat.le_max_right _ _) (Nat.le_max_right _ _)
  refine ⟨N + 4,
    .and (.unify (.var A) (.var B) [] [] false) (.binop .unify (.var B) (.atom f ts)) none false,
    .and (.unify (.var A) (.var B) [] [(y, .var x)] true) (.binop .unify (.var B) (.atom f ts))
      (some (.unify (.var x) (.atom f ts) [(y, .var x)]
        (Unifier.set [(y, .var x)] x (.atom f ts)) true)) true,
    ?_, ?_, ?_, ?_⟩
  · have e1 : Unifier.apply (N + 3) ([] : Unifier D) (.binop .unify (.var A) (.var B)) =
        .ok (.binop .unify (.var A) (.var B)) :=
      apply_unify_node _ _ _ _ _ _ (apply_var_unbound _ _ _ rfl) (apply_var_unbound _ _ _ rfl)
    have e2 : Unifier.apply (N + 3) ([] : Unifier D) (.binop .unify (.var B) (.atom f ts)) =
        .ok (.binop .unify (.var B) (.atom f ts)) :=
      apply_unify_node _ _ _ _ _ _ (apply_var_unbound _ _ _ rfl) (h0 _ (by omega))
    have e5 := apply_and_node _ _ _ _ _ _ e1 e2
    simp only [LogicalConsequence, e5]
    rfl
  · have e3 : Unifier.apply (N + 3) [(y, (.var x : Term D))] (.binop .unify (.var B) (.atom f ts)) =
        .ok (.binop .unify (.var x) (.atom f ts)) :=
      apply_unify_node _ _ _ _ _ _ (hBx N) (h1 _ (by omega))
    have e4 := unify_var_atom (N + 1) x f ts [(y, (.var x : Term D))] hfx hxw (hnv x)
    simp only [LogicalConsequenceSubstituted, Next, Bool.not_false, if_true, hu, Current, e3,
      e4, Bool.false_eq_true, if_false]
  · simp only [Current, hset]
    exact hfin A (Or.inl rfl) (N + 2) (by omega)
  · simp only [Current, hset]
    exact hfin B (Or.inr rfl) (N + 2) (by omega)
/-! ## The constructors OpAnd, OpNeq and OpDeconstruct against their reference -/

theorem opAnd_eq_spec {D : Type} (a b : Term D) : OpAnd a b = SpecAnd a b := by
  rcases a with x | _ | _ | _ | _ | _ | ⟨o, _⟩ | ⟨o, _, _⟩ <;>
    rcases b with y | _ | _ | _ | _ | _ | ⟨p, _⟩ | ⟨p, _, _⟩ <;>
    (try cases x) <;> (try cases y) <;> (try cases o) <;> (try cases p) <;> rfl

theorem opNeq_var_left {D : Type} [DecidableEq D] [DoubleOps D] (x : String) (b : Term D)
    (h : b ≠ .var x) : OpNeq (.var x) b = .ok (.binop .neq (.var x) b) := by
  cases b with
  | var y =>
    have hxy : x ≠ y := fun e => h (by rw [e])
    simp [OpNeq, hxy]
  | _ => simp [OpNeq]

theorem opNeq_var_right {D : Type} [DecidableEq D] [DoubleOps D] (x : String) (a : Term D)
    (h : a ≠ .var x) : OpNeq a (.var x) = .ok (.binop .neq a (.var x)) := by
  rcases a with _ | _ | _ | _ | _ | y | ⟨o, _⟩ | ⟨o, _, _⟩
  · simp [OpNeq, Term.which]
  · simp [OpNeq, Term.which]
  · simp [OpNeq]
  · simp [OpNeq]
  · simp [OpNeq]
  · have hxy : y ≠ x := fun e => h (by rw [e])
    simp [OpNeq, hxy]
  · cases o <;> simp [OpNeq, Term.which]
  · cases o <;> simp [OpNeq, Term.which]

theorem opDeconstruct_var_left {D : Type} [DecidableEq D] [DoubleOps D] (n : Nat) (x : String)
    (b : Term D) :
    OpDeconstruct n (.var x) b =
      if SpecDeconstructShape b then .ok (.binop .deconstruct (.var x) b)
      else if b.which = .kList then .ok (.bool false)
      else .error .domain_error := by
  rcases b with _ | _ | _ | ts | _ | _ | ⟨o, _⟩ | ⟨o, _, _⟩
  · rfl
  · rfl
  · rfl
  · rcases ts with _ | ⟨first, _ | ⟨second, _ | ⟨third, rest⟩⟩⟩
    · rfl
    · rfl
    · rcases first with _ | _ | _ | _ | ⟨f, _ | ⟨t, ts⟩⟩ | _ | ⟨o, _⟩ | ⟨o, _, _⟩ <;>
        rcases second with _ | _ | _ | _ | _ | _ | ⟨p, _⟩ | ⟨p, _, _⟩ <;>
        (try cases o) <;> (try cases p) <;>
        simp [OpDeconstruct, OpDeconstructWith, SpecDeconstructShape, Term.which, UnOp.tag,
          BinOp.tag]
    · rfl
  · rfl
  · rfl
  · cases o <;> rfl
  · cases o <;> rfl

theorem opDeconstruct_other_left {D : Type} [DecidableEq D] [DoubleOps D] (n : Nat)
    (a b : Term D) (h1 : a.which ≠ .kBeliefAtom) (h2 : a.which ≠ .kVariable) :
    OpDeconstruct n a b = .error .domain_error := by
  rcases a with _ | _ | _ | _ | _ | _ | ⟨o, _⟩ | ⟨o, _, _⟩ <;>
    simp [Term.which] at h1 h2 <;> simp [OpDeconstruct, OpDeconstructWith]

theorem unify_false_at_root {D : Type} [DecidableEq D] [DoubleOps D] (n : Nat) (l r : Term D)
    (σ σ1 : Unifier D) (h : Unify n l r σ = .ok (false, σ1))
    (hlist : ¬ ((PrepareTerm σ l).2.which = .kList ∧ (PrepareTerm σ r).2.which = .kList))
    (hatom : ¬ ((PrepareTerm σ l).2.which = .kBeliefAtom ∧
      (PrepareTerm σ r).2.which = .kBeliefAtom)) : σ1 = σ := by
  cases n with
  | zero => simp [Unify] at h
  | succ n =>
    rw [Unify] at h
    rcases hpl : PrepareTerm σ l with ⟨fl, lhs⟩
    rcases hpr : PrepareTerm σ r with ⟨fr, rhs⟩
    rw [hpl] at hlist hatom
    rw [hpr] at hlist hatom
    simp only [hpl, hpr] at h
    cases fl with
    | false => simp at h; exact h.symm
    | true =>
      cases fr with
      | false => simp at h; exact h.symm
      | true =>
        simp only at h
        rcases lhs with _ | _ | _ | _ | _ | _ | ⟨o, _⟩ | ⟨o, _, _⟩ <;>
          rcases rhs with _ | _ | _ | _ | _ | _ | ⟨p, _⟩ | ⟨p, _, _⟩ <;>
          simp [Term.which] at hlist hatom <;>
          (try simp at h) <;>
          (try split at h) <;> (try split at h) <;>
          (try simp at h) <;>
          first
            | exact h.symm
            | exact h.2.symm
/-! ## The interpreter step -/

theorem planSkipped_not_applies {D : Type} [DecidableEq D] [DoubleOps D] {n : Nat}
    {agent : Agent D} {frame : IntentionFrame D} {plan : Plan D}
    (h : PlanSkipped n agent frame plan) (solution : Unifier D) :
    ¬ PlanApplies n agent frame plan solution := by
  rintro ⟨h1, h2, u, g, g1, hu, hg, hn, _⟩
  rcases h with h | h | ⟨u2, h⟩ | ⟨u2, g2, g3, hu2, hg2, hn2⟩
  · exact h h1
  · exact h h2
  · rw [hu] at h; cases h
  · rw [hu] at hu2
    cases hu2
    rw [hg] at hg2
    cases hg2
    rw [hn] at hn2
    cases hn2

theorem selectPlan_iff {D : Type} [DecidableEq D] [DoubleOps D] (n : Nat) (agent : Agent D)
    (frame : IntentionFrame D) : ∀ (plans : List (Plan D)) (frame1 : IntentionFrame D),
    SelectPlan n agent frame plans = .ok frame1 ↔
      ((∃ pre plan post solution, plans = pre ++ plan :: post ∧
          (∀ p ∈ pre, PlanSkipped n agent frame p) ∧
          PlanApplies n agent frame plan solution ∧
          frame1 = { frame with unifier := solution, body := plan.body, body_it := 0,
                                external := false }) ∨
       ((∀ p ∈ plans, PlanSkipped n agent frame p) ∧ frame1 = frame))
  | [], frame1 => by
    simp only [SelectPlan, Except.ok.injEq, List.not_mem_nil, false_implies, implies_true,
      true_and]
    constructor
    · intro h; right; exact h.symm
    · rintro (⟨pre, plan, post, _, h, _⟩ | h)
      · simp at h
      · exact h.symm
  | plan :: rest, frame1 => by
    have ih := selectPlan_iff n agent frame rest frame1
    have skip : PlanSkipped n agent frame plan →
        (SelectPlan n agent frame rest = .ok frame1 ↔
          ((∃ pre plan1 post solution, plan :: rest = pre ++ plan1 :: post ∧
              (∀ p ∈ pre, PlanSkipped n agent frame p) ∧
              PlanApplies n agent frame plan1 solution ∧
              frame1 = { frame with unifier := solution, body := plan1.body, body_it := 0,
                                    external := false }) ∨
           ((∀ p ∈ plan :: rest, PlanSkipped n agent frame p) ∧ frame1 = frame))) := by
      intro hs
      rw [ih]
      constructor
      · rintro (⟨pre, plan1, post, sol, e, hpre, happ, hf⟩ | ⟨hall, hf⟩)
        · left
          refine ⟨plan :: pre, plan1, post, sol, by simp [e], ?_, happ, hf⟩
          intro p hp
          rcases List.mem_cons.1 hp with e1 | e1
          · rw [e1]; exact hs
          · exact hpre p e1
        · right
          refine ⟨?_, hf⟩
          intro p hp
          rcases List.mem_cons.1 hp with e1 | e1
          · rw [e1]; exact hs
          · exact hall p e1
      · rintro (⟨pre, plan1, post, sol, e, hpre, happ, hf⟩ | ⟨hall, hf⟩)
        · cases pre with
          | nil =>
            simp only [List.nil_append, List.cons.injEq] at e
            obtain ⟨e1, _⟩ := e
            subst e1
            exact absurd happ (planSkipped_not_applies hs sol)
          | cons q pre =>
            simp only [List.cons_append, List.cons.injEq] at e
            obtain ⟨_, e2⟩ := e
            left
            exact ⟨pre, plan1, post, sol, e2, fun p hp => hpre p (List.mem_cons_of_mem _ hp),
              happ, hf⟩
        · right
          exact ⟨fun p hp => hall p (List.mem_cons_of_mem _ hp), hf⟩
    have hit : ∀ solution, PlanApplies n agent frame plan solution →
        ((.ok { frame with unifier := solution, body := plan.body, body_it := 0,
                           external := false } : Except Err (IntentionFrame D)) = .ok frame1 ↔
          ((∃ pre plan1 post solution, plan :: rest = pre ++ plan1 :: post ∧
              (∀ p ∈ pre, PlanSkipped n agent frame p) ∧
              PlanApplies n agent frame plan1 solution ∧
              frame1 = { frame with unifier := solution, body := plan1.body, body_it := 0,
                                    external := false }) ∨
           ((∀ p ∈ plan :: rest, PlanSkipped n agent frame p) ∧ frame1 = frame))) := by
      intro sol happ
      constructor
      · intro h
        left
        exact ⟨[], plan, rest, sol, rfl, by simp, happ, (Except.ok.inj h).symm⟩
      · rintro (⟨pre, plan1, post, sol1, e, hpre, happ1, hf⟩ | ⟨hall, hf⟩)
        · cases pre with
          | nil =>
            simp only [List.nil_append, List.cons.injEq] at e
            obtain ⟨e1, _⟩ := e
            subst e1
            obtain ⟨_, _, u, g, g1, hu, hg, hn, hc⟩ := happ
            obtain ⟨_, _, u1, g2, g3, hu1, hg1, hn1, hc1⟩ := happ1
            rw [hu] at hu1; cases hu1
            rw [hg] at hg1; cases hg1
            rw [hn] at hn1; cases hn1
            rw [hf, ← hc, ← hc1]
          | cons q pre =>
            simp only [List.cons_append, List.cons.injEq] at e
            obtain ⟨e1, _⟩ := e
            subst e1
            exact absurd happ (planSkipped_not_applies (hpre _ (List.mem_cons_self _ _)) sol)
        · exact absurd happ (planSkipped_not_applies (hall _ (List.mem_cons_self _ _)) sol)
    simp only [SelectPlan]
    by_cases h1 : plan.trigger_type = frame.trigger_type
    · by_cases h2 : plan.goal_type = frame.goal_type
      · simp only [h1, h2, ne_eq, not_true_eq_false, if_false]
        cases hu : Unify n plan.trigger.toTerm frame.trigger.toTerm [] with
        | error e =>
          simp only [false_iff, reduceCtorEq]
          rintro (⟨pre, plan1, post, sol1, e1, hpre, happ1, hf⟩ | ⟨hall, hf⟩)
          · cases pre with
            | nil =>
              simp only [List.nil_append, List.cons.injEq] at e1
              obtain ⟨e2, _⟩ := e1
              subst e2
              obtain ⟨_, _, u1, g2, g3, hu1, _⟩ := happ1
              rw [hu] at hu1; cases hu1
            | cons q pre =>
              simp only [List.cons_append, List.cons.injEq] at e1
              obtain ⟨e2, _⟩ := e1
              subst e2
              rcases hpre _ (List.mem_cons_self _ _) with h | h | ⟨u2, h⟩ | ⟨u2, g2, g3, h, _⟩
              · exact h h1
              · exact h h2
              · rw [hu] at h; cases h
              · rw [hu] at h; cases h
          · rcases hall _ (List.mem_cons_self _ _) with h | h | ⟨u2, h⟩ | ⟨u2, g2, g3, h, _⟩
            · exact h h1
            · exact h h2
            · rw [hu] at h; cases h
            · rw [hu] at h; cases h
        | ok p =>
          obtain ⟨b, u⟩ := p
          cases b with
          | false => exact skip (Or.inr (Or.inr (Or.inl ⟨u, hu⟩)))
          | true =>
            simp only
            cases hg : LogicalConsequence n agent u plan.context with
            | error e =>
              simp only [false_iff, reduceCtorEq]
              rintro (⟨pre, plan1, post, sol1, e1, hpre, happ1, hf⟩ | ⟨hall, hf⟩)
              · cases pre with
                | nil =>
                  simp only [List.nil_append, List.cons.injEq] at e1
                  obtain ⟨e2, _⟩ := e1
                  subst e2
                  obtain ⟨_, _, u1, g2, g3, hu1, hg1, _⟩ := happ1
                  rw [hu] at hu1; cases hu1
                  rw [hg] at hg1; cases hg1
                | cons q pre =>
                  simp only [List.cons_append, List.cons.injEq] at e1
                  obtain ⟨e2, _⟩ := e1
                  subst e2
                  rcases hpre _ (List.mem_cons_self _ _) with
                    h | h | ⟨u2, h⟩ | ⟨u2, g2, g3, h, hg2, _⟩
                  · exact h h1
                  · exact h h2
                  · rw [hu] at h; cases h
                  · rw [hu] at h; cases h; rw [hg] at hg2; cases hg2
              · rcases hall _ (List.mem_cons_self _ _) with
                  h | h | ⟨u2, h⟩ | ⟨u2, g2, g3, h, hg2, _⟩
                · exact h h1
                · exact h h2
                · rw [hu] at h; cases h
                · rw [hu] at h; cases h; rw [hg] at hg2; cases hg2
            | ok gen =>
              simp only
              cases hn : Next n agent gen with
              | error e =>
                simp only [false_iff, reduceCtorEq]
                rintro (⟨pre, plan1, post, sol1, e1, hpre, happ1, hf⟩ | ⟨hall, hf⟩)
                · cases pre with
                  | nil =>
                    simp only [List.nil_append, List.cons.injEq] at e1
                    obtain ⟨e2, _⟩ := e1
                    subst e2
                    obtain ⟨_, _, u1, g2, g3, hu1, hg1, hn1, _⟩ := happ1
                    rw [hu] at hu1; cases hu1
                    rw [hg] at hg1; cases hg1
                    rw [hn] at hn1; cases hn1
                  | cons q pre =>
                    simp only [List.cons_append, List.cons.injEq] at e1
                    obtain ⟨e2, _⟩ := e1
                    subst e2
                    rcases hpre _ (List.mem_cons_self _ _) with
                      h | h | ⟨u2, h⟩ | ⟨u2, g2, g3, h, hg2, hn2⟩
                    · exact h h1
                    · exact h h2
                    · rw [hu] at h; cases h
                    · rw [hu] at h; cases h; rw [hg] at hg2; cases hg2
                      rw [hn] at hn2; cases hn2
                · rcases hall _ (List.mem_cons_self _ _) with
                    h | h | ⟨u2, h⟩ | ⟨u2, g2, g3, h, hg2, hn2⟩
                  · exact h h1
                  · exact h h2
                  · rw [hu] at h; cases h
                  · rw [hu] at h; cases h; rw [hg] at hg2; cases hg2
                    rw [hn] at hn2; cases hn2
              | ok q =>
                obtain ⟨b2, gen1⟩ := q
                cases b2 with
                | false =>
                  exact skip (Or.inr (Or.inr (Or.inr ⟨u, gen, gen1, hu, hg, hn⟩)))
                | true => exact hit (Current gen1) ⟨h1, h2, u, gen, gen1, hu, hg, hn, rfl⟩
      · simp only [h1, ne_eq, not_true_eq_false, if_false, h2, not_false_eq_true, if_true]
        exact skip (Or.inr (Or.inl h2))
    · simp only [ne_eq, h1, not_false_eq_true, if_true]
      exact skip (Or.inl h1)

theorem unifies_ok_iff {D : Type} [DecidableEq D] [DoubleOps D] (n : Nat) (lhs rhs : Term D)
    (b : Bool) : Unifies n lhs rhs = .ok b ↔ ∃ u, Unify n lhs rhs [] = .ok (b, u) := by
  unfold Unifies
  cases h : Unify n lhs rhs [] with
  | error e => simp
  | ok p =>
    obtain ⟨b1, u⟩ := p
    simp only [Except.ok.injEq, Prod.mk.injEq]
    constructor
    · intro e; exact ⟨u, e, rfl⟩
    · rintro ⟨u1, e, _⟩; exact e

theorem removeBeliefs_eq_filter {D : Type} [DecidableEq D] [DoubleOps D] (n : Nat)
    (pattern : Term D) : ∀ beliefs : List (BeliefAtom D),
    (∀ b ∈ beliefs, ∃ r, Unify n pattern b.toTerm [] = .ok r) →
    RemoveBeliefs n pattern beliefs =
      .ok (beliefs.filter (fun b => decide (Unifies n pattern b.toTerm = .ok false)))
  | [], _ => rfl
  | belief :: rest, h => by
    obtain ⟨⟨b, u⟩, hr⟩ := h belief (List.mem_cons_self _ _)
    have ih := removeBeliefs_eq_filter n pattern rest
      (fun b hb => h b (List.mem_cons_of_mem _ hb))
    have hu : Unifies n pattern belief.toTerm = .ok b := (unifies_ok_iff n _ _ b).2 ⟨u, hr⟩
    simp only [RemoveBeliefs, hu, ih, List.filter_cons]
    cases b <;> simp

theorem removeBeliefs_returns_inv {D : Type} [DecidableEq D] [DoubleOps D] (n : Nat)
    (pattern : Term D) : ∀ (beliefs kept : List (BeliefAtom D)),
    RemoveBeliefs n pattern beliefs = .ok kept →
    ∀ b ∈ beliefs, ∃ r, Unify n pattern b.toTerm [] = .ok r
  | [], _, _ => by simp
  | belief :: rest, kept, h => by
    simp only [RemoveBeliefs] at h
    cases hu : Unifies n pattern belief.toTerm with
    | error e => rw [hu] at h; cases h
    | ok b =>
      rw [hu] at h
      simp only at h
      cases hr : RemoveBeliefs n pattern rest with
      | error e => rw [hr] at h; cases h
      | ok kept1 =>
        intro x hx
        rcases List.mem_cons.1 hx with e | e
        · obtain ⟨u, hu1⟩ := (unifies_ok_iff n _ _ b).1 hu
          rw [e]
          exact ⟨_, hu1⟩
        · exact removeBeliefs_returns_inv n pattern rest kept1 hr x e

theorem removeBeliefs_subset {D : Type} [DecidableEq D] [DoubleOps D] (n : Nat)
    (pattern : Term D) (beliefs kept : List (BeliefAtom D))
    (h : RemoveBeliefs n pattern beliefs = .ok kept) : ∀ b ∈ kept, b ∈ beliefs := by
  have h1 := removeBeliefs_eq_filter n pattern beliefs
    (removeBeliefs_returns_inv n pattern beliefs kept h)
  rw [h] at h1
  cases h1
  intro b hb
  exact (List.mem_filter.1 hb).1

theorem which_atom_inv {D : Type} {t : Term D} (h : t.which = .kBeliefAtom) :
    ∃ functor terms, t = .atom functor terms := by
  cases t with
  | atom f ts => exact ⟨f, ts, rfl⟩
  | unop op x => cases op <;> cases h
  | binop op l r => cases op <;> cases h
  | _ => cases h

theorem anonymize_atom_inv {D : Type} [DecidableEq D] [DoubleOps D] {n : Nat}
    {names : Nat → String} {f : String} {ts : List (Term D)} {t : Term D}
    (h : Anonymize n names (.atom f ts) = .ok t) : ∃ ts1, t = .atom f ts1 := by
  simp only [Anonymize, Anonymizer.visit] at h
  cases hv : Anonymizer.visitList n names ts [] with
  | error e => rw [hv] at h; cases h
  | ok p =>
    obtain ⟨r, m⟩ := p
    rw [hv] at h
    simp only [Except.ok.injEq] at h
    exact ⟨r, h.symm⟩

theorem addStep_shape {D : Type} [DecidableEq D] [DoubleOps D] {n : Nat} {agent agent1 : Agent D}
    {beliefs : List (BeliefAtom D)} {frame : IntentionFrame D} {frames : List (IntentionFrame D)}
    {intents : List (List (IntentionFrame D))} {formula : Term D} {more : Bool}
    (h : AddStep n agent beliefs frame frames intents formula = .ok (more, agent1)) :
    agent1.name = agent.name ∧ agent1.rules = agent.rules ∧ agent1.plans = agent.plans ∧
    ∀ b ∈ agent1.beliefs, b ∈ beliefs ∨ IsGroundList b.terms = true := by
  unfold AddStep at h
  cases h1 : Unifier.apply n frame.unifier formula with
  | error e => rw [h1] at h; cases h
  | ok s =>
    rw [h1] at h
    simp only at h
    by_cases hw : formula.which = .kBeliefAtom
    · rw [if_pos hw] at h
      cases s with
      | atom f ts =>
        simp only at h
        by_cases hgr : IsGroundList ts = true
        · rw [if_pos hgr] at h
          simp only [Except.ok.injEq, Prod.mk.injEq] at h
          obtain ⟨_, h2⟩ := h
          subst h2
          refine ⟨rfl, rfl, rfl, ?_⟩
          intro b hb
          rcases List.mem_append.1 hb with hb1 | hb1
          · exact Or.inl hb1
          · rw [List.mem_singleton] at hb1
            subst hb1
            exact Or.inr hgr
        · rw [if_neg hgr] at h; cases h
      | _ => cases h
    · rw [if_neg hw] at h; cases h

theorem run_shape {D : Type} [DecidableEq D] [DoubleOps D] {n : Nat} {names : Nat → String}
    {stale : IntentionFrame D → GoalType} {agent agent1 : Agent D} {more : Bool}
    (h : Run n names stale agent = .ok (more, agent1)) :
    agent1.name = agent.name ∧ agent1.rules = agent.rules ∧ agent1.plans = agent.plans ∧
    ∀ b ∈ agent1.beliefs, b ∈ agent.beliefs ∨ IsGroundList b.terms = true := by
  have same : ∀ its : List (List (IntentionFrame D)),
      (.ok (true, { agent with intents := its }) : Except Err (Bool × Agent D)) =
        .ok (more, agent1) →
      agent1.name = agent.name ∧ agent1.rules = agent.rules ∧ agent1.plans = agent.plans ∧
      ∀ b ∈ agent1.beliefs, b ∈ agent.beliefs ∨ IsGroundList b.terms = true := by
    intro its e
    simp only [Except.ok.injEq, Prod.mk.injEq] at e
    obtain ⟨_, e2⟩ := e
    subst e2
    exact ⟨rfl, rfl, rfl, fun b hb => Or.inl hb⟩
  unfold Run at h
  rcases hi : agent.intents with _ | ⟨intent, intents⟩
  · rw [hi] at h
    simp only [Except.ok.injEq, Prod.mk.injEq] at h
    obtain ⟨_, h2⟩ := h
    subst h2
    exact ⟨rfl, rfl, rfl, fun b hb => Or.inl hb⟩
  · rw [hi] at h
    rcases intent with _ | ⟨frame0, frames⟩
    · exact same _ h
    · simp only at h
      cases hsel : SelectFrame n agent frame0 with
      | error e => rw [hsel] at h; cases h
      | ok frame =>
        rw [hsel] at h
        simp only at h
        by_cases he : frame.external = true
        · rw [if_pos he] at h
          by_cases hg : stale frame = .kAchievement
          · rw [if_pos hg] at h; cases h
          · rw [if_neg hg] at h
            exact same _ h
        · rw [if_neg he] at h
          cases hb : frame.body.get? frame.body_it with
          | none =>
            rw [hb] at h
            simp only at h
            by_cases hend : frame.body_it = frame.body.length
            · rw [if_pos hend] at h
              unfold FinishFrame at h
              cases h1 : Unifier.apply n frame.unifier frame.trigger.toTerm with
              | error e => rw [h1] at h; cases h
              | ok completed =>
                rw [h1] at h
                simp only at h
                cases h2 : Anonymize n names completed with
                | error e => rw [h2] at h; cases h
                | ok trig =>
                  rw [h2] at h
                  simp only at h
                  rcases frames with _ | ⟨caller, below⟩
                  · exact same _ h
                  · simp only at h
                    cases h3 : caller.previous with
                    | none => rw [h3] at h; cases h
                    | some formula =>
                      rw [h3] at h
                      simp only at h
                      cases h4 : Unifier.apply n caller.unifier formula.formula with
                      | error e => rw [h4] at h; cases h
                      | ok cc =>
                        rw [h4] at h
                        simp only at h
                        cases h5 : Unify n cc trig caller.unifier with
                        | error e => rw [h5] at h; cases h
                        | ok p =>
                          rw [h5] at h
                          exact same _ h
            · rw [if_neg hend] at h; cases h
          | some bf =>
            rw [hb] at h
            simp only at h
            cases hft : bf.formula_type with
            | kTerm =>
              rw [hft] at h
              simp only at h
              cases h1 : LogicalConsequence n agent frame.unifier bf.formula with
              | error e => rw [h1] at h; cases h
              | ok gen =>
                rw [h1] at h
                simp only at h
                cases h2 : Next n agent gen with
                | error e => rw [h2] at h; cases h
                | ok p =>
                  obtain ⟨b, gen1⟩ := p
                  rw [h2] at h
                  cases b with
                  | true => exact same _ h
                  | false =>
                    simp only at h
                    cases h3 : Unifier.apply n frame.unifier bf.formula with
                    | error e => rw [h3] at h; cases h
                    | ok s =>
                      rw [h3] at h
                      exact same _ h
            | kReplace =>
              rw [hft] at h
              simp only at h
              cases h1 : RemoveBeliefs n bf.formula agent.beliefs with
              | error e => rw [h1] at h; cases h
              | ok kept =>
                rw [h1] at h
                obtain ⟨a1, a2, a3, a4⟩ := addStep_shape h
                refine ⟨a1, a2, a3, ?_⟩
                intro b hb1
                rcases a4 b hb1 with hk | hk
                · exact Or.inl (removeBeliefs_subset n _ _ _ h1 b hk)
                · exact Or.inr hk
            | kAdd =>
              rw [hft] at h
              exact addStep_shape h
            | kRemove =>
              rw [hft] at h
              simp only at h
              cases h1 : Unifier.apply n frame.unifier bf.formula with
              | error e => rw [h1] at h; cases h
              | ok pattern =>
                rw [h1] at h
                simp only at h
                cases h2 : RemoveBeliefs n pattern agent.beliefs with
                | error e => rw [h2] at h; cases h
                | ok kept =>
                  rw [h2] at h
                  simp only [Except.ok.injEq, Prod.mk.injEq] at h
                  obtain ⟨_, h3⟩ := h
                  subst h3
                  exact ⟨rfl, rfl, rfl, fun b hb1 =>
                    Or.inl (removeBeliefs_subset n _ _ _ h2 b hb1)⟩
            | kAchieve =>
              rw [hft] at h
              simp only at h
              cases h1 : Unifier.apply n frame.unifier bf.formula with
              | error e => rw [h1] at h; cases h
              | ok s =>
                rw [h1] at h
                simp only at h
                cases h2 : Anonymize n names s with
                | error e => rw [h2] at h; cases h
                | ok a =>
                  rw [h2] at h
                  simp only at h
                  by_cases hw : bf.formula.which = .kBeliefAtom
                  · rw [if_pos hw] at h
                    cases a with
                    | atom f ts => exact same _ h
                    | _ => cases h
                  · rw [if_neg hw] at h; cases h
            | kAchieveLater => rw [hft] at h; cases h
            | kTest => rw [hft] at h; cases h

theorem runSteps_add {D : Type} [DecidableEq D] [DoubleOps D] (n : Nat) (names : Nat → String)
    (stale : IntentionFrame D → GoalType) (a b : Nat) :
    ∀ (agent agent1 : Agent D) (l1 : List Bool),
      RunSteps n names stale a agent = .ok (l1, agent1) →
      RunSteps n names stale (a + b) agent =
        (RunSteps n names stale b agent1).map (fun r => (l1 ++ r.1, r.2)) := by
  induction a with
  | zero =>
    intro agent agent1 l1 h
    simp only [RunSteps, Except.ok.injEq, Prod.mk.injEq] at h
    obtain ⟨h1, h2⟩ := h
    subst h1 h2
    rw [Nat.zero_add]
    cases RunSteps n names stale b agent with
    | error e => rfl
    | ok r => rfl
  | succ a ih =>
    intro agent agent1 l1 h
    rw [Nat.add_right_comm]
    simp only [RunSteps] at h ⊢
    cases hr : Run n names stale agent with
    | error e => rw [hr] at h; cases h
    | ok p =>
      obtain ⟨more, agentm⟩ := p
      rw [hr] at h
      simp only at h ⊢
      cases hs : RunSteps n names stale a agentm with
      | error e => rw [hs] at h; cases h
      | ok q =>
        obtain ⟨rest, agentr⟩ := q
        rw [hs] at h
        simp only [Except.ok.injEq, Prod.mk.injEq] at h
        obtain ⟨h1, h2⟩ := h
        subst h1 h2
        rw [ih agentm agentr rest hs]
        cases RunSteps n names stale b agentr with
        | error e => rfl
        | ok r => rfl
/-! ## The way back of a finished sub-goal -/

mutual
theorem anonymizer_visit_ground {D : Type} [DecidableEq D] [DoubleOps D] (n : Nat)
    (names : Nat → String) :
    ∀ (t : Term D) (mapping_ : List (String × String)), IsGround t = true →
      Anonymizer.visit n names t mapping_ = .ok (t, mapping_)
  | .bool _, _, _ => rfl
  | .num _, _, _ => rfl
  | .str _, _, _ => rfl
  | .list ts, m, h => by
    simp only [IsGround] at h
    simp only [Anonymizer.visit, anonymizer_visitList_ground n names ts m h]
  | .atom _ ts, m, h => by
    simp only [IsGround] at h
    simp only [Anonymizer.visit, anonymizer_visitList_ground n names ts m h]
  | .var _, _, h => by simp [IsGround] at h
  | .unop _ _, _, h => by simp [IsGround] at h
  | .binop _ _ _, _, h => by simp [IsGround] at h
theorem anonymizer_visitList_ground {D : Type} [DecidableEq D] [DoubleOps D] (n : Nat)
    (names : Nat → String) :
    ∀ (ts : List (Term D)) (mapping_ : List (String × String)), IsGroundList ts = true →
      Anonymizer.visitList n names ts mapping_ = .ok (ts, mapping_)
  | [], _, _ => rfl
  | t :: ts, m, h => by
    simp only [IsGroundList] at h
    have ht : IsGround t = true := by
      cases hg : IsGround t with
      | true => rfl
      | false => rw [hg] at h; simp at h
    rw [ht] at h
    simp only [Bool.not_true, Bool.false_eq_true, if_false] at h
    simp only [Anonymizer.visitList, anonymizer_visit_ground n names t m ht,
      anonymizer_visitList_ground n names ts m h]
end

theorem anonymize_ground {D : Type} [DecidableEq D] [DoubleOps D] (n : Nat)
    (names : Nat → String) (t : Term D) (h : IsGround t = true) :
    Anonymize n names t = .ok t := by
  simp only [Anonymize, anonymizer_visit_ground n names t [] h]

/-- The names of two terms and of the bindings of a unifier, without the
anonymous variable, when it occurs in none of them. -/
theorem exists_names_named {D : Type} (σ : Unifier D) (l r : Term D) (hfo : σ.FirstOrder)
    (hacyc : σ.Acyclic) (hl : ContainsVariable "_" l = false)
    (hr : ContainsVariable "_" r = false)
    (hσ : ∀ k v, Unifier.find σ k = some v → ContainsVariable "_" v = false) :
    ∃ V : List String, UInv V σ ∧ VarsIn V l ∧ VarsIn V r ∧ "_" ∉ V := by
  obtain ⟨V, hinv, hvl, hvr⟩ := exists_names σ l r hfo hacyc
  refine ⟨V.filter (fun w => decide (w ≠ "_")), ⟨hinv.1, hinv.2.1, ?_⟩, ?_, ?_, ?_⟩
  · intro k v hf w hw
    rw [List.mem_filter]
    refine ⟨hinv.2.2 k v hf w hw, ?_⟩
    rw [decide_eq_true_eq]
    intro e
    rw [e, hσ k v hf] at hw
    cases hw
  · intro w hw
    rw [List.mem_filter]
    refine ⟨hvl w hw, ?_⟩
    rw [decide_eq_true_eq]
    intro e
    rw [e, hl] at hw
    cases hw
  · intro w hw
    rw [List.mem_filter]
    refine ⟨hvr w hw, ?_⟩
    rw [decide_eq_true_eq]
    intro e
    rw [e, hr] at hw
    cases hw
  · intro hmem
    rw [List.mem_filter, decide_eq_true_eq] at hmem
    exact hmem.2 rfl

/-- Unifying the substituted formula of the caller with a ground term makes
the formula of the caller that ground term. -/
theorem unify_back_to_caller {D : Type} [DecidableEq D] [DoubleOps D] (n : Nat)
    (σ σ1 : Unifier D) (formula p g : Term D) (hf : NamedFirstOrder formula)
    (hfo : σ.FirstOrder) (hacyc : σ.Acyclic)
    (hσ : ∀ k v, Unifier.find σ k = some v → ContainsVariable "_" v = false)
    (hp : Unifier.apply n σ formula = .ok p) (hg : IsGround g = true)
    (hu : Unify n p g σ = .ok (true, σ1)) :
    σ1.FirstOrder ∧ σ1.Acyclic ∧ ∃ k, ∀ m, k ≤ m → Unifier.apply m σ1 formula = .ok g := by
  obtain ⟨p1, p2, _, p4, p5, _⟩ := apply_spec σ hfo n formula p hf.1 hp
  obtain ⟨g1, g2, g3⟩ := ground_facts g hg
  have hpw : ContainsVariable "_" p = false := by
    cases hc : ContainsVariable "_" p with
    | false => rfl
    | true =>
      rcases p5 "_" hc with h1 | ⟨k, v, hk, hv⟩
      · rw [hf.2] at h1; cases h1
      · rw [hσ k v hk] at hv; cases hv
  obtain ⟨V, hinv, hvp, hvg, hV⟩ := exists_names_named σ p g hfo hacyc hpw (g2 "_") hσ
  have hrg : Resolved σ g := fun v hv => by rw [g2 v] at hv; cases hv
  have hstep := unify_step V n p g σ σ1 true hinv p1 g1 p2 hrg hvp hvg hu
  have hsem := unify_sem V hV n p g σ σ1 true hinv p1 g1 p2 hrg hvp hvg hu
  obtain ⟨θ, hθ, happ⟩ := exists_solution σ1 hstep.1.1 hstep.1.2.1
  obtain ⟨hθσ, heq⟩ := (hsem.1 rfl θ).1 hθ
  obtain ⟨k, hk⟩ := happ formula hf.1
  refine ⟨hstep.1.1, hstep.1.2.1, k, fun m hm => ?_⟩
  have e : Term.subst θ formula = g := by rw [← p4 θ hθσ, heq, g3 θ]
  rw [← e]
  exact apply_mono hk hm
/-! ## Generators that settle -/

theorem nextSettles_det {D : Type} [DecidableEq D] [DoubleOps D] {agent : Agent D} {gen : Gen D}
    {r r1 : Except Err (Bool × Gen D)} (h : NextSettles agent gen r)
    (h1 : NextSettles agent gen r1) : r = r1 := by
  obtain ⟨n, hn⟩ := h
  obtain ⟨n1, hn1⟩ := h1
  rw [← hn (max n n1) (Nat.le_max_left _ _), ← hn1 (max n n1) (Nat.le_max_right _ _)]

theorem atMost_transfer {D : Type} [DecidableEq D] [DoubleOps D] {agent : Agent D}
    {gen gen2 : Gen D} (h : ∀ r, NextSettles agent gen2 r → NextSettles agent gen r) :
    ∀ k, AtMost agent k gen2 → AtMost agent k gen
  | 0, hk => by
    rcases hk with ⟨e, he, hs⟩ | ⟨g1, hs, hx⟩
    · exact Or.inl ⟨e, he, h _ hs⟩
    · exact Or.inr ⟨g1, h _ hs, hx⟩
  | k + 1, hk => by
    rcases hk with ⟨e, he, hs⟩ | ⟨g1, hs, hx⟩ | ⟨g1, hs, h1, h2, h3⟩
    · exact Or.inl ⟨e, he, h _ hs⟩
    · exact Or.inr (Or.inl ⟨g1, h _ hs, hx⟩)
    · exact Or.inr (Or.inr ⟨g1, h _ hs, h1, h2, h3⟩)

theorem atMost_succ {D : Type} [DecidableEq D] [DoubleOps D] {agent : Agent D} :
    ∀ (k : Nat) (gen : Gen D), AtMost agent k gen → AtMost agent (k + 1) gen
  | 0, gen, hk => by
    rcases hk with h | h
    · exact Or.inl h
    · exact Or.inr (Or.inl h)
  | k + 1, gen, hk => by
    rcases hk with h | h | ⟨g1, hs, h1, h2, h3⟩
    · exact Or.inl h
    · exact Or.inr (Or.inl h)
    · exact Or.inr (Or.inr ⟨g1, hs, h1, h2, atMost_succ k g1 h3⟩)

theorem atMost_mono {D : Type} [DecidableEq D] [DoubleOps D] {agent : Agent D} {gen : Gen D}
    {k k1 : Nat} (h : AtMost agent k gen) (hk : k ≤ k1) : AtMost agent k1 gen := by
  induction k1 with
  | zero =>
    have : k = 0 := by omega
    subst this; exact h
  | succ k1 ih =>
    by_cases e : k = k1 + 1
    · subst e; exact h
    · exact atMost_succ k1 gen (ih (by omega))

theorem atMost_of_error {D : Type} [DecidableEq D] [DoubleOps D] {agent : Agent D} {gen : Gen D}
    {e : Err} (he : e ≠ .out_of_fuel) (h : NextSettles agent gen (.error e)) (k : Nat) :
    AtMost agent k gen := by
  have h0 : AtMost agent 0 gen := Or.inl ⟨e, he, h⟩
  exact atMost_mono h0 (Nat.zero_le k)

theorem atMost_of_false {D : Type} [DecidableEq D] [DoubleOps D] {agent : Agent D}
    {gen gen1 : Gen D} (h : NextSettles agent gen (.ok (false, gen1)))
    (hx : Exhausted agent gen1) (k : Nat) : AtMost agent k gen := by
  have h0 : AtMost agent 0 gen := Or.inr ⟨gen1, h, hx⟩
  exact atMost_mono h0 (Nat.zero_le k)

theorem atMost_of_true {D : Type} [DecidableEq D] [DoubleOps D] {agent : Agent D}
    {gen gen1 : Gen D} (h : NextSettles agent gen (.ok (true, gen1)))
    (h1 : (Current gen1).FirstOrder) (h2 : (Current gen1).Acyclic) {k : Nat}
    (h3 : AtMost agent k gen1) : AtMost agent (k + 1) gen :=
  Or.inr (Or.inr ⟨gen1, h, h1, h2, h3⟩)

theorem exhausted_step {D : Type} [DecidableEq D] [DoubleOps D] {agent : Agent D} {gen : Gen D}
    (h : Exhausted agent gen) :
    ∃ gen1, NextSettles agent gen (.ok (false, gen1)) ∧ Exhausted agent gen1 := by
  obtain ⟨gen1, hs, _⟩ := h 1
  refine ⟨gen1, hs, fun c => ?_⟩
  obtain ⟨gen2, hs2, hc⟩ := h (c + 1)
  have e := nextSettles_det hs hs2
  simp only [Except.ok.injEq, Prod.mk.injEq, true_and] at e
  rw [e]
  exact hc

theorem exhausted_intro {D : Type} [DecidableEq D] [DoubleOps D] {agent : Agent D}
    {gen gen1 : Gen D} (hs : NextSettles agent gen (.ok (false, gen1)))
    (h : Exhausted agent gen1) : Exhausted agent gen
  | 0 => trivial
  | c + 1 => ⟨gen1, hs, h c⟩

theorem exhausted_fix {D : Type} [DecidableEq D] [DoubleOps D] {agent : Agent D} {gen : Gen D}
    (hs : NextSettles agent gen (.ok (false, gen))) : Exhausted agent gen
  | 0 => trivial
  | c + 1 => ⟨gen, hs, exhausted_fix hs c⟩

theorem exhausted_transfer {D : Type} [DecidableEq D] [DoubleOps D] {agent : Agent D}
    {gen gen2 : Gen D} (h : ∀ r, NextSettles agent gen2 r → NextSettles agent gen r)
    (hx : Exhausted agent gen2) : Exhausted agent gen := by
  obtain ⟨g1, hs, hx1⟩ := exhausted_step hx
  exact exhausted_intro (h _ hs) hx1

theorem answers_of_exhausted {D : Type} [DecidableEq D] [DoubleOps D] {agent : Agent D} :
    ∀ (calls : Nat) (gen : Gen D), Exhausted agent gen →
      ∃ n, ∀ m, n ≤ m → Answers m agent calls gen = .ok (List.replicate calls false)
  | 0, _, _ => ⟨0, fun _ _ => rfl⟩
  | calls + 1, gen, h => by
    obtain ⟨gen1, ⟨n, hn⟩, hx⟩ := exhausted_step h
    obtain ⟨n1, hn1⟩ := answers_of_exhausted calls gen1 hx
    refine ⟨max n n1, fun m hm => ?_⟩
    simp only [Answers, hn m (le_trans (Nat.le_max_left _ _) hm),
      hn1 m (le_trans (Nat.le_max_right _ _) hm), List.replicate_succ]

theorem answers_of_atMost {D : Type} [DecidableEq D] [DoubleOps D] {agent : Agent D} :
    ∀ (calls k : Nat) (gen : Gen D), AtMost agent k gen →
      ∃ result, result ≠ .error .out_of_fuel ∧
        ∃ n, ∀ m, n ≤ m → Answers m agent calls gen = result
  | 0, _, _, _ => ⟨.ok [], by simp, 0, fun _ _ => rfl⟩
  | calls + 1, k, gen, h => by
    have herr : ∀ e, e ≠ Err.out_of_fuel → NextSettles agent gen (.error e) →
        ∃ result, result ≠ .error .out_of_fuel ∧
          ∃ n, ∀ m, n ≤ m → Answers m agent (calls + 1) gen = result := by
      rintro e he ⟨n, hn⟩
      refine ⟨.error e, by simpa using he, n, fun m hm => ?_⟩
      simp only [Answers, hn m hm]
    have hfalse : ∀ g1, NextSettles agent gen (.ok (false, g1)) → Exhausted agent g1 →
        ∃ result, result ≠ .error .out_of_fuel ∧
          ∃ n, ∀ m, n ≤ m → Answers m agent (calls + 1) gen = result := by
      rintro g1 ⟨n, hn⟩ hx
      obtain ⟨n1, hn1⟩ := answers_of_exhausted calls g1 hx
      refine ⟨.ok (false :: List.replicate calls false), by simp, max n n1, fun m hm => ?_⟩
      simp only [Answers, hn m (le_trans (Nat.le_max_left _ _) hm),
        hn1 m (le_trans (Nat.le_max_right _ _) hm)]
    cases k with
    | zero =>
      rcases h with ⟨e, he, hs⟩ | ⟨g1, hs, hx⟩
      · exact herr e he hs
      · exact hfalse g1 hs hx
    | succ k =>
      rcases h with ⟨e, he, hs⟩ | ⟨g1, hs, hx⟩ | ⟨g1, ⟨n, hn⟩, _, _, h3⟩
      · exact herr e he hs
      · exact hfalse g1 hs hx
      · obtain ⟨res, hres, n1, hn1⟩ := answers_of_atMost calls k g1 h3
        cases res with
        | error e =>
          refine ⟨.error e, hres, max n n1, fun m hm => ?_⟩
          simp only [Answers, hn m (le_trans (Nat.le_max_left _ _) hm),
            hn1 m (le_trans (Nat.le_max_right _ _) hm)]
        | ok rest =>
          refine ⟨.ok (true :: rest), by simp, max n n1, fun m hm => ?_⟩
          simp only [Answers, hn m (le_trans (Nat.le_max_left _ _) hm),
            hn1 m (le_trans (Nat.le_max_right _ _) hm)]
/-! ## The generators of the leaves -/

theorem settles_of_succ {D : Type} [DecidableEq D] [DoubleOps D] {agent : Agent D} {gen : Gen D}
    {r : Except Err (Bool × Gen D)} (n : Nat)
    (h : ∀ m, n ≤ m → Next (m + 1) agent gen = r) : NextSettles agent gen r := by
  refine ⟨n + 1, fun m hm => ?_⟩
  cases m with
  | zero => omega
  | succ m => exact h m (by omega)

theorem settles_of_same {D : Type} [DecidableEq D] [DoubleOps D] {agent : Agent D}
    {gen gen2 : Gen D} (n : Nat) (h : ∀ m, n ≤ m → Next m agent gen = Next m agent gen2)
    (r : Except Err (Bool × Gen D)) (hs : NextSettles agent gen2 r) : NextSettles agent gen r := by
  obtain ⟨n2, hn2⟩ := hs
  refine ⟨max n n2, fun m hm => ?_⟩
  rw [h m (le_trans (Nat.le_max_left _ _) hm)]
  exact hn2 m (le_trans (Nat.le_max_right _ _) hm)

theorem unify_settles {D : Type} [DecidableEq D] [DoubleOps D] (σ : Unifier D) (l r : Term D)
    (hfo : σ.FirstOrder) (hacyc : σ.Acyclic) (hl : IsUnifiable l = true)
    (hr : IsUnifiable r = true) (hrl : Resolved σ l) (hrr : Resolved σ r) :
    ∃ n b σ1, (∀ m, n ≤ m → Unify m l r σ = .ok (b, σ1)) ∧ σ1.FirstOrder ∧ σ1.Acyclic := by
  obtain ⟨V, hinv, hvl, hvr⟩ := exists_names σ l r hfo hacyc
  obtain ⟨n, b, σ1, h⟩ := unify_terminates V (unboundCount V σ) σ (Nat.le_refl _) hinv l r hl hr
    hrl hrr hvl hvr
  have hstep := unify_step V n l r σ σ1 b hinv hl hr hrl hrr hvl hvr h
  exact ⟨n, b, σ1, fun m hm => unify_mono h hm, hstep.1.1, hstep.1.2.1⟩

theorem apply_settles {D : Type} [DecidableEq D] [DoubleOps D] (σ : Unifier D) (t : Term D)
    (hfo : σ.FirstOrder) (hacyc : σ.Acyclic) (ht : IsUnifiable t = true) :
    ∃ n t1, (∀ m, n ≤ m → Unifier.apply m σ t = .ok t1) ∧ IsUnifiable t1 = true ∧
      Resolved σ t1 := by
  obtain ⟨n, t1, h⟩ := apply_terminates σ hfo hacyc t ht
  obtain ⟨h1, h2, _⟩ := apply_spec σ hfo n t t1 ht h
  exact ⟨n, t1, fun m hm => apply_mono h hm, h1, h2⟩

theorem other_exhausted {D : Type} [DecidableEq D] [DoubleOps D] (agent : Agent D) :
    Exhausted agent (.other : Gen D) :=
  exhausted_fix (settles_of_succ 0 (fun m _ => by simp [Next]))

theorem bool_false_exhausted {D : Type} [DecidableEq D] [DoubleOps D] (agent : Agent D)
    (σ : Unifier D) : Exhausted agent (.bool false σ) :=
  exhausted_fix (settles_of_succ 0 (fun m _ => by simp [Next]))

theorem bool_atMost {D : Type} [DecidableEq D] [DoubleOps D] (agent : Agent D) (b : Bool)
    (σ : Unifier D) (hfo : σ.FirstOrder) (hacyc : σ.Acyclic) : AtMost agent 1 (.bool b σ) := by
  cases b with
  | false =>
    exact atMost_of_false (settles_of_succ 0 (fun m _ => by simp [Next]))
      (bool_false_exhausted agent σ) 1
  | true =>
    have h0 : AtMost agent 0 (.bool false σ) :=
      Or.inr ⟨_, settles_of_succ 0 (fun m _ => by simp [Next]), bool_false_exhausted agent σ⟩
    have hs : NextSettles agent (.bool true σ) (.ok (true, .bool false σ)) :=
      settles_of_succ 0 (fun m _ => by simp [Next])
    exact atMost_of_true hs hfo hacyc h0

theorem unify_once_exhausted {D : Type} [DecidableEq D] [DoubleOps D] (agent : Agent D)
    (l r : Term D) (σ cur : Unifier D) : Exhausted agent (.unify l r σ cur true) :=
  exhausted_fix (settles_of_succ 0 (fun m _ => by simp [Next]))

theorem unify_atMost {D : Type} [DecidableEq D] [DoubleOps D] (agent : Agent D) (l r : Term D)
    (σ cur : Unifier D) (hfo : σ.FirstOrder) (hacyc : σ.Acyclic) (hl : IsUnifiable l = true)
    (hr : IsUnifiable r = true) (hrl : Resolved σ l) (hrr : Resolved σ r) :
    AtMost agent 1 (.unify l r σ cur false) := by
  obtain ⟨n, b, σ1, hn, h1, h2⟩ := unify_settles σ l r hfo hacyc hl hr hrl hrr
  have hs : NextSettles agent (.unify l r σ cur false) (.ok (b, .unify l r σ σ1 true)) :=
    settles_of_succ n (fun m hm => by simp [Next, hn m hm])
  cases b with
  | false => exact atMost_of_false hs (unify_once_exhausted agent l r σ σ1) 1
  | true =>
    have h0 : AtMost agent 0 (.unify l r σ σ1 true) :=
      Or.inr ⟨_, settles_of_succ 0 (fun m _ => by simp [Next]),
        unify_once_exhausted agent l r σ σ1⟩
    exact atMost_of_true hs h1 h2 h0

theorem atom_atMost {D : Type} [DecidableEq D] [DoubleOps D] (agent : Agent D)
    (term_ : BeliefAtom D) (σ : Unifier D) (hfo : σ.FirstOrder) (hacyc : σ.Acyclic)
    (ht : IsUnifiable term_.toTerm = true) (hres : Resolved σ term_.toTerm) :
    ∀ (its : List (BeliefAtom D)) (cur : Unifier D),
      (∀ b ∈ its, IsGround b.toTerm = true) →
      AtMost agent its.length (.atom term_ σ none its cur)
  | [], cur, _ => by
    have hs : NextSettles agent (.atom term_ σ none [] cur)
        (.ok (false, .atom term_ σ none [] cur)) :=
      settles_of_succ 0 (fun m _ => by simp [Next, atomLoop])
    exact Or.inr ⟨_, hs, exhausted_fix hs⟩
  | b :: its, cur, hg => by
    obtain ⟨g1, g2, _⟩ := ground_facts b.toTerm (hg b (List.mem_cons_self _ _))
    obtain ⟨n1, t1, ha, _, _⟩ := apply_settles σ term_.toTerm hfo hacyc ht
    obtain ⟨n2, matched, σ1, hu, h1, h2⟩ := unify_settles σ term_.toTerm b.toTerm hfo hacyc ht g1
      hres (fun v hv => by rw [g2 v] at hv; cases hv)
    have ih := atom_atMost agent term_ σ hfo hacyc ht hres its σ1
      (fun x hx => hg x (List.mem_cons_of_mem _ hx))
    cases matched with
    | true =>
      have hs : NextSettles agent (.atom term_ σ none (b :: its) cur)
          (.ok (true, .atom term_ σ none its σ1)) :=
        settles_of_succ (max n1 n2) (fun m hm => by
          simp [Next, atomLoop, ha m (le_trans (Nat.le_max_left _ _) hm),
            hu m (le_trans (Nat.le_max_right _ _) hm)])
      exact atMost_of_true hs h1 h2 ih
    | false =>
      have hsame : ∀ m, max n1 n2 + 1 ≤ m →
          Next m agent (.atom term_ σ none (b :: its) cur) =
            Next m agent (.atom term_ σ none its σ1) := by
        intro m hm
        cases m with
        | zero => omega
        | succ m =>
          have hm1 : max n1 n2 ≤ m := by omega
          simp [Next, atomLoop, ha m (le_trans (Nat.le_max_left _ _) hm1),
            hu m (le_trans (Nat.le_max_right _ _) hm1)]
      exact atMost_succ _ _ (atMost_transfer (settles_of_same _ hsame) _ ih)
/-! ## The generators of variables and of the built-in actions -/

theorem set_ground_good {D : Type} (σ : Unifier D) (name : String) (g : Term D)
    (hfo : σ.FirstOrder) (hacyc : σ.Acyclic) (hx : Unifier.find σ name = none)
    (hg : IsGround g = true) :
    (Unifier.set σ name g).FirstOrder ∧ (Unifier.set σ name g).Acyclic := by
  obtain ⟨g1, g2, _⟩ := ground_facts g hg
  refine ⟨?_, acyclic_set σ name g hacyc hx (fun v hv => by rw [g2 v] at hv; cases hv)
    (g2 name)⟩
  intro k v hf
  by_cases hk : k = name
  · subst hk
    rw [find_set_self] at hf
    cases hf
    exact g1
  · rw [find_set_other _ _ _ _ hk] at hf
    exact hfo k v hf

theorem var_tried_atMost {D : Type} [DecidableEq D] [DoubleOps D] (agent : Agent D)
    (name : String) :
    ∀ (its : List (BeliefAtom D)) (cur : Unifier D),
      (∀ b ∈ its, IsGround b.toTerm = true) →
      (∀ g : Term D, IsGround g = true →
        (Unifier.set cur name g).FirstOrder ∧ (Unifier.set cur name g).Acyclic) →
      AtMost agent its.length (.var name its cur true)
  | [], cur, _, _ => by
    have hs : NextSettles agent (.var name [] cur true) (.ok (false, .var name [] cur true)) :=
      settles_of_succ 0 (fun m _ => by simp [Next])
    exact Or.inr ⟨_, hs, exhausted_fix hs⟩
  | b :: its, cur, hg, hcur => by
    have hs : NextSettles agent (.var name (b :: its) cur true)
        (.ok (true, .var name its (Unifier.set cur name b.toTerm) true)) :=
      settles_of_succ 0 (fun m _ => by simp [Next])
    have hb := hcur b.toTerm (hg b (List.mem_cons_self _ _))
    have ih := var_tried_atMost agent name its (Unifier.set cur name b.toTerm)
      (fun x hx => hg x (List.mem_cons_of_mem _ hx))
      (fun g hgg => by rw [set_set]; exact hcur g hgg)
    exact atMost_of_true hs hb.1 hb.2 ih

theorem var_atMost {D : Type} [DecidableEq D] [DoubleOps D] (agent : Agent D) (name : String)
    (its : List (BeliefAtom D)) (σ : Unifier D) (hg : ∀ b ∈ its, IsGround b.toTerm = true)
    (hfo : σ.FirstOrder) (hacyc : σ.Acyclic) (hx : Unifier.find σ name = none) :
    AtMost agent (its.length + 1) (.var name its σ false) := by
  have hs : NextSettles agent (.var name its σ false)
      (.ok (true, .var name its (Unifier.set σ name (.bool true)) true)) :=
    settles_of_succ 0 (fun m _ => by simp [Next])
  have hb := set_ground_good σ name (.bool true) hfo hacyc hx rfl
  have h := var_tried_atMost agent name its (Unifier.set σ name (.bool true)) hg
    (fun g hgg => by rw [set_set]; exact set_ground_good σ name g hfo hacyc hx hgg)
  exact atMost_of_true hs hb.1 hb.2 h

theorem applyList_settles {D : Type} [DecidableEq D] [DoubleOps D] (σ : Unifier D)
    (ts : List (Term D)) (hfo : σ.FirstOrder) (hacyc : σ.Acyclic)
    (ht : IsUnifiableList ts = true) :
    ∃ n ts1, ∀ m, n ≤ m → applyList (Unifier.apply m σ) ts = .ok ts1 := by
  obtain ⟨n, t1, h, _, _⟩ := apply_settles σ (.list ts) hfo hacyc (by simpa [IsUnifiable] using ht)
  have h1 := h (n + 1) (Nat.le_succ n)
  simp only [Unifier.apply] at h1
  cases ha : applyList (Unifier.apply n σ) ts with
  | error e => rw [ha] at h1; cases h1
  | ok ts1 => exact ⟨n, ts1, fun m hm => applyList_mono ha hm⟩

theorem print_atMost {D : Type} [DecidableEq D] [DoubleOps D] (agent : Agent D)
    (ts : List (Term D)) (σ : Unifier D) (hfo : σ.FirstOrder) (hacyc : σ.Acyclic)
    (ht : IsUnifiableList ts = true) : AtMost agent 1 (.printAction ts σ false) := by
  obtain ⟨n, ts1, hn⟩ := applyList_settles σ ts hfo hacyc ht
  have hs : NextSettles agent (.printAction ts σ false) (.ok (true, .printAction ts σ true)) :=
    settles_of_succ n (fun m hm => by simp [Next, hn m hm])
  have hs1 : NextSettles agent (.printAction ts σ true) (.ok (false, .printAction ts σ true)) :=
    settles_of_succ 0 (fun m _ => by simp [Next])
  have h0 : AtMost agent 0 (.printAction ts σ true) := Or.inr ⟨_, hs1, exhausted_fix hs1⟩
  exact atMost_of_true hs hfo hacyc h0

theorem myName_atMost {D : Type} [DecidableEq D] [DoubleOps D] (agent : Agent D)
    (ts : List (Term D)) (σ : Unifier D) (hfo : σ.FirstOrder) (hacyc : σ.Acyclic)
    (ht : IsUnifiableList ts = true) : AtMost agent 1 (.myNameAction ts σ false) := by
  have hdone : ∀ σ1 : Unifier D, NextSettles agent (.myNameAction ts σ1 true)
      (.ok (false, .myNameAction ts σ1 true)) :=
    fun σ1 => settles_of_succ 0 (fun m _ => by simp [Next])
  rcases ts with _ | ⟨front, _ | ⟨t2, rest⟩⟩
  · exact atMost_of_error (by decide)
      (settles_of_succ 0 (fun m _ => by simp [Next]) :
        NextSettles agent (.myNameAction [] σ false) (.error .runtime_error)) 1
  · have hfront : IsUnifiable front = true := by
      simp only [IsUnifiableList] at ht
      cases hf : IsUnifiable front with
      | true => rfl
      | false => rw [hf] at ht; simp at ht
    obtain ⟨n1, arg, ha, a1, a2⟩ := apply_settles σ front hfo hacyc hfront
    obtain ⟨n2, b, σ1, hu, h1, h2⟩ := unify_settles σ (.str agent.name) arg hfo hacyc rfl a1
      (fun v hv => by simp [ContainsVariable] at hv) a2
    have hs : NextSettles agent (.myNameAction [front] σ false)
        (.ok (b, .myNameAction [front] σ1 true)) :=
      settles_of_succ (max n1 n2) (fun m hm => by
        simp [Next, ha m (le_trans (Nat.le_max_left _ _) hm),
          hu m (le_trans (Nat.le_max_right _ _) hm)])
    cases b with
    | false => exact atMost_of_false hs (exhausted_fix (hdone σ1)) 1
    | true =>
      have h0 : AtMost agent 0 (.myNameAction [front] σ1 true) :=
        Or.inr ⟨_, hdone σ1, exhausted_fix (hdone σ1)⟩
      exact atMost_of_true hs h1 h2 h0
  · exact atMost_of_error (by decide)
      (settles_of_succ 0 (fun m _ => by simp [Next]) :
        NextSettles agent (.myNameAction (front :: t2 :: rest) σ false)
          (.error .runtime_error)) 1

theorem action_atMost {D : Type} [DecidableEq D] [DoubleOps D] (agent : Agent D) (f : String)
    (ts : List (Term D)) (σ : Unifier D) (hfo : σ.FirstOrder) (hacyc : σ.Acyclic)
    (ht : IsUnifiableList ts = true) (action : Gen D)
    (h : Environment.GetAction ⟨f, ts⟩ σ = some action) : AtMost agent 1 action := by
  unfold Environment.GetAction at h
  simp only at h
  split at h
  · cases h; exact print_atMost agent ts σ hfo hacyc ht
  · split at h
    · cases h; exact myName_atMost agent ts σ hfo hacyc ht
    · split at h
      · cases h; exact bool_atMost agent false σ hfo hacyc
      · cases h

theorem wrap_settles {D : Type} [DecidableEq D] [DoubleOps D] {agent : Agent D}
    (term_ : BeliefAtom D) (σ cur : Unifier D) (its : List (BeliefAtom D)) {action : Gen D}
    {r : Except Err (Bool × Gen D)} (h : NextSettles agent action r) :
    NextSettles agent (.atom term_ σ (some action) its cur)
      (match r with
        | .error e => .error e
        | .ok (answer, action1) => .ok (answer, .atom term_ σ (some action1) its cur)) := by
  obtain ⟨n, hn⟩ := h
  refine settles_of_succ n (fun m hm => ?_)
  simp only [Next, hn m hm]
  rcases r with e | ⟨answer, action1⟩ <;> rfl

theorem wrap_answersFalse {D : Type} [DecidableEq D] [DoubleOps D] {agent : Agent D}
    (term_ : BeliefAtom D) (σ cur : Unifier D) (its : List (BeliefAtom D)) :
    ∀ (c : Nat) (action : Gen D), AnswersFalse agent c action →
      AnswersFalse agent c (.atom term_ σ (some action) its cur)
  | 0, _, _ => trivial
  | c + 1, action, h => by
    obtain ⟨a1, hs, hc⟩ := h
    exact ⟨_, wrap_settles term_ σ cur its hs, wrap_answersFalse term_ σ cur its c a1 hc⟩

theorem wrap_atMost {D : Type} [DecidableEq D] [DoubleOps D] {agent : Agent D}
    (term_ : BeliefAtom D) (σ cur : Unifier D) (its : List (BeliefAtom D)) :
    ∀ (k : Nat) (action : Gen D), AtMost agent k action →
      AtMost agent k (.atom term_ σ (some action) its cur)
  | 0, action, h => by
    rcases h with ⟨e, he, hs⟩ | ⟨a1, hs, hx⟩
    · exact Or.inl ⟨e, he, wrap_settles term_ σ cur its hs⟩
    · exact Or.inr ⟨_, wrap_settles term_ σ cur its hs,
        fun c => wrap_answersFalse term_ σ cur its c a1 (hx c)⟩
  | k + 1, action, h => by
    rcases h with ⟨e, he, hs⟩ | ⟨a1, hs, hx⟩ | ⟨a1, hs, h1, h2, h3⟩
    · exact Or.inl ⟨e, he, wrap_settles term_ σ cur its hs⟩
    · exact Or.inr (Or.inl ⟨_, wrap_settles term_ σ cur its hs,
        fun c => wrap_answersFalse term_ σ cur its c a1 (hx c)⟩)
    · exact Or.inr (Or.inr ⟨_, wrap_settles term_ σ cur its hs, h1, h2,
        wrap_atMost term_ σ cur its k a1 h3⟩)
/-! ## The generators of Or and And -/

theorem atMost_cases {D : Type} [DecidableEq D] [DoubleOps D] {agent : Agent D} {gen : Gen D}
    {k : Nat} (h : AtMost agent k gen) :
    (∃ e, e ≠ .out_of_fuel ∧ NextSettles agent gen (.error e)) ∨
    (∃ gen1, NextSettles agent gen (.ok (false, gen1)) ∧ Exhausted agent gen1) ∨
    ∃ k1 gen1, k = k1 + 1 ∧ NextSettles agent gen (.ok (true, gen1)) ∧
      (Current gen1).FirstOrder ∧ (Current gen1).Acyclic ∧ AtMost agent k1 gen1 := by
  cases k with
  | zero =>
    rcases h with h | h
    · exact Or.inl h
    · exact Or.inr (Or.inl h)
  | succ k =>
    rcases h with h | h | ⟨g1, hs, h1, h2, h3⟩
    · exact Or.inl h
    · exact Or.inr (Or.inl h)
    · exact Or.inr (Or.inr ⟨k, g1, rfl, hs, h1, h2, h3⟩)

theorem or_done_settles {D : Type} [DecidableEq D] [DoubleOps D] {agent : Agent D}
    (left : Gen D) {right : Gen D} {r : Except Err (Bool × Gen D)}
    (h : NextSettles agent right r) :
    NextSettles agent (.or left true right)
      (match r with
        | .error e => .error e
        | .ok (answer, right1) => .ok (answer, .or left true right1)) := by
  obtain ⟨n, hn⟩ := h
  refine settles_of_succ n (fun m hm => ?_)
  simp only [Next, hn m hm]
  rcases r with e | ⟨answer, right1⟩ <;> rfl

theorem or_done_answersFalse {D : Type} [DecidableEq D] [DoubleOps D] {agent : Agent D}
    (left : Gen D) :
    ∀ (c : Nat) (right : Gen D), AnswersFalse agent c right →
      AnswersFalse agent c (.or left true right)
  | 0, _, _ => trivial
  | c + 1, right, h => by
    obtain ⟨r1, hs, hc⟩ := h
    exact ⟨_, or_done_settles left hs, or_done_answersFalse left c r1 hc⟩

theorem or_done_atMost {D : Type} [DecidableEq D] [DoubleOps D] {agent : Agent D}
    (left : Gen D) :
    ∀ (k : Nat) (right : Gen D), AtMost agent k right → AtMost agent k (.or left true right)
  | 0, right, h => by
    rcases h with ⟨e, he, hs⟩ | ⟨r1, hs, hx⟩
    · exact Or.inl ⟨e, he, or_done_settles left hs⟩
    · exact Or.inr ⟨_, or_done_settles left hs, fun c => or_done_answersFalse left c r1 (hx c)⟩
  | k + 1, right, h => by
    rcases h with ⟨e, he, hs⟩ | ⟨r1, hs, hx⟩ | ⟨r1, hs, h1, h2, h3⟩
    · exact Or.inl ⟨e, he, or_done_settles left hs⟩
    · exact Or.inr (Or.inl ⟨_, or_done_settles left hs,
        fun c => or_done_answersFalse left c r1 (hx c)⟩)
    · exact Or.inr (Or.inr ⟨_, or_done_settles left hs, h1, h2, or_done_atMost left k r1 h3⟩)

theorem or_atMost {D : Type} [DecidableEq D] [DoubleOps D] {agent : Agent D} (kr : Nat)
    (right : Gen D) (hr : AtMost agent kr right) :
    ∀ (kl : Nat) (left : Gen D), AtMost agent kl left →
      AtMost agent (kl + kr) (.or left false right) := by
  intro kl
  induction kl with
  | zero =>
    intro left hl
    rcases hl with ⟨e, he, n, hn⟩ | ⟨l1, ⟨n, hn⟩, _⟩
    · exact atMost_of_error he (settles_of_succ n (fun m hm => by simp [Next, hn m hm])) _
    · rcases atMost_cases hr with ⟨e, he, n1, hn1⟩ | ⟨r1, ⟨n1, hn1⟩, hx⟩ |
        ⟨k1, r1, ek, ⟨n1, hn1⟩, h1, h2, h3⟩
      · exact atMost_of_error he (settles_of_succ (max n n1) (fun m hm => by
          simp [Next, hn m (le_trans (Nat.le_max_left _ _) hm),
            hn1 m (le_trans (Nat.le_max_right _ _) hm)])) _
      · have hs : NextSettles agent (.or left false right) (.ok (false, .or l1 true r1)) :=
          settles_of_succ (max n n1) (fun m hm => by
            simp [Next, hn m (le_trans (Nat.le_max_left _ _) hm),
              hn1 m (le_trans (Nat.le_max_right _ _) hm)])
        exact atMost_of_false hs (fun c => or_done_answersFalse l1 c r1 (hx c)) _
      · have hs : NextSettles agent (.or left false right) (.ok (true, .or l1 true r1)) :=
          settles_of_succ (max n n1) (fun m hm => by
            simp [Next, hn m (le_trans (Nat.le_max_left _ _) hm),
              hn1 m (le_trans (Nat.le_max_right _ _) hm)])
        have h4 := atMost_of_true hs (by simpa [Current] using h1) (by simpa [Current] using h2)
          (or_done_atMost l1 k1 r1 h3)
        exact atMost_mono h4 (by omega)
  | succ kl ih =>
    intro left hl
    rcases hl with h | h | ⟨l1, ⟨n, hn⟩, h1, h2, h3⟩
    · have h0 : AtMost agent 0 left := Or.inl h
      exact atMost_mono (ih left (atMost_mono h0 (Nat.zero_le _))) (by omega)
    · have h0 : AtMost agent 0 left := Or.inr h
      exact atMost_mono (ih left (atMost_mono h0 (Nat.zero_le _))) (by omega)
    · have hs : NextSettles agent (.or left false right) (.ok (true, .or l1 false right)) :=
        settles_of_succ n (fun m hm => by simp [Next, hn m hm])
      have h4 := atMost_of_true hs (by simpa [Current] using h1) (by simpa [Current] using h2)
        (ih l1 h3)
      exact atMost_mono h4 (by omega)

theorem and_answersFalse {D : Type} [DecidableEq D] [DoubleOps D] {agent : Agent D}
    (right_term_ : Term D) (right_gen_ : Option (Gen D)) :
    ∀ (c : Nat) (left : Gen D), Exhausted agent left →
      AnswersFalse agent c (.and left right_term_ right_gen_ false)
  | 0, _, _ => trivial
  | c + 1, left, h => by
    obtain ⟨l1, ⟨n, hn⟩, hx⟩ := exhausted_step h
    have hs : NextSettles agent (.and left right_term_ right_gen_ false)
        (.ok (false, .and l1 right_term_ right_gen_ false)) :=
      settles_of_succ n (fun m hm => by simp [Next, hn m hm])
    exact ⟨_, hs, and_answersFalse right_term_ right_gen_ c l1 hx⟩

theorem and_more_atMost {D : Type} [DecidableEq D] [DoubleOps D] {agent : Agent D}
    (right_term_ : Term D) (left : Gen D)
    (hleft : ∀ rg, ∃ K, AtMost agent K (.and left right_term_ rg false)) :
    ∀ (kr : Nat) (right : Gen D), AtMost agent kr right →
      ∃ K, AtMost agent K (.and left right_term_ (some right) true) := by
  intro kr
  induction kr with
  | zero =>
    intro right hr
    rcases hr with ⟨e, he, n, hn⟩ | ⟨r1, ⟨n, hn⟩, _⟩
    · exact ⟨0, atMost_of_error he (settles_of_succ n (fun m hm => by simp [Next, hn m hm])) _⟩
    · obtain ⟨K, hK⟩ := hleft (some r1)
      refine ⟨K, atMost_transfer (fun r hs => ?_) K hK⟩
      obtain ⟨n2, hn2⟩ := hs
      exact settles_of_succ (max n n2) (fun m hm => by
        simp [Next, hn m (le_trans (Nat.le_max_left _ _) hm),
          hn2 m (le_trans (Nat.le_max_right _ _) hm)])
  | succ kr ih =>
    intro right hr
    rcases hr with h | h | ⟨r1, ⟨n, hn⟩, h1, h2, h3⟩
    · have h0 : AtMost agent 0 right := Or.inl h
      exact ih right (atMost_mono h0 (Nat.zero_le _))
    · have h0 : AtMost agent 0 right := Or.inr h
      exact ih right (atMost_mono h0 (Nat.zero_le _))
    · obtain ⟨K, hK⟩ := ih r1 h3
      have hs : NextSettles agent (.and left right_term_ (some right) true)
          (.ok (true, .and left right_term_ (some r1) true)) :=
        settles_of_succ n (fun m hm => by simp [Next, hn m hm])
      exact ⟨K + 1, atMost_of_true hs (by simpa [Current] using h1)
        (by simpa [Current] using h2) hK⟩

theorem and_fresh_atMost {D : Type} [DecidableEq D] [DoubleOps D] {agent : Agent D}
    (right_term_ : Term D)
    (hR : ∀ σa : Unifier D, σa.FirstOrder → σa.Acyclic →
      (∃ e, e ≠ Err.out_of_fuel ∧
        ∃ n, ∀ m, n ≤ m → Unifier.apply m σa right_term_ = .error e) ∨
      ∃ g n kr, (∀ m, n ≤ m → Unifier.apply m σa right_term_ = .ok g) ∧
        AtMost agent kr (LogicalConsequenceSubstituted agent σa g)) :
    ∀ (kl : Nat) (left : Gen D), AtMost agent kl left →
      ∀ rg, ∃ K, AtMost agent K (.and left right_term_ rg false) := by
  intro kl
  induction kl with
  | zero =>
    intro left hl rg
    rcases hl with ⟨e, he, n, hn⟩ | ⟨l1, ⟨n, hn⟩, hx⟩
    · exact ⟨0, atMost_of_error he (settles_of_succ n (fun m hm => by simp [Next, hn m hm])) _⟩
    · have hs : NextSettles agent (.and left right_term_ rg false)
          (.ok (false, .and l1 right_term_ rg false)) :=
        settles_of_succ n (fun m hm => by simp [Next, hn m hm])
      exact ⟨0, atMost_of_false hs (fun c => and_answersFalse right_term_ rg c l1 hx) _⟩
  | succ kl ih =>
    intro left hl rg
    rcases hl with h | h | ⟨l1, ⟨n, hn⟩, h1, h2, h3⟩
    · have h0 : AtMost agent 0 left := Or.inl h
      exact ih left (atMost_mono h0 (Nat.zero_le _)) rg
    · have h0 : AtMost agent 0 left := Or.inr h
      exact ih left (atMost_mono h0 (Nat.zero_le _)) rg
    · rcases hR (Current l1) h1 h2 with ⟨e, he, na, ha⟩ | ⟨g, na, kr, ha, hright⟩
      · exact ⟨0, atMost_of_error he (settles_of_succ (max n na) (fun m hm => by
          simp [Next, hn m (le_trans (Nat.le_max_left _ _) hm),
            ha m (le_trans (Nat.le_max_right _ _) hm)])) _⟩
      · rcases atMost_cases hright with ⟨e, he, n1, hn1⟩ | ⟨r1, ⟨n1, hn1⟩, _⟩ |
          ⟨k1, r1, _, ⟨n1, hn1⟩, r2, r3, r4⟩
        · exact ⟨0, atMost_of_error he (settles_of_succ (max n (max na n1)) (fun m hm => by
            simp [Next, hn m (le_trans (Nat.le_max_left _ _) hm),
              ha m (le_trans (le_trans (Nat.le_max_left _ _) (Nat.le_max_right _ _)) hm),
              hn1 m (le_trans (le_trans (Nat.le_max_right _ _) (Nat.le_max_right _ _)) hm)])) _⟩
        · obtain ⟨K, hK⟩ := ih l1 h3 (some r1)
          refine ⟨K, atMost_transfer (fun r hs => ?_) K hK⟩
          obtain ⟨n2, hn2⟩ := hs
          exact settles_of_succ (max (max n n2) (max na n1)) (fun m hm => by
            simp [Next,
              hn m (le_trans (le_trans (Nat.le_max_left _ _) (Nat.le_max_left _ _)) hm),
              hn2 m (le_trans (le_trans (Nat.le_max_right _ _) (Nat.le_max_left _ _)) hm),
              ha m (le_trans (le_trans (Nat.le_max_left _ _) (Nat.le_max_right _ _)) hm),
              hn1 m (le_trans (le_trans (Nat.le_max_right _ _) (Nat.le_max_right _ _)) hm)])
        · obtain ⟨K, hK⟩ := and_more_atMost right_term_ l1 (ih l1 h3) k1 r1 r4
          have hs : NextSettles agent (.and left right_term_ rg false)
              (.ok (true, .and l1 right_term_ (some r1) true)) :=
            settles_of_succ (max n (max na n1)) (fun m hm => by
              simp [Next, hn m (le_trans (Nat.le_max_left _ _) hm),
                ha m (le_trans (le_trans (Nat.le_max_left _ _) (Nat.le_max_right _ _)) hm),
                hn1 m (le_trans (le_trans (Nat.le_max_right _ _) (Nat.le_max_right _ _)) hm)])
          exact ⟨K + 1, atMost_of_true hs (by simpa [Current] using r2)
            (by simpa [Current] using r3) hK⟩
/-! ## Goals built from first-order leaves with And, Or and Unify -/

theorem plainGoal_cases {D : Type} (t : Term D) (h : PlainGoal t = true) :
    (∃ l r, t = .binop .and l r ∧ PlainGoal l = true ∧ PlainGoal r = true) ∨
    (∃ l r, t = .binop .or l r ∧ PlainGoal l = true ∧ PlainGoal r = true) ∨
    (∃ l r, t = .binop .unify l r ∧ IsUnifiable l = true ∧ IsUnifiable r = true) ∨
    IsUnifiable t = true := by
  cases t with
  | binop op l r =>
    cases op <;> simp [PlainGoal, IsUnifiable] at h ⊢
    all_goals exact ⟨l, r, ⟨rfl, rfl⟩, h⟩
  | unop op x => simp [PlainGoal, IsUnifiable] at h
  | _ => exact Or.inr (Or.inr (Or.inr (by simpa [PlainGoal] using h)))

theorem plainGoal_of_firstOrder {D : Type} (σ : Unifier D) (t : Term D)
    (h : IsUnifiable t = true) (hres : Resolved σ t) :
    PlainGoal t = true ∧ ResolvedGoal σ t ∧ goalDepth t = 0 := by
  cases t with
  | binop op l r => simp [IsUnifiable] at h
  | unop op x => simp [IsUnifiable] at h
  | _ => exact ⟨by simpa [PlainGoal] using h, by simpa [ResolvedGoal] using hres, rfl⟩

theorem shortCircuit_some {D : Type} (unit : Bool) (side other t : Term D)
    (h : shortCircuit unit side other = some t) : t = other ∨ t = .bool (!unit) := by
  unfold shortCircuit at h
  split at h
  · split at h
    · split at h
      · left; exact (Option.some.inj h).symm
      · cases h
    · right; exact (Option.some.inj h).symm
  · cases h

theorem opAnd_cases {D : Type} (l r : Term D) :
    OpAnd l r = .error .domain_error ∨
    ∃ t, OpAnd l r = .ok t ∧ (t = l ∨ t = r ∨ t = .bool false ∨ t = .binop .and l r) := by
  unfold OpAnd
  split
  · exact Or.inl rfl
  · split
    · exact Or.inl rfl
    · right
      cases h1 : shortCircuit true l r with
      | some t =>
        refine ⟨t, rfl, ?_⟩
        rcases shortCircuit_some _ _ _ _ h1 with e | e
        · exact Or.inr (Or.inl e)
        · exact Or.inr (Or.inr (Or.inl e))
      | none =>
        cases h2 : shortCircuit true r l with
        | some t =>
          refine ⟨t, rfl, ?_⟩
          rcases shortCircuit_some _ _ _ _ h2 with e | e
          · exact Or.inl e
          · exact Or.inr (Or.inr (Or.inl e))
        | none => exact ⟨_, rfl, Or.inr (Or.inr (Or.inr rfl))⟩

theorem opOr_cases {D : Type} (l r : Term D) :
    OpOr l r = .error .domain_error ∨
    ∃ t, OpOr l r = .ok t ∧ (t = l ∨ t = r ∨ t = .bool true ∨ t = .binop .or l r) := by
  unfold OpOr
  split
  · exact Or.inl rfl
  · split
    · exact Or.inl rfl
    · right
      cases h1 : shortCircuit false l r with
      | some t =>
        refine ⟨t, rfl, ?_⟩
        rcases shortCircuit_some _ _ _ _ h1 with e | e
        · exact Or.inr (Or.inl e)
        · exact Or.inr (Or.inr (Or.inl e))
      | none =>
        cases h2 : shortCircuit false r l with
        | some t =>
          refine ⟨t, rfl, ?_⟩
          rcases shortCircuit_some _ _ _ _ h2 with e | e
          · exact Or.inl e
          · exact Or.inr (Or.inr (Or.inl e))
        | none => exact ⟨_, rfl, Or.inr (Or.inr (Or.inr rfl))⟩

theorem apply_goal {D : Type} [DecidableEq D] [DoubleOps D] (σ : Unifier D)
    (hfo : σ.FirstOrder) (hacyc : σ.Acyclic) :
    ∀ (d : Nat) (t : Term D), goalDepth t ≤ d → PlainGoal t = true →
      (∃ e, e ≠ Err.out_of_fuel ∧ ∃ n, ∀ m, n ≤ m → Unifier.apply m σ t = .error e) ∨
      ∃ g n, (∀ m, n ≤ m → Unifier.apply m σ t = .ok g) ∧ PlainGoal g = true ∧
        ResolvedGoal σ g ∧ goalDepth g ≤ goalDepth t := by
  intro d
  induction d with
  | zero =>
    intro t hd ht
    rcases plainGoal_cases t ht with ⟨l, r, e, _, _⟩ | ⟨l, r, e, _, _⟩ | ⟨l, r, e, hl, hr⟩ | hleaf
    · subst e; simp [goalDepth] at hd
    · subst e; simp [goalDepth] at hd
    · subst e
      obtain ⟨n1, gl, h1, a1, a2⟩ := apply_settles σ l hfo hacyc hl
      obtain ⟨n2, gr, h2, b1, b2⟩ := apply_settles σ r hfo hacyc hr
      refine Or.inr ⟨.binop .unify gl gr, max n1 n2 + 1, fun m hm => ?_, ?_, ?_, ?_⟩
      · cases m with
        | zero => omega
        | succ m =>
          exact apply_unify_node m σ l r gl gr
            (h1 m (by omega))
            (h2 m (by omega))
      · simp [PlainGoal, a1, b1]
      · exact ⟨a2, b2⟩
      · simp [goalDepth]
    · obtain ⟨n1, g, h1, a1, a2⟩ := apply_settles σ t hfo hacyc hleaf
      obtain ⟨p1, p2, p3⟩ := plainGoal_of_firstOrder σ g a1 a2
      exact Or.inr ⟨g, n1, h1, p1, p2, by omega⟩
  | succ d ih =>
    intro t hd ht
    rcases plainGoal_cases t ht with ⟨l, r, e, hl, hr⟩ | ⟨l, r, e, hl, hr⟩ | h3 | h4
    · subst e
      have hdl : goalDepth l ≤ d := by simp only [goalDepth] at hd; omega
      have hdr : goalDepth r ≤ d := by simp only [goalDepth] at hd; omega
      rcases ih l hdl hl with ⟨e, he, n1, h1⟩ | ⟨gl, n1, h1, a1, a2, a3⟩
      · exact Or.inl ⟨e, he, n1 + 1, fun m hm => by
          cases m with
          | zero => omega
          | succ m => simp [Unifier.apply, h1 m (by omega)]⟩
      · rcases ih r hdr hr with ⟨e, he, n2, h2⟩ | ⟨gr, n2, h2, b1, b2, b3⟩
        · exact Or.inl ⟨e, he, max n1 n2 + 1, fun m hm => by
            cases m with
            | zero => omega
            | succ m =>
              simp [Unifier.apply, h1 m (by omega),
                h2 m (by omega)]⟩
        · have happ : ∀ m, max n1 n2 + 1 ≤ m →
              Unifier.apply m σ (.binop .and l r) = OpAnd gl gr := by
            intro m hm
            cases m with
            | zero => omega
            | succ m =>
              exact apply_and_node m σ l r gl gr
                (h1 m (by omega))
                (h2 m (by omega))
          rcases opAnd_cases gl gr with e | ⟨t1, e, ht1⟩
          · exact Or.inl ⟨.domain_error, by decide, max n1 n2 + 1, fun m hm => by
              rw [happ m hm, e]⟩
          · refine Or.inr ⟨t1, max n1 n2 + 1, fun m hm => by rw [happ m hm, e], ?_⟩
            rcases ht1 with e1 | e1 | e1 | e1
            · subst e1; exact ⟨a1, a2, by simp only [goalDepth]; omega⟩
            · subst e1
              refine ⟨b1, ?_, by simp only [goalDepth]; omega⟩
              exact b2
            · subst e1
              exact ⟨rfl, fun v hv => by simp [ContainsVariable] at hv, by simp [goalDepth]⟩
            · subst e1
              refine ⟨by simp [PlainGoal, a1, b1], a2, ?_⟩
              simp only [goalDepth]
              omega
    · subst e
      have hdl : goalDepth l ≤ d := by simp only [goalDepth] at hd; omega
      have hdr : goalDepth r ≤ d := by simp only [goalDepth] at hd; omega
      rcases ih l hdl hl with ⟨e, he, n1, h1⟩ | ⟨gl, n1, h1, a1, a2, a3⟩
      · exact Or.inl ⟨e, he, n1 + 1, fun m hm => by
          cases m with
          | zero => omega
          | succ m => simp [Unifier.apply, h1 m (by omega)]⟩
      · rcases ih r hdr hr with ⟨e, he, n2, h2⟩ | ⟨gr, n2, h2, b1, b2, b3⟩
        · exact Or.inl ⟨e, he, max n1 n2 + 1, fun m hm => by
            cases m with
            | zero => omega
            | succ m =>
              simp [Unifier.apply, h1 m (by omega),
                h2 m (by omega)]⟩
        · have happ : ∀ m, max n1 n2 + 1 ≤ m →
              Unifier.apply m σ (.binop .or l r) = OpOr gl gr := by
            intro m hm
            cases m with
            | zero => omega
            | succ m =>
              simp [Unifier.apply, h1 m (by omega),
                h2 m (by omega), BinOp.constructWith]
          rcases opOr_cases gl gr with e | ⟨t1, e, ht1⟩
          · exact Or.inl ⟨.domain_error, by decide, max n1 n2 + 1, fun m hm => by
              rw [happ m hm, e]⟩
          · refine Or.inr ⟨t1, max n1 n2 + 1, fun m hm => by rw [happ m hm, e], ?_⟩
            rcases ht1 with e1 | e1 | e1 | e1
            · subst e1; exact ⟨a1, a2, by simp only [goalDepth]; omega⟩
            · subst e1; exact ⟨b1, b2, by simp only [goalDepth]; omega⟩
            · subst e1
              exact ⟨rfl, fun v hv => by simp [ContainsVariable] at hv, by simp [goalDepth]⟩
            · subst e1
              refine ⟨by simp [PlainGoal, a1, b1], ⟨a2, b2⟩, ?_⟩
              simp only [goalDepth]
              omega
    · obtain ⟨l, r, e, hl, hr⟩ := h3
      subst e
      obtain ⟨n1, gl, h1, a1, a2⟩ := apply_settles σ l hfo hacyc hl
      obtain ⟨n2, gr, h2, b1, b2⟩ := apply_settles σ r hfo hacyc hr
      refine Or.inr ⟨.binop .unify gl gr, max n1 n2 + 1, fun m hm => ?_, ?_, ?_, ?_⟩
      · cases m with
        | zero => omega
        | succ m =>
          exact apply_unify_node m σ l r gl gr
            (h1 m (by omega))
            (h2 m (by omega))
      · simp [PlainGoal, a1, b1]
      · exact ⟨a2, b2⟩
      · simp [goalDepth]
    · obtain ⟨n1, g, h1, a1, a2⟩ := apply_settles σ t hfo hacyc h4
      obtain ⟨p1, p2, p3⟩ := plainGoal_of_firstOrder σ g a1 a2
      exact Or.inr ⟨g, n1, h1, p1, p2, by omega⟩

theorem leaf_atMost {D : Type} [DecidableEq D] [DoubleOps D] (agent : Agent D)
    (hb : ∀ b ∈ agent.beliefs, IsGround b.toTerm = true) (σ : Unifier D)
    (hfo : σ.FirstOrder) (hacyc : σ.Acyclic) (g : Term D) (hg : IsUnifiable g = true)
    (hres : Resolved σ g) : ∃ k, AtMost agent k (LogicalConsequenceSubstituted agent σ g) := by
  cases g with
  | bool b => exact ⟨1, bool_atMost agent b σ hfo hacyc⟩
  | num x =>
    have hs : NextSettles agent (.other : Gen D) (.ok (false, .other)) :=
      settles_of_succ 0 (fun m _ => by simp [Next])
    exact ⟨0, Or.inr ⟨_, hs, other_exhausted agent⟩⟩
  | str s =>
    have hs : NextSettles agent (.other : Gen D) (.ok (false, .other)) :=
      settles_of_succ 0 (fun m _ => by simp [Next])
    exact ⟨0, Or.inr ⟨_, hs, other_exhausted agent⟩⟩
  | list ts =>
    have hs : NextSettles agent (.other : Gen D) (.ok (false, .other)) :=
      settles_of_succ 0 (fun m _ => by simp [Next])
    exact ⟨0, Or.inr ⟨_, hs, other_exhausted agent⟩⟩
  | var name =>
    have hx : Unifier.find σ name = none := hres name (by simp [ContainsVariable])
    exact ⟨_, var_atMost agent name agent.beliefs σ hb hfo hacyc hx⟩
  | atom f ts =>
    have hts : IsUnifiableList ts = true := by simpa [IsUnifiable] using hg
    simp only [LogicalConsequenceSubstituted]
    cases ha : Environment.GetAction (⟨f, ts⟩ : BeliefAtom D) σ with
    | none =>
      exact ⟨_, atom_atMost agent ⟨f, ts⟩ σ hfo hacyc hg hres _ []
        (fun b hbm => hb b (List.mem_filter.1 hbm).1)⟩
    | some action =>
      exact ⟨1, wrap_atMost ⟨f, ts⟩ σ [] _ 1 action
        (action_atMost agent f ts σ hfo hacyc hts action ha)⟩
  | unop op x => simp [IsUnifiable] at hg
  | binop op l r => simp [IsUnifiable] at hg

theorem goal_atMost {D : Type} [DecidableEq D] [DoubleOps D] (agent : Agent D)
    (hb : ∀ b ∈ agent.beliefs, IsGround b.toTerm = true) :
    ∀ (d : Nat) (g : Term D) (σ : Unifier D), goalDepth g ≤ d → PlainGoal g = true →
      ResolvedGoal σ g → σ.FirstOrder → σ.Acyclic →
      ∃ k, AtMost agent k (LogicalConsequenceSubstituted agent σ g) := by
  intro d
  induction d with
  | zero =>
    intro g σ hd hg hres hfo hacyc
    rcases plainGoal_cases g hg with ⟨l, r, e, _, _⟩ | ⟨l, r, e, _, _⟩ | ⟨l, r, e, hl, hr⟩ | hleaf
    · subst e; simp [goalDepth] at hd
    · subst e; simp [goalDepth] at hd
    · subst e
      exact ⟨1, unify_atMost agent l r σ [] hfo hacyc hl hr hres.1 hres.2⟩
    · have hres1 : Resolved σ g := by
        cases g with
        | binop op l r => simp [IsUnifiable] at hleaf
        | unop op x => simp [IsUnifiable] at hleaf
        | _ => simpa [ResolvedGoal] using hres
      exact leaf_atMost agent hb σ hfo hacyc g hleaf hres1
  | succ d ih =>
    intro g σ hd hg hres hfo hacyc
    rcases plainGoal_cases g hg with ⟨l, r, e, hl, hr⟩ | ⟨l, r, e, hl, hr⟩ |
      ⟨l, r, e, hl, hr⟩ | hleaf
    · subst e
      have hdl : goalDepth l ≤ d := by simp only [goalDepth] at hd; omega
      have hdr : goalDepth r ≤ d := by simp only [goalDepth] at hd; omega
      obtain ⟨kl, hkl⟩ := ih l σ hdl hl hres hfo hacyc
      have hR : ∀ σa : Unifier D, σa.FirstOrder → σa.Acyclic →
          (∃ e, e ≠ Err.out_of_fuel ∧ ∃ n, ∀ m, n ≤ m → Unifier.apply m σa r = .error e) ∨
          ∃ g n kr, (∀ m, n ≤ m → Unifier.apply m σa r = .ok g) ∧
            AtMost agent kr (LogicalConsequenceSubstituted agent σa g) := by
        intro σa h1 h2
        rcases apply_goal σa h1 h2 d r hdr hr with h | ⟨g1, n, hn, p1, p2, p3⟩
        · exact Or.inl h
        · obtain ⟨kr, hkr⟩ := ih g1 σa (le_trans p3 hdr) p1 p2 h1 h2
          exact Or.inr ⟨g1, n, kr, hn, hkr⟩
      exact and_fresh_atMost r hR kl _ hkl none
    · subst e
      have hdl : goalDepth l ≤ d := by simp only [goalDepth] at hd; omega
      have hdr : goalDepth r ≤ d := by simp only [goalDepth] at hd; omega
      obtain ⟨kl, hkl⟩ := ih l σ hdl hl hres.1 hfo hacyc
      obtain ⟨kr, hkr⟩ := ih r σ hdr hr hres.2 hfo hacyc
      exact ⟨kl + kr, or_atMost kr _ hkr kl _ hkl⟩
    · subst e
      exact ⟨1, unify_atMost agent l r σ [] hfo hacyc hl hr hres.1 hres.2⟩
    · have hres1 : Resolved σ g := by
        cases g with
        | binop op l r => simp [IsUnifiable] at hleaf
        | unop op x => simp [IsUnifiable] at hleaf
        | _ => simpa [ResolvedGoal] using hres
      exact leaf_atMost agent hb σ hfo hacyc g hleaf hres1

theorem plain_goal_settles {D : Type} [DecidableEq D] [DoubleOps D] (agent : Agent D)
    (σ : Unifier D) (t : Term D) (hb : ∀ b ∈ agent.beliefs, IsGround b.toTerm = true)
    (hfo : σ.FirstOrder) (hacyc : σ.Acyclic) (ht : PlainGoal t = true) :
    (∃ e, e ≠ Err.out_of_fuel ∧
      ∃ n, ∀ m, n ≤ m → LogicalConsequence m agent σ t = .error e) ∨
    ∃ gen, (∃ n, ∀ m, n ≤ m → LogicalConsequence m agent σ t = .ok gen) ∧
      ∀ calls, ∃ result, result ≠ .error .out_of_fuel ∧
        ∃ n, ∀ m, n ≤ m → Answers m agent calls gen = result := by
  rcases apply_goal σ hfo hacyc (goalDepth t) t (Nat.le_refl _) ht with
    ⟨e, he, n, hn⟩ | ⟨g, n, hn, p1, p2, p3⟩
  · exact Or.inl ⟨e, he, n, fun m hm => by simp [LogicalConsequence, hn m hm]⟩
  · obtain ⟨k, hk⟩ := goal_atMost agent hb (goalDepth g) g σ (Nat.le_refl _) p1 p2 hfo hacyc
    exact Or.inr ⟨_, ⟨n, fun m hm => by simp [LogicalConsequence, hn m hm]⟩,
      fun calls => answers_of_atMost calls k _ hk⟩
/-! ## Smart constructors under substitution -/

theorem which_var_inv {D : Type} {t : Term D} (h : t.which = .kVariable) : ∃ v, t = .var v := by
  cases t with
  | var v => exact ⟨v, rfl⟩
  | unop op x => cases op <;> simp [Term.which, UnOp.tag] at h
  | binop op l r => cases op <;> simp [Term.which, BinOp.tag] at h
  | _ => simp [Term.which] at h

theorem opPositive_cases {D : Type} {x r : Term D} (h : OpPositive x = .ok r) :
    (x.which = .kVariable ∧ r = .unop .positive x) ∨ (x.which.isArith = true ∧ r = x) := by
  unfold OpPositive at h
  split at h <;> simp_all [TermType.isArith]

theorem isArith_nonvar {k : TermType} (h : k.isArith = true) : k ≠ .kVariable := by
  intro e; subst e; simp [TermType.isArith] at h

theorem opPositive_arith {D : Type} {x r : Term D} (h : OpPositive x = .ok r) :
    r.which.isArith = true := by
  rcases opPositive_cases h with ⟨_, e⟩ | ⟨hx, e⟩
  · subst e; rfl
  · subst e; exact hx

theorem opNegative_arith {D : Type} [DoubleOps D] {x r : Term D} (h : OpNegative x = .ok r) :
    r.which.isArith = true := by
  unfold OpNegative at h
  split at h
  · cases h; rfl
  · split at h <;> first | (cases h; rfl) | cases h

theorem arithRight_arith {D : Type} (op : BinOp) {lhs right r : Term D}
    (hop : op.tag.isArith = true) (h : arithRight op lhs right = .ok r) :
    r.which.isArith = true := by
  unfold arithRight at h
  split at h
  · cases h; exact hop
  · split at h <;> first | (cases h; exact hop) | cases h

theorem opPlus_arith {D : Type} [DoubleOps D] {a b r : Term D} (h : OpPlus a b = .ok r) :
    r.which.isArith = true := by
  unfold OpPlus at h
  split at h
  · cases h; rfl
  · split at h
    · cases h
    · split at h
      · cases h; rfl
      · cases h; rfl
      · split at h <;> first | (cases h; rfl) | cases h

theorem opMinus_arith {D : Type} [DoubleOps D] {a b r : Term D} (h : OpMinus a b = .ok r) :
    r.which.isArith = true := by
  unfold OpMinus at h
  split at h
  · cases h; rfl
  · split at h
    · cases h
    · split at h
      · cases h; rfl
      · cases h; rfl
      · split at h <;> first | (cases h; rfl) | cases h

theorem opPow_arith {D : Type} [DoubleOps D] {a b r : Term D} (h : OpPow a b = .ok r) :
    r.which.isArith = true := by
  unfold OpPow at h
  split at h
  · cases h; rfl
  · split at h
    · cases h
    · exact arithRight_arith .pow rfl h

theorem opMultiply_arith {D : Type} [DoubleOps D] {a b r : Term D}
    (h : OpMultiply a b = .ok r) : r.which.isArith = true := by
  unfold OpMultiply at h
  split at h
  · cases h; rfl
  · split at h
    · cases h
    · exact arithRight_arith .multiply rfl h

theorem opDivide_arith {D : Type} [DoubleOps D] {a b r : Term D} (h : OpDivide a b = .ok r) :
    r.which.isArith = true := by
  unfold OpDivide at h
  split at h
  · cases h; rfl
  · split at h
    · cases h
    · exact arithRight_arith .divide rfl h

theorem opDiv_arith {D : Type} [DoubleOps D] {a b r : Term D} (h : OpDiv a b = .ok r) :
    r.which.isArith = true := by
  unfold OpDiv at h
  split at h
  · cases h; rfl
  · split at h
    · cases h
    · exact arithRight_arith .div rfl h

theorem opMod_arith {D : Type} [DoubleOps D] {a b r : Term D} (h : OpMod a b = .ok r) :
    r.which.isArith = true := by
  unfold OpMod at h
  split at h
  · cases h; rfl
  · split at h
    · cases h
    · exact arithRight_arith .mod rfl h

theorem opNot_nonvar {D : Type} {x r : Term D} (h : OpNot x = .ok r) :
    r.which ≠ .kVariable := by
  unfold OpNot at h
  split at h
  · cases h; simp [Term.which]
  · split at h
    · rename_i hk; cases h; rw [hk]; simp
    · cases h; simp [Term.which, UnOp.tag]
  · cases h; simp [Term.which, BinOp.tag]
  · cases h; simp [Term.which, BinOp.tag]
  · cases h; simp [Term.which, BinOp.tag]
  · cases h; simp [Term.which, BinOp.tag]
  · split at h <;> first | (cases h; simp [Term.which, UnOp.tag]) | cases h

theorem shortCircuit_cases {D : Type} {unit : Bool} {side other t : Term D}
    (h : shortCircuit unit side other = some t) :
    (side = .bool unit ∧ other.which ≠ .kVariable ∧ t = other) ∨
    (side = .bool (!unit) ∧ t = .bool (!unit)) := by
  unfold shortCircuit at h
  split at h
  · rename_i b
    by_cases hb : b = unit
    · subst hb
      simp only [if_true] at h
      split at h
      · cases h; left; exact ⟨rfl, by assumption, rfl⟩
      · cases h
    · simp only [hb, if_false, Option.some.injEq] at h
      right
      subst h
      refine ⟨?_, rfl⟩
      cases b <;> cases unit <;> simp_all
  · cases h

theorem opAnd_cases3 {D : Type} {a b t : Term D} (h : OpAnd a b = .ok t) :
    isLogicalOperand a = true ∧ isLogicalOperand b = true ∧
    (shortCircuit true a b = some t ∨
     (shortCircuit true a b = none ∧ shortCircuit true b a = some t) ∨
     (shortCircuit true a b = none ∧ shortCircuit true b a = none ∧ t = .binop .and a b)) := by
  unfold OpAnd at h
  split at h
  · cases h
  · split at h
    · cases h
    · rename_i h1 h2
      simp only [Bool.not_eq_true', Bool.not_eq_false] at h1 h2
      refine ⟨h1, h2, ?_⟩
      split at h
      · cases h; left; assumption
      · split at h
        · cases h; right; left; exact ⟨by assumption, by assumption⟩
        · cases h; right; right; exact ⟨by assumption, by assumption, rfl⟩

theorem opOr_cases3 {D : Type} {a b t : Term D} (h : OpOr a b = .ok t) :
    isLogicalOperand a = true ∧ isLogicalOperand b = true ∧
    (shortCircuit false a b = some t ∨
     (shortCircuit false a b = none ∧ shortCircuit false b a = some t) ∨
     (shortCircuit false a b = none ∧ shortCircuit false b a = none ∧ t = .binop .or a b)) := by
  unfold OpOr at h
  split at h
  · cases h
  · split at h
    · cases h
    · rename_i h1 h2
      simp only [Bool.not_eq_true', Bool.not_eq_false] at h1 h2
      refine ⟨h1, h2, ?_⟩
      split at h
      · cases h; left; assumption
      · split at h
        · cases h; right; left; exact ⟨by assumption, by assumption⟩
        · cases h; right; right; exact ⟨by assumption, by assumption, rfl⟩


theorem opAnd_unit_left {D : Type} {b : Term D} (hl : isLogicalOperand b = true)
    (hv : b.which ≠ .kVariable) : OpAnd (.bool true) b = .ok b := by
  have h0 : isLogicalOperand (.bool true : Term D) = true := rfl
  simp only [OpAnd, h0, hl, Bool.not_true, Bool.false_eq_true, if_false, shortCircuit, if_true,
    ne_eq, hv, not_false_eq_true]

theorem opAnd_zero_left {D : Type} {b : Term D} (hl : isLogicalOperand b = true) :
    OpAnd (.bool false) b = .ok (.bool false) := by
  have h0 : isLogicalOperand (.bool false : Term D) = true := rfl
  simp only [OpAnd, h0, hl, Bool.not_true, Bool.false_eq_true, if_false, shortCircuit]

theorem opAnd_unit_right {D : Type} {a : Term D} (hl : isLogicalOperand a = true)
    (hv : a.which ≠ .kVariable) : OpAnd a (.bool true) = .ok a := by
  cases a with
  | bool x => cases x <;> rfl
  | _ => simp_all [OpAnd, isLogicalOperand, Term.which, shortCircuit]

theorem opAnd_zero_right {D : Type} {a : Term D} (hl : isLogicalOperand a = true) :
    OpAnd a (.bool false) = .ok (.bool false) := by
  cases a with
  | bool x => cases x <;> rfl
  | _ => simp_all [OpAnd, isLogicalOperand, Term.which, shortCircuit]

theorem opOr_unit_left {D : Type} {b : Term D} (hl : isLogicalOperand b = true)
    (hv : b.which ≠ .kVariable) : OpOr (.bool false) b = .ok b := by
  have h0 : isLogicalOperand (.bool false : Term D) = true := rfl
  simp only [OpOr, h0, hl, Bool.not_true, Bool.false_eq_true, if_false, shortCircuit, if_true,
    ne_eq, hv, not_false_eq_true]

theorem opOr_zero_left {D : Type} {b : Term D} (hl : isLogicalOperand b = true) :
    OpOr (.bool true) b = .ok (.bool true) := by
  have h0 : isLogicalOperand (.bool true : Term D) = true := rfl
  simp only [OpOr, h0, hl, Bool.not_true, Bool.false_eq_true, if_false, shortCircuit,
    Bool.true_eq_false, Bool.not_false]

theorem opOr_unit_right {D : Type} {a : Term D} (hl : isLogicalOperand a = true)
    (hv : a.which ≠ .kVariable) : OpOr a (.bool false) = .ok a := by
  cases a with
  | bool x => cases x <;> rfl
  | _ => simp_all [OpOr, isLogicalOperand, Term.which, shortCircuit]

theorem opOr_zero_right {D : Type} {a : Term D} (hl : isLogicalOperand a = true) :
    OpOr a (.bool true) = .ok (.bool true) := by
  cases a with
  | bool x => cases x <;> rfl
  | _ => simp_all [OpOr, isLogicalOperand, Term.which, shortCircuit]

theorem opAnd_nonvar {D : Type} {a b t : Term D} (h : OpAnd a b = .ok t) :
    t.which ≠ .kVariable := by
  obtain ⟨_, _, h1 | ⟨_, h1⟩ | ⟨_, _, h1⟩⟩ := opAnd_cases3 h
  · rcases shortCircuit_cases h1 with ⟨_, hv, e⟩ | ⟨_, e⟩
    · rw [e]; exact hv
    · rw [e]; simp [Term.which]
  · rcases shortCircuit_cases h1 with ⟨_, hv, e⟩ | ⟨_, e⟩
    · rw [e]; exact hv
    · rw [e]; simp [Term.which]
  · rw [h1]; simp [Term.which, BinOp.tag]

theorem opOr_nonvar {D : Type} {a b t : Term D} (h : OpOr a b = .ok t) :
    t.which ≠ .kVariable := by
  obtain ⟨_, _, h1 | ⟨_, h1⟩ | ⟨_, _, h1⟩⟩ := opOr_cases3 h
  · rcases shortCircuit_cases h1 with ⟨_, hv, e⟩ | ⟨_, e⟩
    · rw [e]; exact hv
    · rw [e]; simp [Term.which]
  · rcases shortCircuit_cases h1 with ⟨_, hv, e⟩ | ⟨_, e⟩
    · rw [e]; exact hv
    · rw [e]; simp [Term.which]
  · rw [h1]; simp [Term.which, BinOp.tag]

theorem opNeqLoop_nonvar {D : Type} [DecidableEq D] [DoubleOps D] :
    ∀ (ls rs : List (Term D)) (acc r : Term D), acc.which ≠ .kVariable →
      OpNeqLoop ls rs acc = .ok r → r.which ≠ .kVariable
  | [], _, acc, r, ha, h => by
    simp only [OpNeqLoop, Except.ok.injEq] at h
    subst h; exact ha
  | _ :: _, [], acc, r, ha, h => by
    simp only [OpNeqLoop, Except.ok.injEq] at h
    subst h; exact ha
  | l :: ls, r0 :: rs, acc, r, _, h => by
    simp only [OpNeqLoop] at h
    cases h1 : OpNeq l r0 with
    | error e => rw [h1] at h; cases h
    | ok ne =>
      rw [h1] at h
      simp only at h
      cases h2 : OpOr acc ne with
      | error e => rw [h2] at h; cases h
      | ok acc1 =>
        rw [h2] at h
        exact opNeqLoop_nonvar ls rs acc1 r (opOr_nonvar h2) h

theorem opNeq_nonvar {D : Type} [DecidableEq D] [DoubleOps D] {a b r : Term D}
    (h : OpNeq a b = .ok r) : r.which ≠ .kVariable := by
  have hb : ∀ x : Bool, (Term.bool x : Term D).which ≠ .kVariable := by
    intro x; simp [Term.which]
  cases a with
  | list ls =>
    cases b <;> simp only [OpNeq] at h <;>
      first
      | (cases h; simp [Term.which, BinOp.tag])
      | (split at h
         · cases h; simp [Term.which]
         · exact opNeqLoop_nonvar _ _ _ _ (hb false) h)
  | atom f ls =>
    cases b <;> simp only [OpNeq] at h <;>
      first
      | (cases h; simp [Term.which, BinOp.tag])
      | (split at h
         · cases h; simp [Term.which]
         · split at h
           · cases h; simp [Term.which]
           · exact opNeqLoop_nonvar _ _ _ _ (hb false) h)
  | bool x =>
    simp only [OpNeq] at h
    split at h
    · cases h; simp [Term.which]
    · split at h <;> (cases h; simp [Term.which, BinOp.tag])
  | num x =>
    simp only [OpNeq] at h
    split at h
    · cases h; simp [Term.which]
    · split at h <;> (cases h; simp [Term.which, BinOp.tag])
  | str x =>
    simp only [OpNeq] at h
    split at h <;> (cases h; simp [Term.which, BinOp.tag])
  | var x =>
    simp only [OpNeq] at h
    split at h
    · split at h <;> (cases h; simp [Term.which, BinOp.tag])
    · cases h; simp [Term.which, BinOp.tag]
  | unop op x =>
    simp only [OpNeq] at h
    split at h <;> split at h <;> (cases h; simp [Term.which, BinOp.tag])
  | binop op x y =>
    simp only [OpNeq] at h
    split at h <;> split at h <;> (cases h; simp [Term.which, BinOp.tag])


theorem opLtLoop_nonvar {D : Type} [DecidableEq D] [DoubleOps D] :
    ∀ (ls rs : List (Term D)) (result eqsf r : Term D), result.which ≠ .kVariable →
      OpLtLoop ls rs result eqsf = .ok r → r.which ≠ .kVariable
  | [], _, result, _, r, ha, h => by
    simp only [OpLtLoop, Except.ok.injEq] at h
    subst h; exact ha
  | _ :: _, [], result, _, r, ha, h => by
    simp only [OpLtLoop, Except.ok.injEq] at h
    subst h; exact ha
  | l :: ls, r0 :: rs, result, eqsf, r, _, h => by
    simp only [OpLtLoop] at h
    cases h1 : OpLt l r0 with
    | error e => rw [h1] at h; cases h
    | ok lt =>
      rw [h1] at h
      simp only at h
      cases h2 : OpAnd eqsf lt with
      | error e => rw [h2] at h; cases h
      | ok conj =>
        rw [h2] at h
        simp only at h
        cases h3 : OpOr result conj with
        | error e => rw [h3] at h; cases h
        | ok result1 =>
          rw [h3] at h
          simp only at h
          cases h4 : OpEq l r0 with
          | error e => rw [h4] at h; cases h
          | ok eq =>
            rw [h4] at h
            simp only at h
            cases h5 : OpAnd eqsf eq with
            | error e => rw [h5] at h; cases h
            | ok eqsf1 =>
              rw [h5] at h
              exact opLtLoop_nonvar ls rs result1 eqsf1 r (opOr_nonvar h3) h

theorem opLt_nonvar {D : Type} [DecidableEq D] [DoubleOps D] {a b r : Term D}
    (h : OpLt a b = .ok r) : r.which ≠ .kVariable := by
  have hb : ∀ x : Bool, (Term.bool x : Term D).which ≠ .kVariable := by
    intro x; simp [Term.which]
  cases a <;> simp only [OpLt] at h <;> repeat' split at h
  all_goals first
    | (cases h; simp [Term.which, BinOp.tag])
    | exact opLtLoop_nonvar _ _ _ _ _ (hb false) h

theorem opEq_nonvar {D : Type} [DecidableEq D] [DoubleOps D] {a b r : Term D}
    (h : OpEq a b = .ok r) : r.which ≠ .kVariable := by
  unfold OpEq at h
  split at h
  · cases h
  · exact opNot_nonvar h

theorem opLte_nonvar {D : Type} [DecidableEq D] [DoubleOps D] {a b r : Term D}
    (h : OpLte a b = .ok r) : r.which ≠ .kVariable := by
  unfold OpLte at h
  split at h
  · cases h
  · split at h
    · cases h
    · exact opOr_nonvar h

theorem opDeconstructWith_cases {D : Type} [DecidableEq D] [DoubleOps D]
    (unify : Term D → Term D → Unifier D → Except Err (Bool × Unifier D))
    {a b t : Term D} (h : OpDeconstructWith unify a b = .ok t) :
    (∃ f ts, a = .atom f ts ∧ t = .binop .unify (.list [.atom f [], .list ts]) b ∧
      (b.which = .kList ∨ b.which = .kVariable)) ∨
    ((∃ v, a = .var v) ∧ (t = .binop .deconstruct a b ∨ t = .bool false)) := by
  cases a with
  | atom f ts =>
    left
    unfold OpDeconstructWith at h
    simp only at h
    split at h
    · rw [opUnifyWith_eq] at h
      cases h
      exact ⟨f, ts, rfl, rfl, by simp_all⟩
    · rw [opUnifyWith_eq] at h
      cases h
      exact ⟨f, ts, rfl, rfl, by simp_all⟩
    · cases h
  | var v =>
    right
    refine ⟨⟨v, rfl⟩, ?_⟩
    rw [opDeconstructWith_congr unify (Unify 0)] at h
    have h1 := opDeconstruct_var_left 0 v b
    unfold OpDeconstruct at h1
    rw [h1] at h
    split at h
    · cases h; left; rfl
    · split at h
      · cases h; right; rfl
      · cases h
  | bool _ => simp [OpDeconstructWith] at h
  | num _ => simp [OpDeconstructWith] at h
  | str _ => simp [OpDeconstructWith] at h
  | list _ => simp [OpDeconstructWith] at h
  | unop _ _ => simp [OpDeconstructWith] at h
  | binop _ _ _ => simp [OpDeconstructWith] at h

theorem constructWith_nonvar {D : Type} [DecidableEq D] [DoubleOps D]
    (unify : Term D → Term D → Unifier D → Except Err (Bool × Unifier D))
    {op : BinOp} {a b r : Term D} (h : BinOp.constructWith unify op a b = .ok r) :
    r.which ≠ .kVariable := by
  cases op <;> simp only [BinOp.constructWith] at h
  · exact isArith_nonvar (opPlus_arith h)
  · exact isArith_nonvar (opMinus_arith h)
  · exact isArith_nonvar (opPow_arith h)
  · exact isArith_nonvar (opMultiply_arith h)
  · exact isArith_nonvar (opDivide_arith h)
  · exact isArith_nonvar (opDiv_arith h)
  · exact isArith_nonvar (opMod_arith h)
  · exact opAnd_nonvar h
  · exact opOr_nonvar h
  · rw [opUnifyWith_eq] at h; cases h; simp [Term.which, BinOp.tag]
  · rcases opDeconstructWith_cases unify h with ⟨f, ts, _, e, _⟩ | ⟨_, e | e⟩ <;>
      (rw [e]; simp [Term.which, BinOp.tag])
  · exact opEq_nonvar h
  · exact opNeq_nonvar h
  · exact opLt_nonvar h
  · exact opLte_nonvar h

theorem construct_nonvar {D : Type} [DoubleOps D] {op : UnOp} {x r : Term D}
    (h : UnOp.construct op x = .ok r) : r.which ≠ .kVariable := by
  cases op <;> simp only [UnOp.construct] at h
  · exact isArith_nonvar (opPositive_arith h)
  · exact isArith_nonvar (opNegative_arith h)
  · exact opNot_nonvar h

theorem apply_nonvar {D : Type} [DecidableEq D] [DoubleOps D] {σ : Unifier D} {n : Nat}
    {t r : Term D} (ht : t.which ≠ .kVariable) (h : Unifier.apply n σ t = .ok r) :
    r.which ≠ .kVariable := by
  cases n with
  | zero => simp [Unifier.apply] at h
  | succ n =>
    cases t with
    | var v => simp [Term.which] at ht
    | bool x => simp only [Unifier.apply, Except.ok.injEq] at h; subst h; exact ht
    | num x => simp only [Unifier.apply, Except.ok.injEq] at h; subst h; exact ht
    | str x => simp only [Unifier.apply, Except.ok.injEq] at h; subst h; exact ht
    | list ts =>
      simp only [Unifier.apply] at h
      split at h
      · cases h
      · cases h; simp [Term.which]
    | atom f ts =>
      simp only [Unifier.apply] at h
      split at h
      · cases h
      · cases h; simp [Term.which]
    | unop op x =>
      simp only [Unifier.apply] at h
      split at h
      · cases h
      · exact construct_nonvar h
    | binop op x y =>
      simp only [Unifier.apply] at h
      split at h
      · cases h
      · split at h
        · cases h
        · exact constructWith_nonvar _ h


theorem notDepth_of_which {D : Type} {t : Term D} (h : t.which ≠ .kNot) : notDepth t = 0 := by
  cases t with
  | unop op x => cases op <;> simp [Term.which, UnOp.tag] at h <;> rfl
  | _ => rfl

theorem notDepth_arith {D : Type} {t : Term D} (h : t.which.isArith = true) :
    notDepth t = 0 :=
  notDepth_of_which (by intro e; rw [e] at h; simp [TermType.isArith] at h)

theorem opAnd_depth {D : Type} {a b t : Term D} {d : Nat} (h : OpAnd a b = .ok t)
    (ha : notDepth a ≤ d) (hb : notDepth b ≤ d) : notDepth t ≤ d := by
  rcases opAnd_cases a b with e | ⟨t1, e, h1⟩
  · rw [e] at h; cases h
  · rw [e] at h
    cases h
    rcases h1 with e | e | e | e <;> rw [e]
    · exact ha
    · exact hb
    · exact Nat.zero_le _
    · exact Nat.zero_le _

theorem opOr_depth {D : Type} {a b t : Term D} {d : Nat} (h : OpOr a b = .ok t)
    (ha : notDepth a ≤ d) (hb : notDepth b ≤ d) : notDepth t ≤ d := by
  rcases opOr_cases a b with e | ⟨t1, e, h1⟩
  · rw [e] at h; cases h
  · rw [e] at h
    cases h
    rcases h1 with e | e | e | e <;> rw [e]
    · exact ha
    · exact hb
    · exact Nat.zero_le _
    · exact Nat.zero_le _

theorem opNot_depth {D : Type} {x r : Term D} (h : OpNot x = .ok r) :
    (notDepth x = 0 → notDepth r ≤ 1) ∧ (notDepth x ≤ 2 → notDepth r ≤ 2) := by
  unfold OpNot at h
  split at h
  · cases h; exact ⟨fun _ => Nat.zero_le _, fun _ => Nat.zero_le _⟩
  · rename_i inner
    split at h
    · cases h
      refine ⟨fun h0 => ?_, fun h2 => ?_⟩
      · simp [notDepth] at h0
      · simp only [notDepth] at h2; omega
    · rename_i hk
      cases h
      refine ⟨fun h0 => ?_, fun _ => ?_⟩
      · simp [notDepth] at h0
      · simp only [notDepth, notDepth_of_which hk]; omega
  · cases h; exact ⟨fun _ => Nat.zero_le _, fun _ => Nat.zero_le _⟩
  · cases h; exact ⟨fun _ => Nat.zero_le _, fun _ => Nat.zero_le _⟩
  · cases h; exact ⟨fun _ => Nat.zero_le _, fun _ => Nat.zero_le _⟩
  · cases h; exact ⟨fun _ => Nat.zero_le _, fun _ => Nat.zero_le _⟩
  · split at h <;> first
      | (cases h; done)
      | (cases h
         rename_i hk
         have h0 : notDepth x = 0 := notDepth_of_which (by rw [hk]; simp)
         simp only [notDepth, h0]
         exact ⟨fun _ => by omega, fun _ => by omega⟩)

mutual
theorem opNeq_depth {D : Type} [DecidableEq D] [DoubleOps D] :
    ∀ (a b r : Term D), OpNeq a b = .ok r → notDepth r = 0
  | .list ls, b, r, h => by
    cases b <;> simp only [OpNeq] at h <;>
      first
      | (cases h; rfl)
      | (split at h
         · cases h; rfl
         · exact opNeqLoop_depth ls _ (.bool false) _ rfl h)
  | .atom f ls, b, r, h => by
    cases b <;> simp only [OpNeq] at h <;>
      first
      | (cases h; rfl)
      | (split at h
         · cases h; rfl
         · split at h
           · cases h; rfl
           · exact opNeqLoop_depth ls _ (.bool false) _ rfl h)
  | .bool x, b, r, h => by
    simp only [OpNeq] at h
    repeat' split at h
    all_goals (cases h; rfl)
  | .num x, b, r, h => by
    simp only [OpNeq] at h
    repeat' split at h
    all_goals (cases h; rfl)
  | .str x, b, r, h => by
    simp only [OpNeq] at h
    repeat' split at h
    all_goals (cases h; rfl)
  | .var x, b, r, h => by
    simp only [OpNeq] at h
    repeat' split at h
    all_goals (cases h; rfl)
  | .unop op x, b, r, h => by
    simp only [OpNeq] at h
    repeat' split at h
    all_goals (cases h; rfl)
  | .binop op x y, b, r, h => by
    simp only [OpNeq] at h
    repeat' split at h
    all_goals (cases h; rfl)
theorem opNeqLoop_depth {D : Type} [DecidableEq D] [DoubleOps D] :
    ∀ (ls rs : List (Term D)) (acc r : Term D), notDepth acc = 0 →
      OpNeqLoop ls rs acc = .ok r → notDepth r = 0
  | [], _, acc, r, ha, h => by
    simp only [OpNeqLoop, Except.ok.injEq] at h
    subst h; exact ha
  | _ :: _, [], acc, r, ha, h => by
    simp only [OpNeqLoop, Except.ok.injEq] at h
    subst h; exact ha
  | l :: ls, r0 :: rs, acc, r, ha, h => by
    simp only [OpNeqLoop] at h
    cases h1 : OpNeq l r0 with
    | error e => rw [h1] at h; cases h
    | ok ne =>
      rw [h1] at h
      simp only at h
      cases h2 : OpOr acc ne with
      | error e => rw [h2] at h; cases h
      | ok acc1 =>
        rw [h2] at h
        have hne := opNeq_depth l r0 ne h1
        have h3 : notDepth acc1 ≤ 0 := opOr_depth h2 (by omega) (by omega)
        exact opNeqLoop_depth ls rs acc1 r (by omega) h
end

theorem opEq_depth {D : Type} [DecidableEq D] [DoubleOps D] {a b r : Term D}
    (h : OpEq a b = .ok r) : notDepth r ≤ 1 := by
  unfold OpEq at h
  cases h1 : OpNeq a b with
  | error e => rw [h1] at h; cases h
  | ok ne =>
    rw [h1] at h
    exact (opNot_depth h).1 (opNeq_depth a b ne h1)

mutual
theorem opLt_depth {D : Type} [DecidableEq D] [DoubleOps D] :
    ∀ (a b r : Term D), OpLt a b = .ok r → notDepth r ≤ 1
  | .list ls, b, r, h => by
    simp only [OpLt] at h
    repeat' split at h
    all_goals first
      | (cases h; exact Nat.zero_le _)
      | exact opLtLoop_depth ls _ (.bool false) (.bool true) _ (Nat.zero_le _) (Nat.zero_le _) h
  | .atom f ls, b, r, h => by
    simp only [OpLt] at h
    repeat' split at h
    all_goals first
      | (cases h; exact Nat.zero_le _)
      | exact opLtLoop_depth ls _ (.bool false) (.bool true) _ (Nat.zero_le _) (Nat.zero_le _) h
  | .bool x, b, r, h => by
    simp only [OpLt] at h
    repeat' split at h
    all_goals (cases h; exact Nat.zero_le _)
  | .num x, b, r, h => by
    simp only [OpLt] at h
    repeat' split at h
    all_goals (cases h; exact Nat.zero_le _)
  | .str x, b, r, h => by
    simp only [OpLt] at h
    repeat' split at h
    all_goals (cases h; exact Nat.zero_le _)
  | .var x, b, r, h => by
    simp only [OpLt] at h
    repeat' split at h
    all_goals (cases h; exact Nat.zero_le _)
  | .unop op x, b, r, h => by
    simp only [OpLt] at h
    repeat' split at h
    all_goals (cases h; exact Nat.zero_le _)
  | .binop op x y, b, r, h => by
    simp only [OpLt] at h
    repeat' split at h
    all_goals (cases h; exact Nat.zero_le _)
theorem opLtLoop_depth {D : Type} [DecidableEq D] [DoubleOps D] :
    ∀ (ls rs : List (Term D)) (result eqsf r : Term D), notDepth result ≤ 1 →
      notDepth eqsf ≤ 1 → OpLtLoop ls rs result eqsf = .ok r → notDepth r ≤ 1
  | [], _, result, _, r, ha, _, h => by
    simp only [OpLtLoop, Except.ok.injEq] at h
    subst h; exact ha
  | _ :: _, [], result, _, r, ha, _, h => by
    simp only [OpLtLoop, Except.ok.injEq] at h
    subst h; exact ha
  | l :: ls, r0 :: rs, result, eqsf, r, ha, he, h => by
    simp only [OpLtLoop] at h
    cases h1 : OpLt l r0 with
    | error e => rw [h1] at h; cases h
    | ok lt =>
      rw [h1] at h
      simp only at h
      cases h2 : OpAnd eqsf lt with
      | error e => rw [h2] at h; cases h
      | ok conj =>
        rw [h2] at h
        simp only at h
        cases h3 : OpOr result conj with
        | error e => rw [h3] at h; cases h
        | ok result1 =>
          rw [h3] at h
          simp only at h
          cases h4 : OpEq l r0 with
          | error e => rw [h4] at h; cases h
          | ok eq =>
            rw [h4] at h
            simp only at h
            cases h5 : OpAnd eqsf eq with
            | error e => rw [h5] at h; cases h
            | ok eqsf1 =>
              rw [h5] at h
              have hlt := opLt_depth l r0 lt h1
              have hconj := opAnd_depth h2 he hlt
              exact opLtLoop_depth ls rs result1 eqsf1 r (opOr_depth h3 ha hconj)
                (opAnd_depth h5 he (opEq_depth h4)) h
end

theorem opLte_depth {D : Type} [DecidableEq D] [DoubleOps D] {a b r : Term D}
    (h : OpLte a b = .ok r) : notDepth r ≤ 1 := by
  unfold OpLte at h
  cases h1 : OpLt a b with
  | error e => rw [h1] at h; cases h
  | ok lt =>
    rw [h1] at h
    simp only at h
    cases h2 : OpEq a b with
    | error e => rw [h2] at h; cases h
    | ok eq =>
      rw [h2] at h
      exact opOr_depth h (opLt_depth a b lt h1) (opEq_depth h2)

theorem constructWith_depth {D : Type} [DecidableEq D] [DoubleOps D]
    (unify : Term D → Term D → Unifier D → Except Err (Bool × Unifier D))
    {op : BinOp} {a b r : Term D} (h : BinOp.constructWith unify op a b = .ok r)
    (ha : notDepth a ≤ 2) (hb : notDepth b ≤ 2) : notDepth r ≤ 2 := by
  cases op <;> simp only [BinOp.constructWith] at h
  · rw [notDepth_arith (opPlus_arith h)]; omega
  · rw [notDepth_arith (opMinus_arith h)]; omega
  · rw [notDepth_arith (opPow_arith h)]; omega
  · rw [notDepth_arith (opMultiply_arith h)]; omega
  · rw [notDepth_arith (opDivide_arith h)]; omega
  · rw [notDepth_arith (opDiv_arith h)]; omega
  · rw [notDepth_arith (opMod_arith h)]; omega
  · exact opAnd_depth h ha hb
  · exact opOr_depth h ha hb
  · rw [opUnifyWith_eq] at h; cases h; exact Nat.zero_le _
  · rcases opDeconstructWith_cases unify h with ⟨f, ts, _, e, _⟩ | ⟨_, e | e⟩ <;>
      (rw [e]; exact Nat.zero_le _)
  · have := opEq_depth h; omega
  · rw [opNeq_depth a b r h]; omega
  · have := opLt_depth a b r h; omega
  · have := opLte_depth h; omega

theorem construct_depth {D : Type} [DoubleOps D] {op : UnOp} {x r : Term D}
    (h : UnOp.construct op x = .ok r) (hx : notDepth x ≤ 2) : notDepth r ≤ 2 := by
  cases op <;> simp only [UnOp.construct] at h
  · rw [notDepth_arith (opPositive_arith h)]; omega
  · rw [notDepth_arith (opNegative_arith h)]; omega
  · exact (opNot_depth h).2 hx

theorem apply_depth {D : Type} [DecidableEq D] [DoubleOps D] (σ : Unifier D) :
    ∀ (n : Nat) (t r : Term D), Unifier.apply n σ t = .ok r → notDepth r ≤ 2 := by
  intro n
  induction n with
  | zero => intro t r h; simp [Unifier.apply] at h
  | succ n ih =>
    intro t r h
    cases t with
    | var v =>
      simp only [Unifier.apply] at h
      split at h
      · exact ih _ _ h
      · cases h; exact Nat.zero_le _
    | bool x => simp only [Unifier.apply, Except.ok.injEq] at h; subst h; exact Nat.zero_le _
    | num x => simp only [Unifier.apply, Except.ok.injEq] at h; subst h; exact Nat.zero_le _
    | str x => simp only [Unifier.apply, Except.ok.injEq] at h; subst h; exact Nat.zero_le _
    | list ts =>
      simp only [Unifier.apply] at h
      split at h
      · cases h
      · cases h; exact Nat.zero_le _
    | atom f ts =>
      simp only [Unifier.apply] at h
      split at h
      · cases h
      · cases h; exact Nat.zero_le _
    | unop op x =>
      simp only [Unifier.apply] at h
      cases h1 : Unifier.apply n σ x with
      | error e => rw [h1] at h; cases h
      | ok x1 =>
        rw [h1] at h
        exact construct_depth h (ih _ _ h1)
    | binop op x y =>
      simp only [Unifier.apply] at h
      cases h1 : Unifier.apply n σ x with
      | error e => rw [h1] at h; cases h
      | ok x1 =>
        rw [h1] at h
        simp only at h
        cases h2 : Unifier.apply n σ y with
        | error e => rw [h2] at h; cases h
        | ok y1 =>
          rw [h2] at h
          exact constructWith_depth _ h (ih _ _ h1) (ih _ _ h2)

theorem which_not_inv {D : Type} {t : Term D} (h : t.which = .kNot) :
    ∃ x, t = .unop .not x := by
  cases t with
  | unop op x =>
    cases op <;> simp [Term.which, UnOp.tag] at h
    exact ⟨x, rfl⟩
  | binop op l r => cases op <;> simp [Term.which, BinOp.tag] at h
  | _ => simp [Term.which] at h

theorem opNot_not {D : Type} (x : Term D) :
    OpNot (.unop .not x) = if x.which = .kNot then .ok x else .ok (.unop .not (.unop .not x)) :=
  rfl

theorem opNot_triple {D : Type} {z y1 y2 y3 : Term D} (hz : notDepth z ≤ 2)
    (h1 : OpNot z = .ok y1) (h2 : OpNot y1 = .ok y2) (h3 : OpNot y2 = .ok y3) : y3 = y1 := by
  have hwhich : ∀ w : Term D, (Term.unop .not w).which = .kNot := fun _ => rfl
  unfold OpNot at h1
  split at h1
  · cases h1
    simp only [OpNot, Except.ok.injEq] at h2
    subst h2
    simp only [OpNot, Except.ok.injEq, Bool.not_not] at h3
    exact h3.symm
  · rename_i inner
    split at h1
    · rename_i hk
      cases h1
      obtain ⟨w, rfl⟩ := which_not_inv hk
      have hw : w.which ≠ .kNot := by
        intro e
        obtain ⟨w2, rfl⟩ := which_not_inv e
        simp [notDepth] at hz
      rw [opNot_not, if_neg hw] at h2
      cases h2
      rw [opNot_not, if_pos (hwhich w)] at h3
      cases h3
      rfl
    · rename_i hk
      cases h1
      rw [opNot_not, if_pos (hwhich inner)] at h2
      cases h2
      rw [opNot_not, if_neg hk] at h3
      cases h3
      rfl
  · cases h1
    simp only [OpNot, Except.ok.injEq] at h2
    subst h2
    simp only [OpNot, Except.ok.injEq] at h3
    exact h3.symm
  · cases h1
    simp only [OpNot, Except.ok.injEq] at h2
    subst h2
    simp only [OpNot, Except.ok.injEq] at h3
    exact h3.symm
  · cases h1
    simp only [OpNot, Except.ok.injEq] at h2
    subst h2
    simp only [OpNot, Except.ok.injEq] at h3
    exact h3.symm
  · cases h1
    simp only [OpNot, Except.ok.injEq] at h2
    subst h2
    simp only [OpNot, Except.ok.injEq] at h3
    exact h3.symm
  · split at h1 <;> first
      | (cases h1; done)
      | (cases h1
         rename_i hk
         have hk2 : z.which ≠ .kNot := by rw [hk]; simp
         rw [opNot_not, if_neg hk2] at h2
         cases h2
         rw [opNot_not, if_pos (hwhich z)] at h3
         cases h3
         rfl)


theorem maps_of_apply {D : Type} [DecidableEq D] [DoubleOps D] {σ : Unifier D} {n : Nat}
    {t r : Term D} (h : Unifier.apply n σ t = .ok r) : σ.Maps t r :=
  ⟨n, fun _ hm => apply_mono h hm⟩

theorem maps_det {D : Type} [DecidableEq D] [DoubleOps D] {σ : Unifier D} {t r r1 : Term D}
    (h1 : σ.Maps t r) (h2 : σ.Maps t r1) : r = r1 := by
  obtain ⟨k1, h1⟩ := h1
  obtain ⟨k2, h2⟩ := h2
  exact apply_det (h1 k1 (le_refl _)) (h2 k2 (le_refl _))

theorem maps_bool {D : Type} [DecidableEq D] [DoubleOps D] (σ : Unifier D) (x : Bool) :
    σ.Maps (.bool x) (.bool x) :=
  maps_of_apply (n := 1) rfl

theorem maps_num {D : Type} [DecidableEq D] [DoubleOps D] (σ : Unifier D) (x : D) :
    σ.Maps (.num x) (.num x) :=
  maps_of_apply (n := 1) rfl

theorem maps_str {D : Type} [DecidableEq D] [DoubleOps D] (σ : Unifier D) (x : String) :
    σ.Maps (.str x) (.str x) :=
  maps_of_apply (n := 1) rfl

theorem maps_nonvar {D : Type} [DecidableEq D] [DoubleOps D] {σ : Unifier D} {t r : Term D}
    (h : σ.Maps t r) (ht : t.which ≠ .kVariable) : r.which ≠ .kVariable := by
  obtain ⟨k, hk⟩ := h
  exact apply_nonvar ht (hk k (le_refl _))

theorem maps_depth {D : Type} [DecidableEq D] [DoubleOps D] {σ : Unifier D} {t r : Term D}
    (h : σ.Maps t r) : notDepth r ≤ 2 := by
  obtain ⟨k, hk⟩ := h
  exact apply_depth σ k t r (hk k (le_refl _))

theorem maps_unop {D : Type} [DecidableEq D] [DoubleOps D] {σ : Unifier D} {op : UnOp}
    {x x1 r : Term D} (h : σ.Maps x x1) (hc : UnOp.construct op x1 = .ok r) :
    σ.Maps (.unop op x) r := by
  obtain ⟨k, hk⟩ := h
  refine ⟨k + 1, fun m hm => ?_⟩
  obtain ⟨m1, rfl⟩ : ∃ m1, m = m1 + 1 := ⟨m - 1, by omega⟩
  simp only [Unifier.apply, hk m1 (by omega), hc]

theorem maps_binop {D : Type} [DecidableEq D] [DoubleOps D] {σ : Unifier D} {op : BinOp}
    (unify : Term D → Term D → Unifier D → Except Err (Bool × Unifier D))
    {a b a1 b1 r : Term D} (ha : σ.Maps a a1) (hb : σ.Maps b b1)
    (hc : BinOp.constructWith unify op a1 b1 = .ok r) : σ.Maps (.binop op a b) r := by
  obtain ⟨k1, hk1⟩ := ha
  obtain ⟨k2, hk2⟩ := hb
  refine ⟨k1 + k2 + 1, fun m hm => ?_⟩
  obtain ⟨m1, rfl⟩ : ∃ m1, m = m1 + 1 := ⟨m - 1, by omega⟩
  simp only [Unifier.apply, hk1 m1 (by omega), hk2 m1 (by omega)]
  rw [constructWith_congr _ unify, hc]

theorem maps_unop_inv {D : Type} [DecidableEq D] [DoubleOps D] {σ : Unifier D} {op : UnOp}
    {x r : Term D} (h : σ.Maps (.unop op x) r) :
    ∃ x1, σ.Maps x x1 ∧ UnOp.construct op x1 = .ok r := by
  obtain ⟨k, hk⟩ := h
  have h1 := hk (k + 1) (by omega)
  simp only [Unifier.apply] at h1
  cases h2 : Unifier.apply k σ x with
  | error e => rw [h2] at h1; cases h1
  | ok x1 =>
    rw [h2] at h1
    exact ⟨x1, maps_of_apply h2, h1⟩

theorem maps_binop_inv {D : Type} [DecidableEq D] [DoubleOps D] {σ : Unifier D} {op : BinOp}
    (unify : Term D → Term D → Unifier D → Except Err (Bool × Unifier D))
    {a b r : Term D} (h : σ.Maps (.binop op a b) r) :
    ∃ a1 b1, σ.Maps a a1 ∧ σ.Maps b b1 ∧ BinOp.constructWith unify op a1 b1 = .ok r := by
  obtain ⟨k, hk⟩ := h
  have h1 := hk (k + 1) (by omega)
  simp only [Unifier.apply] at h1
  cases h2 : Unifier.apply k σ a with
  | error e => rw [h2] at h1; cases h1
  | ok a1 =>
    rw [h2] at h1
    simp only at h1
    cases h3 : Unifier.apply k σ b with
    | error e => rw [h3] at h1; cases h1
    | ok b1 =>
      rw [h3] at h1
      simp only at h1
      rw [constructWith_congr _ unify] at h1
      exact ⟨a1, b1, maps_of_apply h2, maps_of_apply h3, h1⟩

theorem opPositive_commutes {D : Type} [DecidableEq D] [DoubleOps D] {σ : Unifier D}
    {c c1 u v : Term D} (hc : σ.Maps c c1) (hu : OpPositive c = .ok u)
    (hv : OpPositive c1 = .ok v) : σ.Maps u v := by
  rcases opPositive_cases hu with ⟨_, e⟩ | ⟨hk, e⟩
  · subst e
    exact maps_unop hc hv
  · subst e
    have h1 := maps_nonvar hc (isArith_nonvar hk)
    rcases opPositive_cases hv with ⟨h2, _⟩ | ⟨_, e⟩
    · exact absurd h2 h1
    · subst e; exact hc

theorem opNegative_commutes {D : Type} [DecidableEq D] [DoubleOps D] {σ : Unifier D}
    {c c1 u v : Term D} (hc : σ.Maps c c1) (hn : c.which ≠ .kNegative)
    (hu : OpNegative c = .ok u) (hv : OpNegative c1 = .ok v) : σ.Maps u v := by
  unfold OpNegative at hu
  split at hu
  · rename_i x
    cases hu
    have e := maps_det hc (maps_num σ x)
    subst e
    simp only [OpNegative, Except.ok.injEq] at hv
    subst hv
    exact maps_num σ _
  · split at hu
    · rename_i hk; exact absurd hk hn
    all_goals first
      | (cases hu; done)
      | (cases hu; exact maps_unop hc hv)

theorem opNot_commutes {D : Type} [DecidableEq D] [DoubleOps D] {σ : Unifier D}
    {c c1 u v : Term D} (hc : σ.Maps c c1) (h1 : c.which ≠ .kEq) (h2 : c.which ≠ .kLt)
    (h3 : c.which ≠ .kLte) (hu : OpNot c = .ok u) (hv : OpNot c1 = .ok v) : σ.Maps u v := by
  unfold OpNot at hu
  split at hu
  · rename_i x
    cases hu
    have e := maps_det hc (maps_bool σ x)
    subst e
    simp only [OpNot, Except.ok.injEq] at hv
    subst hv
    exact maps_bool σ _
  · rename_i inner
    split at hu
    · rename_i hk
      cases hu
      obtain ⟨z, rfl⟩ := which_not_inv hk
      obtain ⟨y, hy, hy1⟩ := maps_unop_inv hc
      obtain ⟨z1, hz, hz1⟩ := maps_unop_inv hy
      simp only [UnOp.construct] at hy1 hz1
      have e := opNot_triple (maps_depth hz) hz1 hy1 hv
      subst e
      exact hy
    · cases hu
      exact maps_unop hc hv
  · exact absurd rfl h1
  · rename_i l r
    cases hu
    obtain ⟨l1, r1, hl, hr, hne⟩ := maps_binop_inv (Unify 0) hc
    simp only [BinOp.constructWith] at hne
    refine maps_binop (Unify 0) hl hr ?_
    simp only [BinOp.constructWith, OpEq, hne, hv]
  · exact absurd rfl h2
  · exact absurd rfl h3
  · split at hu
    all_goals first
      | (cases hu; done)
      | (cases hu; exact maps_unop hc hv)

theorem opAnd_commutes {D : Type} [DecidableEq D] [DoubleOps D] {σ : Unifier D}
    {a b a1 b1 t r : Term D} (ha : σ.Maps a a1) (hb : σ.Maps b b1)
    (ht : OpAnd a b = .ok t) (hr : OpAnd a1 b1 = .ok r) : σ.Maps t r := by
  obtain ⟨hla, hlb, _⟩ := opAnd_cases3 hr
  obtain ⟨_, _, h1 | ⟨_, h1⟩ | ⟨_, _, h1⟩⟩ := opAnd_cases3 ht
  · rcases shortCircuit_cases h1 with ⟨e1, hv, e2⟩ | ⟨e1, e2⟩
    · subst e1 e2
      have e := maps_det ha (maps_bool σ true)
      subst e
      rw [opAnd_unit_left hlb (maps_nonvar hb hv)] at hr
      cases hr
      exact hb
    · subst e1 e2
      have e := maps_det ha (maps_bool σ _)
      subst e
      rw [show (!true) = false from rfl, opAnd_zero_left hlb] at hr
      cases hr
      exact maps_bool σ _
  · rcases shortCircuit_cases h1 with ⟨e1, hv, e2⟩ | ⟨e1, e2⟩
    · subst e1 e2
      have e := maps_det hb (maps_bool σ true)
      subst e
      rw [opAnd_unit_right hla (maps_nonvar ha hv)] at hr
      cases hr
      exact ha
    · subst e1 e2
      have e := maps_det hb (maps_bool σ _)
      subst e
      rw [show (!true) = false from rfl, opAnd_zero_right hla] at hr
      cases hr
      exact maps_bool σ _
  · subst h1
    exact maps_binop (Unify 0) ha hb hr

theorem opOr_commutes {D : Type} [DecidableEq D] [DoubleOps D] {σ : Unifier D}
    {a b a1 b1 t r : Term D} (ha : σ.Maps a a1) (hb : σ.Maps b b1)
    (ht : OpOr a b = .ok t) (hr : OpOr a1 b1 = .ok r) : σ.Maps t r := by
  obtain ⟨hla, hlb, _⟩ := opOr_cases3 hr
  obtain ⟨_, _, h1 | ⟨_, h1⟩ | ⟨_, _, h1⟩⟩ := opOr_cases3 ht
  · rcases shortCircuit_cases h1 with ⟨e1, hv, e2⟩ | ⟨e1, e2⟩
    · subst e1 e2
      have e := maps_det ha (maps_bool σ false)
      subst e
      rw [opOr_unit_left hlb (maps_nonvar hb hv)] at hr
      cases hr
      exact hb
    · subst e1 e2
      have e := maps_det ha (maps_bool σ _)
      subst e
      rw [show (!false) = true from rfl, opOr_zero_left hlb] at hr
      cases hr
      exact maps_bool σ _
  · rcases shortCircuit_cases h1 with ⟨e1, hv, e2⟩ | ⟨e1, e2⟩
    · subst e1 e2
      have e := maps_det hb (maps_bool σ false)
      subst e
      rw [opOr_unit_right hla (maps_nonvar ha hv)] at hr
      cases hr
      exact ha
    · subst e1 e2
      have e := maps_det hb (maps_bool σ _)
      subst e
      rw [show (!false) = true from rfl, opOr_zero_right hla] at hr
      cases hr
      exact maps_bool σ _
  · subst h1
    exact maps_binop (Unify 0) ha hb hr


theorem arithLeft_eq {D : Type} {a lhs : Term D} (h : arithLeft a = .ok lhs) :
    lhs = stripPositive a := by
  unfold arithLeft at h
  split at h
  · cases h; rfl
  · rename_i hn
    split at h
    all_goals first
      | (cases h; done)
      | (cases h
         cases a with
         | unop op x =>
           cases op
           · exact absurd rfl (hn x)
           · rfl
           · rfl
         | _ => rfl)

theorem arithRight_eq {D : Type} {op : BinOp} {lhs b t : Term D}
    (h : arithRight op lhs b = .ok t) : t = .binop op lhs (stripPositive b) := by
  unfold arithRight at h
  split at h
  · cases h; rfl
  · rename_i hn
    split at h
    all_goals first
      | (cases h; done)
      | (cases h
         cases b with
         | unop op x =>
           cases op
           · exact absurd rfl (hn x)
           · rfl
           · rfl
         | _ => rfl)

theorem arith_shape {D : Type} [DecidableEq D] [DoubleOps D]
    (unify : Term D → Term D → Unifier D → Except Err (Bool × Unifier D))
    {op : BinOp} {a b t : Term D} (hop : op.isArith = true)
    (hs : op = .plus ∨ op = .minus → b.which ≠ .kNegative)
    (h : BinOp.constructWith unify op a b = .ok t) :
    (∃ x y z, a = .num x ∧ b = .num y ∧ t = .num z) ∨
    t = .binop op (stripPositive a) (stripPositive b) := by
  cases op <;> simp [BinOp.isArith] at hop <;> simp only [BinOp.constructWith] at h
  · have hs1 := hs (Or.inl rfl)
    unfold OpPlus at h
    split at h
    · cases h; exact Or.inl ⟨_, _, _, rfl, rfl, rfl⟩
    · right
      cases h1 : arithLeft a with
      | error e => rw [h1] at h; cases h
      | ok lhs =>
        rw [h1] at h
        have e := arithLeft_eq h1
        subst e
        simp only at h
        split at h
        · cases h; rfl
        · exact absurd rfl hs1
        · rename_i hn1 hn2
          split at h
          all_goals first
            | (cases h; done)
            | (cases h
               cases b with
               | unop op x =>
                 cases op
                 · exact absurd rfl (hn1 x)
                 · exact absurd rfl (hn2 x)
                 · rfl
               | _ => rfl)
  · have hs1 := hs (Or.inr rfl)
    unfold OpMinus at h
    split at h
    · cases h; exact Or.inl ⟨_, _, _, rfl, rfl, rfl⟩
    · right
      cases h1 : arithLeft a with
      | error e => rw [h1] at h; cases h
      | ok lhs =>
        rw [h1] at h
        have e := arithLeft_eq h1
        subst e
        simp only at h
        split at h
        · cases h; rfl
        · exact absurd rfl hs1
        · rename_i hn1 hn2
          split at h
          all_goals first
            | (cases h; done)
            | (cases h
               cases b with
               | unop op x =>
                 cases op
                 · exact absurd rfl (hn1 x)
                 · exact absurd rfl (hn2 x)
                 · rfl
               | _ => rfl)
  · unfold OpPow at h
    split at h
    · cases h; exact Or.inl ⟨_, _, _, rfl, rfl, rfl⟩
    · right
      cases h1 : arithLeft a with
      | error e => rw [h1] at h; cases h
      | ok lhs =>
        rw [h1] at h
        have e := arithLeft_eq h1
        subst e
        exact arithRight_eq h
  · unfold OpMultiply at h
    split at h
    · cases h; exact Or.inl ⟨_, _, _, rfl, rfl, rfl⟩
    · right
      cases h1 : arithLeft a with
      | error e => rw [h1] at h; cases h
      | ok lhs =>
        rw [h1] at h
        have e := arithLeft_eq h1
        subst e
        exact arithRight_eq h
  · unfold OpDivide at h
    split at h
    · cases h; exact Or.inl ⟨_, _, _, rfl, rfl, rfl⟩
    · right
      cases h1 : arithLeft a with
      | error e => rw [h1] at h; cases h
      | ok lhs =>
        rw [h1] at h
        have e := arithLeft_eq h1
        subst e
        exact arithRight_eq h
  · unfold OpDiv at h
    split at h
    · cases h; exact Or.inl ⟨_, _, _, rfl, rfl, rfl⟩
    · right
      cases h1 : arithLeft a with
      | error e => rw [h1] at h; cases h
      | ok lhs =>
        rw [h1] at h
        have e := arithLeft_eq h1
        subst e
        exact arithRight_eq h
  · unfold OpMod at h
    split at h
    · cases h; exact Or.inl ⟨_, _, _, rfl, rfl, rfl⟩
    · right
      cases h1 : arithLeft a with
      | error e => rw [h1] at h; cases h
      | ok lhs =>
        rw [h1] at h
        have e := arithLeft_eq h1
        subst e
        exact arithRight_eq h

theorem arith_positive_left {D : Type} [DecidableEq D] [DoubleOps D]
    (unify : Term D → Term D → Unifier D → Except Err (Bool × Unifier D))
    {op : BinOp} (hop : op.isArith = true) (v : String) (z : Term D) :
    BinOp.constructWith unify op (.unop .positive (.var v)) z =
      BinOp.constructWith unify op (.var v) z := by
  cases op <;> simp [BinOp.isArith] at hop <;>
    simp [BinOp.constructWith, OpPlus, OpMinus, OpPow, OpMultiply, OpDivide, OpDiv, OpMod,
      arithLeft, Term.which]

theorem arith_positive_right {D : Type} [DecidableEq D] [DoubleOps D]
    (unify : Term D → Term D → Unifier D → Except Err (Bool × Unifier D))
    {op : BinOp} (hop : op.isArith = true) (v : String) (w : Term D) :
    BinOp.constructWith unify op w (.unop .positive (.var v)) =
      BinOp.constructWith unify op w (.var v) := by
  cases op <;> simp [BinOp.isArith] at hop <;>
    simp only [BinOp.constructWith, OpPlus, OpMinus, OpPow, OpMultiply, OpDivide, OpDiv,
      OpMod] <;>
    cases arithLeft w <;> simp [arithRight, Term.which]

theorem maps_strip {D : Type} [DecidableEq D] [DoubleOps D] {σ : Unifier D} {a a1 : Term D}
    (h : σ.Maps a a1) :
    ∃ s1, σ.Maps (stripPositive a) s1 ∧ (s1 = a1 ∨ ∃ v, s1 = .var v ∧ a1 = .unop .positive s1) := by
  by_cases hp : ∃ x, a = .unop .positive x
  · obtain ⟨x, rfl⟩ := hp
    obtain ⟨x1, hx, hx1⟩ := maps_unop_inv h
    simp only [UnOp.construct] at hx1
    refine ⟨x1, hx, ?_⟩
    rcases opPositive_cases hx1 with ⟨hv, e⟩ | ⟨_, e⟩
    · obtain ⟨v, rfl⟩ := which_var_inv hv
      exact Or.inr ⟨v, rfl, e⟩
    · exact Or.inl e.symm
  · refine ⟨a1, ?_, Or.inl rfl⟩
    have e : stripPositive a = a := by
      cases a with
      | unop op x =>
        cases op
        · exact absurd ⟨x, rfl⟩ hp
        · rfl
        · rfl
      | _ => rfl
    rw [e]
    exact h

theorem arith_commutes {D : Type} [DecidableEq D] [DoubleOps D] {σ : Unifier D}
    (unify : Term D → Term D → Unifier D → Except Err (Bool × Unifier D))
    {op : BinOp} {a b a1 b1 t r : Term D} (hop : op.isArith = true)
    (hs : op = .plus ∨ op = .minus → b.which ≠ .kNegative)
    (ha : σ.Maps a a1) (hb : σ.Maps b b1)
    (ht : BinOp.constructWith unify op a b = .ok t)
    (hr : BinOp.constructWith unify op a1 b1 = .ok r) : σ.Maps t r := by
  rcases arith_shape unify hop hs ht with ⟨x, y, z, e1, e2, e3⟩ | e
  · subst e1 e2 e3
    have e4 := maps_det ha (maps_num σ x)
    have e5 := maps_det hb (maps_num σ y)
    subst e4 e5
    rw [ht] at hr
    cases hr
    exact maps_num σ z
  · subst e
    obtain ⟨sa, hsa, ea⟩ := maps_strip ha
    obtain ⟨sb, hsb, eb⟩ := maps_strip hb
    refine maps_binop unify hsa hsb ?_
    rw [← hr]
    rcases ea with rfl | ⟨v, rfl, rfl⟩ <;> rcases eb with rfl | ⟨w, rfl, rfl⟩
    · rfl
    · rw [arith_positive_right unify hop]
    · rw [arith_positive_left unify hop]
    · rw [arith_positive_right unify hop, arith_positive_left unify hop]


theorem mapsList_nil_inv {D : Type} [DecidableEq D] [DoubleOps D] {σ : Unifier D}
    {rs : List (Term D)} (h : σ.MapsList [] rs) : rs = [] := by
  obtain ⟨k, hk⟩ := h
  have := hk k (le_refl _)
  simp only [applyList, Except.ok.injEq] at this
  exact this.symm

theorem mapsList_cons_inv {D : Type} [DecidableEq D] [DoubleOps D] {σ : Unifier D}
    {t : Term D} {ts rs : List (Term D)} (h : σ.MapsList (t :: ts) rs) :
    ∃ t1 ts1, rs = t1 :: ts1 ∧ σ.Maps t t1 ∧ σ.MapsList ts ts1 := by
  obtain ⟨k, hk⟩ := h
  have h1 := hk k (le_refl _)
  simp only [applyList] at h1
  cases h2 : Unifier.apply k σ t with
  | error e => rw [h2] at h1; cases h1
  | ok t1 =>
    rw [h2] at h1
    simp only at h1
    cases h3 : applyList (Unifier.apply k σ) ts with
    | error e => rw [h3] at h1; cases h1
    | ok ts1 =>
      rw [h3] at h1
      cases h1
      exact ⟨t1, ts1, rfl, maps_of_apply h2, ⟨k, fun m hm => applyList_mono h3 hm⟩⟩

theorem mapsList_length {D : Type} [DecidableEq D] [DoubleOps D] {σ : Unifier D} :
    ∀ {ts rs : List (Term D)}, σ.MapsList ts rs → ts.length = rs.length
  | [], _, h => by rw [mapsList_nil_inv h]
  | t :: ts, rs, h => by
    obtain ⟨t1, ts1, e, _, h2⟩ := mapsList_cons_inv h
    subst e
    simp only [List.length_cons, mapsList_length h2]

theorem maps_list_inv {D : Type} [DecidableEq D] [DoubleOps D] {σ : Unifier D}
    {ts : List (Term D)} {r : Term D} (h : σ.Maps (.list ts) r) :
    ∃ ts1, r = .list ts1 ∧ σ.MapsList ts ts1 := by
  obtain ⟨k, hk⟩ := h
  have h1 := hk (k + 1) (by omega)
  simp only [Unifier.apply] at h1
  cases h2 : applyList (Unifier.apply k σ) ts with
  | error e => rw [h2] at h1; cases h1
  | ok ts1 =>
    rw [h2] at h1
    cases h1
    exact ⟨ts1, rfl, ⟨k, fun m hm => applyList_mono h2 hm⟩⟩

theorem maps_atom_inv {D : Type} [DecidableEq D] [DoubleOps D] {σ : Unifier D} {f : String}
    {ts : List (Term D)} {r : Term D} (h : σ.Maps (.atom f ts) r) :
    ∃ ts1, r = .atom f ts1 ∧ σ.MapsList ts ts1 := by
  obtain ⟨k, hk⟩ := h
  have h1 := hk (k + 1) (by omega)
  simp only [Unifier.apply] at h1
  cases h2 : applyList (Unifier.apply k σ) ts with
  | error e => rw [h2] at h1; cases h1
  | ok ts1 =>
    rw [h2] at h1
    cases h1
    exact ⟨ts1, rfl, ⟨k, fun m hm => applyList_mono h2 hm⟩⟩

theorem maps_list {D : Type} [DecidableEq D] [DoubleOps D] {σ : Unifier D}
    {ts ts1 : List (Term D)} (h : σ.MapsList ts ts1) : σ.Maps (.list ts) (.list ts1) := by
  obtain ⟨k, hk⟩ := h
  refine ⟨k + 1, fun m hm => ?_⟩
  obtain ⟨m1, rfl⟩ : ∃ m1, m = m1 + 1 := ⟨m - 1, by omega⟩
  simp only [Unifier.apply, hk m1 (by omega)]

theorem maps_atom {D : Type} [DecidableEq D] [DoubleOps D] {σ : Unifier D} (f : String)
    {ts ts1 : List (Term D)} (h : σ.MapsList ts ts1) :
    σ.Maps (.atom f ts) (.atom f ts1) := by
  obtain ⟨k, hk⟩ := h
  refine ⟨k + 1, fun m hm => ?_⟩
  obtain ⟨m1, rfl⟩ : ∃ m1, m = m1 + 1 := ⟨m - 1, by omega⟩
  simp only [Unifier.apply, hk m1 (by omega)]

theorem mapsList_nil {D : Type} [DecidableEq D] [DoubleOps D] (σ : Unifier D) :
    σ.MapsList [] [] :=
  ⟨0, fun _ _ => rfl⟩

theorem mapsList_cons {D : Type} [DecidableEq D] [DoubleOps D] {σ : Unifier D}
    {t t1 : Term D} {ts ts1 : List (Term D)} (h1 : σ.Maps t t1) (h2 : σ.MapsList ts ts1) :
    σ.MapsList (t :: ts) (t1 :: ts1) := by
  obtain ⟨k1, hk1⟩ := h1
  obtain ⟨k2, hk2⟩ := h2
  refine ⟨k1 + k2, fun m hm => ?_⟩
  simp only [applyList, hk1 m (by omega), hk2 m (by omega)]

theorem unify_commutes {D : Type} [DecidableEq D] [DoubleOps D] {σ : Unifier D}
    (unify : Term D → Term D → Unifier D → Except Err (Bool × Unifier D))
    {a b a1 b1 t r : Term D} (ha : σ.Maps a a1) (hb : σ.Maps b b1)
    (ht : OpUnifyWith unify a b = .ok t) (hr : OpUnifyWith unify a1 b1 = .ok r) :
    σ.Maps t r := by
  rw [opUnifyWith_eq] at ht
  cases ht
  exact maps_binop unify ha hb hr

theorem deconstruct_commutes {D : Type} [DecidableEq D] [DoubleOps D] {σ : Unifier D}
    (unify : Term D → Term D → Unifier D → Except Err (Bool × Unifier D))
    {a b a1 b1 t r : Term D} (ha : σ.Maps a a1) (hb : σ.Maps b b1)
    (hs : t ≠ .bool false)
    (ht : OpDeconstructWith unify a b = .ok t) (hr : OpDeconstructWith unify a1 b1 = .ok r) :
    σ.Maps t r := by
  rcases opDeconstructWith_cases unify ht with ⟨f, ts, e1, e2, _⟩ | ⟨_, e | e⟩
  · subst e1 e2
    obtain ⟨ts1, e3, hts⟩ := maps_atom_inv ha
    subst e3
    rcases opDeconstructWith_cases unify hr with ⟨f1, ts2, e4, e5, _⟩ | ⟨⟨v, e4⟩, _⟩
    · cases e4
      subst e5
      refine maps_binop unify (maps_list (mapsList_cons (maps_atom f (mapsList_nil σ))
        (mapsList_cons (maps_list hts) (mapsList_nil σ)))) hb ?_
      simp only [BinOp.constructWith, opUnifyWith_eq]
    · cases e4
  · subst e
    exact maps_binop unify ha hb hr
  · exact absurd e hs


theorem isUnifiable_cons {D : Type} {t : Term D} {ts : List (Term D)}
    (h : IsUnifiableList (t :: ts) = true) : IsUnifiable t = true ∧ IsUnifiableList ts = true := by
  simp only [IsUnifiableList] at h
  cases ht : IsUnifiable t
  · simp [ht] at h
  · simpa [ht] using h

mutual
theorem opNeq_kind {D : Type} [DecidableEq D] [DoubleOps D] :
    ∀ (a b r : Term D), OpNeq a b = .ok r →
      r.which = .kBool ∨ r.which = .kNeq ∨ r.which = .kOr
  | .list ls, b, r, h => by
    cases b <;> simp only [OpNeq] at h <;>
      first
      | (cases h; simp [Term.which, BinOp.tag])
      | (split at h
         · cases h; simp [Term.which]
         · exact opNeqLoop_kind ls _ (.bool false) _ (Or.inl rfl) h)
  | .atom f ls, b, r, h => by
    cases b <;> simp only [OpNeq] at h <;>
      first
      | (cases h; simp [Term.which, BinOp.tag])
      | (split at h
         · cases h; simp [Term.which]
         · split at h
           · cases h; simp [Term.which]
           · exact opNeqLoop_kind ls _ (.bool false) _ (Or.inl rfl) h)
  | .bool x, b, r, h => by
    simp only [OpNeq] at h
    repeat' split at h
    all_goals (cases h; simp [Term.which, BinOp.tag])
  | .num x, b, r, h => by
    simp only [OpNeq] at h
    repeat' split at h
    all_goals (cases h; simp [Term.which, BinOp.tag])
  | .str x, b, r, h => by
    simp only [OpNeq] at h
    repeat' split at h
    all_goals (cases h; simp [Term.which, BinOp.tag])
  | .var x, b, r, h => by
    simp only [OpNeq] at h
    repeat' split at h
    all_goals (cases h; simp [Term.which, BinOp.tag])
  | .unop op x, b, r, h => by
    simp only [OpNeq] at h
    repeat' split at h
    all_goals (cases h; simp [Term.which, BinOp.tag])
  | .binop op x y, b, r, h => by
    simp only [OpNeq] at h
    repeat' split at h
    all_goals (cases h; simp [Term.which, BinOp.tag])
theorem opNeqLoop_kind {D : Type} [DecidableEq D] [DoubleOps D] :
    ∀ (ls rs : List (Term D)) (acc r : Term D),
      (acc.which = .kBool ∨ acc.which = .kNeq ∨ acc.which = .kOr) →
      OpNeqLoop ls rs acc = .ok r → r.which = .kBool ∨ r.which = .kNeq ∨ r.which = .kOr
  | [], _, acc, r, ha, h => by
    simp only [OpNeqLoop, Except.ok.injEq] at h
    subst h; exact ha
  | _ :: _, [], acc, r, ha, h => by
    simp only [OpNeqLoop, Except.ok.injEq] at h
    subst h; exact ha
  | l :: ls, r0 :: rs, acc, r, ha, h => by
    simp only [OpNeqLoop] at h
    cases h1 : OpNeq l r0 with
    | error e => rw [h1] at h; cases h
    | ok ne =>
      rw [h1] at h
      simp only at h
      cases h2 : OpOr acc ne with
      | error e => rw [h2] at h; cases h
      | ok acc1 =>
        rw [h2] at h
        have hne := opNeq_kind l r0 ne h1
        have h3 : acc1.which = .kBool ∨ acc1.which = .kNeq ∨ acc1.which = .kOr := by
          rcases opOr_cases acc ne with e | ⟨t1, e, h4⟩
          · rw [e] at h2; cases h2
          · rw [e] at h2
            cases h2
            rcases h4 with e | e | e | e <;> rw [e]
            · exact ha
            · exact hne
            · exact Or.inl rfl
            · exact Or.inr (Or.inr rfl)
        exact opNeqLoop_kind ls rs acc1 r h3 h
end

mutual
theorem opNeq_self {D : Type} [DecidableEq D] [DoubleOps D] :
    ∀ u : Term D, IsUnifiable u = true → NoNaN u = true → OpNeq u u = .ok (.bool false)
  | .bool x, _, _ => by cases x <;> rfl
  | .num x, _, hn => by
    simp only [NoNaN, Bool.not_eq_true'] at hn
    simp [OpNeq, doubleEq, hn]
  | .str x, _, _ => by simp [OpNeq]
  | .var x, _, _ => by simp [OpNeq]
  | .list us, hu, hn => by
    simp only [IsUnifiable] at hu
    simp only [NoNaN] at hn
    simp only [OpNeq, ne_eq, not_true_eq_false, if_false]
    exact opNeqLoop_self us hu hn
  | .atom f us, hu, hn => by
    simp only [IsUnifiable] at hu
    simp only [NoNaN] at hn
    simp only [OpNeq, ne_eq, not_true_eq_false, if_false]
    exact opNeqLoop_self us hu hn
  | .unop _ _, hu, _ => by simp [IsUnifiable] at hu
  | .binop _ _ _, hu, _ => by simp [IsUnifiable] at hu
theorem opNeqLoop_self {D : Type} [DecidableEq D] [DoubleOps D] :
    ∀ us : List (Term D), IsUnifiableList us = true → NoNaNList us = true →
      OpNeqLoop us us (.bool false) = .ok (.bool false)
  | [], _, _ => rfl
  | u :: us, hu, hn => by
    simp only [NoNaNList, Bool.and_eq_true] at hn
    obtain ⟨hu1, hu2⟩ := isUnifiable_cons hu
    simp only [OpNeqLoop, opNeq_self u hu1 hn.1, opOr_bool, Bool.or_false]
    exact opNeqLoop_self us hu2 hn.2
end


mutual
theorem opNeq_commutes {D : Type} [DecidableEq D] [DoubleOps D] (σ : Unifier D) :
    ∀ (a b a1 b1 t r : Term D), IsUnifiable a = true → IsUnifiable b = true →
      IsUnifiable a1 = true → NoNaN a1 = true → σ.Maps a a1 → σ.Maps b b1 →
      OpNeq a b = .ok t → OpNeq a1 b1 = .ok r → σ.Maps t r
  | .bool x, b, a1, b1, t, r, _, hb, _, _, ha, hmb, ht, hr => by
    have e := maps_det ha (maps_bool σ x)
    subst e
    cases b with
    | bool y =>
      have e := maps_det hmb (maps_bool σ y)
      subst e
      simp only [OpNeq] at ht hr
      cases ht; cases hr
      exact maps_bool σ _
    | num y =>
      have e := maps_det hmb (maps_num σ y)
      subst e
      simp only [OpNeq, Term.which] at ht hr
      cases ht; cases hr
      exact maps_bool σ _
    | str y =>
      have e := maps_det hmb (maps_str σ y)
      subst e
      simp only [OpNeq, Term.which] at ht hr
      cases ht; cases hr
      exact maps_bool σ _
    | list rs =>
      obtain ⟨rs1, e, _⟩ := maps_list_inv hmb
      subst e
      simp only [OpNeq, Term.which] at ht hr
      cases ht; cases hr
      exact maps_bool σ _
    | atom g rs =>
      obtain ⟨rs1, e, _⟩ := maps_atom_inv hmb
      subst e
      simp only [OpNeq, Term.which] at ht hr
      cases ht; cases hr
      exact maps_bool σ _
    | var v =>
      simp only [OpNeq, Term.which] at ht
      cases ht
      exact maps_binop (Unify 0) ha hmb hr
    | unop _ _ => simp [IsUnifiable] at hb
    | binop _ _ _ => simp [IsUnifiable] at hb
  | .num x, b, a1, b1, t, r, _, hb, _, _, ha, hmb, ht, hr => by
    have e := maps_det ha (maps_num σ x)
    subst e
    cases b with
    | bool y =>
      have e := maps_det hmb (maps_bool σ y)
      subst e
      simp only [OpNeq, Term.which] at ht hr
      cases ht; cases hr
      exact maps_bool σ _
    | num y =>
      have e := maps_det hmb (maps_num σ y)
      subst e
      simp only [OpNeq] at ht hr
      cases ht; cases hr
      exact maps_bool σ _
    | str y =>
      have e := maps_det hmb (maps_str σ y)
      subst e
      simp only [OpNeq, Term.which] at ht hr
      cases ht; cases hr
      exact maps_bool σ _
    | list rs =>
      obtain ⟨rs1, e, _⟩ := maps_list_inv hmb
      subst e
      simp only [OpNeq, Term.which] at ht hr
      cases ht; cases hr
      exact maps_bool σ _
    | atom g rs =>
      obtain ⟨rs1, e, _⟩ := maps_atom_inv hmb
      subst e
      simp only [OpNeq, Term.which] at ht hr
      cases ht; cases hr
      exact maps_bool σ _
    | var v =>
      simp only [OpNeq, Term.which] at ht
      cases ht
      exact maps_binop (Unify 0) ha hmb hr
    | unop _ _ => simp [IsUnifiable] at hb
    | binop _ _ _ => simp [IsUnifiable] at hb
  | .str x, b, a1, b1, t, r, _, hb, _, _, ha, hmb, ht, hr => by
    have e := maps_det ha (maps_str σ x)
    subst e
    cases b with
    | bool y =>
      have e := maps_det hmb (maps_bool σ y)
      subst e
      simp only [OpNeq] at ht hr
      cases ht; cases hr
      exact maps_bool σ _
    | num y =>
      have e := maps_det hmb (maps_num σ y)
      subst e
      simp only [OpNeq] at ht hr
      cases ht; cases hr
      exact maps_bool σ _
    | str y =>
      have e := maps_det hmb (maps_str σ y)
      subst e
      simp only [OpNeq] at ht hr
      cases ht; cases hr
      exact maps_bool σ _
    | list rs =>
      obtain ⟨rs1, e, _⟩ := maps_list_inv hmb
      subst e
      simp only [OpNeq] at ht hr
      cases ht; cases hr
      exact maps_bool σ _
    | atom g rs =>
      obtain ⟨rs1, e, _⟩ := maps_atom_inv hmb
      subst e
      simp only [OpNeq] at ht hr
      cases ht; cases hr
      exact maps_bool σ _
    | var v =>
      simp only [OpNeq] at ht
      cases ht
      exact maps_binop (Unify 0) ha hmb hr
    | unop _ _ => simp [IsUnifiable] at hb
    | binop _ _ _ => simp [IsUnifiable] at hb
  | .list ls, b, a1, b1, t, r, hfa, hb, hfa1, hn, ha, hmb, ht, hr => by
    obtain ⟨ls1, e, hls⟩ := maps_list_inv ha
    subst e
    cases b with
    | bool y =>
      have e := maps_det hmb (maps_bool σ y)
      subst e
      simp only [OpNeq] at ht hr
      cases ht; cases hr
      exact maps_bool σ _
    | num y =>
      have e := maps_det hmb (maps_num σ y)
      subst e
      simp only [OpNeq] at ht hr
      cases ht; cases hr
      exact maps_bool σ _
    | str y =>
      have e := maps_det hmb (maps_str σ y)
      subst e
      simp only [OpNeq] at ht hr
      cases ht; cases hr
      exact maps_bool σ _
    | list rs =>
      obtain ⟨rs1, e, hrs⟩ := maps_list_inv hmb
      subst e
      simp only [IsUnifiable] at hfa hb hfa1
      simp only [NoNaN] at hn
      have hl1 := mapsList_length hls
      have hl2 := mapsList_length hrs
      simp only [OpNeq] at ht hr
      by_cases hlen : ls.length = rs.length
      · have hlen1 : ls1.length = rs1.length := by omega
        simp only [hlen, hlen1, ne_eq, not_true_eq_false, if_false] at ht hr
        exact opNeqLoop_commutes σ ls rs ls1 rs1 _ _ t r hfa hb hfa1 hn hls hrs
          (maps_bool σ false) ht hr
      · have hlen1 : ls1.length ≠ rs1.length := by omega
        simp only [ne_eq, hlen, hlen1, not_false_eq_true, if_true] at ht hr
        cases ht; cases hr
        exact maps_bool σ _
    | atom g rs =>
      obtain ⟨rs1, e, _⟩ := maps_atom_inv hmb
      subst e
      simp only [OpNeq] at ht hr
      cases ht; cases hr
      exact maps_bool σ _
    | var v =>
      simp only [OpNeq] at ht
      cases ht
      exact maps_binop (Unify 0) ha hmb hr
    | unop _ _ => simp [IsUnifiable] at hb
    | binop _ _ _ => simp [IsUnifiable] at hb
  | .atom f ls, b, a1, b1, t, r, hfa, hb, hfa1, hn, ha, hmb, ht, hr => by
    obtain ⟨ls1, e, hls⟩ := maps_atom_inv ha
    subst e
    cases b with
    | bool y =>
      have e := maps_det hmb (maps_bool σ y)
      subst e
      simp only [OpNeq] at ht hr
      cases ht; cases hr
      exact maps_bool σ _
    | num y =>
      have e := maps_det hmb (maps_num σ y)
      subst e
      simp only [OpNeq] at ht hr
      cases ht; cases hr
      exact maps_bool σ _
    | str y =>
      have e := maps_det hmb (maps_str σ y)
      subst e
      simp only [OpNeq] at ht hr
      cases ht; cases hr
      exact maps_bool σ _
    | list rs =>
      obtain ⟨rs1, e, _⟩ := maps_list_inv hmb
      subst e
      simp only [OpNeq] at ht hr
      cases ht; cases hr
      exact maps_bool σ _
    | atom g rs =>
      obtain ⟨rs1, e, hrs⟩ := maps_atom_inv hmb
      subst e
      simp only [IsUnifiable] at hfa hb hfa1
      simp only [NoNaN] at hn
      have hl1 := mapsList_length hls
      have hl2 := mapsList_length hrs
      simp only [OpNeq] at ht hr
      by_cases hf : f = g
      · by_cases hlen : ls.length = rs.length
        · have hlen1 : ls1.length = rs1.length := by omega
          simp only [hf, hlen, hlen1, ne_eq, not_true_eq_false, if_false] at ht hr
          exact opNeqLoop_commutes σ ls rs ls1 rs1 _ _ t r hfa hb hfa1 hn hls hrs
            (maps_bool σ false) ht hr
        · have hlen1 : ls1.length ≠ rs1.length := by omega
          simp only [hf, ne_eq, hlen, hlen1, not_true_eq_false, not_false_eq_true, if_true,
            if_false] at ht hr
          cases ht; cases hr
          exact maps_bool σ _
      · simp only [ne_eq, hf, not_false_eq_true, if_true] at ht hr
        cases ht; cases hr
        exact maps_bool σ _
    | var v =>
      simp only [OpNeq] at ht
      cases ht
      exact maps_binop (Unify 0) ha hmb hr
    | unop _ _ => simp [IsUnifiable] at hb
    | binop _ _ _ => simp [IsUnifiable] at hb
  | .var v, b, a1, b1, t, r, _, _, hfa1, hn, ha, hmb, ht, hr => by
    by_cases hsame : b = .var v
    · subst hsame
      have e := maps_det ha hmb
      subst e
      rw [opNeq_self a1 hfa1 hn] at hr
      cases hr
      simp only [OpNeq, if_true] at ht
      cases ht
      exact maps_bool σ _
    · have e : OpNeq (.var v) b = .ok (.binop .neq (.var v) b) := by
        cases b with
        | var w =>
          have : v ≠ w := fun e => hsame (by rw [e])
          simp [OpNeq, this]
        | _ => simp [OpNeq]
      rw [e] at ht
      cases ht
      exact maps_binop (Unify 0) ha hmb hr
  | .unop _ _, _, _, _, _, _, hfa, _, _, _, _, _, _, _ => by simp [IsUnifiable] at hfa
  | .binop _ _ _, _, _, _, _, _, hfa, _, _, _, _, _, _, _ => by simp [IsUnifiable] at hfa
theorem opNeqLoop_commutes {D : Type} [DecidableEq D] [DoubleOps D] (σ : Unifier D) :
    ∀ (ls rs ls1 rs1 : List (Term D)) (acc acc1 t r : Term D), IsUnifiableList ls = true →
      IsUnifiableList rs = true → IsUnifiableList ls1 = true → NoNaNList ls1 = true →
      σ.MapsList ls ls1 → σ.MapsList rs rs1 → σ.Maps acc acc1 →
      OpNeqLoop ls rs acc = .ok t → OpNeqLoop ls1 rs1 acc1 = .ok r → σ.Maps t r
  | [], rs, ls1, rs1, acc, acc1, t, r, _, _, _, _, hls, _, hacc, ht, hr => by
    have e := mapsList_nil_inv hls
    subst e
    simp only [OpNeqLoop] at ht hr
    cases ht; cases hr
    exact hacc
  | l :: ls, [], ls1, rs1, acc, acc1, t, r, _, _, _, _, hls, hrs, hacc, ht, hr => by
    have e := mapsList_nil_inv hrs
    subst e
    obtain ⟨l1, ls2, e, _, _⟩ := mapsList_cons_inv hls
    subst e
    simp only [OpNeqLoop] at ht hr
    cases ht; cases hr
    exact hacc
  | l :: ls, r0 :: rs, ls1, rs1, acc, acc1, t, r, hfl, hfr, hfl1, hn, hls, hrs, hacc, ht,
      hr => by
    obtain ⟨l1, ls2, e, hl, hls2⟩ := mapsList_cons_inv hls
    subst e
    obtain ⟨r1, rs2, e, hr0, hrs2⟩ := mapsList_cons_inv hrs
    subst e
    obtain ⟨hfl_h, hfl_t⟩ := isUnifiable_cons hfl
    obtain ⟨hfr_h, hfr_t⟩ := isUnifiable_cons hfr
    obtain ⟨hfl1_h, hfl1_t⟩ := isUnifiable_cons hfl1
    simp only [NoNaNList, Bool.and_eq_true] at hn
    simp only [OpNeqLoop] at ht hr
    cases h1 : OpNeq l r0 with
    | error e => rw [h1] at ht; cases ht
    | ok ne =>
      rw [h1] at ht
      simp only at ht
      cases h2 : OpOr acc ne with
      | error e => rw [h2] at ht; cases ht
      | ok acc2 =>
        rw [h2] at ht
        simp only at ht
        cases h3 : OpNeq l1 r1 with
        | error e => rw [h3] at hr; cases hr
        | ok ne1 =>
          rw [h3] at hr
          simp only at hr
          cases h4 : OpOr acc1 ne1 with
          | error e => rw [h4] at hr; cases hr
          | ok acc3 =>
            rw [h4] at hr
            simp only at hr
            have hne := opNeq_commutes σ l r0 l1 r1 ne ne1 hfl_h hfr_h hfl1_h hn.1 hl hr0 h1 h3
            exact opNeqLoop_commutes σ ls rs ls2 rs2 acc2 acc3 t r hfl_t hfr_t hfl1_t hn.2
              hls2 hrs2 (opOr_commutes hacc hne h2 h4) ht hr
end

theorem opEq_commutes {D : Type} [DecidableEq D] [DoubleOps D] (σ : Unifier D)
    {a b a1 b1 t r : Term D} (hfa : IsUnifiable a = true) (hfb : IsUnifiable b = true)
    (hfa1 : IsUnifiable a1 = true) (hn : NoNaN a1 = true) (ha : σ.Maps a a1)
    (hb : σ.Maps b b1) (ht : OpEq a b = .ok t) (hr : OpEq a1 b1 = .ok r) : σ.Maps t r := by
  unfold OpEq at ht hr
  cases h1 : OpNeq a b with
  | error e => rw [h1] at ht; cases ht
  | ok ne =>
    rw [h1] at ht
    cases h2 : OpNeq a1 b1 with
    | error e => rw [h2] at hr; cases hr
    | ok ne1 =>
      rw [h2] at hr
      have hne := opNeq_commutes σ a b a1 b1 ne ne1 hfa hfb hfa1 hn ha hb h1 h2
      have hk := opNeq_kind a b ne h1
      refine opNot_commutes hne ?_ ?_ ?_ ht hr <;>
        (intro e; rw [e] at hk; simp at hk)


theorem opEq_self {D : Type} [DecidableEq D] [DoubleOps D] (u : Term D)
    (hu : IsUnifiable u = true) (hn : NoNaN u = true) : OpEq u u = .ok (.bool true) := by
  simp [OpEq, opNeq_self u hu hn, OpNot]

mutual
theorem opLt_self {D : Type} [DecidableEq D] [DoubleOps D]
    (hirr : ∀ x : D, DoubleOps.lt x x = false) :
    ∀ u : Term D, IsUnifiable u = true → NoNaN u = true → OpLt u u = .ok (.bool false)
  | .bool x, _, _ => by cases x <;> rfl
  | .num x, _, _ => by simp [OpLt, hirr]
  | .str x, _, _ => by simp [OpLt, strLt_irrefl]
  | .var x, _, _ => by simp [OpLt]
  | .list us, hu, hn => by
    simp only [IsUnifiable] at hu
    simp only [NoNaN] at hn
    simp only [OpLt, lt_self_iff_false, gt_iff_lt, if_false]
    exact opLtLoop_self hirr us hu hn
  | .atom f us, hu, hn => by
    simp only [IsUnifiable] at hu
    simp only [NoNaN] at hn
    simp only [OpLt, strLt_irrefl, Bool.false_eq_true, lt_self_iff_false, gt_iff_lt, if_false]
    exact opLtLoop_self hirr us hu hn
  | .unop _ _, hu, _ => by simp [IsUnifiable] at hu
  | .binop _ _ _, hu, _ => by simp [IsUnifiable] at hu
theorem opLtLoop_self {D : Type} [DecidableEq D] [DoubleOps D]
    (hirr : ∀ x : D, DoubleOps.lt x x = false) :
    ∀ us : List (Term D), IsUnifiableList us = true → NoNaNList us = true →
      OpLtLoop us us (.bool false) (.bool true) = .ok (.bool false)
  | [], _, _ => rfl
  | u :: us, hu, hn => by
    simp only [NoNaNList, Bool.and_eq_true] at hn
    obtain ⟨hu1, hu2⟩ := isUnifiable_cons hu
    simp only [OpLtLoop, opLt_self hirr u hu1 hn.1, opEq_self u hu1 hn.1, opAnd_bool, opOr_bool,
      Bool.and_false, Bool.or_false, Bool.and_true]
    exact opLtLoop_self hirr us hu2 hn.2
end

mutual
theorem opLt_commutes {D : Type} [DecidableEq D] [DoubleOps D] (σ : Unifier D)
    (hirr : ∀ x : D, DoubleOps.lt x x = false) :
    ∀ (a b a1 b1 t r : Term D), IsUnifiable a = true → IsUnifiable b = true →
      IsUnifiable a1 = true → NoNaN a1 = true → σ.Maps a a1 → σ.Maps b b1 →
      OpLt a b = .ok t → OpLt a1 b1 = .ok r → σ.Maps t r
  | .bool x, b, a1, b1, t, r, _, hb, _, _, ha, hmb, ht, hr => by
    have e := maps_det ha (maps_bool σ x)
    subst e
    cases b with
    | bool y =>
      have e := maps_det hmb (maps_bool σ y)
      subst e
      simp only [OpLt, Term.which] at ht hr
      cases ht; cases hr
      exact maps_bool σ _
    | num y =>
      have e := maps_det hmb (maps_num σ y)
      subst e
      simp only [OpLt, Term.which] at ht hr
      cases ht; cases hr
      exact maps_bool σ _
    | str y =>
      have e := maps_det hmb (maps_str σ y)
      subst e
      simp only [OpLt, Term.which] at ht hr
      cases ht; cases hr
      exact maps_bool σ _
    | list rs =>
      obtain ⟨rs1, e, _⟩ := maps_list_inv hmb
      subst e
      simp only [OpLt, Term.which] at ht hr
      cases ht; cases hr
      exact maps_bool σ _
    | atom g rs =>
      obtain ⟨rs1, e, _⟩ := maps_atom_inv hmb
      subst e
      simp only [OpLt, Term.which] at ht hr
      cases ht; cases hr
      exact maps_bool σ _
    | var v =>
      simp only [OpLt, Term.which] at ht
      cases ht
      exact maps_binop (Unify 0) ha hmb hr
    | unop _ _ => simp [IsUnifiable] at hb
    | binop _ _ _ => simp [IsUnifiable] at hb
  | .num x, b, a1, b1, t, r, _, hb, _, _, ha, hmb, ht, hr => by
    have e := maps_det ha (maps_num σ x)
    subst e
    cases b with
    | bool y =>
      have e := maps_det hmb (maps_bool σ y)
      subst e
      simp only [OpLt, Term.which] at ht hr
      cases ht; cases hr
      exact maps_bool σ _
    | num y =>
      have e := maps_det hmb (maps_num σ y)
      subst e
      simp only [OpLt, Term.which] at ht hr
      cases ht; cases hr
      exact maps_bool σ _
    | str y =>
      have e := maps_det hmb (maps_str σ y)
      subst e
      simp only [OpLt, Term.which] at ht hr
      cases ht; cases hr
      exact maps_bool σ _
    | list rs =>
      obtain ⟨rs1, e, _⟩ := maps_list_inv hmb
      subst e
      simp only [OpLt, Term.which] at ht hr
      cases ht; cases hr
      exact maps_bool σ _
    | atom g rs =>
      obtain ⟨rs1, e, _⟩ := maps_atom_inv hmb
      subst e
      simp only [OpLt, Term.which] at ht hr
      cases ht; cases hr
      exact maps_bool σ _
    | var v =>
      simp only [OpLt, Term.which] at ht
      cases ht
      exact maps_binop (Unify 0) ha hmb hr
    | unop _ _ => simp [IsUnifiable] at hb
    | binop _ _ _ => simp [IsUnifiable] at hb
  | .str x, b, a1, b1, t, r, _, hb, _, _, ha, hmb, ht, hr => by
    have e := maps_det ha (maps_str σ x)
    subst e
    cases b with
    | bool y =>
      have e := maps_det hmb (maps_bool σ y)
      subst e
      simp only [OpLt, Term.which] at ht hr
      cases ht; cases hr
      exact maps_bool σ _
    | num y =>
      have e := maps_det hmb (maps_num σ y)
      subst e
      simp only [OpLt, Term.which] at ht hr
      cases ht; cases hr
      exact maps_bool σ _
    | str y =>
      have e := maps_det hmb (maps_str σ y)
      subst e
      simp only [OpLt, Term.which] at ht hr
      cases ht; cases hr
      exact maps_bool σ _
    | list rs =>
      obtain ⟨rs1, e, _⟩ := maps_list_inv hmb
      subst e
      simp only [OpLt, Term.which] at ht hr
      cases ht; cases hr
      exact maps_bool σ _
    | atom g rs =>
      obtain ⟨rs1, e, _⟩ := maps_atom_inv hmb
      subst e
      simp only [OpLt, Term.which] at ht hr
      cases ht
      exact maps_binop (Unify 0) ha hmb hr
    | var v =>
      simp only [OpLt, Term.which] at ht
      cases ht
      exact maps_binop (Unify 0) ha hmb hr
    | unop _ _ => simp [IsUnifiable] at hb
    | binop _ _ _ => simp [IsUnifiable] at hb
  | .list ls, b, a1, b1, t, r, hfa, hb, hfa1, hn, ha, hmb, ht, hr => by
    obtain ⟨ls1, e, hls⟩ := maps_list_inv ha
    subst e
    cases b with
    | bool y =>
      have e := maps_det hmb (maps_bool σ y)
      subst e
      simp only [OpLt, Term.which] at ht hr
      cases ht; cases hr
      exact maps_bool σ _
    | num y =>
      have e := maps_det hmb (maps_num σ y)
      subst e
      simp only [OpLt, Term.which] at ht hr
      cases ht; cases hr
      exact maps_bool σ _
    | str y =>
      have e := maps_det hmb (maps_str σ y)
      subst e
      simp only [OpLt, Term.which] at ht hr
      cases ht; cases hr
      exact maps_bool σ _
    | list rs =>
      obtain ⟨rs1, e, hrs⟩ := maps_list_inv hmb
      subst e
      simp only [IsUnifiable] at hfa hb hfa1
      simp only [NoNaN] at hn
      have hl1 := mapsList_length hls
      have hl2 := mapsList_length hrs
      simp only [OpLt] at ht hr
      rw [← hl1, ← hl2] at hr
      split at ht
      · rename_i h1
        rw [if_pos h1] at hr
        cases ht; cases hr
        exact maps_bool σ _
      · rename_i h1
        rw [if_neg h1] at hr
        split at ht
        · rename_i h2
          rw [if_pos h2] at hr
          cases ht; cases hr
          exact maps_bool σ _
        · rename_i h2
          rw [if_neg h2] at hr
          exact opLtLoop_commutes σ hirr ls rs ls1 rs1 _ _ _ _ t r hfa hb hfa1 hn hls hrs
            (maps_bool σ false) (maps_bool σ true) ht hr
    | atom g rs =>
      obtain ⟨rs1, e, _⟩ := maps_atom_inv hmb
      subst e
      simp only [OpLt, Term.which] at ht hr
      cases ht; cases hr
      exact maps_bool σ _
    | var v =>
      simp only [OpLt, Term.which] at ht
      cases ht
      exact maps_binop (Unify 0) ha hmb hr
    | unop _ _ => simp [IsUnifiable] at hb
    | binop _ _ _ => simp [IsUnifiable] at hb
  | .atom f ls, b, a1, b1, t, r, hfa, hb, hfa1, hn, ha, hmb, ht, hr => by
    obtain ⟨ls1, e, hls⟩ := maps_atom_inv ha
    subst e
    cases b with
    | bool y =>
      have e := maps_det hmb (maps_bool σ y)
      subst e
      simp only [OpLt, Term.which] at ht hr
      cases ht; cases hr
      exact maps_bool σ _
    | num y =>
      have e := maps_det hmb (maps_num σ y)
      subst e
      simp only [OpLt, Term.which] at ht hr
      cases ht; cases hr
      exact maps_bool σ _
    | str y =>
      have e := maps_det hmb (maps_str σ y)
      subst e
      simp only [OpLt, Term.which] at ht hr
      cases ht; cases hr
      exact maps_bool σ _
    | list rs =>
      obtain ⟨rs1, e, _⟩ := maps_list_inv hmb
      subst e
      simp only [OpLt, Term.which] at ht hr
      cases ht; cases hr
      exact maps_bool σ _
    | atom g rs =>
      obtain ⟨rs1, e, hrs⟩ := maps_atom_inv hmb
      subst e
      simp only [IsUnifiable] at hfa hb hfa1
      simp only [NoNaN] at hn
      have hl1 := mapsList_length hls
      have hl2 := mapsList_length hrs
      simp only [OpLt] at ht hr
      rw [← hl1, ← hl2] at hr
      split at ht
      · rename_i h1
        rw [if_pos h1] at hr
        cases ht; cases hr
        exact maps_bool σ _
      · rename_i h1
        rw [if_neg h1] at hr
        split at ht
        · rename_i h2
          rw [if_pos h2] at hr
          cases ht; cases hr
          exact maps_bool σ _
        · rename_i h2
          rw [if_neg h2] at hr
          split at ht
          · rename_i h3
            rw [if_pos h3] at hr
            cases ht; cases hr
            exact maps_bool σ _
          · rename_i h3
            rw [if_neg h3] at hr
            split at ht
            · rename_i h4
              rw [if_pos h4] at hr
              cases ht; cases hr
              exact maps_bool σ _
            · rename_i h4
              rw [if_neg h4] at hr
              exact opLtLoop_commutes σ hirr ls rs ls1 rs1 _ _ _ _ t r hfa hb hfa1 hn hls hrs
                (maps_bool σ false) (maps_bool σ true) ht hr
    | var v =>
      simp only [OpLt, Term.which] at ht
      cases ht
      exact maps_binop (Unify 0) ha hmb hr
    | unop _ _ => simp [IsUnifiable] at hb
    | binop _ _ _ => simp [IsUnifiable] at hb
  | .var v, b, a1, b1, t, r, _, _, hfa1, hn, ha, hmb, ht, hr => by
    by_cases hsame : b = .var v
    · subst hsame
      have e := maps_det ha hmb
      subst e
      rw [opLt_self hirr a1 hfa1 hn] at hr
      cases hr
      simp only [OpLt, if_true] at ht
      cases ht
      exact maps_bool σ _
    · have e : OpLt (.var v) b = .ok (.binop .lt (.var v) b) := by
        cases b with
        | var w =>
          have : v ≠ w := fun e => hsame (by rw [e])
          simp [OpLt, this]
        | _ => simp [OpLt]
      rw [e] at ht
      cases ht
      exact maps_binop (Unify 0) ha hmb hr
  | .unop _ _, _, _, _, _, _, hfa, _, _, _, _, _, _, _ => by simp [IsUnifiable] at hfa
  | .binop _ _ _, _, _, _, _, _, hfa, _, _, _, _, _, _, _ => by simp [IsUnifiable] at hfa
theorem opLtLoop_commutes {D : Type} [DecidableEq D] [DoubleOps D] (σ : Unifier D)
    (hirr : ∀ x : D, DoubleOps.lt x x = false) :
    ∀ (ls rs ls1 rs1 : List (Term D)) (res res1 eqsf eqsf1 t r : Term D),
      IsUnifiableList ls = true → IsUnifiableList rs = true → IsUnifiableList ls1 = true →
      NoNaNList ls1 = true → σ.MapsList ls ls1 → σ.MapsList rs rs1 → σ.Maps res res1 →
      σ.Maps eqsf eqsf1 → OpLtLoop ls rs res eqsf = .ok t →
      OpLtLoop ls1 rs1 res1 eqsf1 = .ok r → σ.Maps t r
  | [], rs, ls1, rs1, res, res1, eqsf, eqsf1, t, r, _, _, _, _, hls, _, hres, _, ht, hr => by
    have e := mapsList_nil_inv hls
    subst e
    simp only [OpLtLoop] at ht hr
    cases ht; cases hr
    exact hres
  | l :: ls, [], ls1, rs1, res, res1, eqsf, eqsf1, t, r, _, _, _, _, hls, hrs, hres, _, ht,
      hr => by
    have e := mapsList_nil_inv hrs
    subst e
    obtain ⟨l1, ls2, e, _, _⟩ := mapsList_cons_inv hls
    subst e
    simp only [OpLtLoop] at ht hr
    cases ht; cases hr
    exact hres
  | l :: ls, r0 :: rs, ls1, rs1, res, res1, eqsf, eqsf1, t, r, hfl, hfr, hfl1, hn, hls, hrs,
      hres, heq, ht, hr => by
    obtain ⟨l1, ls2, e, hl, hls2⟩ := mapsList_cons_inv hls
    subst e
    obtain ⟨r1, rs2, e, hr0, hrs2⟩ := mapsList_cons_inv hrs
    subst e
    obtain ⟨hfl_h, hfl_t⟩ := isUnifiable_cons hfl
    obtain ⟨hfr_h, hfr_t⟩ := isUnifiable_cons hfr
    obtain ⟨hfl1_h, hfl1_t⟩ := isUnifiable_cons hfl1
    simp only [NoNaNList, Bool.and_eq_true] at hn
    simp only [OpLtLoop] at ht hr
    cases h1 : OpLt l r0 with
    | error e => rw [h1] at ht; cases ht
    | ok lt =>
    rw [h1] at ht
    simp only at ht
    cases h2 : OpAnd eqsf lt with
    | error e => rw [h2] at ht; cases ht
    | ok conj =>
    rw [h2] at ht
    simp only at ht
    cases h3 : OpOr res conj with
    | error e => rw [h3] at ht; cases ht
    | ok res2 =>
    rw [h3] at ht
    simp only at ht
    cases h4 : OpEq l r0 with
    | error e => rw [h4] at ht; cases ht
    | ok eq =>
    rw [h4] at ht
    simp only at ht
    cases h5 : OpAnd eqsf eq with
    | error e => rw [h5] at ht; cases ht
    | ok eqsf2 =>
    rw [h5] at ht
    cases g1 : OpLt l1 r1 with
    | error e => rw [g1] at hr; cases hr
    | ok lt1 =>
    rw [g1] at hr
    simp only at hr
    cases g2 : OpAnd eqsf1 lt1 with
    | error e => rw [g2] at hr; cases hr
    | ok conj1 =>
    rw [g2] at hr
    simp only at hr
    cases g3 : OpOr res1 conj1 with
    | error e => rw [g3] at hr; cases hr
    | ok res3 =>
    rw [g3] at hr
    simp only at hr
    cases g4 : OpEq l1 r1 with
    | error e => rw [g4] at hr; cases hr
    | ok eq1 =>
    rw [g4] at hr
    simp only at hr
    cases g5 : OpAnd eqsf1 eq1 with
    | error e => rw [g5] at hr; cases hr
    | ok eqsf3 =>
    rw [g5] at hr
    have hlt := opLt_commutes σ hirr l r0 l1 r1 lt lt1 hfl_h hfr_h hfl1_h hn.1 hl hr0 h1 g1
    have hconj := opAnd_commutes heq hlt h2 g2
    have hres2 := opOr_commutes hres hconj h3 g3
    have heq1 := opEq_commutes σ hfl_h hfr_h hfl1_h hn.1 hl hr0 h4 g4
    have heqsf := opAnd_commutes heq heq1 h5 g5
    exact opLtLoop_commutes σ hirr ls rs ls2 rs2 res2 res3 eqsf2 eqsf3 t r hfl_t hfr_t hfl1_t
      hn.2 hls2 hrs2 hres2 heqsf ht hr
end

theorem opLte_commutes {D : Type} [DecidableEq D] [DoubleOps D] (σ : Unifier D)
    (hirr : ∀ x : D, DoubleOps.lt x x = false)
    {a b a1 b1 t r : Term D} (hfa : IsUnifiable a = true) (hfb : IsUnifiable b = true)
    (hfa1 : IsUnifiable a1 = true) (hn : NoNaN a1 = true) (ha : σ.Maps a a1)
    (hb : σ.Maps b b1) (ht : OpLte a b = .ok t) (hr : OpLte a1 b1 = .ok r) : σ.Maps t r := by
  unfold OpLte at ht hr
  cases h1 : OpLt a b with
  | error e => rw [h1] at ht; cases ht
  | ok lt =>
    rw [h1] at ht
    simp only at ht
    cases h2 : OpEq a b with
    | error e => rw [h2] at ht; cases ht
    | ok eq =>
      rw [h2] at ht
      cases g1 : OpLt a1 b1 with
      | error e => rw [g1] at hr; cases hr
      | ok lt1 =>
        rw [g1] at hr
        simp only at hr
        cases g2 : OpEq a1 b1 with
        | error e => rw [g2] at hr; cases hr
        | ok eq1 =>
          rw [g2] at hr
          exact opOr_commutes
            (opLt_commutes σ hirr a b a1 b1 lt lt1 hfa hfb hfa1 hn ha hb h1 g1)
            (opEq_commutes σ hfa hfb hfa1 hn ha hb h2 g2) ht hr

theorem unary_commutes {D : Type} [DecidableEq D] [DoubleOps D] {σ : Unifier D} {op : UnOp}
    {c c1 u v : Term D} (hc : σ.Maps c c1) (hs : op.InScope c u)
    (hu : UnOp.construct op c = .ok u) (hv : UnOp.construct op c1 = .ok v) : σ.Maps u v := by
  rcases hs with e | hs
  · subst e
    exact maps_unop hc hv
  · cases op <;> simp only [UnOp.construct] at hu hv
    · exact opPositive_commutes hc hu hv
    · exact opNegative_commutes hc hs hu hv
    · exact opNot_commutes hc hs.1 hs.2.1 hs.2.2 hu hv

theorem binary_commutes {D : Type} [DecidableEq D] [DoubleOps D] {σ : Unifier D}
    (unify : Term D → Term D → Unifier D → Except Err (Bool × Unifier D)) {op : BinOp}
    {a b a1 b1 t r : Term D} (ha : σ.Maps a a1) (hb : σ.Maps b b1) (hs : op.InScope a b a1 t)
    (ht : BinOp.constructWith unify op a b = .ok t)
    (hr : BinOp.constructWith unify op a1 b1 = .ok r) : σ.Maps t r := by
  rcases hs with e | hs
  · subst e
    exact maps_binop unify ha hb hr
  · cases op
    · exact arith_commutes unify (by rfl) (fun _ => hs) ha hb ht hr
    · exact arith_commutes unify (by rfl) (fun _ => hs) ha hb ht hr
    · exact arith_commutes unify (by rfl) (fun h => by rcases h with h | h <;> cases h) ha hb ht hr
    · exact arith_commutes unify (by rfl) (fun h => by rcases h with h | h <;> cases h) ha hb ht hr
    · exact arith_commutes unify (by rfl) (fun h => by rcases h with h | h <;> cases h) ha hb ht hr
    · exact arith_commutes unify (by rfl) (fun h => by rcases h with h | h <;> cases h) ha hb ht hr
    · exact arith_commutes unify (by rfl) (fun h => by rcases h with h | h <;> cases h) ha hb ht hr
    · exact opAnd_commutes ha hb ht hr
    · exact opOr_commutes ha hb ht hr
    · exact unify_commutes unify ha hb ht hr
    · exact deconstruct_commutes unify ha hb hs ht hr
    · exact opEq_commutes σ hs.1 hs.2.1 hs.2.2.1 hs.2.2.2 ha hb ht hr
    · exact opNeq_commutes σ a b a1 b1 t r hs.1 hs.2.1 hs.2.2.1 hs.2.2.2 ha hb ht hr
    · exact opLt_commutes σ hs.2.2.2.2 a b a1 b1 t r hs.1 hs.2.1 hs.2.2.1 hs.2.2.2.1 ha hb ht hr
    · exact opLte_commutes σ hs.2.2.2.2 hs.1 hs.2.1 hs.2.2.1 hs.2.2.2.1 ha hb ht hr

/-! ## The claims -/

/-- C4, as stated, fails: the variable X occurs in the list [X + 1], beneath
the operator Plus, and is unbound in the empty unifier, yet Unify binds X to
the list and returns true, in both argument orders. -/
theorem occurs_check_skips_operator_operands :
    OccursAnywhere "X" (Term.list [.binop .plus (.var "X") (.num (1 : Int))]) ∧
    Term.list [.binop .plus (.var "X") (.num (1 : Int))] ≠ .var "X" ∧
    Unifier.find ([] : Unifier Int) "X" = none ∧
    Unify 3 (.var "X") (.list [.binop .plus (.var "X") (.num (1 : Int))]) [] =
      .ok (true, [("X", .list [.binop .plus (.var "X") (.num 1)])]) ∧
    Unify 3 (.list [.binop .plus (.var "X") (.num (1 : Int))]) (.var "X") [] =
      .ok (true, [("X", .list [.binop .plus (.var "X") (.num 1)])]) := by
  refine ⟨?_, by decide, rfl, by decide, by decide⟩
  exact .list (List.mem_singleton.2 rfl) (.left .var)

/-- C4, amended: for a named variable v unbound in the unifier and a term t
other than v in which v occurs through list elements and atom arguments,
Unify of v with t returns false and leaves the unifier as it was, in both
argument orders. -/
theorem occurs_check_rejects {D : Type} [DecidableEq D] [DoubleOps D] (n : Nat)
    (σ : Unifier D) (v : String) (t : Term D) (hnamed : v ≠ "_")
    (hunbound : Unifier.find σ v = none) (hne : t ≠ .var v) (hocc : Occurs v t) :
    Unify (n + 1) (.var v) t σ = .ok (false, σ) ∧
    Unify (n + 1) t (.var v) σ = .ok (false, σ) := by
  have hc := contains_of_occurs v t hocc
  cases hocc with
  | var => exact absurd rfl hne
  | list hmem ho =>
    simp [Unify, PrepareTerm, hunbound, Term.which, hnamed, hc]
  | atom hmem ho =>
    simp [Unify, PrepareTerm, hunbound, Term.which, hnamed, hc]

theorem occurs_check_rejects_witness :
    Unify (0 + 1) (.var "X") (.atom "f" [.atom "a" [], .var "X"]) ([] : Unifier Int) =
      .ok (false, []) ∧
    Unify (0 + 1) (.atom "f" [.atom "a" [], .var "X"]) (.var "X") ([] : Unifier Int) =
      .ok (false, []) :=
  occurs_check_rejects 0 [] "X" (.atom "f" [.atom "a" [], .var "X"]) (by decide) rfl
    (by decide) (.atom (List.mem_cons_of_mem _ (List.mem_singleton.2 rfl)) .var)

/-- C5: when one side is the anonymous variable, which is not a key of the
unifier, and the other side is a Bool, Num, Str, List or Atom, Unify returns
true and leaves the unifier unchanged; and [_, _] unifies with a list of two
numbers from the empty unifier, which stays empty. -/
theorem wildcard_unifies_without_binding {D : Type} [DecidableEq D] [DoubleOps D] (n : Nat)
    (σ : Unifier D) (t : Term D) (hkey : Unifier.find σ "_" = none)
    (hkind : t.which = .kBool ∨ t.which = .kDouble ∨ t.which = .kString ∨
      t.which = .kList ∨ t.which = .kBeliefAtom) :
    Unify (n + 1) (.var "_") t σ = .ok (true, σ) ∧
    Unify (n + 1) t (.var "_") σ = .ok (true, σ) ∧
    ∀ a b : D, Unify (n + 2) (.list [.var "_", .var "_"]) (.list [.num a, .num b]) [] =
      .ok (true, []) := by
  refine ⟨?_, ?_, ?_⟩
  · cases t with
    | unop op x => cases op <;> simp [Term.which, UnOp.tag] at hkind
    | binop op x y => cases op <;> simp [Term.which, BinOp.tag] at hkind
    | var name => simp [Term.which] at hkind
    | _ => simp [Unify, PrepareTerm, hkey, Term.which]
  · cases t with
    | unop op x => cases op <;> simp [Term.which, UnOp.tag] at hkind
    | binop op x y => cases op <;> simp [Term.which, BinOp.tag] at hkind
    | var name => simp [Term.which] at hkind
    | _ => simp [Unify, PrepareTerm, hkey, Term.which]
  · intro a b
    cases n with
    | zero =>
      simp [Unify, PrepareTerm, Term.which, UnifyListsWith, UnifyListsLoop, Unifier.apply,
        Unifier.find]
    | succ n =>
      simp [Unify, PrepareTerm, Term.which, UnifyListsWith, UnifyListsLoop, Unifier.apply,
        Unifier.find]

theorem wildcard_unifies_without_binding_witness :
    Unify (0 + 1) (.var "_") (.atom "f" [.var "X"]) ([("X", .num 1)] : Unifier Int) =
      .ok (true, [("X", .num 1)]) ∧
    Unify (0 + 1) (.atom "f" [.var "X"]) (.var "_") ([("X", .num 1)] : Unifier Int) =
      .ok (true, [("X", .num 1)]) ∧
    ∀ a b : Int, Unify (0 + 2) (.list [.var "_", .var "_"]) (.list [.num a, .num b]) [] =
      .ok (true, []) :=
  wildcard_unifies_without_binding 0 [("X", .num 1)] (.atom "f" [.var "X"]) (by decide)
    (by decide)

/-- C6: for two variable names x < y, both unbound in the unifier, Unify of
x with y and Unify of y with x return true and leave the old unifier plus
the single entry y to Var x, under which y is bound to x, x stays unbound
and every other name is as before; and Unify of an unbound variable with
itself returns true and leaves the unifier unchanged. -/
theorem canonical_variable_binding {D : Type} [DecidableEq D] [DoubleOps D] (n : Nat)
    (σ : Unifier D) (x y : String) (hlt : strLt x y = true)
    (hx : Unifier.find σ x = none) (hy : Unifier.find σ y = none) :
    Unify (n + 1) (.var x) (.var y) σ = .ok (true, σ ++ [(y, .var x)]) ∧
    Unify (n + 1) (.var y) (.var x) σ = .ok (true, σ ++ [(y, .var x)]) ∧
    Unifier.find (σ ++ [(y, .var x)]) y = some (.var x) ∧
    Unifier.find (σ ++ [(y, .var x)]) x = none ∧
    (∀ k, k ≠ y → Unifier.find (σ ++ [(y, .var x)]) k = Unifier.find σ k) ∧
    Unify (n + 1) (.var x) (.var x) σ = .ok (true, σ) := by
  have hne : x ≠ y := strLt_ne x y hlt
  have hgt : strLt y x = false := strLt_asymm x y hlt
  rw [← set_of_find_none σ y (.var x) hy]
  refine ⟨?_, ?_, find_set_self _ _ _, ?_, ?_, ?_⟩
  · simp [Unify, PrepareTerm, hx, hy, hne, hlt]
  · simp [Unify, PrepareTerm, hx, hy, Ne.symm hne, hgt]
  · rw [find_set_other _ _ _ _ hne]; exact hx
  · intro k hk; exact find_set_other _ _ _ _ hk
  · simp [Unify, PrepareTerm, hx]

theorem canonical_variable_binding_witness :
    Unify (0 + 1) (.var "X") (.var "Y") ([("Z", .num 1)] : Unifier Int) =
      .ok (true, [("Z", .num 1)] ++ [("Y", .var "X")]) ∧
    Unify (0 + 1) (.var "Y") (.var "X") ([("Z", .num 1)] : Unifier Int) =
      .ok (true, [("Z", .num 1)] ++ [("Y", .var "X")]) ∧
    Unifier.find (([("Z", .num 1)] : Unifier Int) ++ [("Y", .var "X")]) "Y" = some (.var "X") ∧
    Unifier.find (([("Z", .num 1)] : Unifier Int) ++ [("Y", .var "X")]) "X" = none ∧
    (∀ k, k ≠ "Y" → Unifier.find (([("Z", .num 1)] : Unifier Int) ++ [("Y", .var "X")]) k =
      Unifier.find ([("Z", .num 1)] : Unifier Int) k) ∧
    Unify (0 + 1) (.var "X") (.var "X") ([("Z", .num 1)] : Unifier Int) =
      .ok (true, [("Z", .num 1)]) :=
  canonical_variable_binding 0 [("Z", .num 1)] "X" "Y" (by decide) (by decide) (by decide)

/-- C10: on two numeric literals each of the seven binary arithmetic
constructors returns the numeric literal of the corresponding operation on
double; hence, in every arithmetic where 1 + 2 < pow(1, 2) is false,
OpLt(OpPlus(1, 2), OpPow(1, 2)) is Bool(false). -/
theorem arithmetic_on_literals {D : Type} [DecidableEq D] [DoubleOps D] (a b one two : D)
    (hlt : DoubleOps.lt (DoubleOps.add one two) (DoubleOps.pow one two) = false) :
    OpPlus (.num a) (.num b) = .ok (.num (DoubleOps.add a b)) ∧
    OpMinus (.num a) (.num b) = .ok (.num (DoubleOps.sub a b)) ∧
    OpMultiply (.num a) (.num b) = .ok (.num (DoubleOps.mul a b)) ∧
    OpDivide (.num a) (.num b) = .ok (.num (DoubleOps.div a b)) ∧
    OpPow (.num a) (.num b) = .ok (.num (DoubleOps.pow a b)) ∧
    OpDiv (.num a) (.num b) = .ok (.num (DoubleOps.floor (DoubleOps.div a b))) ∧
    OpMod (.num a) (.num b) = .ok (.num (DoubleOps.fmod a b)) ∧
    (do
      let sum ← OpPlus (.num one) (.num two)
      let power ← OpPow (.num one) (.num two)
      OpLt sum power) = .ok (.bool false) := by
  refine ⟨rfl, rfl, rfl, rfl, rfl, rfl, rfl, ?_⟩
  simp [OpPlus, OpPow, OpLt, hlt, bind, Except.bind]

theorem arithmetic_on_literals_witness :
    OpPlus (.num (7 : Int)) (.num 2) = .ok (.num (DoubleOps.add 7 2)) ∧
    OpMinus (.num (7 : Int)) (.num 2) = .ok (.num (DoubleOps.sub 7 2)) ∧
    OpMultiply (.num (7 : Int)) (.num 2) = .ok (.num (DoubleOps.mul 7 2)) ∧
    OpDivide (.num (7 : Int)) (.num 2) = .ok (.num (DoubleOps.div 7 2)) ∧
    OpPow (.num (7 : Int)) (.num 2) = .ok (.num (DoubleOps.pow 7 2)) ∧
    OpDiv (.num (7 : Int)) (.num 2) = .ok (.num (DoubleOps.floor (DoubleOps.div 7 2))) ∧
    OpMod (.num (7 : Int)) (.num 2) = .ok (.num (DoubleOps.fmod 7 2)) ∧
    (do
      let sum ← OpPlus (.num (1 : Int)) (.num 2)
      let power ← OpPow (.num (1 : Int)) (.num 2)
      OpLt sum power) = .ok (.bool false) :=
  arithmetic_on_literals 7 2 1 2 (by decide)

/-- C1, as stated, fails. With the anonymous variable: Unify of _ with the
number 1 returns true from the empty unifier and binds nothing, and the
substituted sides are _ and 1. With operator residuals: Unify of
[Y, Y & Z, Z] with [false, false, 5] returns true with Y bound to false and
Z to 5, and substituting the left side then raises a domain error, because
And is rebuilt on the number 5. -/
theorem unify_true_without_equal_sides :
    Unify 1 (.var "_") (.num (1 : Int)) [] = .ok (true, []) ∧
    Unifier.apply 1 ([] : Unifier Int) (.var "_") = .ok (.var "_") ∧
    Unifier.apply 1 ([] : Unifier Int) (.num 1) = .ok (.num 1) ∧
    (Term.var "_" : Term Int) ≠ .num 1 ∧
    OpAnd (.var "Y" : Term Int) (.var "Z") = .ok (.binop .and (.var "Y") (.var "Z")) ∧
    Unify 5 (.list [.var "Y", .binop .and (.var "Y") (.var "Z"), .var "Z"])
      (.list [.bool false, .bool false, .num (5 : Int)]) [] =
      .ok (true, [("Y", .bool false), ("Z", .num 5)]) ∧
    Unifier.apply 5 [("Y", .bool false), ("Z", .num (5 : Int))]
      (.list [.var "Y", .binop .and (.var "Y") (.var "Z"), .var "Z"]) =
      .error .domain_error := by
  refine ⟨by decide, by decide, by decide, by decide, by decide, by decide, by decide⟩

/-- C1, amended: for all terms l and r built only from Bool, Num, Str, List,
Atom and named variables, if Unify returns true from the empty unifier then
applying the resulting unifier to l and to r returns, and returns the same
term. -/
theorem unify_sound_on_named_first_order {D : Type} [DecidableEq D] [DoubleOps D]
    (l r : Term D) (n : Nat) (σ : Unifier D)
    (hl : NamedFirstOrder l) (hr : NamedFirstOrder r)
    (h : Unify n l r [] = .ok (true, σ)) :
    ∃ k t, ∀ m, k ≤ m → Unifier.apply m σ l = .ok t ∧ Unifier.apply m σ r = .ok t := by
  obtain ⟨hfo, hacyc, hsem⟩ := unify_nil_facts l r hl hr n true σ h
  obtain ⟨θ, hθ, happ⟩ := exists_solution σ hfo hacyc
  have heq : Term.subst θ l = Term.subst θ r := ((hsem.1 rfl θ).1 hθ).2
  obtain ⟨k1, h1⟩ := happ l hl.1
  obtain ⟨k2, h2⟩ := happ r hr.1
  refine ⟨max k1 k2, Term.subst θ l, fun m hm => ⟨?_, ?_⟩⟩
  · exact apply_mono h1 (le_trans (Nat.le_max_left _ _) hm)
  · rw [heq]; exact apply_mono h2 (le_trans (Nat.le_max_right _ _) hm)

theorem unify_sound_on_named_first_order_witness :
    ∃ k t, ∀ m, k ≤ m →
      Unifier.apply m [("X", .bool true)] (.atom "f" [.atom "a" [], .var "X"] : Term Int) =
        .ok t ∧
      Unifier.apply m [("X", .bool true)] (.atom "f" [.atom "a" [], .bool true] : Term Int) =
        .ok t :=
  unify_sound_on_named_first_order (.atom "f" [.atom "a" [], .var "X"])
    (.atom "f" [.atom "a" [], .bool true]) 5 [("X", .bool true)]
    ⟨by decide, by decide⟩ ⟨by decide, by decide⟩ (by decide)

/-- C2, counterexample: in the numbers with a NaN, the quotient 0/0 is NaN;
the term Num NaN is first-order and every substitution maps it to itself, so
l = r = Num NaN are made equal by every substitution, but Unify answers false
for every budget: the comparison of two Num literals is operator==, which is
false on NaN. -/
theorem unify_refuses_equal_nan :
    DoubleOps.div (some 0) (some 0) = (none : Option Int) ∧
    DoubleOps.isNaN (none : Option Int) = true ∧
    NamedFirstOrder (.num none : Term (Option Int)) ∧
    (∀ θ : Subst (Option Int), Term.subst θ (.num none) = Term.subst θ (.num none)) ∧
    ∀ n, Unify (n + 1) (.num (none : Option Int)) (.num none) [] = .ok (false, []) :=
  ⟨rfl, rfl, ⟨rfl, rfl⟩, fun _ => rfl, fun _ => rfl⟩

/-- C2, amended: for all terms l and r built only from Bool, Num, Str, List,
Atom and named variables, if a substitution θ makes them equal and no Num of
θ(l) is NaN, then Unify returns true from the empty unifier (from some
recursion budget on), the resulting unifier unifies l and r (applying it to l
and to r returns one and the same term), and it is most general: applying it
to any first-order term t returns a term that θ sends to the same term as
t. -/
theorem unify_most_general {D : Type} [DecidableEq D] [DoubleOps D]
    (l r : Term D) (θ : Subst D) (hl : NamedFirstOrder l) (hr : NamedFirstOrder r)
    (hθ : Term.subst θ l = Term.subst θ r) (hn : NoNaN (Term.subst θ l) = true) :
    ∃ n σ, (∀ m, n ≤ m → Unify m l r [] = .ok (true, σ)) ∧
      (∃ k t, ∀ m, k ≤ m → Unifier.apply m σ l = .ok t ∧ Unifier.apply m σ r = .ok t) ∧
      ∀ t : Term D, FirstOrder t → ∃ k t1, (∀ m, k ≤ m → Unifier.apply m σ t = .ok t1) ∧
        Term.subst θ t1 = Term.subst θ t := by
  obtain ⟨n, b, σ, h, _⟩ := unify_terminates_nil l r hl.1 hr.1
  obtain ⟨hfo, hacyc, hsem⟩ := unify_nil_facts l r hl hr n b σ h
  cases b with
  | false => exact absurd hθ (hsem.2 rfl θ (solves_nil θ) hn)
  | true =>
    refine ⟨n, σ, fun m hm => unify_mono h hm, apply_agrees_after_unify l r n σ hl hr h,
      fun t ht => ?_⟩
    obtain ⟨k, t1, hk⟩ := apply_terminates σ hfo hacyc t ht
    have hs := apply_spec σ hfo k t t1 ht hk
    exact ⟨k, t1, fun m hm => apply_mono hk hm,
      hs.2.2.2.1 θ ((hsem.1 rfl θ).2 ⟨solves_nil θ, hθ⟩)⟩

theorem unify_most_general_witness :
    ∃ n σ, (∀ m, n ≤ m →
        Unify m (.atom "f" [.var "X", .num (1 : Int)]) (.atom "f" [.var "Y", .var "Z"]) [] =
          .ok (true, σ)) ∧
      (∃ k t, ∀ m, k ≤ m →
        Unifier.apply m σ (.atom "f" [.var "X", .num (1 : Int)]) = .ok t ∧
        Unifier.apply m σ (.atom "f" [.var "Y", .var "Z"]) = .ok t) ∧
      ∀ t : Term Int, FirstOrder t → ∃ k t1, (∀ m, k ≤ m → Unifier.apply m σ t = .ok t1) ∧
        Term.subst (fun v => if v = "Z" then .num 1 else .bool true) t1 =
          Term.subst (fun v => if v = "Z" then .num 1 else .bool true) t :=
  unify_most_general (.atom "f" [.var "X", .num (1 : Int)]) (.atom "f" [.var "Y", .var "Z"])
    (fun v => if v = "Z" then .num 1 else .bool true)
    ⟨by decide, by decide⟩ ⟨by decide, by decide⟩ (by decide) (by decide)

/-- C7, as stated, fails: from the empty unifier, Unify of [X, X + 1] with
["s", 2] binds X to the string, substitutes it into X + 1 and raises the
domain error of OpPlus. -/
theorem unify_raises_domain_error :
    OpPlus (.var "X" : Term Int) (.num 1) = .ok (.binop .plus (.var "X") (.num 1)) ∧
    Unify 4 (.list [.var "X", .binop .plus (.var "X") (.num (1 : Int))])
      (.list [.str "s", .num 2]) [] = .error .domain_error ∧
    Unify 9 (.list [.var "X", .binop .plus (.var "X") (.num (1 : Int))])
      (.list [.str "s", .num 2]) [] = .error .domain_error := by
  refine ⟨by decide, by decide, by decide⟩

/-- C7, amended: for all terms l and r built only from Bool, Num, Str, List,
Atom and variables, and every unifier whose bindings are such terms, are
acyclic and bind no variable of l or r (the empty unifier among them), Unify
returns true or false: from some recursion budget on it returns one and the
same result, and below that budget it only runs out of budget; it never
raises. -/
theorem unify_returns_on_first_order {D : Type} [DecidableEq D] [DoubleOps D]
    (l r : Term D) (σ : Unifier D) (hl : FirstOrder l) (hr : FirstOrder r)
    (hfo : σ.FirstOrder) (hacyc : σ.Acyclic) (hrl : Resolved σ l) (hrr : Resolved σ r) :
    ∃ n b σ1, (∀ m, n ≤ m → Unify m l r σ = .ok (b, σ1)) ∧
      ∀ m, Unify m l r σ = .ok (b, σ1) ∨ Unify m l r σ = .error .out_of_fuel := by
  obtain ⟨V, hinv, hvl, hvr⟩ := exists_names σ l r hfo hacyc
  obtain ⟨n, b, σ1, h⟩ := unify_terminates V _ σ (le_refl _) hinv l r hl hr hrl hrr hvl hvr
  refine ⟨n, b, σ1, fun m hm => unify_mono h hm, fun m => ?_⟩
  rcases Nat.le_total n m with hnm | hmn
  · left; exact unify_mono h hnm
  · rcases unify_below l r σ m n hmn with h1 | h1
    · right; exact h1
    · left; rw [h1]; exact h

theorem unify_returns_on_first_order_witness :
    ∃ n b σ1, (∀ m, n ≤ m →
        Unify m (.list [.var "X", .var "Y"]) (.list [.str "s", .var "X"])
          ([("Z", .num (2 : Int))] : Unifier Int) = .ok (b, σ1)) ∧
      ∀ m, Unify m (.list [.var "X", .var "Y"]) (.list [.str "s", .var "X"])
          ([("Z", .num (2 : Int))] : Unifier Int) = .ok (b, σ1) ∨
        Unify m (.list [.var "X", .var "Y"]) (.list [.str "s", .var "X"])
          ([("Z", .num (2 : Int))] : Unifier Int) = .error .out_of_fuel :=
  unify_returns_on_first_order (.list [.var "X", .var "Y"]) (.list [.str "s", .var "X"])
    [("Z", .num 2)] (by decide) (by decide)
    (firstOrder_of_forall _ (by decide))
    (acyclic_of_ground _ (ground_of_forall _ (by decide)))
    (resolved_of_vars _ _ (by decide)) (resolved_of_vars _ _ (by decide))

/-- C8, as stated, fails: with B bound to the residual X < Y, substituting
into not B gives the residual Y <= X, and substituting into that gives
(Y < X) | (Y == X), a different term. -/
theorem apply_not_idempotent :
    OpNot (.var "B" : Term Int) = .ok (.unop .not (.var "B")) ∧
    OpLt (.var "X" : Term Int) (.var "Y") = .ok (.binop .lt (.var "X") (.var "Y")) ∧
    Unifier.apply 6 [("B", .binop .lt (.var "X") (.var "Y"))]
      (.unop .not (.var "B") : Term Int) = .ok (.binop .lte (.var "Y") (.var "X")) ∧
    Unifier.apply 6 [("B", .binop .lt (.var "X") (.var "Y"))]
      (.binop .lte (.var "Y") (.var "X") : Term Int) =
      .ok (.binop .or (.binop .lt (.var "Y") (.var "X")) (.binop .eq (.var "Y") (.var "X"))) ∧
    (Term.binop .lte (.var "Y") (.var "X") : Term Int) ≠
      .binop .or (.binop .lt (.var "Y") (.var "X")) (.binop .eq (.var "Y") (.var "X")) := by
  refine ⟨by decide, by decide, by decide, by decide, by decide⟩

/-- C8, amended: for every unifier whose bindings are built only from Bool,
Num, Str, List, Atom and variables and every such term t, if applying the
unifier to t returns t1 then applying it to t1 returns t1, with the same
recursion budget and every larger one. -/
theorem apply_idempotent_on_first_order {D : Type} [DecidableEq D] [DoubleOps D]
    (σ : Unifier D) (t t1 : Term D) (n : Nat) (hσ : σ.FirstOrder) (ht : FirstOrder t)
    (h : Unifier.apply n σ t = .ok t1) :
    ∀ m, n ≤ m → Unifier.apply m σ t1 = .ok t1 :=
  fun _ hm => apply_mono (apply_spec σ hσ n t t1 ht h).2.2.1 hm

theorem apply_idempotent_on_first_order_witness :
    Unifier.apply 7 [("X", .var "Y"), ("Y", .num (1 : Int))] (.list [.num 1, .var "Z"]) =
      .ok (.list [.num 1, .var "Z"]) :=
  apply_idempotent_on_first_order [("X", .var "Y"), ("Y", .num (1 : Int))]
    (.list [.var "X", .var "Z"]) (.list [.num 1, .var "Z"]) 4
    (firstOrder_of_forall _ (by decide)) (by decide) (by decide) 7 (by decide)

/-- C9, counterexample: eight operand lists with a variable on which a smart
constructor and substitution do not commute, although both sides are
defined; each group gives the constructor on the operands, the substitution
into that result, the substituted operands, the constructor on them, and
that the two results differ. (1) OpNot of the residual X == Y is X \== Y;
under X ↦ [A, C], Y ↦ [B, D] substituting into it gives
(A \== B) | (C \== D), while OpNot of the substituted operand gives
not not ((A \== B) | (C \== D)). (2) OpNot of X < Y is the residual Y <= X,
into which even the empty unifier substitutes (Y < X) | (Y == X), because
OpLte never returns an Lte residual. (3) OpNot of the residual X <= Y is
Y < X, while the substituted operand is (X < Y) | (X == Y) and its negation a
Not. (4) OpPlus of X and -Y is X - Y; under Y ↦ 3 this becomes X - 3, while
OpPlus of X and the substituted operand -3 is X + -3. (5) OpNeq of the atom q
and the conjunction X & q is true, decided by the kinds; under X ↦ true the
conjunction becomes q, and OpNeq of q and q is false. (6) OpDeconstruct of X
and [1, 2] is false; under X ↦ f(a) the constructor on the substituted
operands is the residual [f, [a]] = [1, 2]. (7) OpNeq of X and X is false;
under X ↦ Y + 1 the constructor on the substituted operands is the residual
Y + 1 \== Y + 1. (8) In the numbers with a NaN, under X ↦ NaN the constructor
on the substituted operands of X \== X is true. -/
theorem constructor_then_substitution_differs :
    (OpNot (.binop .eq (.var "X") (.var "Y") : Term Int) =
        .ok (.binop .neq (.var "X") (.var "Y")) ∧
      Unifier.apply 6
        [("X", .list [.var "A", .var "C"]), ("Y", .list [.var "B", .var "D"])]
        (.binop .neq (.var "X") (.var "Y") : Term Int) =
        .ok (.binop .or (.binop .neq (.var "A") (.var "B"))
          (.binop .neq (.var "C") (.var "D"))) ∧
      Unifier.apply 6
        [("X", .list [.var "A", .var "C"]), ("Y", .list [.var "B", .var "D"])]
        (.binop .eq (.var "X") (.var "Y") : Term Int) =
        .ok (.unop .not (.binop .or (.binop .neq (.var "A") (.var "B"))
          (.binop .neq (.var "C") (.var "D")))) ∧
      OpNot (.unop .not (.binop .or (.binop .neq (.var "A") (.var "B"))
          (.binop .neq (.var "C") (.var "D"))) : Term Int) =
        .ok (.unop .not (.unop .not (.binop .or (.binop .neq (.var "A") (.var "B"))
          (.binop .neq (.var "C") (.var "D"))))) ∧
      (Term.binop .or (.binop .neq (.var "A") (.var "B")) (.binop .neq (.var "C") (.var "D"))
          : Term Int) ≠
        .unop .not (.unop .not (.binop .or (.binop .neq (.var "A") (.var "B"))
          (.binop .neq (.var "C") (.var "D"))))) ∧
    (OpNot (.binop .lt (.var "X") (.var "Y") : Term Int) =
        .ok (.binop .lte (.var "Y") (.var "X")) ∧
      Unifier.apply 4 [] (.binop .lte (.var "Y") (.var "X") : Term Int) =
        .ok (.binop .or (.binop .lt (.var "Y") (.var "X"))
          (.binop .eq (.var "Y") (.var "X"))) ∧
      Unifier.apply 4 [] (.binop .lt (.var "X") (.var "Y") : Term Int) =
        .ok (.binop .lt (.var "X") (.var "Y")) ∧
      (Term.binop .or (.binop .lt (.var "Y") (.var "X")) (.binop .eq (.var "Y") (.var "X"))
          : Term Int) ≠ .binop .lte (.var "Y") (.var "X")) ∧
    (OpNot (.binop .lte (.var "X") (.var "Y") : Term Int) =
        .ok (.binop .lt (.var "Y") (.var "X")) ∧
      Unifier.apply 4 [] (.binop .lt (.var "Y") (.var "X") : Term Int) =
        .ok (.binop .lt (.var "Y") (.var "X")) ∧
      Unifier.apply 4 [] (.binop .lte (.var "X") (.var "Y") : Term Int) =
        .ok (.binop .or (.binop .lt (.var "X") (.var "Y"))
          (.binop .eq (.var "X") (.var "Y"))) ∧
      OpNot (.binop .or (.binop .lt (.var "X") (.var "Y"))
          (.binop .eq (.var "X") (.var "Y")) : Term Int) =
        .ok (.unop .not (.binop .or (.binop .lt (.var "X") (.var "Y"))
          (.binop .eq (.var "X") (.var "Y")))) ∧
      (Term.binop .lt (.var "Y") (.var "X") : Term Int) ≠
        .unop .not (.binop .or (.binop .lt (.var "X") (.var "Y"))
          (.binop .eq (.var "X") (.var "Y")))) ∧
    (OpPlus (.var "X") (.unop .negative (.var "Y") : Term Int) =
        .ok (.binop .minus (.var "X") (.var "Y")) ∧
      Unifier.apply 4 [("Y", .num 3)] (.binop .minus (.var "X") (.var "Y") : Term Int) =
        .ok (.binop .minus (.var "X") (.num 3)) ∧
      Unifier.apply 4 [("Y", .num 3)] (.var "X" : Term Int) = .ok (.var "X") ∧
      Unifier.apply 4 [("Y", .num 3)] (.unop .negative (.var "Y") : Term Int) =
        .ok (.num (-3)) ∧
      OpPlus (.var "X") (.num (-3) : Term Int) =
        .ok (.binop .plus (.var "X") (.num (-3))) ∧
      (Term.binop .minus (.var "X") (.num 3) : Term Int) ≠
        .binop .plus (.var "X") (.num (-3))) ∧
    (OpNeq (.atom "q" []) (.binop .and (.var "X") (.atom "q" []) : Term Int) =
        .ok (.bool true) ∧
      Unifier.apply 4 [("X", .bool true)] (.bool true : Term Int) = .ok (.bool true) ∧
      Unifier.apply 4 [("X", .bool true)] (.atom "q" [] : Term Int) = .ok (.atom "q" []) ∧
      Unifier.apply 4 [("X", .bool true)] (.binop .and (.var "X") (.atom "q" []) : Term Int) =
        .ok (.atom "q" []) ∧
      OpNeq (.atom "q" []) (.atom "q" [] : Term Int) = .ok (.bool false)) ∧
    (OpDeconstruct 4 (.var "X") (.list [.num 1, .num 2] : Term Int) = .ok (.bool false) ∧
      Unifier.apply 4 [("X", .atom "f" [.atom "a" []])] (.bool false : Term Int) =
        .ok (.bool false) ∧
      Unifier.apply 4 [("X", .atom "f" [.atom "a" []])] (.var "X" : Term Int) =
        .ok (.atom "f" [.atom "a" []]) ∧
      Unifier.apply 4 [("X", .atom "f" [.atom "a" []])] (.list [.num 1, .num 2] : Term Int) =
        .ok (.list [.num 1, .num 2]) ∧
      OpDeconstruct 4 (.atom "f" [.atom "a" []]) (.list [.num 1, .num 2] : Term Int) =
        .ok (.binop .unify (.list [.atom "f" [], .list [.atom "a" []]])
          (.list [.num 1, .num 2]))) ∧
    (OpNeq (.var "X") (.var "X" : Term Int) = .ok (.bool false) ∧
      Unifier.apply 4 [("X", .binop .plus (.var "Y") (.num 1))] (.bool false : Term Int) =
        .ok (.bool false) ∧
      Unifier.apply 4 [("X", .binop .plus (.var "Y") (.num 1))] (.var "X" : Term Int) =
        .ok (.binop .plus (.var "Y") (.num 1)) ∧
      OpNeq (.binop .plus (.var "Y") (.num 1)) (.binop .plus (.var "Y") (.num 1) : Term Int) =
        .ok (.binop .neq (.binop .plus (.var "Y") (.num 1))
          (.binop .plus (.var "Y") (.num 1)))) ∧
    (OpNeq (.var "X") (.var "X" : Term (Option Int)) = .ok (.bool false) ∧
      Unifier.apply 4 [("X", .num none)] (.bool false : Term (Option Int)) =
        .ok (.bool false) ∧
      Unifier.apply 4 [("X", .num none)] (.var "X" : Term (Option Int)) = .ok (.num none) ∧
      OpNeq (.num none) (.num none : Term (Option Int)) = .ok (.bool true)) := by
  refine ⟨⟨by decide, by decide, by decide, by decide, by decide⟩,
    ⟨by decide, by decide, by decide, by decide⟩,
    ⟨by decide, by decide, by decide, by decide, by decide⟩,
    ⟨by decide, by decide, by decide, by decide, by decide, by decide⟩,
    ⟨by decide, by decide, by decide, by decide, by decide⟩,
    ⟨by decide, by decide, by decide, by decide, by decide⟩,
    ⟨by decide, by decide, by decide, by decide⟩,
    ⟨by decide, by decide, by decide, rfl⟩⟩

/-- C9, amended: for every smart constructor, all operands in the scope
below and every unifier under which the substitution of the operands
returns: whenever the constructor returns on the operands and on the
substituted operands, substituting into its result on the operands returns
its result on the substituted operands, from some recursion budget on. The
scope: the operands on which the constructor returns the plain residual;
every operand of OpPositive, OpAnd, OpOr, OpUnify, OpPow, OpMultiply,
OpDivide, OpDiv and OpMod; for OpNegative an operand that is not a negation;
for OpNot an operand that is not a residual Eq, Lt or Lte; for OpPlus and
OpMinus a right operand that is not a negation; for OpDeconstruct operands on
which it does not return false; for OpNeq, OpEq, OpLt and OpLte first-order
operands of which the left one is mapped to a first-order term without NaN,
for OpLt and OpLte in numbers of which none is less than itself. -/
theorem constructors_commute_with_substitution {D : Type} [DecidableEq D] [DoubleOps D]
    (n : Nat) (σ : Unifier D) (op : BinOp) (a b a1 b1 t r : Term D) (uop : UnOp)
    (c c1 u v : Term D)
    (ha : Unifier.apply n σ a = .ok a1) (hb : Unifier.apply n σ b = .ok b1)
    (hop : BinOp.constructWith (Unify n) op a b = .ok t)
    (hop1 : BinOp.constructWith (Unify n) op a1 b1 = .ok r)
    (hs : op.InScope a b a1 t)
    (hc : Unifier.apply n σ c = .ok c1)
    (huop : UnOp.construct uop c = .ok u) (huop1 : UnOp.construct uop c1 = .ok v)
    (hus : uop.InScope c u) :
    (∃ k, ∀ m, k ≤ m → Unifier.apply m σ t = .ok r) ∧
    (∃ k, ∀ m, k ≤ m → Unifier.apply m σ u = .ok v) :=
  ⟨binary_commutes (Unify n) (maps_of_apply ha) (maps_of_apply hb) hs hop hop1,
   unary_commutes (maps_of_apply hc) hus huop huop1⟩

theorem constructors_commute_with_substitution_witness :
    (∃ k, ∀ m, k ≤ m →
      Unifier.apply m [("X", .num (1 : Int))]
        (.binop .or (.binop .lt (.var "X") (.num 2)) (.binop .eq (.var "X") (.num 2))) =
        .ok (.bool true)) ∧
    (∃ k, ∀ m, k ≤ m →
      Unifier.apply m [("X", .num (1 : Int))] (.binop .eq (.var "X") (.var "Y")) =
        .ok (.binop .eq (.num 1) (.var "Y"))) :=
  constructors_commute_with_substitution 3 [("X", .num (1 : Int))] .lte
    (.var "X") (.num 2) (.num 1) (.num 2)
    (.binop .or (.binop .lt (.var "X") (.num 2)) (.binop .eq (.var "X") (.num 2)))
    (.bool true) .not
    (.binop .neq (.var "X") (.var "Y")) (.binop .neq (.num 1) (.var "Y"))
    (.binop .eq (.var "X") (.var "Y")) (.binop .eq (.num 1) (.var "Y"))
    (by decide) (by decide) (by decide) (by decide)
    (Or.inr ⟨rfl, rfl, rfl, rfl, fun x => decide_eq_false (lt_irrefl x)⟩)
    (by decide) (by decide) (by decide)
    (Or.inr ⟨by decide, by decide, by decide⟩)

/-- C3, counterexample: in the numbers with a NaN, the ground term f(NaN) is
an instance of the pattern f(NaN), under every substitution, but Unify of the
pattern with the term answers false for every budget above two. -/
theorem match_refuses_equal_nan :
    IsGround (.atom "f" [.num none] : Term (Option Int)) = true ∧
    NamedFirstOrder (.atom "f" [.num none] : Term (Option Int)) ∧
    (∀ θ : Subst (Option Int),
      Term.subst θ (.atom "f" [.num none]) = .atom "f" [.num none]) ∧
    ∀ n, Unify (n + 2) (.atom "f" [.num (none : Option Int)]) (.atom "f" [.num none]) [] =
      .ok (false, []) := by
  refine ⟨rfl, ⟨rfl, rfl⟩, fun _ => rfl, fun n => ?_⟩
  simp [Unify, PrepareTerm, Term.which, UnifyListsWith, doubleEq, DoubleOps.isNaN]

/-- C3, amended: for every pattern p built only from Bool, Num, Str, List,
Atom and named variables and every ground term g in which no Num is NaN,
Unify of p with g from the empty unifier returns (from some recursion budget
on), it returns true iff some substitution maps p to g, and on success the
keys of the unifier are exactly the variables of p, every binding is ground,
and applying the unifier to p returns g; f(a, X) against f(a, true) gives
exactly X bound to true. -/
theorem match_pattern_against_ground {D : Type} [DecidableEq D] [DoubleOps D]
    (p g : Term D) (hp : NamedFirstOrder p) (hg : IsGround g = true)
    (hn : NoNaN g = true) :
    ∃ n b σ, (∀ m, n ≤ m → Unify m p g [] = .ok (b, σ)) ∧
      (b = true ↔ ∃ θ : Subst D, Term.subst θ p = g) ∧
      (b = true →
        (∀ v, Unifier.find σ v ≠ none ↔ Occurs v p) ∧
        (∀ v t, Unifier.find σ v = some t → IsGround t = true) ∧
        ∃ k, ∀ m, k ≤ m → Unifier.apply m σ p = .ok g) ∧
      Unify 3 (.atom "f" [.atom "a" [], .var "X"]) (.atom "f" [.atom "a" [], .bool true])
        ([] : Unifier D) = .ok (true, [("X", .bool true)]) := by
  have gg := ground_facts g hg
  have hgn : NamedFirstOrder g := ⟨gg.1, gg.2.1 "_"⟩
  obtain ⟨n, b, σ, h, _⟩ := unify_terminates_nil p g hp.1 gg.1
  obtain ⟨hfo, hacyc, hsem⟩ := unify_nil_facts p g hp hgn n b σ h
  refine ⟨n, b, σ, fun m hm => unify_mono h hm, ?_, ?_, ?_⟩
  · constructor
    · intro hb
      obtain ⟨θ, hθ, _⟩ := exists_solution σ hfo hacyc
      refine ⟨θ, ?_⟩
      rw [((hsem.1 hb θ).1 hθ).2, gg.2.2 θ]
    · rintro ⟨θ, hθ⟩
      cases b with
      | true => rfl
      | false =>
        exfalso
        apply hsem.2 rfl θ (solves_nil θ) (by rw [hθ]; exact hn)
        rw [hθ, gg.2.2 θ]
  · intro hb
    subst hb
    have hm := unify_match n p g [] σ true (fun k v hf => by simp [Unifier.find] at hf)
      hp.1 hp.2 hg (resolved_nil p) h
    refine ⟨fun v => ?_, hm.1, ?_⟩
    · rw [hm.2 rfl v, occurs_iff_contains]
      simp [Unifier.find]
    · obtain ⟨k, t, hk⟩ := apply_agrees_after_unify p g n σ hp hgn h
      obtain ⟨m2, hm2⟩ := apply_resolved σ g gg.1
        (fun v hv => by rw [gg.2.1 v] at hv; cases hv)
      have e : t = g := apply_det (hk k (le_refl _)).2 hm2
      subst e
      exact ⟨k, fun m hm => (hk m hm).1⟩
  · simp [Unify, PrepareTerm, Term.which, UnifyListsWith, UnifyListsLoop, Unifier.apply,
      Unifier.find, Unifier.set, ContainsVariable, applyList]

theorem match_pattern_against_ground_witness :
    ∃ n b σ, (∀ m, n ≤ m →
        Unify m (.atom "f" [.atom "a" [], .var "X"])
          (.atom "f" [.atom "a" [], .bool true]) ([] : Unifier Int) = .ok (b, σ)) ∧
      (b = true ↔ ∃ θ : Subst Int,
        Term.subst θ (.atom "f" [.atom "a" [], .var "X"]) =
          .atom "f" [.atom "a" [], .bool true]) ∧
      (b = true →
        (∀ v, Unifier.find σ v ≠ none ↔
          Occurs v (.atom "f" [.atom "a" [], .var "X"] : Term Int)) ∧
        (∀ v t, Unifier.find σ v = some t → IsGround t = true) ∧
        ∃ k, ∀ m, k ≤ m →
          Unifier.apply m σ (.atom "f" [.atom "a" [], .var "X"]) =
            .ok (.atom "f" [.atom "a" [], .bool true])) ∧
      Unify 3 (.atom "f" [.atom "a" [], .var "X"]) (.atom "f" [.atom "a" [], .bool true])
        ([] : Unifier Int) = .ok (true, [("X", .bool true)]) :=
  match_pattern_against_ground (.atom "f" [.atom "a" [], .var "X"])
    (.atom "f" [.atom "a" [], .bool true]) ⟨by decide, by decide⟩ (by decide) (by decide)

/-! ## The claims on comparison, OpUnify and the generators -/

/-- C11, at the failing input: OpLt of a string and an atom, both ground, is
not a Bool literal. The switch for a string on the left has no case for an
atom on the right and falls to the default, the residual Lt, while every
other left kind answers an atom on the right by the order of the tags, and
the atom on the left answers the string. -/
theorem opLt_string_atom_is_residual :
    IsGround (Term.str "s" : Term Int) = true ∧ IsGround (Term.atom "p" [] : Term Int) = true ∧
    OpLt (.str "s") (.atom "p" [] : Term Int) = .ok (.binop .lt (.str "s") (.atom "p" [])) ∧
    OpLt (.bool true) (.atom "p" [] : Term Int) = .ok (.bool true) ∧
    OpLt (.num 1) (.atom "p" [] : Term Int) = .ok (.bool true) ∧
    OpLt (.list []) (.atom "p" [] : Term Int) = .ok (.bool true) ∧
    OpLt (.atom "p" []) (.str "s" : Term Int) = .ok (.bool false) ∧
    OpLt (.list [.str "s"]) (.list [.atom "p" []] : Term Int) =
      .ok (.binop .lt (.str "s") (.atom "p" [])) := by
  decide

/-- C12, at the failing input: between the ground string "s" and the ground
atom p none of OpLt(a, b), OpLt(b, a) and OpEq(a, b) is the literal true, and
"s" is below the empty list, which is below p, while OpLt("s", p) is the
residual Lt; OpLt of a ground term of these kinds and itself is false. -/
theorem no_order_between_string_and_atom :
    OpLt (.str "s") (.atom "p" [] : Term Int) ≠ .ok (.bool true) ∧
    OpLt (.atom "p" []) (.str "s" : Term Int) ≠ .ok (.bool true) ∧
    OpEq (.str "s") (.atom "p" [] : Term Int) ≠ .ok (.bool true) ∧
    OpLt (.str "s") (.list [] : Term Int) = .ok (.bool true) ∧
    OpLt (.list []) (.atom "p" [] : Term Int) = .ok (.bool true) ∧
    OpLt (.str "s") (.str "s" : Term Int) = .ok (.bool false) ∧
    OpLt (.atom "p" []) (.atom "p" [] : Term Int) = .ok (.bool false) ∧
    OpLt (.atom "foo" [.num 1, .bool false]) (.atom "foo" [.num 1, .bool true] : Term Int) =
      .ok (.bool true) := by
  decide

/-- C13, counterexample: in the numbers with a NaN, the ground term Num NaN
against itself: OpNeq answers the literal true and OpEq the literal false,
although the two operands are the same term; the comparison of two Num
literals is operator!=, which is true on NaN. -/
theorem nan_differs_from_itself :
    IsGround (.num none : Term (Option Int)) = true ∧
    OpNeq (.num (none : Option Int)) (.num none) = .ok (.bool true) ∧
    OpEq (.num (none : Option Int)) (.num none) = .ok (.bool false) ∧
    OpEq (.atom "t" [.num (none : Option Int)]) (.atom "t" [.num none]) = .ok (.bool false) :=
  ⟨rfl, rfl, rfl, rfl⟩

/-- C13, amended: for all ground terms a and b such that no Num of a is NaN,
OpNeq(a, b) is the Bool literal that is true iff a and b are different terms,
and OpEq(a, b) is the Bool literal that is true iff they are the same
term. -/
theorem equality_of_ground_terms {D : Type} [DecidableEq D] [DoubleOps D] (a b : Term D)
    (ha : IsGround a = true) (hb : IsGround b = true) (hn : NoNaN a = true) :
    OpNeq a b = .ok (.bool (decide (a ≠ b))) ∧ OpEq a b = .ok (.bool (decide (a = b))) :=
  ⟨opNeq_ground a b ha hb hn, opEq_ground a b ha hb hn⟩

theorem equality_of_ground_terms_witness :
    OpNeq (.atom "foo" [.num 1, .bool false]) (.atom "foo" [.num 1, .bool true] : Term Int) =
      .ok (.bool (decide ((.atom "foo" [.num 1, .bool false] : Term Int) ≠
        .atom "foo" [.num 1, .bool true]))) ∧
    OpEq (.atom "foo" [.num 1, .bool false]) (.atom "foo" [.num 1, .bool true] : Term Int) =
      .ok (.bool (decide ((.atom "foo" [.num 1, .bool false] : Term Int) =
        .atom "foo" [.num 1, .bool true]))) :=
  equality_of_ground_terms _ _ (by decide) (by decide) (by decide)

/-- C14, counterexample: in the numbers with a NaN, the atoms t(NaN, X) and
t(NaN, 5) hold the same ground term at the first position and a variable
against a ground term at the second, but OpEq answers the literal false and
not the residual Eq(X, 5): the fold meets NaN != NaN, which is true. -/
theorem equality_decided_by_nan :
    IsGroundList ([.num none] : List (Term (Option Int))) = true ∧
    OpEq (.atom "t" ([.num (none : Option Int)] ++ .var "X" :: []))
      (.atom "t" ([.num none] ++ .num (some 5) :: [])) = .ok (.bool false) ∧
    OpEq (.atom "t" ([.num (none : Option Int)] ++ .var "X" :: []))
      (.atom "t" ([.num none] ++ .num (some 5) :: [])) ≠
        .ok (.binop .eq (.var "X") (.num (some 5))) := by
  refine ⟨rfl, rfl, ?_⟩
  intro h
  have h1 : OpEq (.atom "t" ([.num (none : Option Int)] ++ .var "X" :: []))
      (.atom "t" ([.num none] ++ .num (some 5) :: [])) = .ok (.bool false) := rfl
  rw [h1] at h
  cases h

/-- C14, amended: for two atoms with the same functor whose arguments are
the same ground terms without NaN at every position except one, where one
side holds a variable V and the other a ground term c, OpEq returns the
residual Eq over exactly that pair, in the orientation of the operands. -/
theorem equality_reduces_to_undecided_position {D : Type} [DecidableEq D] [DoubleOps D]
    (f V : String) (pre post : List (Term D)) (c : Term D) (hpre : IsGroundList pre = true)
    (hpost : IsGroundList post = true) (hc : IsGround c = true)
    (hnpre : NoNaNList pre = true) (hnpost : NoNaNList post = true) :
    OpEq (.atom f (pre ++ .var V :: post)) (.atom f (pre ++ c :: post)) =
      .ok (.binop .eq (.var V) c) ∧
    OpEq (.atom f (pre ++ c :: post)) (.atom f (pre ++ .var V :: post)) =
      .ok (.binop .eq c (.var V)) :=
  ⟨opEq_one_undecided f pre post _ _ hpre hpost hnpre hnpost (opNeq_var_ground V c hc),
   opEq_one_undecided f pre post _ _ hpre hpost hnpre hnpost (opNeq_ground_var V c hc)⟩

theorem equality_reduces_to_undecided_position_witness :
    OpEq (.atom "t" ([.num 1] ++ .var "X" :: [.str "s"]))
      (.atom "t" ([.num 1] ++ .num (5 : Int) :: [.str "s"])) =
      .ok (.binop .eq (.var "X") (.num 5)) ∧
    OpEq (.atom "t" ([.num 1] ++ .num (5 : Int) :: [.str "s"]))
      (.atom "t" ([.num 1] ++ .var "X" :: [.str "s"])) =
      .ok (.binop .eq (.num 5) (.var "X")) :=
  equality_reduces_to_undecided_position "t" "X" [.num 1] [.str "s"] (.num 5) rfl rfl rfl rfl
    rfl

/-- C15, at the failing inputs: OpUnify returns the residual Unify for every
pair of operands. On the unifiable operands 1 and 2, whose unification from
the empty unifier fails, it is not the literal false; on 1 and 1, whose
unification succeeds and leaves the unifier empty, it is not the literal
true. -/
theorem opUnify_is_always_residual {D : Type} [DecidableEq D] [DoubleOps D] (n : Nat)
    (l r : Term D) :
    OpUnify n l r = .ok (.binop .unify l r) ∧
    IsUnifiable (.num 1 : Term Int) = true ∧ IsUnifiable (.num 2 : Term Int) = true ∧
    Unify 1 (.num 1) (.num 2) ([] : Unifier Int) = .ok (false, []) ∧
    OpUnify 1 (.num 1) (.num 2 : Term Int) = .ok (.binop .unify (.num 1) (.num 2)) ∧
    Unify 1 (.num 1) (.num 1) ([] : Unifier Int) = .ok (true, []) ∧
    OpUnify 1 (.num 1) (.num 1 : Term Int) = .ok (.binop .unify (.num 1) (.num 1)) :=
  ⟨opUnifyWith_eq _ l r, by decide, by decide, by decide, by decide, by decide, by decide⟩

/-- C16: for a goal atom g whose functor is not a built-in action and an
incoming unifier σ, the generator that LogicalConsequence constructs yields,
whenever its enumeration returns, exactly the sequence of the specification:
over the beliefs with the functor and arity of g, in insertion order, the
unifier left by every call Unify(apply(σ, g), b, copy of σ) that returns
true. Conversely the generator yields that sequence whenever the enumeration
of the specification returns it and the substituted goal can be substituted
once more (the generator does so for every belief it visits and drops the
result); and with no belief of that functor and arity it yields no
solution. -/
theorem atom_goal_enumerates_matching_beliefs {D : Type} [DecidableEq D] [DoubleOps D]
    (agent : Agent D) (σ : Unifier D) (f : String) (ts : List (Term D))
    (h1 : f ≠ ".print") (h2 : f ≠ ".my_name") (h3 : f ≠ ".fail") :
    (∀ n gen sols, LogicalConsequence n agent σ (.atom f ts) = .ok gen →
      Solutions n agent gen = .ok sols →
      SpecAtomSolutions n agent.beliefs σ ⟨f, ts⟩ = .ok sols) ∧
    (∀ n goal sols, Unifier.apply n σ (.atom f ts) = .ok goal →
      (∃ k t, Unifier.apply k σ goal = .ok t) →
      SpecAtomSolutions n agent.beliefs σ ⟨f, ts⟩ = .ok sols →
      ∃ gen, LogicalConsequence n agent σ (.atom f ts) = .ok gen ∧ Yields agent gen sols) ∧
    (∀ n goal, Unifier.apply n σ (.atom f ts) = .ok goal →
      agent.beliefs.filter (fun belief =>
        belief.functor = f && belief.terms.length = ts.length) = [] →
      ∃ gen, LogicalConsequence n agent σ (.atom f ts) = .ok gen ∧ Yields agent gen []) := by
  have hrel : ∀ ts1 : List (Term D), ts1.length = ts.length →
      agent.beliefs.filter (IsRelevant f ts1.length) =
        agent.beliefs.filter (fun belief =>
          belief.functor = f && belief.terms.length = ts.length) := by
    intro ts1 hlen
    congr 1
    funext belief
    simp [IsRelevant, hlen]
  refine ⟨?_, ?_, ?_⟩
  · intro n gen sols hgen hsols
    simp only [LogicalConsequence] at hgen
    cases ha : Unifier.apply n σ (.atom f ts) with
    | error e => simp [ha] at hgen
    | ok goal =>
      obtain ⟨ts1, hg, hlen⟩ := apply_atom_inv ha
      subst hg
      simp only [ha, Except.ok.injEq] at hgen
      subst hgen
      simp only [LogicalConsequenceSubstituted, getAction_none f ts1 σ h1 h2 h3, hrel ts1 hlen]
        at hsols
      have := atom_sound agent ⟨f, ts1⟩ σ n _ _ sols hsols
      simpa [SpecAtomSolutions, BeliefAtom.toTerm, ha] using this
  · intro n goal sols ha hre hspec
    obtain ⟨ts1, hg, hlen⟩ := apply_atom_inv ha
    subst hg
    obtain ⟨k, t, hk⟩ := hre
    simp only [SpecAtomSolutions, BeliefAtom.toTerm, ha] at hspec
    refine ⟨LogicalConsequenceSubstituted agent σ (.atom f ts1),
      by simp only [LogicalConsequence, ha], ?_⟩
    simp only [LogicalConsequenceSubstituted, getAction_none f ts1 σ h1 h2 h3, hrel ts1 hlen]
    exact atom_complete agent ⟨f, ts1⟩ σ hk _ _ sols n hspec
  · intro n goal ha hnone
    obtain ⟨ts1, hg, hlen⟩ := apply_atom_inv ha
    subst hg
    refine ⟨LogicalConsequenceSubstituted agent σ (.atom f ts1),
      by simp only [LogicalConsequence, ha], ?_⟩
    simp only [LogicalConsequenceSubstituted, getAction_none f ts1 σ h1 h2 h3, hrel ts1 hlen,
      hnone]
    exact atom_yields_nil agent _ σ []

theorem atom_goal_enumerates_matching_beliefs_witness :
    Solutions 5 ⟨"bob", [⟨"f", [.num (5 : Int)]⟩], [], [], []⟩
      (LogicalConsequenceSubstituted ⟨"bob", [⟨"f", [.num (5 : Int)]⟩], [], [], []⟩ []
        (.atom "f" [.var "X"])) = .ok [[("X", .num 5)]] ∧
    SpecAtomSolutions 5 [⟨"f", [.num (5 : Int)]⟩] [] ⟨"f", [.var "X"]⟩ =
      .ok [[("X", .num 5)]] :=
  ⟨by decide,
   (atom_goal_enumerates_matching_beliefs ⟨"bob", [⟨"f", [.num (5 : Int)]⟩], [], [], []⟩ [] "f"
      [.var "X"] (by decide) (by decide) (by decide)).1 5
      (LogicalConsequenceSubstituted ⟨"bob", [⟨"f", [.num (5 : Int)]⟩], [], [], []⟩ []
        (.atom "f" [.var "X"])) [[("X", .num 5)]] rfl (by decide)⟩

/-- C17: for a variable v that the incoming unifier σ leaves unbound, the
generator that LogicalConsequence constructs yields exactly 1 + n solutions
for an agent with n beliefs: first σ with v bound to true, then for each
belief b in insertion order σ with v bound to b, and then it is exhausted. -/
theorem variable_goal_solutions {D : Type} [DecidableEq D] [DoubleOps D] (agent : Agent D)
    (σ : Unifier D) (v : String) (hv : Unifier.find σ v = none) (n : Nat)
    (hn : agent.beliefs.length + 3 ≤ n) :
    ∃ gen, LogicalConsequence n agent σ (.var v) = .ok gen ∧
      Solutions n agent gen =
        .ok (Unifier.set σ v (.bool true) ::
          agent.beliefs.map (fun belief => Unifier.set σ v belief.toTerm)) ∧
      (Unifier.set σ v (.bool true) ::
          agent.beliefs.map (fun belief => Unifier.set σ v belief.toTerm)).length =
        1 + agent.beliefs.length := by
  obtain ⟨j, rfl⟩ : ∃ j, n = j + 1 := ⟨n - 1, by omega⟩
  refine ⟨.var v agent.beliefs σ false, ?_, var_goal_solutions agent σ v (j + 1) hn, ?_⟩
  · simp [LogicalConsequence, Unifier.apply, hv, LogicalConsequenceSubstituted]
  · simp [Nat.add_comm]

theorem variable_goal_solutions_witness :
    ∃ gen, LogicalConsequence 4 ⟨"bob", [⟨"f", []⟩], [], [], []⟩ ([] : Unifier Int) (.var "Y") = .ok gen ∧
      Solutions 4 ⟨"bob", [⟨"f", []⟩], [], [], []⟩ gen =
        .ok (Unifier.set [] "Y" (.bool true) ::
          (⟨"bob", [⟨"f", []⟩], [], [], []⟩ : Agent Int).beliefs.map
            (fun belief => Unifier.set [] "Y" belief.toTerm)) ∧
      (Unifier.set ([] : Unifier Int) "Y" (.bool true) ::
          (⟨"bob", [⟨"f", []⟩], [], [], []⟩ : Agent Int).beliefs.map
            (fun belief => Unifier.set [] "Y" belief.toTerm)).length =
        1 + (⟨"bob", [⟨"f", []⟩], [], [], []⟩ : Agent Int).beliefs.length :=
  variable_goal_solutions ⟨"bob", [⟨"f", []⟩], [], [], []⟩ [] "Y" rfl 4 (by decide)

/-- C18, at the failing inputs: the generator of Not(p) answers true on every
call when the agent has no belief p, the second and third call included, and
when the agent believes p it answers false on the first call and true on the
calls after it; the class has no flag that ends the enumeration. -/
theorem negation_answers_true_again :
    LogicalConsequence 4 ⟨"bob", [], [], [], []⟩ ([] : Unifier Int) (.unop .not (.atom "p" [])) =
      .ok (LogicalConsequenceSubstituted ⟨"bob", [], [], [], []⟩ [] (.unop .not (.atom "p" []))) ∧
    Answers 4 ⟨"bob", [], [], [], []⟩ 3
      (LogicalConsequenceSubstituted ⟨"bob", [], [], [], []⟩ ([] : Unifier Int) (.unop .not (.atom "p" [])))
      = .ok [true, true, true] ∧
    Solutions 3 ⟨"bob", [⟨"p", []⟩], [], [], []⟩
      (LogicalConsequenceSubstituted ⟨"bob", [⟨"p", []⟩], [], [], []⟩ ([] : Unifier Int) (.atom "p" []))
      = .ok [[]] ∧
    Answers 4 ⟨"bob", [⟨"p", []⟩], [], [], []⟩ 3
      (LogicalConsequenceSubstituted ⟨"bob", [⟨"p", []⟩], [], [], []⟩ ([] : Unifier Int)
        (.unop .not (.atom "p" [])))
      = .ok [false, true, true] := by
  refine ⟨rfl, by decide, by decide, by decide⟩

/-- C19: for all goals a and b and every incoming unifier σ, the generator of
the conjunction And(a, b) under σ yields a sequence of unifiers iff the
nested iteration returns that sequence: the concatenation, over the solutions
σa of the generator of a under σ, in order, of the solution sequences of the
generator of the goal apply(σa, b) under σa. -/
theorem conjunction_is_nested_iteration {D : Type} [DecidableEq D] [DoubleOps D]
    (agent : Agent D) (σ : Unifier D) (a b : Term D) (sols : List (Unifier D)) :
    Yields agent (LogicalConsequenceSubstituted agent σ (.binop .and a b)) sols ↔
      ∃ n, SpecConjunctionSolutions n agent σ a b = .ok sols := by
  constructor
  · rintro ⟨n, hn⟩
    have h := conjunction_sound agent b n _ none false sols hn
    simp only [ConjunctionYields, Bool.false_eq_true, if_false] at h
    obtain ⟨sas, ⟨k, hk⟩, m, hm⟩ := h
    refine ⟨max k m, ?_⟩
    simp only [SpecConjunctionSolutions, solutions_mono hk (Nat.le_max_left k m)]
    exact specNested_mono (Nat.le_max_right k m) sas sols hm
  · rintro ⟨n, hn⟩
    simp only [SpecConjunctionSolutions] at hn
    cases hs : Solutions n agent (LogicalConsequenceSubstituted agent σ a) with
    | error e => simp [hs] at hn
    | ok sas =>
      simp only [hs] at hn
      exact conjunction_complete_left agent b sas _ sols none ⟨n, hs⟩ ⟨n, hn⟩

/-- C20: for any two distinct named variables A and B and any ground atom c,
the constructors build And(Unify(A, B), Unify(B, c)), the generator that
LogicalConsequence constructs for it under the empty unifier answers true on
its first call, and applying the unifier it then reports to A and to B gives
c in both cases. -/
theorem chained_unification_binds_both {D : Type} [DecidableEq D] [DoubleOps D]
    (agent : Agent D) (A B f : String) (ts : List (Term D)) (hAB : A ≠ B) (hA : A ≠ "_")
    (hB : B ≠ "_") (hc : IsGroundList ts = true) :
    ∃ u1 u2 t n gen gen1,
      OpUnify n (.var A) (.var B) = .ok u1 ∧ OpUnify n (.var B) (.atom f ts) = .ok u2 ∧
      OpAnd u1 u2 = .ok t ∧
      LogicalConsequence n agent [] t = .ok gen ∧
      Next n agent gen = .ok (true, gen1) ∧
      Unifier.apply n (Current gen1) (.var A) = .ok (.atom f ts) ∧
      Unifier.apply n (Current gen1) (.var B) = .ok (.atom f ts) := by
  have key : ∃ n gen gen1,
      LogicalConsequence n agent []
        (.binop .and (.binop .unify (.var A) (.var B)) (.binop .unify (.var B) (.atom f ts)))
        = .ok gen ∧
      Next n agent gen = .ok (true, gen1) ∧
      Unifier.apply n (Current gen1) (.var A) = .ok (.atom f ts) ∧
      Unifier.apply n (Current gen1) (.var B) = .ok (.atom f ts) := by
    by_cases hlt : strLt A B = true
    · exact chain_first_solution agent A B f ts hAB hA hB hc A B hAB (Or.inl rfl) (Or.inr rfl)
        (fun n => by rw [unify_var_var_nil n A B hAB, if_pos hlt])
    · exact chain_first_solution agent A B f ts hAB hA hB hc B A (Ne.symm hAB) (Or.inr rfl)
        (Or.inl rfl) (fun n => by rw [unify_var_var_nil n A B hAB, if_neg hlt])
  obtain ⟨n, gen, gen1, h1, h2, h3, h4⟩ := key
  exact ⟨_, _, _, n, gen, gen1, opUnifyWith_eq _ _ _, opUnifyWith_eq _ _ _, rfl, h1, h2, h3, h4⟩

theorem chained_unification_binds_both_witness :
    ∃ u1 u2 t n gen gen1,
      OpUnify n (.var "A") (.var "B") = .ok u1 ∧
      OpUnify n (.var "B") (.atom "c" [] : Term Int) = .ok u2 ∧
      OpAnd u1 u2 = .ok t ∧
      LogicalConsequence n ⟨"bob", [], [], [], []⟩ [] t = .ok gen ∧
      Next n ⟨"bob", [], [], [], []⟩ gen = .ok (true, gen1) ∧
      Unifier.apply n (Current gen1) (.var "A") = .ok (.atom "c" []) ∧
      Unifier.apply n (Current gen1) (.var "B") = .ok (.atom "c" []) :=
  chained_unification_binds_both ⟨"bob", [], [], [], []⟩ "A" "B" "c" [] (by decide) (by decide)
    (by decide) rfl

/-! ## The claims on the smart constructors and on unification, continued -/

/-- C30, counterexample: in the numbers with a NaN, at n = NaN the list
[n, n + 1] does not unify with [X, OpPlus(X, 1)]: X is bound to NaN, the second
pair is re-substituted to the number NaN + 1, which is NaN, and the comparison
of the two Num literals is operator==, false on NaN. -/
theorem list_unification_fails_at_nan :
    DoubleOps.add (none : Option Int) (some 1) = none ∧
    OpPlus (.var "X") (.num (some 1) : Term (Option Int)) =
      .ok (.binop .plus (.var "X") (.num (some 1))) ∧
    ∀ k : Nat, ∃ σ, Unify (k + 4)
      (.list [.num (none : Option Int), .num (DoubleOps.add none (some 1))])
      (.list [.var "X", .binop .plus (.var "X") (.num (some 1))]) [] = .ok (false, σ) := by
  refine ⟨rfl, rfl, fun k => ⟨[("X", .num none)], ?_⟩⟩
  simp [Unify, PrepareTerm, Term.which, UnifyListsWith, UnifyListsLoop, Unifier.apply,
    Unifier.find, Unifier.set, ContainsVariable, BinOp.constructWith, OpPlus, doubleEq,
    DoubleOps.add, DoubleOps.isNaN]

/-- C30, amended: for every number n and every number taken for 1 such that
n + 1 is not NaN, OpPlus(X, 1) is built, and unifying [n, n + 1] with
[X, OpPlus(X, 1)] from the empty unifier returns true with the single binding
of X to n; OpMinus(X, 1) is built, and unifying [a, b] with [OpMinus(X, 1), X]
returns false for all numbers a and b, leaving the unifier empty. -/
theorem list_unification_left_to_right {D : Type} [DecidableEq D] [DoubleOps D]
    (n one a b : D) (k : Nat) (hn : DoubleOps.isNaN (DoubleOps.add n one) = false) :
    (∃ t, OpPlus (.var "X") (.num one) = .ok t ∧
      Unify (k + 4) (.list [.num n, .num (DoubleOps.add n one)]) (.list [.var "X", t]) [] =
        .ok (true, [("X", .num n)])) ∧
    (∃ t, OpMinus (.var "X") (.num one) = .ok t ∧
      Unify (k + 2) (.list [.num a, .num b]) (.list [t, .var "X"]) [] = .ok (false, [])) := by
  refine ⟨⟨.binop .plus (.var "X") (.num one), rfl, ?_⟩,
    ⟨.binop .minus (.var "X") (.num one), rfl, ?_⟩⟩
  · simp [Unify, PrepareTerm, Term.which, UnifyListsWith, UnifyListsLoop, Unifier.apply,
      Unifier.find, Unifier.set, ContainsVariable, BinOp.constructWith, OpPlus, doubleEq, hn]
  · simp [Unify, PrepareTerm, Term.which, UnifyListsWith, BinOp.tag]

theorem list_unification_left_to_right_witness :
    (∃ t, OpPlus (.var "X") (.num (1 : Int)) = .ok t ∧
      Unify (0 + 4) (.list [.num 1, .num (DoubleOps.add 1 1)]) (.list [.var "X", t]) [] =
        .ok (true, [("X", .num 1)])) ∧
    (∃ t, OpMinus (.var "X") (.num (1 : Int)) = .ok t ∧
      Unify (0 + 2) (.list [.num 1, .num 2]) (.list [t, .var "X"]) [] = .ok (false, [])) :=
  list_unification_left_to_right 1 1 1 2 0 rfl

/-- C31, at the failing input: OpNegative applied to the residual Neg(y)
returns Pos(Neg(y)), the unary plus around the whole operand, which is not
Pos(y). -/
theorem opNegative_wraps_the_negation {D : Type} [DoubleOps D] (y : Term D) :
    OpNegative (.unop .negative y) = .ok (.unop .positive (.unop .negative y)) ∧
    OpNegative (.unop .negative y) ≠ .ok (.unop .positive y) ∧
    OpNegative (.unop .negative (.var "X") : Term Int) =
      .ok (.unop .positive (.unop .negative (.var "X"))) := by
  refine ⟨rfl, ?_, rfl⟩
  intro h
  have h1 : OpNegative (.unop .negative y) = .ok (.unop .positive (.unop .negative y)) := rfl
  rw [h1] at h
  injection h with h2
  injection h2 with _ h3
  have := congrArg sizeOf h3
  simp at this

/-- C32, as stated, fails: OpNot applied to Not(Not(X)) returns Not(X), which
is not X. -/
theorem opNot_of_double_negation_is_not_the_operand :
    OpNot (.unop .not (.unop .not (.var "X")) : Term Int) = .ok (.unop .not (.var "X")) ∧
    OpNot (.unop .not (.unop .not (.var "X")) : Term Int) ≠ .ok (.var "X") := by
  decide

/-- C32, amended: for every term y, OpNot applied to an operand of the shape
Not(Not(y)) returns Not(y). -/
theorem opNot_of_double_negation {D : Type} (y : Term D) :
    OpNot (.unop .not (.unop .not y)) = .ok (.unop .not y) := by
  simp [OpNot, Term.which, UnOp.tag]

/-- C33: OpAnd equals the reference definition of the specification on all
operands. -/
theorem opAnd_equals_reference {D : Type} (a b : Term D) : OpAnd a b = SpecAnd a b :=
  opAnd_eq_spec a b

/-- C34, as stated, fails: OpNeq of the variable X and itself is the literal
false, and OpNeq of the number 1 and the list [X], which contains a variable,
is the literal true. -/
theorem opNeq_literal_despite_variable :
    OpNeq (.var "X") (.var "X" : Term Int) = .ok (.bool false) ∧
    ContainsVariable "X" (.list [.var "X"] : Term Int) = true ∧
    OpNeq (.num 1) (.list [.var "X"] : Term Int) = .ok (.bool true) ∧
    OpNeq (.list [.num 1, .var "X"]) (.list [.num 2, .var "X"] : Term Int) = .ok (.bool true) := by
  decide

/-- C34, amended: OpNeq(a, b) is the residual Neq(a, b) when one operand is a
variable and the other is not that same variable, when one is a Num literal
and the other an arithmetic residual, and when one is a Bool literal and the
other a logical residual. -/
theorem opNeq_residual {D : Type} [DecidableEq D] [DoubleOps D] (a b : Term D)
    (h : ((a.isVariable = true ∨ b.isVariable = true) ∧ a ≠ b) ∨
      (a.which = .kDouble ∧ b.isArithmeticResidual = true) ∨
      (a.isArithmeticResidual = true ∧ b.which = .kDouble) ∨
      (a.which = .kBool ∧ b.isLogicalResidual = true) ∨
      (a.isLogicalResidual = true ∧ b.which = .kBool)) :
    OpNeq a b = .ok (.binop .neq a b) := by
  rcases h with ⟨h1 | h1, hne⟩ | ⟨h1, h2⟩ | ⟨h1, h2⟩ | ⟨h1, h2⟩ | ⟨h1, h2⟩
  · cases a <;> simp [Term.isVariable] at h1
    exact opNeq_var_left _ b (fun e => hne e.symm)
  · cases b <;> simp [Term.isVariable] at h1
    exact opNeq_var_right _ a hne
  · rcases a with _ | _ | _ | _ | _ | _ | ⟨o, _⟩ | ⟨o, _, _⟩ <;>
      (try cases o) <;> simp [Term.which, UnOp.tag, BinOp.tag] at h1
    rcases b with _ | _ | _ | _ | _ | _ | ⟨o, _⟩ | ⟨o, _, _⟩ <;> (try cases o) <;>
      simp [Term.isArithmeticResidual, Term.which, UnOp.tag, BinOp.tag] at h2 <;>
      simp [OpNeq, Term.which, UnOp.tag, BinOp.tag]
  · rcases b with _ | _ | _ | _ | _ | _ | ⟨o, _⟩ | ⟨o, _, _⟩ <;>
      (try cases o) <;> simp [Term.which, UnOp.tag, BinOp.tag] at h2
    rcases a with _ | _ | _ | _ | _ | _ | ⟨o, _⟩ | ⟨o, _, _⟩ <;> (try cases o) <;>
      simp [Term.isArithmeticResidual, Term.which, UnOp.tag, BinOp.tag] at h1 <;>
      simp [OpNeq, Term.which, UnOp.tag, BinOp.tag]
  · rcases a with _ | _ | _ | _ | _ | _ | ⟨o, _⟩ | ⟨o, _, _⟩ <;>
      (try cases o) <;> simp [Term.which, UnOp.tag, BinOp.tag] at h1
    rcases b with _ | _ | _ | _ | _ | _ | ⟨o, _⟩ | ⟨o, _, _⟩ <;> (try cases o) <;>
      simp [Term.isLogicalResidual, Term.which, UnOp.tag, BinOp.tag] at h2 <;>
      simp [OpNeq, Term.which, UnOp.tag, BinOp.tag]
  · rcases b with _ | _ | _ | _ | _ | _ | ⟨o, _⟩ | ⟨o, _, _⟩ <;>
      (try cases o) <;> simp [Term.which, UnOp.tag, BinOp.tag] at h2
    rcases a with _ | _ | _ | _ | _ | _ | ⟨o, _⟩ | ⟨o, _, _⟩ <;> (try cases o) <;>
      simp [Term.isLogicalResidual, Term.which, UnOp.tag, BinOp.tag] at h1 <;>
      simp [OpNeq, Term.which, UnOp.tag, BinOp.tag]

theorem opNeq_residual_witness :
    OpNeq (.var "X") (.num (5 : Int)) = .ok (.binop .neq (.var "X") (.num 5)) :=
  opNeq_residual (.var "X") (.num 5) (Or.inl ⟨Or.inl rfl, by decide⟩)

/-- C35: OpDeconstruct with a variable on the left returns the residual
Deconstruct iff the right operand is a variable or a list of exactly two
elements whose first is a zero-argument atom or a variable and whose second
is a list or a variable; it returns the literal false for every other list;
it raises a domain error iff the right operand is neither a list nor a
variable, as it does for every left operand that is neither an atom nor a
variable. -/
theorem opDeconstruct_classifies_right_operand {D : Type} [DecidableEq D] [DoubleOps D]
    (n : Nat) (x : String) (b : Term D) :
    (OpDeconstruct n (.var x) b = .ok (.binop .deconstruct (.var x) b) ↔
      SpecDeconstructShape b = true) ∧
    ((b.which = .kList ∧ SpecDeconstructShape b = false) ↔
      OpDeconstruct n (.var x) b = .ok (.bool false)) ∧
    (OpDeconstruct n (.var x) b = .error .domain_error ↔
      (b.which ≠ .kList ∧ b.which ≠ .kVariable)) ∧
    (∀ a : Term D, a.which ≠ .kBeliefAtom ∧ a.which ≠ .kVariable →
      OpDeconstruct n a b = .error .domain_error) := by
  have hvar : b.which = .kVariable → SpecDeconstructShape b = true := by
    intro h
    rcases b with _ | _ | _ | _ | _ | _ | ⟨o, _⟩ | ⟨o, _, _⟩ <;>
      (try cases o) <;> simp [Term.which, UnOp.tag, BinOp.tag] at h
    rfl
  have hshape : SpecDeconstructShape b = true → b.which = .kList ∨ b.which = .kVariable := by
    intro h
    rcases b with _ | _ | _ | _ | _ | _ | ⟨o, _⟩ | ⟨o, _, _⟩ <;>
      simp [SpecDeconstructShape] at h <;> simp [Term.which]
  refine ⟨?_, ?_, ?_, fun a h => opDeconstruct_other_left n a b h.1 h.2⟩
  · rw [opDeconstruct_var_left]
    by_cases hs : SpecDeconstructShape b = true
    · simp [hs]
    · simp only [hs, Bool.false_eq_true, if_false, iff_false]
      split <;> simp
  · rw [opDeconstruct_var_left]
    by_cases hs : SpecDeconstructShape b = true
    · simp [hs]
    · by_cases hl : b.which = .kList
      · simp [hs, hl]
      · simp [hs, hl]
  · rw [opDeconstruct_var_left]
    by_cases hs : SpecDeconstructShape b = true
    · simp only [hs, if_true]
      constructor
      · intro h; cases h
      · intro h
        rcases hshape hs with h1 | h1
        · exact absurd h1 h.1
        · exact absurd h1 h.2
    · by_cases hl : b.which = .kList
      · simp [hs, hl]
      · simp only [hs, Bool.false_eq_true, if_false, hl, true_iff]
        exact ⟨hl, fun hv => hs (hvar hv)⟩

/-- C36: for all terms l and r built only from Bool, Num, Str, List, Atom and
named variables, if Unify started from the empty unifier returns true, then
the bindings of the resulting unifier are acyclic, applying it to any term
of that kind returns, and applying it to l and to r returns the same term. -/
theorem unify_sound_and_acyclic {D : Type} [DecidableEq D] [DoubleOps D] (l r : Term D)
    (n : Nat) (σ : Unifier D) (hl : NamedFirstOrder l) (hr : NamedFirstOrder r)
    (h : Unify n l r [] = .ok (true, σ)) :
    σ.Acyclic ∧
    (∀ t : Term D, FirstOrder t → ∃ k t1, ∀ m, k ≤ m → Unifier.apply m σ t = .ok t1) ∧
    ∃ k t, ∀ m, k ≤ m → Unifier.apply m σ l = .ok t ∧ Unifier.apply m σ r = .ok t := by
  obtain ⟨hfo, hacyc, _⟩ := unify_nil_facts l r hl hr n true σ h
  refine ⟨hacyc, fun t ht => ?_, apply_agrees_after_unify l r n σ hl hr h⟩
  obtain ⟨k, t1, hk⟩ := apply_terminates σ hfo hacyc t ht
  exact ⟨k, t1, fun m hm => apply_mono hk hm⟩

theorem unify_sound_and_acyclic_witness :
    Unifier.Acyclic [("X", (.num 1 : Term Int))] ∧
    (∀ t : Term Int, FirstOrder t →
      ∃ k t1, ∀ m, k ≤ m → Unifier.apply m [("X", .num 1)] t = .ok t1) ∧
    ∃ k t, ∀ m, k ≤ m →
      Unifier.apply m [("X", .num 1)] (.atom "f" [.var "X", .var "X"] : Term Int) = .ok t ∧
      Unifier.apply m [("X", .num 1)] (.atom "f" [.num 1, .var "X"] : Term Int) = .ok t :=
  unify_sound_and_acyclic (.atom "f" [.var "X", .var "X"]) (.atom "f" [.num 1, .var "X"]) 5
    [("X", .num 1)] ⟨by decide, by decide⟩ ⟨by decide, by decide⟩ (by decide)

/-- C37, as stated, fails: unifying [X, 1] with [1, 2] from the empty unifier
returns false and leaves X bound to 1. -/
theorem failed_unification_keeps_earlier_bindings :
    Unify 3 (.list [.var "X", .num 1]) (.list [.num 1, .num (2 : Int)]) [] =
      .ok (false, [("X", .num 1)]) := by
  decide

/-- C37, amended: if Unify returns false on two terms that, after a bound
variable at the root is replaced by its binding, are not two lists and not
two atoms, then the unifier is left exactly as it was. -/
theorem failed_unification_at_root_is_atomic {D : Type} [DecidableEq D] [DoubleOps D]
    (n : Nat) (l r : Term D) (σ σ1 : Unifier D) (h : Unify n l r σ = .ok (false, σ1))
    (hlist : ¬ ((PrepareTerm σ l).2.which = .kList ∧ (PrepareTerm σ r).2.which = .kList))
    (hatom : ¬ ((PrepareTerm σ l).2.which = .kBeliefAtom ∧
      (PrepareTerm σ r).2.which = .kBeliefAtom)) : σ1 = σ :=
  unify_false_at_root n l r σ σ1 h hlist hatom

theorem failed_unification_at_root_is_atomic_witness :
    [("X", (.num 1 : Term Int))] = [("X", .num 1)] :=
  failed_unification_at_root_is_atomic 2 (.var "X") (.num 2) [("X", .num 1)] [("X", .num 1)]
    (by decide) (by decide) (by decide)

/-- C38, at the failing inputs: unifying the anonymous variable with the
variable X from the empty unifier stores the key `_`, bound to X; unifying it
with the variable _A binds _A to the term Var `_`; and unifying [_, _] with
[X, Y] makes the second wildcard stand for X, so that Y is bound to X. -/
theorem wildcard_is_persisted_between_variables :
    Unify 1 (.var "_") (.var "X") ([] : Unifier Int) = .ok (true, [("_", .var "X")]) ∧
    Unify 1 (.var "X") (.var "_") ([] : Unifier Int) = .ok (true, [("_", .var "X")]) ∧
    Unify 1 (.var "_") (.var "_A") ([] : Unifier Int) = .ok (true, [("_A", .var "_")]) ∧
    Unify 4 (.list [.var "_", .var "_"]) (.list [.var "X", .var "Y"]) ([] : Unifier Int) =
      .ok (true, [("_", .var "X"), ("Y", .var "X")]) ∧
    Unify 1 (.var "_") (.num 1) ([] : Unifier Int) = .ok (true, []) := by
  refine ⟨by decide, by decide, by decide, by decide, by decide⟩

/-- C39, at the failing input: for every term y, OpNeq of the residual Neg(y)
and itself is the literal true and OpEq is the literal false; the switch for
an arithmetic wrapper on the left has no case for a negation on the right.
For the wrappers Pos and Plus the answer is the residual. -/
theorem negation_differs_from_itself {D : Type} [DecidableEq D] [DoubleOps D] (y : Term D) :
    OpNeq (.unop .negative y) (.unop .negative y) = .ok (.bool true) ∧
    OpEq (.unop .negative y) (.unop .negative y) = .ok (.bool false) ∧
    OpNeq (.unop .positive y) (.unop .positive y) =
      .ok (.binop .neq (.unop .positive y) (.unop .positive y)) ∧
    OpNeq (.num (1 : Int)) (.unop .negative (.var "X")) =
      .ok (.binop .neq (.num 1) (.unop .negative (.var "X"))) ∧
    OpNeq (.unop .negative (.var "X")) (.unop .negative (.var "X") : Term Int) =
      .ok (.bool true) := by
  refine ⟨rfl, rfl, rfl, rfl, rfl⟩
/-! ## Claims about the interpreter step Interpreter::Run -/

/-- C22, counterexample: on an agent whose only intention is an empty stack
Run returns true, and afterwards the agent has no intention at all, so no
intention stack is non-empty after the step. -/
theorem run_true_with_no_intention_left :
    ∃ agent1 : Agent Int,
      (∀ stale : IntentionFrame Int → GoalType,
        Run 1 (fun _ => "A") stale (⟨"bob", [], [[]], [], []⟩ : Agent Int) =
          .ok (true, agent1)) ∧
      agent1.intents = [] :=
  ⟨⟨"bob", [], [], [], []⟩, fun _ => rfl, rfl⟩

/-- C22, amended: whenever Run returns, it returns true iff the agent had at
least one intention before the step, empty or not; on an agent without
intentions it returns false and leaves the agent unchanged. -/
theorem run_true_iff_intention_before {D : Type} [DecidableEq D] [DoubleOps D] (n : Nat)
    (names : Nat → String) (stale : IntentionFrame D → GoalType) (agent agent1 : Agent D)
    (more : Bool) (h : Run n names stale agent = .ok (more, agent1)) :
    (more = true ↔ agent.intents ≠ []) ∧
    (agent.intents = [] → more = false ∧ agent1 = agent) := by
  unfold Run at h
  rcases hi : agent.intents with _ | ⟨intent, intents⟩
  · rw [hi] at h
    simp only [Except.ok.injEq, Prod.mk.injEq] at h
    obtain ⟨h1, h2⟩ := h
    subst h1 h2
    simp
  · rw [hi] at h
    suffices hm : more = true by simp [hm]
    rcases intent with _ | ⟨frame0, frames⟩
    · simp only [Except.ok.injEq, Prod.mk.injEq] at h
      exact h.1.symm
    · simp only at h
      cases hsel : SelectFrame n agent frame0 with
      | error e => rw [hsel] at h; cases h
      | ok frame =>
        rw [hsel] at h
        simp only at h
        by_cases he : frame.external = true
        · rw [if_pos he] at h
          by_cases hg : stale frame = .kAchievement
          · rw [if_pos hg] at h; cases h
          · rw [if_neg hg] at h
            simp only [Except.ok.injEq, Prod.mk.injEq] at h
            exact h.1.symm
        · rw [if_neg he] at h
          cases hb : frame.body.get? frame.body_it with
          | none =>
            rw [hb] at h
            simp only at h
            by_cases hend : frame.body_it = frame.body.length
            · rw [if_pos hend] at h
              unfold FinishFrame at h
              cases h1 : Unifier.apply n frame.unifier frame.trigger.toTerm with
              | error e => rw [h1] at h; cases h
              | ok completed =>
                rw [h1] at h
                simp only at h
                cases h2 : Anonymize n names completed with
                | error e => rw [h2] at h; cases h
                | ok trig =>
                  rw [h2] at h
                  simp only at h
                  rcases frames with _ | ⟨caller, below⟩
                  · simp only [Except.ok.injEq, Prod.mk.injEq] at h
                    exact h.1.symm
                  · simp only at h
                    cases h3 : caller.previous with
                    | none => rw [h3] at h; cases h
                    | some formula =>
                      rw [h3] at h
                      simp only at h
                      cases h4 : Unifier.apply n caller.unifier formula.formula with
                      | error e => rw [h4] at h; cases h
                      | ok cc =>
                        rw [h4] at h
                        simp only at h
                        cases h5 : Unify n cc trig caller.unifier with
                        | error e => rw [h5] at h; cases h
                        | ok p =>
                          rw [h5] at h
                          simp only [Except.ok.injEq, Prod.mk.injEq] at h
                          exact h.1.symm
            · rw [if_neg hend] at h; cases h
          | some bf =>
            rw [hb] at h
            simp only at h
            have hadd : ∀ beliefs, AddStep n agent beliefs frame frames intents bf.formula =
                .ok (more, agent1) → more = true := by
              intro beliefs ha
              unfold AddStep at ha
              cases h1 : Unifier.apply n frame.unifier bf.formula with
              | error e => rw [h1] at ha; cases ha
              | ok s =>
                rw [h1] at ha
                simp only at ha
                by_cases hw : bf.formula.which = .kBeliefAtom
                · rw [if_pos hw] at ha
                  cases s with
                  | atom f ts =>
                    simp only at ha
                    by_cases hgr : IsGroundList ts = true
                    · rw [if_pos hgr] at ha
                      simp only [Except.ok.injEq, Prod.mk.injEq] at ha
                      exact ha.1.symm
                    · rw [if_neg hgr] at ha; cases ha
                  | _ => cases ha
                · rw [if_neg hw] at ha; cases ha
            cases hft : bf.formula_type with
            | kTerm =>
              rw [hft] at h
              simp only at h
              cases h1 : LogicalConsequence n agent frame.unifier bf.formula with
              | error e => rw [h1] at h; cases h
              | ok gen =>
                rw [h1] at h
                simp only at h
                cases h2 : Next n agent gen with
                | error e => rw [h2] at h; cases h
                | ok p =>
                  obtain ⟨b, gen1⟩ := p
                  rw [h2] at h
                  cases b with
                  | true =>
                    simp only [Except.ok.injEq, Prod.mk.injEq] at h
                    exact h.1.symm
                  | false =>
                    simp only at h
                    cases h3 : Unifier.apply n frame.unifier bf.formula with
                    | error e => rw [h3] at h; cases h
                    | ok s =>
                      rw [h3] at h
                      simp only [Except.ok.injEq, Prod.mk.injEq] at h
                      exact h.1.symm
            | kReplace =>
              rw [hft] at h
              simp only at h
              cases h1 : RemoveBeliefs n bf.formula agent.beliefs with
              | error e => rw [h1] at h; cases h
              | ok kept =>
                rw [h1] at h
                exact hadd kept h
            | kAdd =>
              rw [hft] at h
              exact hadd _ h
            | kRemove =>
              rw [hft] at h
              simp only at h
              cases h1 : Unifier.apply n frame.unifier bf.formula with
              | error e => rw [h1] at h; cases h
              | ok pattern =>
                rw [h1] at h
                simp only at h
                cases h2 : RemoveBeliefs n pattern agent.beliefs with
                | error e => rw [h2] at h; cases h
                | ok kept =>
                  rw [h2] at h
                  simp only [Except.ok.injEq, Prod.mk.injEq] at h
                  exact h.1.symm
            | kAchieve =>
              rw [hft] at h
              simp only at h
              cases h1 : Unifier.apply n frame.unifier bf.formula with
              | error e => rw [h1] at h; cases h
              | ok s =>
                rw [h1] at h
                simp only at h
                cases h2 : Anonymize n names s with
                | error e => rw [h2] at h; cases h
                | ok a =>
                  rw [h2] at h
                  simp only at h
                  by_cases hw : bf.formula.which = .kBeliefAtom
                  · rw [if_pos hw] at h
                    cases a with
                    | atom f ts =>
                      simp only [Except.ok.injEq, Prod.mk.injEq] at h
                      exact h.1.symm
                    | _ => cases h
                  · rw [if_neg hw] at h; cases h
            | kAchieveLater => rw [hft] at h; cases h
            | kTest => rw [hft] at h; cases h

theorem run_true_iff_intention_before_witness :
    (true = true ↔ (⟨"bob", [], [[]], [], []⟩ : Agent Int).intents ≠ []) ∧
    ((⟨"bob", [], [[]], [], []⟩ : Agent Int).intents = [] →
      true = false ∧ (⟨"bob", [], [], [], []⟩ : Agent Int) = ⟨"bob", [], [[]], [], []⟩) :=
  run_true_iff_intention_before 1 (fun _ => "A") IntentionFrame.goal_type
    ⟨"bob", [], [[]], [], []⟩
    ⟨"bob", [], [], [], []⟩ true rfl
/-- C24: for a front frame that, after the plan selection at the start of
the call, is not external and has its cursor on an Add formula whose
substitution through the unifier of the frame returns: if the term of the
formula is an atom and the substituted term is ground, Run returns true, the
substituted atom is appended to the beliefs, a new intention with one
external frame of kind (Addition, Belief) for that atom is pushed at the
front of the intentions, and the cursor of the frame is advanced by one; if
the term is not an atom, or the substituted atom is not ground, Run raises a
runtime error. The frame is the front frame itself when that is not
external, and the front frame with the unifier and the body of the selected
plan when it is external. -/
theorem add_step {D : Type} [DecidableEq D] [DoubleOps D] (n : Nat) (names : Nat → String)
    (stale : IntentionFrame D → GoalType) (agent : Agent D) (frame0 frame : IntentionFrame D)
    (frames : List (IntentionFrame D)) (intents : List (List (IntentionFrame D)))
    (formula substituted : Term D)
    (hi : agent.intents = (frame0 :: frames) :: intents)
    (hsel : SelectFrame n agent frame0 = .ok frame) (he : frame.external = false)
    (hb : frame.body.get? frame.body_it = some ⟨.kAdd, formula⟩)
    (hs : Unifier.apply n frame.unifier formula = .ok substituted) :
    (formula.which = .kBeliefAtom → IsGround substituted = true →
      ∃ functor terms, substituted = .atom functor terms ∧
        Run n names stale agent = .ok (true, { agent with
          beliefs := agent.beliefs ++ [⟨functor, terms⟩],
          intents := [⟨.kAddition, .kBelief, ⟨functor, terms⟩, [], 0, [], true⟩] ::
            ({ frame with body_it := frame.body_it + 1 } :: frames) :: intents })) ∧
    (formula.which ≠ .kBeliefAtom → Run n names stale agent = .error .runtime_error) ∧
    (formula.which = .kBeliefAtom → IsGround substituted = false →
      Run n names stale agent = .error .runtime_error) := by
  have hrun : Run n names stale agent =
      AddStep n agent agent.beliefs frame frames intents formula := by
    unfold Run
    rw [hi]
    simp only [hsel, he, Bool.false_eq_true, if_false, hb]
  rw [hrun]
  unfold AddStep
  rw [hs]
  refine ⟨?_, ?_, ?_⟩
  · intro hw hg
    obtain ⟨f, ts, hf⟩ := which_atom_inv hw
    subst hf
    obtain ⟨ts1, e1, _⟩ := apply_atom_inv hs
    subst e1
    refine ⟨f, ts1, rfl, ?_⟩
    have hg1 : IsGroundList ts1 = true := by simpa [IsGround] using hg
    simp only [hw, if_true, hg1]
    rfl
  · intro hw
    simp only [hw, if_false]
  · intro hw hg
    obtain ⟨f, ts, hf⟩ := which_atom_inv hw
    subst hf
    obtain ⟨ts1, e1, _⟩ := apply_atom_inv hs
    subst e1
    have hg1 : IsGroundList ts1 = false := by simpa [IsGround] using hg
    simp only [hw, if_true, hg1, Bool.false_eq_true, if_false]

theorem add_step_witness :
    Run 6 (fun _ => "A") IntentionFrame.goal_type (⟨"bob", [⟨"start", [.num 5]⟩],
        [[⟨.kAddition, .kBelief, ⟨"start", [.num 5]⟩, [], 0, [], true⟩]], [],
        [⟨.kAddition, .kBelief, ⟨"start", [.var "X"]⟩, .bool true,
          [⟨.kAdd, .atom "seen" [.var "X"]⟩]⟩]⟩ : Agent Int) =
      .ok (true, ⟨"bob", [⟨"start", [.num 5]⟩, ⟨"seen", [.num 5]⟩],
        [[⟨.kAddition, .kBelief, ⟨"seen", [.num 5]⟩, [], 0, [], true⟩],
         [⟨.kAddition, .kBelief, ⟨"start", [.num 5]⟩, [⟨.kAdd, .atom "seen" [.var "X"]⟩], 1,
          [("X", .num 5)], false⟩]], [],
        [⟨.kAddition, .kBelief, ⟨"start", [.var "X"]⟩, .bool true,
          [⟨.kAdd, .atom "seen" [.var "X"]⟩]⟩]⟩) := by
  obtain ⟨functor, terms, h1, h2⟩ := (add_step 6 (fun _ => "A") IntentionFrame.goal_type
      (⟨"bob", [⟨"start", [.num 5]⟩],
        [[⟨.kAddition, .kBelief, ⟨"start", [.num 5]⟩, [], 0, [], true⟩]], [],
        [⟨.kAddition, .kBelief, ⟨"start", [.var "X"]⟩, .bool true,
          [⟨.kAdd, .atom "seen" [.var "X"]⟩]⟩]⟩ : Agent Int)
      ⟨.kAddition, .kBelief, ⟨"start", [.num 5]⟩, [], 0, [], true⟩
      ⟨.kAddition, .kBelief, ⟨"start", [.num 5]⟩, [⟨.kAdd, .atom "seen" [.var "X"]⟩], 0,
          [("X", .num 5)], false⟩ [] [] (.atom "seen" [.var "X"]) (.atom "seen" [.num 5])
      rfl rfl rfl rfl (by decide)).1 rfl (by decide)
  cases h1
  exact h2

/-- C25: for a front frame that, after the plan selection at the start of
the call, is not external and has its cursor on a Remove formula with term t,
when the substitution of t through the unifier of the frame returns a pattern
and the unification of the pattern with every belief returns: Run returns
true, the beliefs afterwards are the old beliefs without those that unify
with the pattern from the empty unifier, in the old order, no remaining
belief unifies with the pattern, the cursor of the frame is advanced by one
and nothing else changes. The frame is the front frame itself when that is
not external, and the front frame with the unifier and the body of the
selected plan when it is external. -/
theorem remove_step {D : Type} [DecidableEq D] [DoubleOps D] (n : Nat) (names : Nat → String)
    (stale : IntentionFrame D → GoalType) (agent : Agent D) (frame0 frame : IntentionFrame D)
    (frames : List (IntentionFrame D)) (intents : List (List (IntentionFrame D)))
    (t pattern : Term D)
    (hi : agent.intents = (frame0 :: frames) :: intents)
    (hsel : SelectFrame n agent frame0 = .ok frame) (he : frame.external = false)
    (hb : frame.body.get? frame.body_it = some ⟨.kRemove, t⟩)
    (hs : Unifier.apply n frame.unifier t = .ok pattern)
    (hu : ∀ b ∈ agent.beliefs, ∃ r, Unify n pattern b.toTerm [] = .ok r) :
    ∃ kept,
      Run n names stale agent = .ok (true, { agent with
        beliefs := kept,
        intents := ({ frame with body_it := frame.body_it + 1 } :: frames) :: intents }) ∧
      kept = agent.beliefs.filter
        (fun b => decide (Unifies n pattern b.toTerm = .ok false)) ∧
      List.Sublist kept agent.beliefs ∧
      (∀ b ∈ agent.beliefs,
        b ∈ kept ↔ ¬ ∃ u, Unify n pattern b.toTerm [] = .ok (true, u)) ∧
      ∀ b ∈ kept, ¬ ∃ u, Unify n pattern b.toTerm [] = .ok (true, u) := by
  have hrem := removeBeliefs_eq_filter n pattern agent.beliefs hu
  have hrun : Run n names stale agent = .ok (true, { agent with
      beliefs := agent.beliefs.filter
        (fun b => decide (Unifies n pattern b.toTerm = .ok false)),
      intents := ({ frame with body_it := frame.body_it + 1 } :: frames) :: intents }) := by
    unfold Run
    rw [hi]
    simp only [hsel, he, Bool.false_eq_true, if_false, hb, hs, hrem]
  have hkey : ∀ b ∈ agent.beliefs, (Unifies n pattern b.toTerm = .ok false ↔
      ¬ ∃ u, Unify n pattern b.toTerm [] = .ok (true, u)) := by
    intro b hb1
    obtain ⟨⟨r, u⟩, hr⟩ := hu b hb1
    rw [unifies_ok_iff]
    constructor
    · rintro ⟨u1, h1⟩ ⟨u2, h2⟩
      rw [h1] at h2
      cases h2
    · intro hno
      cases r with
      | false => exact ⟨u, hr⟩
      | true => exact absurd ⟨u, hr⟩ hno
  refine ⟨_, hrun, rfl, List.filter_sublist _, ?_, ?_⟩
  · intro b hb1
    rw [List.mem_filter, decide_eq_true_eq, ← hkey b hb1]
    exact ⟨fun h => h.2, fun h => ⟨hb1, h⟩⟩
  · intro b hb1
    rw [List.mem_filter, decide_eq_true_eq] at hb1
    exact (hkey b hb1.1).1 hb1.2

theorem remove_step_witness :
    ∃ kept,
      Run 6 (fun _ => "A") IntentionFrame.goal_type
        (⟨"bob", [⟨"count", [.num 3]⟩, ⟨"count", [.num 5]⟩, ⟨"at", []⟩],
          [[⟨.kAddition, .kBelief, ⟨"start", [.num 5]⟩, [], 0, [], true⟩]], [],
          [⟨.kAddition, .kBelief, ⟨"start", [.var "X"]⟩, .bool true,
            [⟨.kRemove, .atom "count" [.var "X"]⟩]⟩]⟩ : Agent Int) =
        .ok (true, ⟨"bob", kept,
          [[⟨.kAddition, .kBelief, ⟨"start", [.num 5]⟩,
            [⟨.kRemove, .atom "count" [.var "X"]⟩], 1, [("X", .num 5)], false⟩]], [],
          [⟨.kAddition, .kBelief, ⟨"start", [.var "X"]⟩, .bool true,
            [⟨.kRemove, .atom "count" [.var "X"]⟩]⟩]⟩) ∧
      kept = [⟨"count", [.num 3]⟩, ⟨"at", []⟩] := by
  obtain ⟨kept, h1, h2, _⟩ := remove_step 6 (fun _ => "A") IntentionFrame.goal_type
    (⟨"bob", [⟨"count", [.num 3]⟩, ⟨"count", [.num 5]⟩, ⟨"at", []⟩],
          [[⟨.kAddition, .kBelief, ⟨"start", [.num 5]⟩, [], 0, [], true⟩]], [],
          [⟨.kAddition, .kBelief, ⟨"start", [.var "X"]⟩, .bool true,
            [⟨.kRemove, .atom "count" [.var "X"]⟩]⟩]⟩ : Agent Int)
    ⟨.kAddition, .kBelief, ⟨"start", [.num 5]⟩, [], 0, [], true⟩
    ⟨.kAddition, .kBelief, ⟨"start", [.num 5]⟩, [⟨.kRemove, .atom "count" [.var "X"]⟩], 0,
          [("X", .num 5)], false⟩ [] [] (.atom "count" [.var "X"]) (.atom "count" [.num 5])
    rfl rfl rfl rfl (by decide)
    (by
      intro b hb
      simp only [List.mem_cons, List.mem_singleton, List.not_mem_nil, or_false] at hb
      rcases hb with rfl | rfl | rfl <;> exact ⟨_, rfl⟩)
  refine ⟨kept, h1, ?_⟩
  rw [h2]
  rfl
/-- C26, counterexample: with the beliefs count(3) and count(5) and the frame
unifier X ↦ 5, one Replace step with count(X) ends with the beliefs
[count(5)], while a Remove step with count(X) followed by an Add step with
count(X) under the same unifier ends with [count(3), count(5)]. -/
theorem replace_differs_from_remove_then_add :
    (∃ agent1 : Agent Int,
      (∀ stale : IntentionFrame Int → GoalType,
        RunSteps 4 (fun _ => "A") stale 1 (⟨"bob", [⟨"count", [.num 3]⟩, ⟨"count", [.num 5]⟩],
          [[⟨.kAddition, .kBelief, ⟨"start", []⟩, [⟨.kReplace, .atom "count" [.var "X"]⟩], 0,
            [("X", .num 5)], false⟩]], [], []⟩ : Agent Int) = .ok ([true], agent1)) ∧
      agent1.beliefs = [⟨"count", [.num 5]⟩]) ∧
    (∃ agent2 : Agent Int,
      (∀ stale : IntentionFrame Int → GoalType,
        RunSteps 4 (fun _ => "A") stale 2 (⟨"bob", [⟨"count", [.num 3]⟩, ⟨"count", [.num 5]⟩],
          [[⟨.kAddition, .kBelief, ⟨"start", []⟩,
            [⟨.kRemove, .atom "count" [.var "X"]⟩, ⟨.kAdd, .atom "count" [.var "X"]⟩], 0,
            [("X", .num 5)], false⟩]], [], []⟩ : Agent Int) = .ok ([true, true], agent2)) ∧
      agent2.beliefs = [⟨"count", [.num 3]⟩, ⟨"count", [.num 5]⟩]) :=
  ⟨⟨_, fun _ => rfl, rfl⟩, ⟨_, fun _ => rfl, rfl⟩⟩

/-- C26, amended: for a front frame that, after the plan selection at the
start of the call, is not external and has its cursor on a Replace formula
with term t, when the unification of t itself (not substituted through the
unifier of the frame) with every belief returns, the step gives what an Add
step with t under the unifier of the frame gives on the agent whose beliefs
are the old ones without those that unify with t itself from the empty
unifier: the same answer and the same beliefs afterwards, or the same
error. -/
theorem replace_step {D : Type} [DecidableEq D] [DoubleOps D] (n : Nat) (names : Nat → String)
    (stale : IntentionFrame D → GoalType) (agent : Agent D) (frame0 frame : IntentionFrame D)
    (frames : List (IntentionFrame D)) (intents : List (List (IntentionFrame D))) (t : Term D)
    (hi : agent.intents = (frame0 :: frames) :: intents)
    (hsel : SelectFrame n agent frame0 = .ok frame) (he : frame.external = false)
    (hb : frame.body.get? frame.body_it = some ⟨.kReplace, t⟩)
    (hu : ∀ b ∈ agent.beliefs, ∃ r, Unify n t b.toTerm [] = .ok r) :
    (Run n names stale agent).map (fun r => (r.1, r.2.beliefs)) =
      (Run n names stale { agent with
        beliefs := agent.beliefs.filter (fun b => decide (Unifies n t b.toTerm = .ok false)),
        intents := ({ frame with body := [⟨.kAdd, t⟩], body_it := 0 } :: frames) :: intents
        }).map (fun r => (r.1, r.2.beliefs)) := by
  have hrem := removeBeliefs_eq_filter n t agent.beliefs hu
  have h1 : Run n names stale agent = AddStep n agent
      (agent.beliefs.filter (fun b => decide (Unifies n t b.toTerm = .ok false)))
      frame frames intents t := by
    unfold Run
    rw [hi]
    simp only [hsel, he, Bool.false_eq_true, if_false, hb, hrem]
  have h2 : Run n names stale { agent with
        beliefs := agent.beliefs.filter (fun b => decide (Unifies n t b.toTerm = .ok false)),
        intents := ({ frame with body := [⟨.kAdd, t⟩], body_it := 0 } :: frames) :: intents } =
      AddStep n { agent with
        beliefs := agent.beliefs.filter (fun b => decide (Unifies n t b.toTerm = .ok false)),
        intents := ({ frame with body := [⟨.kAdd, t⟩], body_it := 0 } :: frames) :: intents }
      (agent.beliefs.filter (fun b => decide (Unifies n t b.toTerm = .ok false)))
      { frame with body := [⟨.kAdd, t⟩], body_it := 0 } frames intents t := by
    unfold Run
    simp only [SelectFrame, he, Bool.false_eq_true, if_false, List.get?_cons_zero]
  rw [h1, h2]
  unfold AddStep
  simp only
  cases hs : Unifier.apply n frame.unifier t with
  | error e => rfl
  | ok s =>
    simp only
    by_cases hw : t.which = .kBeliefAtom
    · simp only [hw, if_true]
      cases s with
      | atom f ts =>
        simp only
        by_cases hg : IsGroundList ts = true
        · simp only [hg, if_true]; rfl
        · simp only [hg, if_false]; rfl
      | _ => rfl
    · simp only [hw, if_false]

theorem replace_step_witness :
    (Run 6 (fun _ => "A") IntentionFrame.goal_type
      (⟨"bob", [⟨"count", [.num 3]⟩, ⟨"count", [.num 5]⟩],
        [[⟨.kAddition, .kBelief, ⟨"start", [.num 5]⟩, [], 0, [], true⟩]], [],
        [⟨.kAddition, .kBelief, ⟨"start", [.var "X"]⟩, .bool true,
          [⟨.kReplace, .atom "count" [.var "X"]⟩]⟩]⟩ : Agent Int)).map
        (fun r => (r.1, r.2.beliefs)) =
      .ok (true, [⟨"count", [.num 5]⟩]) := by
  have h := replace_step 6 (fun _ => "A") IntentionFrame.goal_type
    (⟨"bob", [⟨"count", [.num 3]⟩, ⟨"count", [.num 5]⟩],
        [[⟨.kAddition, .kBelief, ⟨"start", [.num 5]⟩, [], 0, [], true⟩]], [],
        [⟨.kAddition, .kBelief, ⟨"start", [.var "X"]⟩, .bool true,
          [⟨.kReplace, .atom "count" [.var "X"]⟩]⟩]⟩ : Agent Int)
    ⟨.kAddition, .kBelief, ⟨"start", [.num 5]⟩, [], 0, [], true⟩
    ⟨.kAddition, .kBelief, ⟨"start", [.num 5]⟩, [⟨.kReplace, .atom "count" [.var "X"]⟩], 0,
          [("X", .num 5)], false⟩ [] [] (.atom "count" [.var "X"]) rfl rfl rfl rfl
    (by
      intro b hb
      simp only [List.mem_cons, List.mem_singleton, List.not_mem_nil, or_false] at hb
      rcases hb with rfl | rfl <;> exact ⟨_, rfl⟩)
  rw [h]
  rfl

/-- C27: for a front frame that, after the plan selection at the start of
the call, is not external and has its cursor on an Achieve formula with term
t, when the substitution of t through the unifier of the frame and the
anonymization of the result return: if t is an atom, Run returns true, a new
external frame of kind (Addition, Achievement) whose trigger is the
anonymized substituted atom is pushed at the front of the current intention,
the cursor of the caller frame is advanced by one, and the beliefs and all
other intentions are unchanged; if t is not an atom, Run raises a runtime
error. The frame is the front frame itself when that is not external, and
the front frame with the unifier and the body of the selected plan when it is
external. -/
theorem achieve_step {D : Type} [DecidableEq D] [DoubleOps D] (n : Nat) (names : Nat → String)
    (stale : IntentionFrame D → GoalType) (agent : Agent D) (frame0 frame : IntentionFrame D)
    (frames : List (IntentionFrame D)) (intents : List (List (IntentionFrame D)))
    (t substituted anonymized : Term D)
    (hi : agent.intents = (frame0 :: frames) :: intents)
    (hsel : SelectFrame n agent frame0 = .ok frame) (he : frame.external = false)
    (hb : frame.body.get? frame.body_it = some ⟨.kAchieve, t⟩)
    (hs : Unifier.apply n frame.unifier t = .ok substituted)
    (ha : Anonymize n names substituted = .ok anonymized) :
    (t.which = .kBeliefAtom →
      ∃ functor terms, anonymized = .atom functor terms ∧
        Run n names stale agent = .ok (true, { agent with
          intents := (⟨.kAddition, .kAchievement, ⟨functor, terms⟩, [], 0, [], true⟩ ::
            { frame with body_it := frame.body_it + 1 } :: frames) :: intents })) ∧
    (t.which ≠ .kBeliefAtom → Run n names stale agent = .error .runtime_error) := by
  refine ⟨?_, ?_⟩
  · intro hw
    obtain ⟨f, ts, hf⟩ := which_atom_inv hw
    subst hf
    obtain ⟨ts1, e1, _⟩ := apply_atom_inv hs
    subst e1
    obtain ⟨ts2, e2⟩ := anonymize_atom_inv ha
    subst e2
    refine ⟨f, ts2, rfl, ?_⟩
    unfold Run
    rw [hi]
    simp only [hsel, he, Bool.false_eq_true, if_false, hb, hs, ha, Term.which, if_true]
    rfl
  · intro hw
    unfold Run
    rw [hi]
    simp only [hsel, he, Bool.false_eq_true, if_false, hb, hs, ha, hw]

theorem achieve_step_witness :
    Run 6 (fun k => if k = 0 then "Abcdefghij" else "Bcdefghijk") IntentionFrame.goal_type
      (⟨"bob", [⟨"at", []⟩],
        [[⟨.kAddition, .kBelief, ⟨"start", [.num 5]⟩, [], 0, [], true⟩], []], [],
        [⟨.kAddition, .kBelief, ⟨"start", [.var "X"]⟩, .bool true,
          [⟨.kAchieve, .atom "go" [.var "X", .var "Y", .var "Z", .var "Y"]⟩]⟩]⟩ : Agent Int) =
      .ok (true, ⟨"bob", [⟨"at", []⟩],
        [[⟨.kAddition, .kAchievement,
            ⟨"go", [.num 5, .var "Abcdefghij", .var "Bcdefghijk", .var "Abcdefghij"]⟩, [], 0, [],
            true⟩,
          ⟨.kAddition, .kBelief, ⟨"start", [.num 5]⟩,
            [⟨.kAchieve, .atom "go" [.var "X", .var "Y", .var "Z", .var "Y"]⟩], 1,
            [("X", .num 5)], false⟩], []], [],
        [⟨.kAddition, .kBelief, ⟨"start", [.var "X"]⟩, .bool true,
          [⟨.kAchieve, .atom "go" [.var "X", .var "Y", .var "Z", .var "Y"]⟩]⟩]⟩) := by
  obtain ⟨functor, terms, h1, h2⟩ := (achieve_step 6
      (fun k => if k = 0 then "Abcdefghij" else "Bcdefghijk") IntentionFrame.goal_type
      (⟨"bob", [⟨"at", []⟩],
        [[⟨.kAddition, .kBelief, ⟨"start", [.num 5]⟩, [], 0, [], true⟩], []], [],
        [⟨.kAddition, .kBelief, ⟨"start", [.var "X"]⟩, .bool true,
          [⟨.kAchieve, .atom "go" [.var "X", .var "Y", .var "Z", .var "Y"]⟩]⟩]⟩ : Agent Int)
      ⟨.kAddition, .kBelief, ⟨"start", [.num 5]⟩, [], 0, [], true⟩
      ⟨.kAddition, .kBelief, ⟨"start", [.num 5]⟩,
            [⟨.kAchieve, .atom "go" [.var "X", .var "Y", .var "Z", .var "Y"]⟩], 0,
            [("X", .num 5)], false⟩ [] [[]]
      (.atom "go" [.var "X", .var "Y", .var "Z", .var "Y"])
      (.atom "go" [.num 5, .var "Y", .var "Z", .var "Y"])
      (.atom "go" [.num 5, .var "Abcdefghij", .var "Bcdefghijk", .var "Abcdefghij"])
      rfl rfl rfl rfl (by decide) (by decide)).1 rfl
  cases h1
  exact h2

/-- C29, at the failing input: for the agent with the single plan
+start : true <- .print("hi"); +done, after AddBelief for the belief start,
the first two calls of Run answer true and leave the event for done in
front. No plan matches it, and in the third call the goal type is read from
the frame of the intention that the call has just destroyed. For every value
of that read other than Achievement, six successive calls raise no error and
answer true five times and then false, ending with the beliefs start and
done, in this order, and no intention; this is the run of the claim, and it
is the run for a read that still finds the goal type Belief of the frame.
For the value Achievement the third call raises a runtime error. -/
theorem plan_dispatch_end_to_end :
    ∀ stale : IntentionFrame Int → GoalType,
    (∃ agent2 : Agent Int,
      RunSteps 6 (fun _ => "A") stale 2
        ((⟨"bob", [], [], [],
          [⟨.kAddition, .kBelief, ⟨"start", []⟩, .bool true,
            [⟨.kTerm, .atom ".print" [.str "hi"]⟩, ⟨.kAdd, .atom "done" []⟩]⟩]⟩ :
            Agent Int).AddBelief ⟨"start", []⟩) = .ok ([true, true], agent2) ∧
      agent2.intents.map (fun intent => intent.map (fun frame => frame.trigger.functor)) =
        [["done"], ["start"]] ∧
      SelectFrame 6 agent2 ⟨.kAddition, .kBelief, ⟨"done", []⟩, [], 0, [], true⟩ =
        .ok ⟨.kAddition, .kBelief, ⟨"done", []⟩, [], 0, [], true⟩) ∧
    (stale ⟨.kAddition, .kBelief, ⟨"done", []⟩, [], 0, [], true⟩ ≠ .kAchievement →
      ∃ agent1 : Agent Int,
        RunSteps 6 (fun _ => "A") stale 6
          ((⟨"bob", [], [], [],
            [⟨.kAddition, .kBelief, ⟨"start", []⟩, .bool true,
              [⟨.kTerm, .atom ".print" [.str "hi"]⟩, ⟨.kAdd, .atom "done" []⟩]⟩]⟩ :
              Agent Int).AddBelief ⟨"start", []⟩) =
          .ok ([true, true, true, true, true, false], agent1) ∧
        agent1.beliefs = [⟨"start", []⟩, ⟨"done", []⟩] ∧ agent1.intents = []) ∧
    (stale ⟨.kAddition, .kBelief, ⟨"done", []⟩, [], 0, [], true⟩ = .kAchievement →
      RunSteps 6 (fun _ => "A") stale 3
        ((⟨"bob", [], [], [],
          [⟨.kAddition, .kBelief, ⟨"start", []⟩, .bool true,
            [⟨.kTerm, .atom ".print" [.str "hi"]⟩, ⟨.kAdd, .atom "done" []⟩]⟩]⟩ :
            Agent Int).AddBelief ⟨"start", []⟩) = .error .runtime_error) := by
  intro stale
  have h2 : RunSteps 6 (fun _ => "A") stale 2
      ((⟨"bob", [], [], [],
        [⟨.kAddition, .kBelief, ⟨"start", []⟩, .bool true,
          [⟨.kTerm, .atom ".print" [.str "hi"]⟩, ⟨.kAdd, .atom "done" []⟩]⟩]⟩ :
          Agent Int).AddBelief ⟨"start", []⟩) =
      .ok ([true, true], ⟨"bob", [⟨"start", []⟩, ⟨"done", []⟩],
        [[⟨.kAddition, .kBelief, ⟨"done", []⟩, [], 0, [], true⟩],
         [⟨.kAddition, .kBelief, ⟨"start", []⟩,
           [⟨.kTerm, .atom ".print" [.str "hi"]⟩, ⟨.kAdd, .atom "done" []⟩], 2, [], false⟩]],
        [],
        [⟨.kAddition, .kBelief, ⟨"start", []⟩, .bool true,
          [⟨.kTerm, .atom ".print" [.str "hi"]⟩, ⟨.kAdd, .atom "done" []⟩]⟩]⟩) := rfl
  have h3 : Run 6 (fun _ => "A") stale
      (⟨"bob", [⟨"start", []⟩, ⟨"done", []⟩],
        [[⟨.kAddition, .kBelief, ⟨"done", []⟩, [], 0, [], true⟩],
         [⟨.kAddition, .kBelief, ⟨"start", []⟩,
           [⟨.kTerm, .atom ".print" [.str "hi"]⟩, ⟨.kAdd, .atom "done" []⟩], 2, [], false⟩]],
        [],
        [⟨.kAddition, .kBelief, ⟨"start", []⟩, .bool true,
          [⟨.kTerm, .atom ".print" [.str "hi"]⟩, ⟨.kAdd, .atom "done" []⟩]⟩]⟩ : Agent Int) =
      if stale ⟨.kAddition, .kBelief, ⟨"done", []⟩, [], 0, [], true⟩ = .kAchievement then
        .error .runtime_error
      else .ok (true, ⟨"bob", [⟨"start", []⟩, ⟨"done", []⟩],
        [[⟨.kAddition, .kBelief, ⟨"start", []⟩,
           [⟨.kTerm, .atom ".print" [.str "hi"]⟩, ⟨.kAdd, .atom "done" []⟩], 2, [], false⟩]],
        [],
        [⟨.kAddition, .kBelief, ⟨"start", []⟩, .bool true,
          [⟨.kTerm, .atom ".print" [.str "hi"]⟩, ⟨.kAdd, .atom "done" []⟩]⟩]⟩) := rfl
  refine ⟨⟨_, h2, rfl, rfl⟩, ?_, ?_⟩
  · intro hne
    rw [if_neg hne] at h3
    have h4 := runSteps_add 6 (fun _ => "A") stale 2 4 _ _ _ h2
    simp only [Nat.reduceAdd] at h4
    rw [h4]
    simp only [RunSteps, h3]
    exact ⟨_, rfl, rfl, rfl⟩
  · intro he
    rw [if_pos he] at h3
    have h4 := runSteps_add 6 (fun _ => "A") stale 2 1 _ _ _ h2
    simp only [Nat.reduceAdd] at h4
    rw [h4]
    simp only [RunSteps, h3]
    rfl

/-- C40: if every belief of the agent is a ground atom before a call of Run
and the call returns without raising, then every belief is a ground atom
afterwards, and the plans, the rules and the name of the agent are
unchanged. -/
theorem beliefs_stay_ground {D : Type} [DecidableEq D] [DoubleOps D] (n : Nat)
    (names : Nat → String) (stale : IntentionFrame D → GoalType) (agent agent1 : Agent D)
    (more : Bool) (hg : ∀ b ∈ agent.beliefs, IsGround b.toTerm = true)
    (h : Run n names stale agent = .ok (more, agent1)) :
    (∀ b ∈ agent1.beliefs, IsGround b.toTerm = true) ∧
    agent1.plans = agent.plans ∧ agent1.rules = agent.rules ∧ agent1.name = agent.name := by
  obtain ⟨h1, h2, h3, h4⟩ := run_shape h
  refine ⟨?_, h3, h2, h1⟩
  intro b hb
  rcases h4 b hb with hk | hk
  · exact hg b hk
  · simpa [BeliefAtom.toTerm, IsGround] using hk

theorem beliefs_stay_ground_witness :
    (∀ b ∈ ([⟨"start", []⟩, ⟨"seen", [.num 5]⟩] : List (BeliefAtom Int)),
      IsGround b.toTerm = true) ∧
    ([] : List (Plan Int)) = [] ∧ ([] : List (Rule Int)) = [] ∧ "bob" = "bob" :=
  beliefs_stay_ground 3 (fun _ => "A") IntentionFrame.goal_type (⟨"bob", [⟨"start", []⟩],
        [[⟨.kAddition, .kBelief, ⟨"start", []⟩, [⟨.kAdd, .atom "seen" [.var "X"]⟩], 0,
          [("X", .num 5)], false⟩]], [], []⟩ : Agent Int)
      ⟨"bob", [⟨"start", []⟩, ⟨"seen", [.num 5]⟩],
        [[⟨.kAddition, .kBelief, ⟨"seen", [.num 5]⟩, [], 0, [], true⟩],
         [⟨.kAddition, .kBelief, ⟨"start", []⟩, [⟨.kAdd, .atom "seen" [.var "X"]⟩], 1,
          [("X", .num 5)], false⟩]], [], []⟩ true
      (by
        intro b hb
        simp only [List.mem_singleton] at hb
        subst hb
        rfl)
      rfl

/-- C23: the loop over the plans for an external frame returns a frame iff
either some plan applies and every plan before it in the order of
agent.plans was passed over without raising, and then the frame has
external = false, its cursor at the start of the body of that plan and as its
unifier the first solution of the context generator of that plan under the
unifier of the trigger unification; or every plan was passed over, and then
the frame is unchanged. A plan is passed over when its trigger type or goal
type differs, when its trigger does not unify with the trigger of the frame
from the empty unifier, or when its context generator has no solution. -/
theorem plan_selection_is_first_match {D : Type} [DecidableEq D] [DoubleOps D] (n : Nat)
    (agent : Agent D) (frame frame1 : IntentionFrame D) (plans : List (Plan D)) :
    SelectPlan n agent frame plans = .ok frame1 ↔
      ((∃ pre plan post solution, plans = pre ++ plan :: post ∧
          (∀ p ∈ pre, PlanSkipped n agent frame p) ∧
          (∀ p ∈ pre, ∀ σ, ¬ PlanApplies n agent frame p σ) ∧
          PlanApplies n agent frame plan solution ∧
          frame1 = { frame with unifier := solution, body := plan.body, body_it := 0,
                                external := false }) ∨
       ((∀ p ∈ plans, PlanSkipped n agent frame p) ∧ frame1 = frame)) := by
  rw [selectPlan_iff]
  constructor
  · rintro (⟨pre, plan, post, sol, e, hpre, happ, hf⟩ | h)
    · exact Or.inl ⟨pre, plan, post, sol, e, hpre,
        fun p hp σ => planSkipped_not_applies (hpre p hp) σ, happ, hf⟩
    · exact Or.inr h
  · rintro (⟨pre, plan, post, sol, e, hpre, _, happ, hf⟩ | h)
    · exact Or.inl ⟨pre, plan, post, sol, e, hpre, happ, hf⟩
    · exact Or.inr h
/-- C28, counterexample: the finished frame has the trigger foo(X) and the
unifier X ↦ 5, so the completed trigger is the ground atom foo(5); the
formula of the caller before its cursor is foo(_). The step pops the finished
frame, the unification of foo(_) with foo(5) in the unifier of the caller
succeeds and records nothing, and afterwards applying the unifier of the
caller to foo(_) gives foo(_), not foo(5). -/
theorem wildcard_result_does_not_flow_back :
    (∀ stale : IntentionFrame Int → GoalType,
      Run 4 (fun _ => "A") stale (⟨"bob", [],
        [[⟨.kAddition, .kAchievement, ⟨"foo", [.var "X"]⟩, [], 0, [("X", .num 5)], false⟩,
          ⟨.kAddition, .kBelief, ⟨"start", []⟩, [⟨.kAchieve, .atom "foo" [.var "_"]⟩], 1, [],
            false⟩]], [], []⟩ : Agent Int) =
      .ok (true, ⟨"bob", [],
        [[⟨.kAddition, .kBelief, ⟨"start", []⟩, [⟨.kAchieve, .atom "foo" [.var "_"]⟩], 1, [],
            false⟩]], [], []⟩)) ∧
    Unifier.apply 4 [("X", .num 5)] (.atom "foo" [.var "X"]) = .ok (.atom "foo" [.num (5 : Int)]) ∧
    IsGround (.atom "foo" [.num (5 : Int)]) = true ∧
    Unify 4 (.atom "foo" [.var "_"]) (.atom "foo" [.num (5 : Int)]) [] = .ok (true, []) ∧
    ∀ m, Unifier.apply m [] (.atom "foo" [.var "_"]) ≠ .ok (.atom "foo" [.num (5 : Int)]) := by
  refine ⟨fun _ => rfl, by decide, by decide, by decide, ?_⟩
  intro m hm
  have h4 : Unifier.apply 4 [] (.atom "foo" [.var "_"]) =
      .ok (.atom "foo" [.var "_"] : Term Int) := by decide
  have e := apply_det h4 hm
  cases e

/-- C28, amended: for a front frame that, after the plan selection at the
start of the call, is not external and has its cursor at the end of its
body, with a caller frame below it, when the formula of the
caller before its cursor is built only from Bool, Num, Str, List, Atom and
named variables, the bindings of the unifier of the caller are first-order,
acyclic and free of the anonymous variable, the trigger of the finished frame
substituted through its unifier is ground, and the unification of the
substituted formula of the caller with that completed trigger in the unifier
of the caller returns true: Run returns true, the finished frame is popped,
only the unifier of the caller changes, and applying the new unifier of the
caller to the formula gives exactly the completed trigger. -/
theorem subgoal_result_flows_back {D : Type} [DecidableEq D] [DoubleOps D] (n : Nat)
    (names : Nat → String) (stale : IntentionFrame D → GoalType) (agent : Agent D)
    (frame0 frame caller : IntentionFrame D)
    (below : List (IntentionFrame D)) (intents : List (List (IntentionFrame D)))
    (formula : BodyFormula D) (completed substituted : Term D) (unifier1 : Unifier D)
    (hi : agent.intents = (frame0 :: caller :: below) :: intents)
    (hsel : SelectFrame n agent frame0 = .ok frame)
    (he : frame.external = false) (hend : frame.body_it = frame.body.length)
    (hprev : caller.previous = some formula)
    (hf : NamedFirstOrder formula.formula)
    (hfo : caller.unifier.FirstOrder) (hacyc : caller.unifier.Acyclic)
    (hw : ∀ k v, Unifier.find caller.unifier k = some v → ContainsVariable "_" v = false)
    (hc : Unifier.apply n frame.unifier frame.trigger.toTerm = .ok completed)
    (hg : IsGround completed = true)
    (hs : Unifier.apply n caller.unifier formula.formula = .ok substituted)
    (hu : Unify n substituted completed caller.unifier = .ok (true, unifier1)) :
    Run n names stale agent = .ok (true, { agent with
      intents := ({ caller with unifier := unifier1 } :: below) :: intents }) ∧
    ∃ k, ∀ m, k ≤ m → Unifier.apply m unifier1 formula.formula = .ok completed := by
  refine ⟨?_, (unify_back_to_caller n caller.unifier unifier1 formula.formula substituted
    completed hf hfo hacyc hw hs hg hu).2.2⟩
  have hnone : frame.body.get? frame.body.length = none :=
    List.get?_eq_none.2 (Nat.le_refl _)
  unfold Run
  rw [hi]
  simp only [hsel, he, Bool.false_eq_true, if_false, hnone, hend, if_true]
  unfold FinishFrame
  simp only [hc, anonymize_ground n names completed hg, hprev, hs, hu]

theorem subgoal_result_flows_back_witness :
    Run 4 (fun _ => "A") IntentionFrame.goal_type (⟨"bob", [],
        [[⟨.kAddition, .kAchievement, ⟨"foo", [.var "X"]⟩, [], 0, [("X", .num 5)], false⟩,
          ⟨.kAddition, .kBelief, ⟨"start", []⟩, [⟨.kAchieve, .atom "foo" [.var "Y"]⟩], 1, [],
            false⟩]], [], []⟩ : Agent Int) =
      .ok (true, ⟨"bob", [],
        [[⟨.kAddition, .kBelief, ⟨"start", []⟩, [⟨.kAchieve, .atom "foo" [.var "Y"]⟩], 1,
            [("Y", .num 5)], false⟩]], [], []⟩) ∧
    ∃ k, ∀ m, k ≤ m →
      Unifier.apply m [("Y", .num 5)] (.atom "foo" [.var "Y"]) =
        .ok (.atom "foo" [.num (5 : Int)]) :=
  subgoal_result_flows_back 4 (fun _ => "A") IntentionFrame.goal_type (⟨"bob", [],
        [[⟨.kAddition, .kAchievement, ⟨"foo", [.var "X"]⟩, [], 0, [("X", .num 5)], false⟩,
          ⟨.kAddition, .kBelief, ⟨"start", []⟩, [⟨.kAchieve, .atom "foo" [.var "Y"]⟩], 1, [],
            false⟩]], [], []⟩ : Agent Int)
    ⟨.kAddition, .kAchievement, ⟨"foo", [.var "X"]⟩, [], 0, [("X", .num 5)], false⟩
    ⟨.kAddition, .kAchievement, ⟨"foo", [.var "X"]⟩, [], 0, [("X", .num 5)], false⟩
    ⟨.kAddition, .kBelief, ⟨"start", []⟩, [⟨.kAchieve, .atom "foo" [.var "Y"]⟩], 1, [], false⟩
    [] [] ⟨.kAchieve, .atom "foo" [.var "Y"]⟩ (.atom "foo" [.num 5]) (.atom "foo" [.var "Y"])
    [("Y", .num 5)] rfl rfl rfl rfl rfl ⟨by decide, by decide⟩
    (fun k v h => by simp [Unifier.find] at h)
    ⟨fun _ => 0, fun k v h => by simp [Unifier.find] at h⟩
    (fun k v h => by simp [Unifier.find] at h)
    (by decide) (by decide) (by decide) (by decide)
/-! ## The claim on the termination of the generators -/

/-- C21, counterexample: for an agent without beliefs and the goal
And(Unify(X, [X + 1]), p(X)) under the empty unifier, LogicalConsequence
constructs a generator whose first call of Next does not return for any
budget: the left generator binds X to [X + 1], which its occurs check does
not see, and the substitution of p(X) through that binding recurses without
end. -/
theorem next_never_returns_after_cyclic_binding :
    LogicalConsequence 5 (⟨"bob", [], [], [], []⟩ : Agent Int) []
        (.binop .and
          (.binop .unify (.var "X") (.list [.binop .plus (.var "X") (.num 1)]))
          (.atom "p" [.var "X"])) =
      .ok (.and (.unify (.var "X") (.list [.binop .plus (.var "X") (.num 1)]) [] [] false)
        (.atom "p" [.var "X"]) none false) ∧
    Unify 2 (.var "X") (.list [.binop .plus (.var "X") (.num (1 : Int))]) [] =
      .ok (true, [("X", .list [.binop .plus (.var "X") (.num 1)])]) ∧
    ∀ n, Next n (⟨"bob", [], [], [], []⟩ : Agent Int)
        (.and (.unify (.var "X") (.list [.binop .plus (.var "X") (.num 1)]) [] [] false)
          (.atom "p" [.var "X"]) none false) = .error .out_of_fuel := by
  refine ⟨rfl, by decide, ?_⟩
  have hvar : ∀ n, Unifier.apply n [("X", .list [.binop .plus (.var "X") (.num (1 : Int))])]
        (.var "X") = .error .out_of_fuel ∧
      Unifier.apply (n + 1) [("X", .list [.binop .plus (.var "X") (.num (1 : Int))])]
        (.var "X") = .error .out_of_fuel ∧
      Unifier.apply (n + 2) [("X", .list [.binop .plus (.var "X") (.num (1 : Int))])]
        (.var "X") = .error .out_of_fuel := by
    intro n
    induction n with
    | zero => exact ⟨rfl, rfl, rfl⟩
    | succ n ih =>
      refine ⟨ih.2.1, ih.2.2, ?_⟩
      simp [Unifier.apply, Unifier.find, applyList, ih.1]
  have hatom : ∀ n, Unifier.apply n [("X", .list [.binop .plus (.var "X") (.num (1 : Int))])]
      (.atom "p" [.var "X"]) = .error .out_of_fuel := by
    intro n
    cases n with
    | zero => rfl
    | succ n => simp [Unifier.apply, applyList, (hvar n).1]
  intro n
  rcases n with _ | _ | _ | n
  · rfl
  · rfl
  · rfl
  · have hu : Unify (n + 1) (.var "X") (.list [.binop .plus (.var "X") (.num (1 : Int))]) [] =
        .ok (true, [("X", .list [.binop .plus (.var "X") (.num 1)])]) :=
      unify_mono (by decide : Unify 1 (.var "X")
        (.list [.binop .plus (.var "X") (.num (1 : Int))]) [] =
          .ok (true, [("X", .list [.binop .plus (.var "X") (.num 1)])])) (by omega)
    simp [Next, hu, Current, hatom (n + 2)]

/-- C21, amended: for every goal built from first-order terms (Bool, Num,
Str, List, Atom and variables) with And, Or and Unify, every incoming unifier
whose bindings are first-order and acyclic and every agent whose beliefs are
ground, either the construction of the generator raises, or it returns a
generator on which every sequence of calls of Next comes to an end for every
budget from some budget on: each call returns true or false, or one raises
an error other than an exhausted budget. -/
theorem plain_goal_generators_never_block {D : Type} [DecidableEq D] [DoubleOps D]
    (agent : Agent D) (σ : Unifier D) (t : Term D)
    (hb : ∀ b ∈ agent.beliefs, IsGround b.toTerm = true)
    (hfo : σ.FirstOrder) (hacyc : σ.Acyclic) (ht : PlainGoal t = true) :
    (∃ e, e ≠ Err.out_of_fuel ∧
      ∃ n, ∀ m, n ≤ m → LogicalConsequence m agent σ t = .error e) ∨
    ∃ gen, (∃ n, ∀ m, n ≤ m → LogicalConsequence m agent σ t = .ok gen) ∧
      ∀ calls, ∃ result, result ≠ .error .out_of_fuel ∧
        ∃ n, ∀ m, n ≤ m → Answers m agent calls gen = result :=
  plain_goal_settles agent σ t hb hfo hacyc ht

theorem plain_goal_generators_never_block_witness :
    (∃ e, e ≠ Err.out_of_fuel ∧
      ∃ n, ∀ m, n ≤ m →
        LogicalConsequence m (⟨"bob", [⟨"p", [.num 1]⟩, ⟨"p", [.num 2]⟩, ⟨"q", [.num 2]⟩],
          [], [], []⟩ : Agent Int) []
          (.binop .and (.atom "p" [.var "X"]) (.atom "q" [.var "X"])) = .error e) ∨
    ∃ gen, (∃ n, ∀ m, n ≤ m →
        LogicalConsequence m (⟨"bob", [⟨"p", [.num 1]⟩, ⟨"p", [.num 2]⟩, ⟨"q", [.num 2]⟩],
          [], [], []⟩ : Agent Int) []
          (.binop .and (.atom "p" [.var "X"]) (.atom "q" [.var "X"])) = .ok gen) ∧
      ∀ calls, ∃ result, result ≠ .error .out_of_fuel ∧
        ∃ n, ∀ m, n ≤ m →
          Answers m (⟨"bob", [⟨"p", [.num 1]⟩, ⟨"p", [.num 2]⟩, ⟨"q", [.num 2]⟩],
            [], [], []⟩ : Agent Int) calls gen = result :=
  plain_goal_generators_never_block
    (⟨"bob", [⟨"p", [.num 1]⟩, ⟨"p", [.num 2]⟩, ⟨"q", [.num 2]⟩], [], [], []⟩ : Agent Int) []
    (.binop .and (.atom "p" [.var "X"]) (.atom "q" [.var "X"]))
    (by
      intro b hb
      simp only [List.mem_cons, List.mem_singleton, List.not_mem_nil, or_false] at hb
      rcases hb with rfl | rfl | rfl <;> rfl)
    (fun k v h => by simp [Unifier.find] at h)
    ⟨fun _ => 0, fun k v h => by simp [Unifier.find] at h⟩
    (by decide)

end AgentSpirit
